import Mathlib

/-!
c_lists: the `list_int` container of `list_int.c`.

A shallow embedding of `src/list_int.c` / `src/list_int.h`.

* `unsigned int` is 32 bits wide: its values are `Nat` with explicit reduction
  modulo `2^32` (`u32`, `usub`). `int` is 32 bits and `long` 64 bits wide:
  their values are `Int`, and a `long` loop counter never wraps.
* The heap block behind `list->data` is a `List Int` whose length is the number
  of allocated slots. Every access is checked: a load or store outside the
  block makes the call end in `none`.
* A C function `int f(list_int *list, ...)` becomes
  `f : ... → Option (Int × list_int)`: the returned code and the list after the
  call, or `none` when the call does not return normally (a failed `assert`,
  an out-of-bounds access, a signed overflow of a counter, or a loop that does
  not end).
* `malloc` / `realloc` are a parameter (`Allocator`): whether a request is
  granted, and what the indeterminate content of fresh memory is.
* A counted `for` loop is `loop_up` / `loop_down` over its body; a loop whose
  bound changes while it runs is a recursion on a fuel that is large enough for
  every run that ends.
-/

set_option autoImplicit false

namespace CLists

/-! ## Machine integers -/

/-- `UINT_MAX` of `<limits.h>` for a 32-bit `unsigned int`. -/
def UINT_MAX : Nat := 4294967295

/-- `INT_MAX` of `<limits.h>` for a 32-bit `int`. -/
def INT_MAX : Int := 2147483647

/-- `INT_MIN` of `<limits.h>` for a 32-bit `int`. -/
def INT_MIN : Int := -2147483648

/-- Reduction of a natural number to an `unsigned int`. -/
def u32 (n : Nat) : Nat := n % 4294967296

/-- Subtraction `a - b` of two `unsigned int` values (wraps below zero). -/
def usub (a b : Nat) : Nat := (a + 4294967296 - b % 4294967296) % 4294967296

/-- Conversion of an `int` to `unsigned int`. -/
def int_to_u32 (i : Int) : Nat := (i % 4294967296).toNat

/-- Conversion of an `unsigned int` to `int` (two's complement). -/
def u32_to_int (n : Nat) : Int :=
  if n % 4294967296 < 2147483648 then ((n % 4294967296 : Nat) : Int)
  else ((n % 4294967296 : Nat) : Int) - 4294967296

/-! ## The data model -/

/-- The struct `list_int` of `list_int.h`. `data` is the heap block the pointer
`list->data` refers to. -/
structure list_int where
  frozen : Bool
  readonly : Bool
  static_ : Bool
  size : Nat
  capacity : Nat
  data : List Int
deriving DecidableEq

/-- The live sequence of a list: the first `size` slots of the buffer. -/
def list_int.live (list : list_int) : List Int := list.data.take list.size

/-- The fields of the struct hold `unsigned int` values. -/
def list_int.in_range (list : list_int) : Prop :=
  list.size ≤ UINT_MAX ∧ list.capacity ≤ UINT_MAX

instance (list : list_int) : Decidable list.in_range := by
  unfold list_int.in_range; exact inferInstance

/-- The block behind `data` has exactly `capacity` slots (what `malloc` and
`realloc` were asked for) and the fields are `unsigned int` values. -/
def list_int.allocated (list : list_int) : Prop :=
  list.in_range ∧ list.data.length = list.capacity

instance (list : list_int) : Decidable list.allocated := by
  unfold list_int.allocated; exact inferInstance

/-! ## Memory -/

/-- The behaviour of `malloc` and `realloc`, which the program does not control. -/
structure Allocator where
  /-- whether a request for a block of `n` ints is granted -/
  grants : Nat → Bool
  /-- the indeterminate content of slot `i` of fresh memory -/
  junk : Nat → Int
  /-- whether `malloc(sizeof(list_int))` is granted -/
  grants_struct : Bool
  /-- the indeterminate content of the three flags of a fresh struct -/
  junk_frozen : Bool
  junk_readonly : Bool
  junk_static : Bool

/-- Checked read of `d[i]`. -/
def load (d : List Int) (i : Nat) : Option Int := d[i]?

/-- Checked write `d[i] = v`. -/
def store (d : List Int) (i : Nat) (v : Int) : Option (List Int) :=
  if i < d.length then some (d.set i v) else none

/-- The block `malloc(sizeof(int) * n)` returns, or `none` for `NULL`. -/
def malloc_ints (m : Allocator) (n : Nat) : Option (List Int) :=
  if m.grants n then some ((List.range n).map m.junk) else none

/-- The block `realloc(d, sizeof(int) * n)` returns, or `none` for `NULL`:
the old content up to the smaller of the two lengths, then fresh memory. -/
def realloc_ints (m : Allocator) (d : List Int) (n : Nat) : Option (List Int) :=
  if m.grants n then some ((List.range n).map (fun i => d.getD i (m.junk i))) else none

/-- A counted upward loop `for (i = lo; i < lo + n; i++) body`. -/
def loop_up {σ : Type} (body : Nat → σ → Option σ) : Nat → Nat → σ → Option σ
  | _, 0, s => some s
  | i, n + 1, s => (body i s).bind (loop_up body (i + 1) n)

/-- A counted downward loop `for (i = lo + n - 1; i >= lo; i--) body` over a
signed counter. -/
def loop_down {σ : Type} (body : Nat → σ → Option σ) (lo : Nat) : Nat → σ → Option σ
  | 0, s => some s
  | n + 1, s => (body (lo + n) s).bind (loop_down body lo n)

/-! ## Construction and capacity -/

/-- `init_list_int`: `none` is a failed `assert`, `some none` is `NULL`. The
flags are never assigned, so they keep what `malloc` left in the struct. -/
def init_list_int (m : Allocator) (init_size : Nat) : Option (Option list_int) :=
  if ¬ (init_size > 0) then none
  else if ¬ m.grants_struct then some none
  else
    match malloc_ints m init_size with
    | none => some none
    | some d =>
      some (some { frozen := m.junk_frozen, readonly := m.junk_readonly,
                   static_ := m.junk_static, size := 0, capacity := init_size, data := d })

/-- `list_resize_int`. A frozen list only gets a message on stderr. -/
def list_resize_int (m : Allocator) (list : list_int) (new_size : Nat) :
    Option (Int × list_int) :=
  if list.readonly then some (-3, list)
  else if list.static_ then some (-3, list)
  else
    let true_size := if new_size = 0 then 1 else new_size
    match realloc_ints m list.data true_size with
    | none => some (-2, list)
    | some new_data =>
      some (0, { list with
        data := new_data
        capacity := true_size
        size := if list.size ≥ new_size then new_size else list.size })

/-- `list_append_int`. -/
def list_append_int (m : Allocator) (list : list_int) (value : Int) :
    Option (Int × list_int) := do
  if list.readonly then return (-3, list)
  if list.static_ then return (-3, list)
  let mut list := list
  if list.size ≥ list.capacity then
    if list.frozen then return (0, list)
    if list.size = UINT_MAX then return (-2, list)
    let (state, list1) ← list_resize_int m list (u32 (list.capacity * 2))
    list := list1
    if state = -2 then return (-2, list)
  let d ← store list.data list.size value
  return (0, { list with data := d, size := u32 (list.size + 1) })

/-- The shifting loop of `list_insert_int`:
`for (long i = list->size - 1; i >= index; i--) list->data[i + 1] = list->data[i];`
run for the `n` values of `i` from `index + n - 1` down to `index`. -/
def insert_shift (index n : Nat) (d : List Int) : Option (List Int) :=
  loop_down (fun i d => do
    let x ← load d i
    store d (i + 1) x) index n d

/-- `list_insert_int`. -/
def list_insert_int (m : Allocator) (list : list_int) (index : Nat) (value : Int) :
    Option (Int × list_int) := do
  if index > list.size then return (-1, list)
  if list.readonly then return (-3, list)
  if list.static_ then return (-3, list)
  let mut list := list
  if list.size ≥ list.capacity then
    if list.frozen then return (0, list)
    if list.size = UINT_MAX then return (-2, list)
    let (state, list1) ← list_resize_int m list (u32 (list.capacity * 2))
    list := list1
    if state = -2 then return (-2, list)
  list := { list with size := u32 (list.size + 1) }
  let d ← insert_shift index (usub list.size 1 + 1 - index) list.data
  let d ← store d index value
  return (0, { list with data := d })

/-- `list_get_int`: the code, the list, and the value written to `*value`
(`none` when nothing is written). -/
def list_get_int (list : list_int) (index : Nat) : Option (Int × list_int × Option Int) := do
  if index ≥ list.size then return (-1, list, none)
  let x ← load list.data index
  return (0, list, some x)

/-- `list_set_int`. -/
def list_set_int (list : list_int) (index : Nat) (value : Int) :
    Option (Int × list_int) := do
  if index ≥ list.size then return (-1, list)
  if list.readonly then return (-3, list)
  if list.static_ then return (-3, list)
  let d ← store list.data index value
  return (0, { list with data := d })

/-- The shifting loop of `list_remove_range_int` (and, with `diff = 1`, of
`list_remove_at_int`):
`for (i = start; i < start + n; i++) list->data[i] = list->data[i + diff];`. -/
def remove_shift (diff start n : Nat) (d : List Int) : Option (List Int) :=
  loop_up (fun i d => do
    let x ← load d (u32 (i + diff))
    store d i x) start n d

/-- `list_remove_at_int`. -/
def list_remove_at_int (m : Allocator) (list : list_int) (index : Nat) :
    Option (Int × list_int) := do
  if index ≥ list.size then return (-1, list)
  if list.readonly then return (-3, list)
  if list.static_ then return (-3, list)
  let d ← remove_shift 1 index (usub list.size 1 - index) list.data
  let list := { list with data := d, size := usub list.size 1 }
  if list.size < list.capacity / 4 then
    if list.frozen then return (0, list)
    let (state, list1) ← list_resize_int m list (list.capacity / 2)
    if state = -2 then return (-2, list1)
    return (0, list1)
  return (0, list)

/-- The search loop of `list_remove_int`:
`for (i = lo; i < lo + n; i++) if (list->data[i] == value) ...`; the first index
that holds `value`, if any. -/
def find_first (d : List Int) (value : Int) : Nat → Nat → Option (Option Nat)
  | _, 0 => some none
  | i, n + 1 => do
    let x ← load d i
    if x = value then return (some i)
    find_first d value (i + 1) n

/-- `list_remove_int`. -/
def list_remove_int (m : Allocator) (list : list_int) (value : Int) :
    Option (Int × list_int) := do
  if list.readonly then return (-3, list)
  if list.static_ then return (-3, list)
  match ← find_first list.data value 0 list.size with
  | some i => list_remove_at_int m list i
  | none => return (-1, list)

/-- The loop of `list_remove_all_int`, with the state `(list, i, count,
memory_fail)`. Each round either removes one element or advances `i`, so
`fuel = list->size` rounds are enough. `count` is an `int`: counting past
`INT_MAX` is undefined. -/
def remove_all_loop (m : Allocator) (target : Int) :
    Nat → list_int → Nat → Int → Int → Option (list_int × Int × Int)
  | 0, list, i, count, memory_fail =>
    if i < list.size then none else some (list, count, memory_fail)
  | fuel + 1, list, i, count, memory_fail =>
    if i < list.size then do
      let x ← load list.data i
      if x = target then
        if count = INT_MAX then none
        else do
          let (state, list1) ← list_remove_at_int m list i
          remove_all_loop m target fuel list1 i (count + 1)
            (if state = -2 then -2 else memory_fail)
      else remove_all_loop m target fuel list (u32 (i + 1)) count memory_fail
    else some (list, count, memory_fail)

/-- `list_remove_all_int`. -/
def list_remove_all_int (m : Allocator) (list : list_int) (target : Int) :
    Option (Int × list_int) := do
  if list.readonly then return (-3, list)
  if list.static_ then return (-3, list)
  let (list1, count, memory_fail) ← remove_all_loop m target list.size list 0 0 0
  return (if count > 0 then (if memory_fail = -2 then -2 else 0) else -1, list1)

/-- The shrinking loop of `list_remove_range_int`:
`while (size < capacity / 4 && capacity / 2 > 1) { if (frozen) return 0;
if ((ret_value = list_resize_int(list, capacity / 2)) != 0) break; }`.
Every round that goes on halves the capacity, so `fuel = capacity` is enough. -/
def remove_range_shrink (m : Allocator) : Nat → list_int → Int → Option (Int × list_int)
  | 0, list, ret_value =>
    if list.size < list.capacity / 4 ∧ list.capacity / 2 > 1 then none
    else some (ret_value, list)
  | fuel + 1, list, ret_value =>
    if list.size < list.capacity / 4 ∧ list.capacity / 2 > 1 then
      if list.frozen then some (0, list)
      else do
        let (ret_value1, list1) ← list_resize_int m list (list.capacity / 2)
        if ret_value1 ≠ 0 then some (ret_value1, list1)
        else remove_range_shrink m fuel list1 ret_value1
    else some (ret_value, list)

/-- `list_remove_range_int`. -/
def list_remove_range_int (m : Allocator) (list : list_int) (start_index end_index : Nat) :
    Option (Int × list_int) := do
  if end_index ≥ list.size then return (-1, list)
  if start_index ≥ end_index then return (-1, list)
  if list.readonly then return (-3, list)
  if list.static_ then return (-3, list)
  let diff := usub end_index start_index
  let d ← remove_shift diff start_index (usub list.size diff - start_index) list.data
  let list := { list with data := d, size := usub list.size diff }
  remove_range_shrink m list.capacity list 0

/-- `list_take_int`: the code, the list, and the value written to `*value`. -/
def list_take_int (m : Allocator) (list : list_int) (index : Nat) :
    Option (Int × list_int × Option Int) := do
  if index ≥ list.size then return (-1, list, none)
  if list.readonly then return (-3, list, none)
  if list.static_ then return (-3, list, none)
  let x ← load list.data index
  let (state, list1) ← list_remove_at_int m list index
  return (state, list1, some x)

/-- `list_pop_back_int`: the code, the list, and the value written to
`*return_val`. An empty list is answered with code 0. -/
def list_pop_back_int (m : Allocator) (list : list_int) :
    Option (Int × list_int × Option Int) := do
  if list.size = 0 then return (0, list, none)
  if list.readonly then return (-3, list, none)
  if list.static_ then return (-3, list, none)
  list_take_int m list (usub list.size 1)

/-- `list_shrink_int`. -/
def list_shrink_int (m : Allocator) (list : list_int) : Option (Int × list_int) := do
  if list.frozen then return (-1, list)
  if list.readonly then return (-3, list)
  if list.static_ then return (-3, list)
  list_resize_int m list list.size

/-- `list_clear_int`. The frozen case comes before the mutability checks. -/
def list_clear_int (m : Allocator) (list : list_int) : Option (Int × list_int) := do
  if list.frozen then return (0, { list with size := 0 })
  if list.readonly then return (-3, list)
  if list.static_ then return (-3, list)
  let (state, list1) ← list_resize_int m list 0
  if state = 0 then return (0, list1)
  return (-2, list1)

/-- The loop of `list_reverse_int`:
`for (i = 0; i < size / 2; i++) swap_int(&data[i], &data[size - i - 1]);`. -/
def reverse_loop (size : Nat) (n : Nat) (d : List Int) : Option (List Int) :=
  loop_up (fun i d => do
    let a ← load d i
    let b ← load d (usub (usub size i) 1)
    let d ← store d i b
    store d (usub (usub size i) 1) a) 0 n d

/-- `list_reverse_int`. -/
def list_reverse_int (list : list_int) : Option (Int × list_int) := do
  if list.readonly then return (-3, list)
  if list.static_ then return (-3, list)
  let d ← reverse_loop list.size (list.size / 2) list.data
  return (0, { list with data := d })

/-! ## Bulk operations -/

/-- `list_reset_int`. `memcpy` reads `size` ints of `arr`. -/
def list_reset_int (m : Allocator) (list : list_int) (arr : Option (List Int)) (size : Nat) :
    Option (Int × list_int) := do
  let some a := arr | return (-1, list)
  if list.frozen ∧ size ≠ list.capacity then return (-3, list)
  if list.readonly then return (-3, list)
  if list.static_ then return (-3, list)
  if size = 0 then
    let (_, list1) ← list_clear_int m list
    return (0, list1)
  match realloc_ints m list.data size with
  | none => return (-2, list)
  | some new_data =>
    if a.length < size then none
    else
      return (0, { list with
        data := a.take size ++ new_data.drop size, size := size, capacity := size })

/-- The growth loop of `list_write_arr_int`:
`while (new_capacity <= needed_mem) { if (new_capacity > UINT_MAX / 2)
{ new_capacity = UINT_MAX; break; } new_capacity *= 2; }`. -/
def write_grow (needed_mem : Nat) : Nat → Nat → Option Nat
  | 0, new_capacity => if new_capacity ≤ needed_mem then none else some new_capacity
  | fuel + 1, new_capacity =>
    if new_capacity ≤ needed_mem then
      if new_capacity > UINT_MAX / 2 then some UINT_MAX
      else write_grow needed_mem fuel (u32 (new_capacity * 2))
    else some new_capacity

/-- `list_write_arr_int`. The copy loop
`for (i = index; i < size + index && i < list->capacity; i++)` runs
`min (size + index) capacity - index` times. -/
def list_write_arr_int (m : Allocator) (list : list_int) (arr : Option (List Int))
    (size index : Nat) : Option (Int × list_int) := do
  let some a := arr | return (-1, list)
  if index > list.size then return (-1, list)
  if usub UINT_MAX (usub list.size index) ≤ size then return (-2, list)
  if list.readonly then return (-3, list)
  if list.static_ then return (-3, list)
  if size = 0 then return (0, list)
  let needed_mem := u32 (size + index)
  let mut new_capacity := list.capacity
  let mut list := list
  if needed_mem > list.capacity ∧ ¬ list.frozen then
    new_capacity ← write_grow needed_mem 33 new_capacity
    let (success, list1) ← list_resize_int m list new_capacity
    list := list1
    if success = -2 then return (-2, list)
  let d ← loop_up (fun i d => do
      let x ← load a (usub i index)
      store d i x) index (min (u32 (size + index)) list.capacity - index) list.data
  list := { list with data := d }
  list := { list with capacity := if list.frozen then list.capacity else new_capacity }
  list := { list with
    size := if u32 (size + index) > list.size
      then (if list.frozen then list.capacity else u32 (size + index)) else list.size }
  return (0, list)

/-- The growth loop of the `append` / `insert` family:
`while (total >= orig_capacity && !frozen) { if (orig_capacity >= UINT_MAX / 2)
{ orig_capacity = UINT_MAX; break; } orig_capacity *= 2; }`. -/
def append_grow (frozen : Bool) (total : Nat) : Nat → Nat → Option Nat
  | 0, orig_capacity => if total ≥ orig_capacity ∧ ¬ frozen then none else some orig_capacity
  | fuel + 1, orig_capacity =>
    if total ≥ orig_capacity ∧ ¬ frozen then
      if orig_capacity ≥ UINT_MAX / 2 then some UINT_MAX
      else append_grow frozen total fuel (u32 (orig_capacity * 2))
    else some orig_capacity

/-- The size update shared by the `append` / `insert` family:
`list->size += list->frozen && list->size + size > list->capacity
? list->capacity - list->size : size;`. -/
def bulk_size (list : list_int) (size : Nat) : Nat :=
  u32 (list.size +
    (if list.frozen ∧ u32 (list.size + size) > list.capacity
      then usub list.capacity list.size else size))

/-- The copy loop of `list_append_arr_int` and `list_append_list_int`:
`for (i = 0; i < size && i + list->size < list->capacity; i++)
list->data[i + list->size] = arr[i];`, which runs
`min size (capacity - list->size)` times. -/
def append_copy (list : list_int) (a : List Int) (size : Nat) : Option (List Int) :=
  loop_up (fun i d => do
    let x ← load a i
    store d (u32 (i + list.size)) x) 0 (min size (list.capacity - list.size)) list.data

/-- `list_append_arr_int`. -/
def list_append_arr_int (m : Allocator) (list : list_int) (arr : Option (List Int))
    (size : Nat) : Option (Int × list_int) := do
  let some a := arr | return (-1, list)
  if usub UINT_MAX list.size < size then return (-2, list)
  if list.readonly then return (-3, list)
  if list.static_ then return (-3, list)
  if size = 0 then return (0, list)
  let orig_capacity ← append_grow list.frozen (u32 (list.size + size)) 33 list.capacity
  let mut list := list
  if orig_capacity ≠ list.capacity then
    let (state, list1) ← list_resize_int m list orig_capacity
    list := list1
    if state = -2 then return (-2, list)
  let d ← append_copy list a size
  return (0, { list with data := d, size := bulk_size list size })

/-- The shifting loop of `list_insert_arr_int` and `list_insert_list_int`:
`for (long i = list->size - 1; i >= index; i--) { if (i + size > list->capacity)
continue; list->data[i + size] = list->data[i]; }`. -/
def bulk_shift (list : list_int) (size index : Nat) : Option (List Int) :=
  loop_down (fun i d =>
    if i + size > list.capacity then some d
    else do
      let x ← load d i
      store d (i + size) x) index (usub list.size 1 + 1 - index) list.data

/-- `list_insert_arr_int`. -/
def list_insert_arr_int (m : Allocator) (list : list_int) (arr : Option (List Int))
    (size index : Nat) : Option (Int × list_int) := do
  if index > list.size then return (-1, list)
  let some a := arr | return (-1, list)
  if usub UINT_MAX list.size ≤ size then return (-2, list)
  if list.readonly then return (-3, list)
  if list.static_ then return (-3, list)
  if size = 0 then return (0, list)
  let orig_capacity ← append_grow list.frozen (u32 (list.size + size)) 33 list.capacity
  let mut list := list
  if orig_capacity ≠ list.capacity then
    let (state, list1) ← list_resize_int m list orig_capacity
    list := list1
    if state = -2 then return (-2, list)
  let d ← bulk_shift list size index
  let d ← loop_up (fun i d =>
      if u32 (i + index) > list.capacity then some d
      else do
        let x ← load a i
        store d (u32 (index + i)) x) 0 size d
  return (0, { list with data := d, size := bulk_size list size })

/-- `list_append_list_int`. -/
def list_append_list_int (m : Allocator) (list1 list2 : list_int) :
    Option (Int × list_int) := do
  if usub UINT_MAX list1.size < list2.size then return (-2, list1)
  if list1.readonly then return (-3, list1)
  if list1.static_ then return (-3, list1)
  if list2.size = 0 then return (0, list1)
  let orig_capacity ←
    append_grow list1.frozen (u32 (list1.size + list2.size)) 33 list1.capacity
  let mut list1 := list1
  if orig_capacity ≠ list1.capacity then
    let (state, l) ← list_resize_int m list1 orig_capacity
    list1 := l
    if state = -2 then return (-2, list1)
  let d ← append_copy list1 list2.data list2.size
  return (0, { list1 with data := d, size := bulk_size list1 list2.size })

/-- `list_insert_list_int`. The empty `list2` is answered before the mutability
checks. The copy loop
`for (i = 0; i < list2->size && i + index < list1->capacity; i++)` runs
`min list2->size (capacity - index)` times. -/
def list_insert_list_int (m : Allocator) (list1 list2 : list_int) (index : Nat) :
    Option (Int × list_int) := do
  if index > list1.size then return (-1, list1)
  if usub UINT_MAX list1.size < list2.size then return (-2, list1)
  if list2.size = 0 then return (0, list1)
  if list1.readonly then return (-3, list1)
  if list1.static_ then return (-3, list1)
  let orig_capacity ←
    append_grow list1.frozen (u32 (list1.size + list2.size)) 33 list1.capacity
  let mut list1 := list1
  if orig_capacity ≠ list1.capacity then
    let (state, l) ← list_resize_int m list1 orig_capacity
    list1 := l
    if state = -2 then return (-2, list1)
  let d ← bulk_shift list1 list2.size index
  let d ← loop_up (fun i d => do
      let x ← load list2.data i
      store d (u32 (index + i)) x) 0 (min list2.size (list1.capacity - index)) d
  return (0, { list1 with data := d, size := bulk_size list1 list2.size })

/-- The second half of `list_split_int`, from `const unsigned int list_new_size
= midpoint;` on: the new list is allocated and filled by
`for (long i = midpoint; i < list->size; i++) split->data[split->size++] =
list->data[i];`, then the original is cut (frozen) or resized. -/
def split_at (m : Allocator) (list : list_int) (midpoint : Nat) :
    Option (Option list_int × list_int) := do
  let list_new_size := midpoint
  let list2_size := usub list.size list_new_size
  match ← init_list_int m list2_size with
  | none => return (none, list)
  | some split =>
    let split ← loop_up (fun i (split : list_int) => do
        let x ← load list.data i
        let d ← store split.data split.size x
        return { split with data := d, size := u32 (split.size + 1) })
      midpoint (list.size - midpoint) split
    if list.frozen then return (some split, { list with size := list_new_size })
    let (_, list1) ← list_resize_int m list list_new_size
    return (some split, list1)

/-- `list_split_int`: the returned pointer (`none` for `NULL`) and the list
after the call. `index` is an `int` that is compared with the `unsigned int`
size after conversion to `unsigned int`. -/
def list_split_int (m : Allocator) (list : list_int) (index : Int) :
    Option (Option list_int × list_int) := do
  if list.size = 0 then return (none, list)
  if list.size = 1 then return (none, list)
  if index = 0 then return (none, list)
  if int_to_u32 index ≥ list.size then return (none, list)
  if list.readonly then return (none, list)
  if list.static_ then return (none, list)
  let mut midpoint := int_to_u32 index
  if index = -1 then
    midpoint := list.size / 2
    if list.size % 2 ≠ 0 then
      midpoint := u32 (midpoint + 1)
  split_at m list midpoint

/-! ## Sorting -/

/-- Checked read of `d[i]` for a signed index. -/
def load_at (d : List Int) (i : Int) : Option Int :=
  if i < 0 then none else load d i.toNat

/-- Checked write `d[i] = v` for a signed index. -/
def store_at (d : List Int) (i : Int) (v : Int) : Option (List Int) :=
  if i < 0 then none else store d i.toNat v

/-- The copy loops of `merge_int`: `for (i = 0; i < n; i++) L[i] = arr[from + i];`
giving the filled scratch array. -/
def copy_out (arr : List Int) (start : Int) : Nat → Option (List Int)
  | 0 => some []
  | n + 1 => do
    let l ← copy_out arr start n
    let x ← load_at arr (start + n)
    return l ++ [x]

/-- The three merging loops of `merge_int` as one loop over `(i, j, k)`: while
both scratch arrays have elements the smaller head is written (the left one on
a tie), then the rest of `L`, then the rest of `R`. -/
def merge_loop (L R : List Int) : Nat → List Int → Nat → Nat → Int → Option (List Int)
  | 0, arr, i, j, _ => if i < L.length ∨ j < R.length then none else some arr
  | fuel + 1, arr, i, j, k =>
    if i < L.length ∧ j < R.length then do
      let a ← load L i
      let b ← load R j
      if a ≤ b then
        let arr ← store_at arr k a
        merge_loop L R fuel arr (i + 1) j (k + 1)
      else
        let arr ← store_at arr k b
        merge_loop L R fuel arr i (j + 1) (k + 1)
    else if i < L.length then do
      let a ← load L i
      let arr ← store_at arr k a
      merge_loop L R fuel arr (i + 1) j (k + 1)
    else if j < R.length then do
      let b ← load R j
      let arr ← store_at arr k b
      merge_loop L R fuel arr i (j + 1) (k + 1)
    else some arr

/-- `merge_int`. The scratch arrays are variable-length arrays of `n1` and `n2`
ints, which must be positive. -/
def merge_int (arr : List Int) (left mid right : Int) : Option (List Int) := do
  let n1 := mid - left + 1
  let n2 := right - mid
  if n1 ≤ 0 ∨ n2 ≤ 0 then none
  let L ← copy_out arr left n1.toNat
  let R ← copy_out arr (mid + 1) n2.toNat
  merge_loop L R (n1.toNat + n2.toNat) arr 0 0 left

/-- `merge_sort_int`; `fuel` bounds the depth of the recursion. -/
def merge_sort_int : Nat → List Int → Int → Int → Option (List Int)
  | 0, arr, left, right => if left < right then none else some arr
  | fuel + 1, arr, left, right =>
    if left < right then do
      let mid := left + Int.tdiv (right - left) 2
      let arr ← merge_sort_int fuel arr left mid
      let arr ← merge_sort_int fuel arr (mid + 1) right
      merge_int arr left mid right
    else some arr

/-- `list_sort_int`: `merge_sort_int(list->data, 0, (int)list->size - 1)`. The
recursion on a range of `n + 1` elements is at most `n` deep. -/
def list_sort_int (list : list_int) : Option (Int × list_int) := do
  if list.readonly then return (-3, list)
  if list.static_ then return (-3, list)
  if u32_to_int list.size = INT_MIN then none
  let d ← merge_sort_int list.size list.data 0 (u32_to_int list.size - 1)
  return (0, { list with data := d })

/-! ## Mode flags -/

/-- `list_freeze_int`. -/
def list_freeze_int (list : list_int) : list_int := { list with frozen := true }

/-- `list_unfreeze_int`. -/
def list_unfreeze_int (list : list_int) : list_int := { list with frozen := false }

/-- `list_readonly_int`. -/
def list_readonly_int (list : list_int) : list_int := { list with readonly := true }

/-- `list_writable_int`. -/
def list_writable_int (list : list_int) : list_int := { list with readonly := false }

/-- `list_static_int`. -/
def list_static_int (list : list_int) : list_int := { list with static_ := true }

/-- `list_mutable_int`. -/
def list_mutable_int (list : list_int) : list_int := { list with static_ := false }

/-! ## Queries and array results -/

/-- What a call leaves in its output parameters next to the code and the list:
`value` for an `int *`, `index` for a `long *`, `arr` for the pointer behind an
`int **` (`some none` is a `NULL` written there), `count` for an
`unsigned int *`. A field is `none` when the call did not write it. -/
structure Outputs where
  value : Option Int := none
  index : Option Int := none
  arr : Option (Option (List Int)) := none
  count : Option Nat := none
deriving DecidableEq

/-- The second half of `list_split_arr_int`, from `const unsigned short
list_new_size = midpoint;` on. The copy loop
`for (i = midpoint; i < list->size; i++) (*arr)[list->size - i] = list->data[i];`
writes at `list->size - i`. -/
def split_arr_at (m : Allocator) (list : list_int) (midpoint : Nat) :
    Option (Int × list_int × Outputs) := do
  let list_new_size := midpoint
  let size := usub list.size list_new_size
  match malloc_ints m size with
  | none => return (-2, list, { arr := some none, count := some size })
  | some block =>
    let block ← loop_up (fun i block => do
        let x ← load list.data i
        store block (usub list.size i) x) midpoint (list.size - midpoint) block
    let out : Outputs := { arr := some (some block), count := some size }
    if list.frozen then return (0, { list with size := list_new_size }, out)
    let (_, list1) ← list_resize_int m list list_new_size
    return (0, list1, out)

/-- `list_split_arr_int`. `arr` is the `int **` argument: `none` for a `NULL`
address, otherwise the pointer stored there. `midpoint` is an
`unsigned short`. -/
def list_split_arr_int (m : Allocator) (list : list_int) (index : Int)
    (arr : Option (Option (List Int))) : Option (Int × list_int × Outputs) := do
  if list.size = 0 then return (-1, list, {})
  if list.size = 1 then return (-1, list, {})
  if index = 0 then return (-1, list, {})
  if int_to_u32 index ≥ list.size then return (-1, list, {})
  let some p := arr | return (-1, list, {})
  if p ≠ none then return (-1, list, {})
  if list.readonly then return (-3, list, {})
  if list.static_ then return (-3, list, {})
  let mut midpoint := int_to_u32 index % 65536
  if index = -1 then
    midpoint := (list.size / 2) % 65536
    if list.size % 2 ≠ 0 then
      midpoint := (midpoint + 1) % 65536
  split_arr_at m list midpoint

/-- `list_to_arr_int`. `arr` is the `int **` argument as in
`list_split_arr_int`. -/
def list_to_arr_int (m : Allocator) (list : list_int) (arr : Option (Option (List Int))) :
    Option (Int × list_int × Outputs) := do
  let some p := arr | return (-1, list, { count := some 0 })
  let written : Option (Option (List Int)) := if p ≠ none then some none else none
  if list.size = 0 then return (0, list, { arr := written, count := some 0 })
  match malloc_ints m list.size with
  | none => return (-2, list, { arr := some none, count := some 0 })
  | some block =>
    let block ← loop_up (fun i block => do
        let x ← load list.data i
        store block i x) 0 list.size block
    return (0, list, { arr := some (some block), count := some list.size })

/-- The scan of `list_max_int` (`less = true`, test `*return_val < data[i]`) and
of `list_min_int` (`less = false`, test `*return_val > data[i]`), over the
state `(*return_val, *return_index)`. -/
def extreme_loop (less : Bool) (d : List Int) :
    Nat → Nat → Int × Option Int → Option (Int × Option Int) :=
  loop_up (fun i s => do
    let x ← load d i
    if (if less then s.1 < x else s.1 > x) then return (x, some (i : Int))
    return s)

/-- `list_max_int`. -/
def list_max_int (list : list_int) : Option (Int × list_int × Outputs) := do
  if list.size = 0 then return (-1, list, { index := some (-1) })
  let s ← extreme_loop true list.data 0 list.size (INT_MIN, none)
  return (0, list, { value := some s.1, index := s.2 })

/-- `list_min_int`. -/
def list_min_int (list : list_int) : Option (Int × list_int × Outputs) := do
  if list.size = 0 then return (-1, list, { index := some (-1) })
  let s ← extreme_loop false list.data 0 list.size (INT_MAX, none)
  return (0, list, { value := some s.1, index := s.2 })

/-- `list_contains_int`. -/
def list_contains_int (list : list_int) (target : Int) (start_index : Nat) :
    Option (Int × list_int × Outputs) := do
  if list.size = 0 then return (0, list, { index := some (-1) })
  if start_index ≥ list.size then return (-1, list, {})
  match ← find_first list.data target start_index (list.size - start_index) with
  | some i => return (0, list, { index := some (i : Int) })
  | none => return (0, list, { index := some (-1) })

/-- The loop of `check_seq_int`:
`for (i = start; i < start + seq_size; i++) if (seq[i - seq_size] != arr[i]) return -1;`. -/
def check_seq_loop (arr seq : List Int) (seq_size : Nat) : Nat → Nat → Option Int
  | _, 0 => some 0
  | i, n + 1 => do
    let s ← load seq (usub i seq_size)
    let a ← load arr i
    if s ≠ a then return -1
    check_seq_loop arr seq seq_size (u32 (i + 1)) n

/-- `check_seq_int`. -/
def check_seq_int (arr seq : List Int) (seq_size start_index : Nat) : Option Int :=
  check_seq_loop arr seq seq_size start_index (u32 (start_index + seq_size) - start_index)

/-- The search loop of `list_contains_seq_int` and `list_contains_list_int`:
`for (i = lo; i < lo + n; i++) if (data[i] == seq[0])
if (check_seq_int(data, seq, seq_size, i) == 0) { *return_index = i; return 0; }`. -/
def seq_search (d seq : List Int) (seq_size : Nat) : Nat → Nat → Option (Option Nat)
  | _, 0 => some none
  | i, n + 1 => do
    let x ← load d i
    let s0 ← load seq 0
    if x = s0 then
      let c ← check_seq_int d seq seq_size i
      if c = 0 then return (some i)
    seq_search d seq seq_size (u32 (i + 1)) n

/-- `list_contains_seq_int`. The search loop runs for
`i < list->size - size + 1`. -/
def list_contains_seq_int (list : list_int) (arr : Option (List Int)) (size start_index : Nat) :
    Option (Int × list_int × Outputs) := do
  let some a := arr | return (-1, list, { index := some (-1) })
  if size = 0 then return (0, list, { index := some (-1) })
  if list.size = 0 then return (0, list, { index := some (-1) })
  if start_index ≥ list.size then return (-1, list, { index := some (-1) })
  if size > usub list.size start_index then return (0, list, { index := some (-1) })
  match ← seq_search list.data a size start_index
      (u32 (usub list.size size + 1) - start_index) with
  | some i => return (0, list, { index := some (i : Int) })
  | none => return (0, list, { index := some (-1) })

/-- `list_contains_list_int`. The search loop runs for `i < list1->size`. -/
def list_contains_list_int (list1 list2 : list_int) (index : Nat) :
    Option (Int × list_int × Outputs) := do
  if index ≥ list1.size then return (-1, list1, { index := some (-1) })
  if list1.size < u32 (list2.size + index) then return (0, list1, { index := some (-1) })
  if list2.size = 0 then return (0, list1, { index := some (-1) })
  match ← seq_search list1.data list2.data list2.size index (list1.size - index) with
  | some i => return (0, list1, { index := some (i : Int) })
  | none => return (0, list1, { index := some (-1) })

/-- The quadratic fallback of `list_mode_int`: for every `i` the number of
later-or-equal positions holding `data[i]`, over the state `(max, max_count)`. -/
def mode_pairs (d : List Int) (size : Nat) : Nat → Nat → Int × Int → Option (Int × Int) :=
  loop_up (fun i s => do
    let temp ← load d i
    let count ← loop_up (fun k (count : Int) => do
        let x ← load d k
        if x = temp then
          if count = INT_MAX then none else return count + 1
        return count) i (size - i) 0
    if count > s.2 then return (temp, count)
    return s)

/-- The run-counting loop of `list_mode_int`:
`for (i = 1; i < size; i++) { if (sorted[i] == sorted[i - 1]) count++; else
count = 1; if (count > max_count) { max_count = count; max = sorted[i]; } }`
over the state `(max, count, max_count)`. -/
def mode_runs (sorted : List Int) : Nat → Nat → Int × Int × Int → Option (Int × Int × Int) :=
  loop_up (fun i s => do
    let x ← load sorted i
    let y ← load sorted (usub i 1)
    if x = y ∧ s.2.1 = INT_MAX then none
    let count := if x = y then s.2.1 + 1 else 1
    if count > s.2.2 then return (x, count, count)
    return (s.1, count, s.2.2))

/-- The counting part of `list_mode_int`, giving `(max, max_count)`. With
`in_place` the list was sorted in place and the runs of `list->data` are
counted. Otherwise a scratch block is requested: when it is granted it
receives a plain `memcpy` of the data and its runs are counted, when it is
refused the quadratic fallback is used. -/
def mode_scan (m : Allocator) (list : list_int) (in_place : Bool) : Option (Int × Int) := do
  let max ← load list.data 0
  if in_place then
    let s ← mode_runs list.data 1 (list.size - 1) (max, 0, 0)
    return (s.1, s.2.2)
  match malloc_ints m list.size with
  | some _ =>
    if list.data.length < list.size then none
    let s ← mode_runs (list.data.take list.size) 1 (list.size - 1) (max, 0, 0)
    return (s.1, s.2.2)
  | none => mode_pairs list.data list.size 0 list.size (max, 0)

/-- `list_mode_int`. With `sort` the list is sorted in place first, unless
`list_sort_int` answers -3, in which case the call goes on as if `sort` were
false. -/
def list_mode_int (m : Allocator) (list : list_int) (sort : Bool) :
    Option (Int × list_int × Outputs) := do
  if list.size = 0 then return (-1, list, {})
  if list.size = 1 then
    let x ← load list.data 0
    return (0, list, { value := some x, count := some 1 })
  let (list1, in_place) ←
    if sort then (list_sort_int list).map fun r => (r.2, decide (r.1 ≠ -3))
    else some (list, false)
  let s ← mode_scan m list1 in_place
  return (0, list1, { value := some s.1, count := some (int_to_u32 s.2) })

/-- `list_median_int`. The `float` arithmetic of the platform is a parameter:
`fl x` is the `float` nearest to the real number `x`, so `(float) a` is `fl a`,
a `float` sum `a + b` is `fl (a + b)` and `a / 2.f` is `fl (a / 2)`. The third
component is `*return_val`, `none` when the call did not write it. The result of
`list_sort_int(list);` is not looked at. -/
def list_median_int (fl : ℚ → ℚ) (list : list_int) : Option (Int × list_int × Option ℚ) := do
  if list.size = 0 then return (0, list, some 0)
  if list.readonly then return (-3, list, none)
  if list.static_ then return (-3, list, none)
  let (_, list1) ← list_sort_int list
  let x ← load list1.data (list1.size / 2)
  let mut return_val := fl x
  if list1.size % 2 = 0 then
    let y ← load list1.data (usub (list1.size / 2) 1)
    return_val := fl (fl (return_val + fl y) / 2)
  return (0, list1, some return_val)

/-- The scan of `list_range_int` over the state `(min, max, *return_val)`:
`if (data[i] < min) min = data[i]; if (data[i] > max) max = data[i];
*return_val = max - min;`. The subtraction is one of `int`: it has no result
when the difference lies outside the range of `int`. -/
def range_loop (d : List Int) : Nat → Nat → Int × Int × Int → Option (Int × Int × Int) :=
  loop_up (fun i s => do
    let x ← load d i
    let min := if x < s.1 then x else s.1
    let max := if x > s.2.1 then x else s.2.1
    if max - min > INT_MAX ∨ max - min < INT_MIN then none
    return (min, max, max - min))

/-- `list_range_int`. -/
def list_range_int (list : list_int) : Option (Int × list_int × Outputs) := do
  let s ← range_loop list.data 0 list.size (INT_MAX, INT_MIN, 0)
  return (0, list, { value := some s.2.2 })

/-- `LONG_MAX` of `<limits.h>` for a 64-bit `long` (the LP64 data model, where
`long` and `long long` have the same range). -/
def LONG_MAX : Int := 9223372036854775807

/-- `LONG_MIN` of `<limits.h>` for a 64-bit `long`. -/
def LONG_MIN : Int := -9223372036854775808

/-- The loop of `list_sum_int`, `*value += (long) list->data[i];`, over the
state `*value`. The addition is one of `long`: it has no result when the sum
lies outside the range of `long`. -/
def sum_loop (d : List Int) : Nat → Nat → Int → Option Int :=
  loop_up (fun i value => do
    let x ← load d i
    if value + x > LONG_MAX ∨ value + x < LONG_MIN then none
    return value + x)

/-- `list_sum_int`: the code returned and `*value`. -/
def list_sum_int (list : list_int) : Option (Int × Int) := do
  let value ← sum_loop list.data 0 list.size 0
  return (0, value)

/-- `list_sum_list_int`: the code returned and `*value`. The two sums are
`long` values and `value1 + value2` is an addition of `long`. -/
def list_sum_list_int (list1 list2 : list_int) : Option (Int × Int) := do
  let (_, value1) ← list_sum_int list1
  let (_, value2) ← list_sum_int list2
  if value1 + value2 > LONG_MAX ∨ value1 + value2 < LONG_MIN then none
  return (0, value1 + value2)

/-- The live elements of a list are `int` values. -/
def list_int.ints (list : list_int) : Prop :=
  ∀ x ∈ list.live, INT_MIN ≤ x ∧ x ≤ INT_MAX

instance (list : list_int) : Decidable list.ints := by
  unfold list_int.ints; exact inferInstance

/-! ## The public mutating operations as one type -/

/-- A call of one of the public mutating operations, with its arguments. -/
inductive Mutator where
  | append (value : Int)
  | insert (index : Nat) (value : Int)
  | set (index : Nat) (value : Int)
  | pop_back
  | remove_at (index : Nat)
  | remove (value : Int)
  | remove_all (target : Int)
  | remove_range (start_index end_index : Nat)
  | take (index : Nat)
  | clear
  | shrink
  | resize (new_size : Nat)
  | reset (arr : Option (List Int)) (size : Nat)
  | write_arr (arr : Option (List Int)) (size index : Nat)
  | append_arr (arr : Option (List Int)) (size : Nat)
  | insert_arr (arr : Option (List Int)) (size index : Nat)
  | append_list (list2 : list_int)
  | insert_list (list2 : list_int) (index : Nat)
  | split (index : Int)
  | reverse
  | sort

/-- What a call hands back: an `int` code, or for `list_split_int` a pointer
(`none` for `NULL`). -/
inductive Returned where
  | code (c : Int)
  | pointer (p : Option list_int)
deriving DecidableEq

/-- The arguments of the call are values of their C types: `unsigned int`
arguments are at most `UINT_MAX`, `int` arguments lie between `INT_MIN` and
`INT_MAX`, and a second list has `unsigned int` fields. -/
def Mutator.typed : Mutator → Prop
  | .insert index _ => index ≤ UINT_MAX
  | .set index _ => index ≤ UINT_MAX
  | .remove_at index => index ≤ UINT_MAX
  | .remove_range start_index end_index => start_index ≤ UINT_MAX ∧ end_index ≤ UINT_MAX
  | .take index => index ≤ UINT_MAX
  | .resize new_size => new_size ≤ UINT_MAX
  | .reset _ size => size ≤ UINT_MAX
  | .write_arr _ size index => size ≤ UINT_MAX ∧ index ≤ UINT_MAX
  | .append_arr _ size => size ≤ UINT_MAX
  | .insert_arr _ size index => size ≤ UINT_MAX ∧ index ≤ UINT_MAX
  | .append_list list2 => list2.in_range
  | .insert_list list2 index => list2.in_range ∧ index ≤ UINT_MAX
  | .split index => INT_MIN ≤ index ∧ index ≤ INT_MAX
  | _ => True

instance (op : Mutator) : Decidable op.typed := by
  cases op <;> unfold Mutator.typed <;> exact inferInstance

/-- The number of slots an appending or inserting call needs in all: the size
after the call when nothing is dropped (`list->size + 1` for one value,
`list->size + size` for an array or a second list), and for
`list_write_arr_int` the end of the written range (`size + index`). The other
calls never grow the buffer. -/
def Mutator.needed (list : list_int) : Mutator → Option Nat
  | .append _ => some (list.size + 1)
  | .insert _ _ => some (list.size + 1)
  | .write_arr _ size index => some (size + index)
  | .append_arr _ size => some (list.size + size)
  | .insert_arr _ size _ => some (list.size + size)
  | .append_list list2 => some (list.size + list2.size)
  | .insert_list list2 _ => some (list.size + list2.size)
  | _ => none

/-- Whether the call grows the buffer by the single request
`list_resize_int(list, list->capacity * 2)` (`list_append_int`,
`list_insert_int`) instead of a doubling loop. -/
def Mutator.single : Mutator → Bool
  | .append _ => true
  | .insert _ _ => true
  | _ => false

/-- Running a call: what it returns and the list after it. -/
def Mutator.run (m : Allocator) (list : list_int) : Mutator → Option (Returned × list_int)
  | .append value => (list_append_int m list value).map fun r => (.code r.1, r.2)
  | .insert index value => (list_insert_int m list index value).map fun r => (.code r.1, r.2)
  | .set index value => (list_set_int list index value).map fun r => (.code r.1, r.2)
  | .pop_back => (list_pop_back_int m list).map fun r => (.code r.1, r.2.1)
  | .remove_at index => (list_remove_at_int m list index).map fun r => (.code r.1, r.2)
  | .remove value => (list_remove_int m list value).map fun r => (.code r.1, r.2)
  | .remove_all target => (list_remove_all_int m list target).map fun r => (.code r.1, r.2)
  | .remove_range start_index end_index =>
    (list_remove_range_int m list start_index end_index).map fun r => (.code r.1, r.2)
  | .take index => (list_take_int m list index).map fun r => (.code r.1, r.2.1)
  | .clear => (list_clear_int m list).map fun r => (.code r.1, r.2)
  | .shrink => (list_shrink_int m list).map fun r => (.code r.1, r.2)
  | .resize new_size => (list_resize_int m list new_size).map fun r => (.code r.1, r.2)
  | .reset arr size => (list_reset_int m list arr size).map fun r => (.code r.1, r.2)
  | .write_arr arr size index =>
    (list_write_arr_int m list arr size index).map fun r => (.code r.1, r.2)
  | .append_arr arr size => (list_append_arr_int m list arr size).map fun r => (.code r.1, r.2)
  | .insert_arr arr size index =>
    (list_insert_arr_int m list arr size index).map fun r => (.code r.1, r.2)
  | .append_list list2 => (list_append_list_int m list list2).map fun r => (.code r.1, r.2)
  | .insert_list list2 index =>
    (list_insert_list_int m list list2 index).map fun r => (.code r.1, r.2)
  | .split index => (list_split_int m list index).map fun r => (.pointer r.1, r.2)
  | .reverse => (list_reverse_int list).map fun r => (.code r.1, r.2)
  | .sort => (list_sort_int list).map fun r => (.code r.1, r.2)

/-- What a call answers when it is refused for mutability: code `-3`, or
`NULL` for `list_split_int`. -/
def Mutator.mutability_error : Mutator → Returned
  | .split _ => .pointer none
  | _ => .code (-3)

/-- The checks that a call makes before it looks at `readonly` and `static_`
all pass: the index is in bounds, the array is not `NULL`, the sizes stay
below the `UINT_MAX` guard, `list_pop_back_int` has an element to take,
`list_insert_list_int` has something to insert, and `list_shrink_int` and
`list_clear_int` do not meet a frozen list. -/
def Mutator.passes_checks (list : list_int) : Mutator → Prop
  | .insert index _ => index ≤ list.size
  | .set index _ => index < list.size
  | .pop_back => list.size ≠ 0
  | .remove_at index => index < list.size
  | .remove_range start_index end_index => end_index < list.size ∧ start_index < end_index
  | .take index => index < list.size
  | .clear => list.frozen = false
  | .shrink => list.frozen = false
  | .reset arr _ => arr ≠ none
  | .write_arr arr size index =>
    arr ≠ none ∧ index ≤ list.size ∧ size + (list.size - index) < UINT_MAX
  | .append_arr arr size => arr ≠ none ∧ list.size + size ≤ UINT_MAX
  | .insert_arr arr size index =>
    index ≤ list.size ∧ arr ≠ none ∧ list.size + size < UINT_MAX
  | .append_list list2 => list.size + list2.size ≤ UINT_MAX
  | .insert_list list2 index =>
    index ≤ list.size ∧ list.size + list2.size ≤ UINT_MAX ∧ list2.size ≠ 0
  | _ => True

instance (list : list_int) (op : Mutator) : Decidable (op.passes_checks list) := by
  cases op <;> unfold Mutator.passes_checks <;> exact inferInstance

/-- A call of one of the operations that answer through output parameters,
with its arguments. -/
inductive OutCall where
  | get (index : Nat)
  | contains (target : Int) (start_index : Nat)
  | contains_seq (arr : Option (List Int)) (size start_index : Nat)
  | contains_list (list2 : list_int) (index : Nat)
  | max
  | min
  | mode (sort : Bool)
  | to_arr (arr : Option (Option (List Int)))
  | split_arr (index : Int) (arr : Option (Option (List Int)))

/-- Running such a call: the code it returns and the list after it. -/
def OutCall.run (m : Allocator) (list : list_int) : OutCall → Option (Int × list_int)
  | .get index => (list_get_int list index).map fun r => (r.1, r.2.1)
  | .contains target start_index =>
    (list_contains_int list target start_index).map fun r => (r.1, r.2.1)
  | .contains_seq arr size start_index =>
    (list_contains_seq_int list arr size start_index).map fun r => (r.1, r.2.1)
  | .contains_list list2 index =>
    (list_contains_list_int list list2 index).map fun r => (r.1, r.2.1)
  | .max => (list_max_int list).map fun r => (r.1, r.2.1)
  | .min => (list_min_int list).map fun r => (r.1, r.2.1)
  | .mode sort => (list_mode_int m list sort).map fun r => (r.1, r.2.1)
  | .to_arr arr => (list_to_arr_int m list arr).map fun r => (r.1, r.2.1)
  | .split_arr index arr => (list_split_arr_int m list index arr).map fun r => (r.1, r.2.1)

/-- Successive `list_append_int` calls, one for each value in turn: the codes
returned and the list after the last call. -/
def append_each (m : Allocator) : list_int → List Int → Option (List Int × list_int)
  | list, [] => some ([], list)
  | list, v :: vs => do
    let (r, list1) ← list_append_int m list v
    let (rs, list2) ← append_each m list1 vs
    return (r :: rs, list2)

/-! ## Predicates used by the proofs -/

/-- Each of the two bounds of the data model is kept from `list` to `list1`. -/
def Keeps (list list1 : list_int) : Prop :=
  (list.size ≤ list.capacity → list1.size ≤ list1.capacity) ∧
  (1 ≤ list.capacity → 1 ≤ list1.capacity)

instance (list list1 : list_int) : Decidable (Keeps list list1) := by
  unfold Keeps; exact inferInstance

/-- The bounds are kept, and a call that returned `-1` changed nothing. -/
def Safe (list list1 : list_int) (r : Int) : Prop :=
  Keeps list list1 ∧ (r = -1 → list1 = list)

instance (list list1 : list_int) (r : Int) : Decidable (Safe list list1 r) := by
  unfold Safe; exact inferInstance

/-! ## Allocators for concrete runs -/

/-- An allocator that grants every request and hands out zeroed memory. -/
def generous : Allocator :=
  { grants := fun _ => true, junk := fun _ => 0, grants_struct := true,
    junk_frozen := false, junk_readonly := false, junk_static := false }

/-- An allocator that grants every request and hands out memory that was used
before: the ints read `-1` and the flags read `true`. -/
def dirty : Allocator :=
  { grants := fun _ => true, junk := fun _ => -1, grants_struct := true,
    junk_frozen := true, junk_readonly := true, junk_static := true }

/-- An allocator that grants a block of ints only when it has at least three
slots, and hands out zeroed memory. -/
def frugal : Allocator :=
  { grants := fun n => decide (3 ≤ n), junk := fun _ => 0, grants_struct := true,
    junk_frozen := false, junk_readonly := false, junk_static := false }

/-- An allocator that refuses every request. -/
def exhausted : Allocator :=
  { grants := fun _ => false, junk := fun _ => 0, grants_struct := false,
    junk_frozen := false, junk_readonly := false, junk_static := false }

/-! ## Proofs -/

/-! ## Memory lemmas -/

theorem store_some {d d1 : List Int} {i : Nat} {v : Int} (h : store d i v = some d1) :
    i < d.length ∧ d1 = d.set i v := by
  unfold store at h
  split_ifs at h with hi
  exact ⟨hi, (Option.some.inj h).symm⟩

theorem store_length {d d1 : List Int} {i : Nat} {v : Int} (h : store d i v = some d1) :
    d1.length = d.length := by
  rw [(store_some h).2]; simp

theorem load_some {d : List Int} {i : Nat} {x : Int} (h : load d i = some x) :
    i < d.length := by
  unfold load at h
  exact (List.getElem?_eq_some_iff.mp h).1

theorem realloc_ints_length {m : Allocator} {d d1 : List Int} {n : Nat}
    (h : realloc_ints m d n = some d1) : d1.length = n := by
  unfold realloc_ints at h
  split_ifs at h
  cases h
  simp

theorem u32_le (n : Nat) : u32 n ≤ n := Nat.mod_le _ _

/-! ## What resizing does -/

/-- What `list_resize_int` can return. -/
theorem resize_cases {m : Allocator} {list list1 : list_int} {n : Nat} {r : Int}
    (h : list_resize_int m list n = some (r, list1)) :
    (r = -3 ∧ list1 = list ∧ (list.readonly = true ∨ list.static_ = true)) ∨
    (r = -2 ∧ list1 = list ∧ list.readonly = false ∧ list.static_ = false ∧
      realloc_ints m list.data (max n 1) = none) ∨
    (r = 0 ∧ list.readonly = false ∧ list.static_ = false ∧
      list1.capacity = max n 1 ∧ list1.size = min list.size n ∧
      list1.data.length = list1.capacity ∧ list1.frozen = list.frozen ∧
      list1.readonly = false ∧ list1.static_ = false ∧
      realloc_ints m list.data (max n 1) = some list1.data) := by
  unfold list_resize_int at h
  have hmax : (if n = 0 then 1 else n) = max n 1 := by
    split_ifs with h0
    · simp [h0]
    · omega
  rw [hmax] at h
  by_cases hro : list.readonly = true
  · simp [hro] at h; left; exact ⟨h.1.symm, h.2.symm, Or.inl hro⟩
  · by_cases hst : list.static_ = true
    · simp [hro, hst] at h; left; exact ⟨h.1.symm, h.2.symm, Or.inr hst⟩
    · simp only [hro, hst, Bool.false_eq_true, if_false] at h
      cases hr : realloc_ints m list.data (max n 1) with
      | none =>
        simp [hr] at h
        right; left
        exact ⟨h.1.symm, h.2.symm, by simpa using hro, by simpa using hst, rfl⟩
      | some nd =>
        simp only [hr] at h
        have h1 := Option.some.inj h
        have hr1 : r = 0 := (congrArg Prod.fst h1).symm
        have hl1 := (congrArg Prod.snd h1).symm
        simp only at hl1
        right; right
        subst hl1
        refine ⟨hr1, by simpa using hro, by simpa using hst, rfl, ?_, ?_, rfl,
          by simp [hro], by simp [hst], rfl⟩
        · simp only
          split_ifs <;> omega
        · simp only
          exact realloc_ints_length hr

/-- `list_resize_int` always returns. -/
theorem resize_returns (m : Allocator) (list : list_int) (n : Nat) :
    ∃ r list1, list_resize_int m list n = some (r, list1) := by
  unfold list_resize_int
  by_cases h1 : list.readonly = true
  · exact ⟨_, _, by rw [if_pos h1]⟩
  · by_cases h2 : list.static_ = true
    · exact ⟨_, _, by rw [if_neg h1, if_pos h2]⟩
    · rw [if_neg h1, if_neg h2]
      simp only
      cases realloc_ints m list.data (if n = 0 then 1 else n) with
      | none => exact ⟨_, _, rfl⟩
      | some d => exact ⟨_, _, rfl⟩

/-! ## The bounds `size <= capacity` and `capacity >= 1` -/

theorem Keeps.refl (list : list_int) : Keeps list list := ⟨id, id⟩

theorem Keeps.trans {a b c : list_int} (h1 : Keeps a b) (h2 : Keeps b c) : Keeps a c :=
  ⟨fun h => h2.1 (h1.1 h), fun h => h2.2 (h1.2 h)⟩

/-- Only the data changed. -/
theorem Keeps.data (list : list_int) (d : List Int) : Keeps list { list with data := d } :=
  ⟨id, id⟩

theorem resize_keeps {m : Allocator} {list list1 : list_int} {n : Nat} {r : Int}
    (h : list_resize_int m list n = some (r, list1)) : Keeps list list1 := by
  rcases resize_cases h with ⟨-, rfl, -⟩ | ⟨-, rfl, -⟩ | ⟨-, -, -, hc, hs, -⟩
  · exact Keeps.refl _
  · exact Keeps.refl _
  · constructor <;> intro _ <;> omega

theorem Safe.same (list : list_int) (r : Int) : Safe list list r :=
  ⟨Keeps.refl _, fun _ => rfl⟩

theorem Safe.of_keeps {list list1 : list_int} {r : Int} (h : Keeps list list1)
    (hr : r ≠ -1) : Safe list list1 r :=
  ⟨h, fun hx => absurd hx hr⟩

theorem resize_safe {m : Allocator} {list list1 : list_int} {n : Nat} {r : Int}
    (h : list_resize_int m list n = some (r, list1)) : Safe list list1 r := by
  refine ⟨resize_keeps h, fun hr => ?_⟩
  rcases resize_cases h with ⟨-, rfl, -⟩ | ⟨-, rfl, -⟩ | ⟨h0, -⟩
  · rfl
  · rfl
  · omega

theorem append_safe {m : Allocator} {list list1 : list_int} {value : Int} {r : Int}
    (h : list_append_int m list value = some (r, list1)) : Safe list list1 r := by
  unfold list_append_int at h
  simp only [bind, pure, Option.some_bind] at h
  split_ifs at h with h1 h2 h3 h4 h5
  · cases h; exact Safe.same _ _
  · cases h; exact Safe.same _ _
  · cases h; exact Safe.same _ _
  · cases h; exact Safe.same _ _
  · rw [Option.bind_eq_some] at h
    obtain ⟨⟨state, l⟩, hres, h⟩ := h
    simp only at h
    split_ifs at h with h6
    · cases h; exact Safe.of_keeps (resize_keeps hres) (by decide)
    · rw [Option.bind_eq_some] at h
      obtain ⟨d, hst, h⟩ := h
      cases h
      have hlt := (store_some hst).1
      refine Safe.of_keeps ?_ (by decide)
      rcases resize_cases hres with ⟨-, rfl, hx⟩ | ⟨hx, -⟩ | ⟨-, -, -, hc, hs, hlen, -⟩
      · simp_all
      · exact absurd hx h6
      · have := u32_le (l.size + 1)
        constructor <;> intro _ <;> simp only <;> omega
  · rw [Option.bind_eq_some] at h
    obtain ⟨d, hst, h⟩ := h
    cases h
    have := u32_le (list.size + 1)
    refine Safe.of_keeps ?_ (by decide)
    constructor <;> intro _ <;> simp only <;> omega

theorem insert_shift_succ {index n : Nat} {d d1 : List Int}
    (h : insert_shift index (n + 1) d = some d1) : index + n + 1 < d.length := by
  unfold insert_shift at h
  rw [loop_down, Option.bind_eq_some] at h
  obtain ⟨d2, hb, -⟩ := h
  simp only [bind, Option.bind_eq_some] at hb
  obtain ⟨x, -, hst⟩ := hb
  exact (store_some hst).1

theorem loop_up_length {body : Nat → List Int → Option (List Int)}
    (hb : ∀ i d d1, body i d = some d1 → d1.length = d.length) :
    ∀ (n i : Nat) (d d1 : List Int), loop_up body i n d = some d1 → d1.length = d.length := by
  intro n
  induction n with
  | zero => intro i d d1 h; rw [loop_up] at h; cases h; rfl
  | succ n ih =>
    intro i d d1 h
    rw [loop_up, Option.bind_eq_some] at h
    obtain ⟨d2, h1, h2⟩ := h
    rw [ih _ _ _ h2, hb _ _ _ h1]

theorem loop_down_length {body : Nat → List Int → Option (List Int)}
    (hb : ∀ i d d1, body i d = some d1 → d1.length = d.length) (lo : Nat) :
    ∀ (n : Nat) (d d1 : List Int), loop_down body lo n d = some d1 → d1.length = d.length := by
  intro n
  induction n with
  | zero => intro d d1 h; rw [loop_down] at h; cases h; rfl
  | succ n ih =>
    intro d d1 h
    rw [loop_down, Option.bind_eq_some] at h
    obtain ⟨d2, h1, h2⟩ := h
    rw [ih _ _ h2, hb _ _ _ h1]

theorem insert_shift_length {index n : Nat} {d d1 : List Int}
    (h : insert_shift index n d = some d1) : d1.length = d.length := by
  unfold insert_shift at h
  refine loop_down_length ?_ index n d d1 h
  intro i d d1 hb
  simp only [bind, Option.bind_eq_some] at hb
  obtain ⟨x, -, hst⟩ := hb
  exact store_length hst

theorem insert_safe {m : Allocator} {list list1 : list_int} {index : Nat} {value : Int}
    {r : Int} (h : list_insert_int m list index value = some (r, list1)) :
    Safe list list1 r := by
  unfold list_insert_int at h
  simp only [bind, pure, Option.some_bind] at h
  split_ifs at h with h0 h1 h2 h3 h4 h5
  · cases h; exact Safe.same _ _
  · cases h; exact Safe.same _ _
  · cases h; exact Safe.same _ _
  · cases h; exact Safe.same _ _
  · cases h; exact Safe.same _ _
  · rw [Option.bind_eq_some] at h
    obtain ⟨⟨state, l⟩, hres, h⟩ := h
    simp only at h
    split_ifs at h with h6
    · cases h; exact Safe.of_keeps (resize_keeps hres) (by decide)
    · rw [Option.bind_eq_some] at h
      obtain ⟨d, hsh, h⟩ := h
      rw [Option.bind_eq_some] at h
      obtain ⟨d2, hst, h⟩ := h
      cases h
      refine Safe.of_keeps ?_ (by decide)
      have hlt := (store_some hst).1
      rw [insert_shift_length hsh] at hlt
      rcases resize_cases hres with ⟨-, rfl, hx⟩ | ⟨hx, -⟩ | ⟨-, -, -, hc, hs, hlen, -⟩
      · simp_all
      · exact absurd hx h6
      · have hu := u32_le (l.size + 1)
        have hcap : 1 ≤ l.capacity := by omega
        refine ⟨fun _ => ?_, fun _ => hcap⟩
        simp only
        by_contra hcon
        have hsz : l.size = l.capacity := by omega
        have hu2 : u32 (l.size + 1) = l.size + 1 := by
          unfold u32 at hcon ⊢
          omega
        by_cases hidx : index ≤ l.size
        · have hlt32 : l.size + 1 < 4294967296 := by unfold u32 at hu2; omega
          have hn : usub (u32 (l.size + 1)) 1 + 1 - index = (l.size - index) + 1 := by
            rw [hu2]; unfold usub; omega
          rw [hn] at hsh
          have := insert_shift_succ hsh
          omega
        · omega
  · rw [Option.bind_eq_some] at h
    obtain ⟨d, hsh, h⟩ := h
    rw [Option.bind_eq_some] at h
    obtain ⟨d2, hst, h⟩ := h
    cases h
    have := u32_le (list.size + 1)
    refine Safe.of_keeps ?_ (by decide)
    constructor <;> intro _ <;> simp only <;> omega

theorem set_safe {list list1 : list_int} {index : Nat} {value : Int}
    {r : Int} (h : list_set_int list index value = some (r, list1)) :
    Safe list list1 r := by
  unfold list_set_int at h
  simp only [bind, pure, Option.some_bind] at h
  split_ifs at h
  · cases h; exact Safe.same _ _
  · cases h; exact Safe.same _ _
  · cases h; exact Safe.same _ _
  · rw [Option.bind_eq_some] at h
    obtain ⟨d, -, h⟩ := h
    cases h
    exact Safe.of_keeps (Keeps.data _ _) (by decide)

theorem usub_one_le {a : Nat} (h : 1 ≤ a) : usub a 1 ≤ a - 1 := by
  unfold usub; omega

theorem remove_at_safe {m : Allocator} {list list1 : list_int} {index : Nat}
    {r : Int} (h : list_remove_at_int m list index = some (r, list1)) :
    Safe list list1 r ∧ list1.size ≤ list.size ∧
      (r ≠ -1 → r ≠ -3 → list1.size < list.size) := by
  unfold list_remove_at_int at h
  simp only [bind, pure, Option.some_bind] at h
  split_ifs at h with h0 h1 h2 h3 h4
  · cases h; exact ⟨Safe.same _ _, le_refl _, fun hx => absurd rfl hx⟩
  · cases h; exact ⟨Safe.same _ _, le_refl _, fun _ hx => absurd rfl hx⟩
  · cases h; exact ⟨Safe.same _ _, le_refl _, fun _ hx => absurd rfl hx⟩
  · rw [Option.bind_eq_some] at h
    obtain ⟨d, -, h⟩ := h
    have hu : usub list.size 1 ≤ list.size - 1 := usub_one_le (by omega)
    cases h
    refine ⟨Safe.of_keeps ?_ (by decide), by simp only; omega, fun _ _ => by simp only; omega⟩
    constructor <;> intro _ <;> simp only <;> omega
  · rw [Option.bind_eq_some] at h
    obtain ⟨d, -, h⟩ := h
    have hu : usub list.size 1 ≤ list.size - 1 := usub_one_le (by omega)
    have hk : Keeps list { list with data := d, size := usub list.size 1 } := by
      constructor <;> intro _ <;> simp only <;> omega
    rw [Option.bind_eq_some] at h
    obtain ⟨⟨state, l⟩, hres, h⟩ := h
    simp only at h
    have hk2 := hk.trans (resize_keeps hres)
    have hsz : l.size ≤ usub list.size 1 := by
      rcases resize_cases hres with ⟨-, rfl, -⟩ | ⟨-, rfl, -⟩ | ⟨-, -, -, -, hs, -⟩
      · exact le_refl _
      · exact le_refl _
      · rw [hs]; simp only; omega
    split_ifs at h
    · cases h
      exact ⟨Safe.of_keeps hk2 (by decide), by omega, fun _ _ => by omega⟩
    · cases h
      exact ⟨Safe.of_keeps hk2 (by decide), by omega, fun _ _ => by omega⟩
  · rw [Option.bind_eq_some] at h
    obtain ⟨d, -, h⟩ := h
    have hu : usub list.size 1 ≤ list.size - 1 := usub_one_le (by omega)
    cases h
    refine ⟨Safe.of_keeps ?_ (by decide), by simp only; omega, fun _ _ => by simp only; omega⟩
    constructor <;> intro _ <;> simp only <;> omega

theorem remove_safe {m : Allocator} {list list1 : list_int} {value : Int}
    {r : Int} (h : list_remove_int m list value = some (r, list1)) :
    Safe list list1 r := by
  unfold list_remove_int at h
  simp only [bind, pure, Option.some_bind] at h
  split_ifs at h
  · cases h; exact Safe.same _ _
  · cases h; exact Safe.same _ _
  · rw [Option.bind_eq_some] at h
    obtain ⟨found, -, h⟩ := h
    cases found with
    | none => simp only at h; cases h; exact Safe.same _ _
    | some i => exact (remove_at_safe h).1

theorem take_safe {m : Allocator} {list list1 : list_int} {index : Nat}
    {r : Int} {out : Option Int}
    (h : list_take_int m list index = some (r, list1, out)) :
    Safe list list1 r := by
  unfold list_take_int at h
  simp only [bind, pure, Option.some_bind] at h
  split_ifs at h
  · cases h; exact Safe.same _ _
  · cases h; exact Safe.same _ _
  · cases h; exact Safe.same _ _
  · rw [Option.bind_eq_some] at h
    obtain ⟨x, -, h⟩ := h
    rw [Option.bind_eq_some] at h
    obtain ⟨⟨state, l⟩, hrm, h⟩ := h
    cases h
    exact (remove_at_safe hrm).1

theorem pop_back_safe {m : Allocator} {list list1 : list_int}
    {r : Int} {out : Option Int}
    (h : list_pop_back_int m list = some (r, list1, out)) :
    Safe list list1 r := by
  unfold list_pop_back_int at h
  simp only [bind, pure, Option.some_bind] at h
  split_ifs at h
  · cases h; exact Safe.same _ _
  · cases h; exact Safe.same _ _
  · cases h; exact Safe.same _ _
  · exact take_safe h

theorem shrink_safe {m : Allocator} {list list1 : list_int} {r : Int}
    (h : list_shrink_int m list = some (r, list1)) : Safe list list1 r := by
  unfold list_shrink_int at h
  simp only [bind, pure, Option.some_bind] at h
  split_ifs at h
  · cases h; exact Safe.same _ _
  · cases h; exact Safe.same _ _
  · cases h; exact Safe.same _ _
  · exact resize_safe h

theorem clear_safe {m : Allocator} {list list1 : list_int} {r : Int}
    (h : list_clear_int m list = some (r, list1)) : Safe list list1 r := by
  unfold list_clear_int at h
  simp only [bind, pure, Option.some_bind] at h
  split_ifs at h
  · cases h
    refine Safe.of_keeps ?_ (by decide)
    constructor <;> intro _ <;> simp only <;> omega
  · cases h; exact Safe.same _ _
  · cases h; exact Safe.same _ _
  · rw [Option.bind_eq_some] at h
    obtain ⟨⟨state, l⟩, hres, h⟩ := h
    simp only at h
    split_ifs at h
    · cases h; exact Safe.of_keeps (resize_keeps hres) (by decide)
    · cases h; exact Safe.of_keeps (resize_keeps hres) (by decide)

theorem reverse_safe {list list1 : list_int} {r : Int}
    (h : list_reverse_int list = some (r, list1)) : Safe list list1 r := by
  unfold list_reverse_int at h
  simp only [bind, pure, Option.some_bind] at h
  split_ifs at h
  · cases h; exact Safe.same _ _
  · cases h; exact Safe.same _ _
  · rw [Option.bind_eq_some] at h
    obtain ⟨d, -, h⟩ := h
    cases h
    exact Safe.of_keeps (Keeps.data _ _) (by decide)

theorem sort_safe {list list1 : list_int} {r : Int}
    (h : list_sort_int list = some (r, list1)) : Safe list list1 r := by
  unfold list_sort_int at h
  simp only [bind, pure, Option.some_bind] at h
  split_ifs at h
  · cases h; exact Safe.same _ _
  · cases h; exact Safe.same _ _
  · simp at h
  · rw [Option.bind_eq_some] at h
    obtain ⟨d, -, h⟩ := h
    cases h
    exact Safe.of_keeps (Keeps.data _ _) (by decide)

theorem reset_safe {m : Allocator} {list list1 : list_int} {arr : Option (List Int)}
    {size : Nat} {r : Int}
    (h : list_reset_int m list arr size = some (r, list1)) : Safe list list1 r := by
  unfold list_reset_int at h
  cases arr with
  | none => simp only [bind, pure, Option.some_bind] at h; cases h; exact Safe.same _ _
  | some a =>
    simp only [bind, pure, Option.some_bind] at h
    split_ifs at h with h1 h2 h3 h4
    · cases h; exact Safe.same _ _
    · cases h; exact Safe.same _ _
    · cases h; exact Safe.same _ _
    · rw [Option.bind_eq_some] at h
      obtain ⟨⟨state, l⟩, hcl, h⟩ := h
      cases h
      exact Safe.of_keeps (clear_safe hcl).1 (by decide)
    · cases hre : realloc_ints m list.data size with
      | none => simp only [hre] at h; cases h; exact Safe.same _ _
      | some nd => simp only [hre] at h; cases h
    · cases hre : realloc_ints m list.data size with
      | none => simp only [hre] at h; cases h; exact Safe.same _ _
      | some nd =>
        simp only [hre] at h
        cases h
        refine Safe.of_keeps ?_ (by decide)
        constructor <;> intro _ <;> simp only <;> omega

theorem remove_all_loop_keeps (m : Allocator) (target : Int) :
    ∀ (fuel : Nat) (list : list_int) (i : Nat) (count memory_fail : Int)
      (list1 : list_int) (count1 memory_fail1 : Int),
      remove_all_loop m target fuel list i count memory_fail
        = some (list1, count1, memory_fail1) →
      Keeps list list1 ∧ count ≤ count1 ∧ (count1 = count → list1 = list) := by
  intro fuel
  induction fuel with
  | zero =>
    intro list i count mf list1 count1 mf1 h
    rw [remove_all_loop] at h
    by_cases h1 : i < list.size
    · rw [if_pos h1] at h; cases h
    · rw [if_neg h1] at h; cases h
      exact ⟨Keeps.refl _, le_refl _, fun _ => rfl⟩
  | succ fuel ih =>
    intro list i count mf list1 count1 mf1 h
    rw [remove_all_loop] at h
    by_cases h1 : i < list.size
    · rw [if_pos h1] at h
      simp only [bind, Option.bind_eq_some] at h
      obtain ⟨x, -, h⟩ := h
      by_cases h2 : x = target
      · rw [if_pos h2] at h
        by_cases h3 : count = INT_MAX
        · rw [if_pos h3] at h; cases h
        · rw [if_neg h3, Option.bind_eq_some] at h
          obtain ⟨⟨state, l⟩, hrm, h⟩ := h
          simp only at h
          obtain ⟨hk, hle, heq⟩ := ih _ _ _ _ _ _ _ h
          exact ⟨(remove_at_safe hrm).1.1.trans hk, by omega, fun hx => by omega⟩
      · rw [if_neg h2] at h
        exact ih _ _ _ _ _ _ _ h
    · rw [if_neg h1] at h; cases h
      exact ⟨Keeps.refl _, le_refl _, fun _ => rfl⟩

theorem remove_all_safe {m : Allocator} {list list1 : list_int} {target : Int}
    {r : Int} (h : list_remove_all_int m list target = some (r, list1)) :
    Safe list list1 r := by
  unfold list_remove_all_int at h
  simp only [bind, pure, Option.some_bind] at h
  split_ifs at h
  · cases h; exact Safe.same _ _
  · cases h; exact Safe.same _ _
  · rw [Option.bind_eq_some] at h
    obtain ⟨⟨l, count, mf⟩, hloop, h⟩ := h
    simp only at h
    obtain ⟨hk, hle, heq⟩ := remove_all_loop_keeps m target _ _ _ _ _ _ _ _ hloop
    have h1 := Option.some.inj h
    have hr : r = (if count > 0 then (if mf = -2 then -2 else 0) else -1) :=
      (congrArg Prod.fst h1).symm
    have hl : list1 = l := (congrArg Prod.snd h1).symm
    subst hl
    refine ⟨hk, fun hx => ?_⟩
    by_cases hc : count > 0
    · rw [if_pos hc] at hr
      split_ifs at hr <;> omega
    · exact heq (by omega)

theorem remove_range_shrink_safe (m : Allocator) :
    ∀ (fuel : Nat) (list : list_int) (ret_value : Int) (list1 : list_int) (r : Int),
      remove_range_shrink m fuel list ret_value = some (r, list1) →
      ret_value ≠ -1 → Keeps list list1 ∧ r ≠ -1 := by
  intro fuel
  induction fuel with
  | zero =>
    intro list rv list1 r h hrv
    rw [remove_range_shrink] at h
    split_ifs at h
    cases h
    exact ⟨Keeps.refl _, hrv⟩
  | succ fuel ih =>
    intro list rv list1 r h hrv
    rw [remove_range_shrink] at h
    split_ifs at h with h1 h2
    · cases h; exact ⟨Keeps.refl _, by decide⟩
    · simp only [bind, Option.bind_eq_some] at h
      obtain ⟨⟨rv1, l⟩, hres, h⟩ := h
      simp only at h
      have hs := resize_safe hres
      have hne : rv1 ≠ -1 := by
        rcases resize_cases hres with ⟨h0, -⟩ | ⟨h0, -⟩ | ⟨h0, -⟩ <;> omega
      split_ifs at h with h3
      · cases h; exact ⟨hs.1, hne⟩
      · obtain ⟨hk, hr⟩ := ih _ _ _ _ h hne
        exact ⟨hs.1.trans hk, hr⟩
    · cases h
      exact ⟨Keeps.refl _, hrv⟩

theorem remove_range_safe {m : Allocator} {list list1 : list_int} {start_index end_index : Nat}
    {r : Int} (h : list_remove_range_int m list start_index end_index = some (r, list1)) :
    Safe list list1 r := by
  unfold list_remove_range_int at h
  simp only [bind, pure, Option.some_bind] at h
  split_ifs at h with h1 h2 h3 h4
  · cases h; exact Safe.same _ _
  · cases h; exact Safe.same _ _
  · cases h; exact Safe.same _ _
  · cases h; exact Safe.same _ _
  · rw [Option.bind_eq_some] at h
    obtain ⟨d, -, h⟩ := h
    obtain ⟨hk, hr⟩ := remove_range_shrink_safe m _ _ _ _ _ h (by decide)
    refine Safe.of_keeps (Keeps.trans ?_ hk) hr
    have hu : usub list.size (usub end_index start_index) ≤ list.size := by
      unfold usub; omega
    constructor <;> intro _ <;> simp only <;> omega

theorem write_grow_spec (needed : Nat) :
    ∀ (fuel c c1 : Nat), write_grow needed fuel c = some c1 →
      needed < c1 ∨ c1 = UINT_MAX := by
  intro fuel
  induction fuel with
  | zero =>
    intro c c1 h
    rw [write_grow] at h
    by_cases h1 : c ≤ needed
    · rw [if_pos h1] at h; cases h
    · rw [if_neg h1] at h; cases h; left; omega
  | succ fuel ih =>
    intro c c1 h
    rw [write_grow] at h
    by_cases h1 : c ≤ needed
    · rw [if_pos h1] at h
      by_cases h2 : c > UINT_MAX / 2
      · rw [if_pos h2] at h; cases h; right; rfl
      · rw [if_neg h2] at h; exact ih _ _ h
    · rw [if_neg h1] at h; cases h; left; omega

theorem append_grow_spec (frozen : Bool) (total : Nat) :
    ∀ (fuel c c1 : Nat), append_grow frozen total fuel c = some c1 →
      (frozen = true → c1 = c) ∧ (frozen = false → total < c1 ∨ c1 = UINT_MAX) := by
  intro fuel
  induction fuel with
  | zero =>
    intro c c1 h
    rw [append_grow] at h
    by_cases h1 : total ≥ c ∧ ¬ frozen = true
    · rw [if_pos h1] at h; cases h
    · rw [if_neg h1] at h; cases h
      refine ⟨fun _ => rfl, fun hf => ?_⟩
      left
      by_contra hcon
      exact h1 ⟨by omega, by simp [hf]⟩
  | succ fuel ih =>
    intro c c1 h
    rw [append_grow] at h
    by_cases h1 : total ≥ c ∧ ¬ frozen = true
    · rw [if_pos h1] at h
      by_cases h2 : c ≥ UINT_MAX / 2
      · rw [if_pos h2] at h; cases h
        exact ⟨fun hf => absurd hf h1.2, fun _ => Or.inr rfl⟩
      · rw [if_neg h2] at h
        obtain ⟨-, hb⟩ := ih _ _ h
        exact ⟨fun hf => absurd hf h1.2, hb⟩
    · rw [if_neg h1] at h; cases h
      refine ⟨fun _ => rfl, fun hf => ?_⟩
      left
      by_contra hcon
      exact h1 ⟨by omega, by simp [hf]⟩

/-- The size the `append` / `insert` family stores on a frozen list stays
within the capacity. -/
theorem bulk_size_frozen {list : list_int} (size : Nat) (hr : list.in_range)
    (hf : list.frozen = true) :
    bulk_size list size ≤ list.capacity := by
  obtain ⟨h1, h2⟩ := hr
  unfold UINT_MAX at h1 h2
  unfold bulk_size
  by_cases hc : list.frozen = true ∧ u32 (list.size + size) > list.capacity
  · rw [if_pos hc]
    unfold u32 usub
    omega
  · rw [if_neg hc]
    have : ¬ u32 (list.size + size) > list.capacity := fun hx => hc ⟨hf, hx⟩
    omega

theorem bulk_size_thawed (list : list_int) (size : Nat) (hf : list.frozen = false) :
    bulk_size list size ≤ list.size + size := by
  unfold bulk_size
  rw [if_neg (by simp [hf])]
  exact u32_le _

/-- The state after the growth step of the `append` / `insert` family. -/
theorem bulk_keeps {list l : list_int} {size c1 : Nat} (d : List Int)
    (hr : list.in_range) (hsize : size ≤ UINT_MAX)
    (hguard : ¬ usub UINT_MAX list.size < size)
    (hgrow : (list.frozen = true → c1 = list.capacity) ∧
      (list.frozen = false → u32 (list.size + size) < c1 ∨ c1 = UINT_MAX))
    (hl : (c1 = list.capacity ∧ l = list) ∨
      (c1 ≠ list.capacity ∧ l.capacity = max c1 1 ∧ l.size = min list.size c1 ∧
        l.frozen = list.frozen)) :
    Keeps list { l with data := d, size := bulk_size l size } := by
  have hr' := hr
  obtain ⟨h1, h2⟩ := hr
  unfold UINT_MAX at h1 h2 hsize hguard
  have htot : u32 (list.size + size) = list.size + size := by
    unfold usub at hguard; unfold u32; omega
  have htot2 : list.size + size ≤ 4294967295 := by
    unfold usub at hguard; omega
  rw [htot] at hgrow
  cases hfz : list.frozen with
  | true =>
    have hc := hgrow.1 hfz
    rcases hl with ⟨-, rfl⟩ | ⟨hne, -⟩
    · exact ⟨fun _ => bulk_size_frozen size hr' hfz, fun h => h⟩
    · exact absurd hc hne
  | false =>
    have hc := hgrow.2 hfz
    unfold UINT_MAX at hc
    rcases hl with ⟨hceq, rfl⟩ | ⟨hne, hcap, hsz, hfr⟩
    · have := bulk_size_thawed l size hfz
      refine ⟨fun _ => ?_, fun h => h⟩
      simp only
      omega
    · have := bulk_size_thawed l size (by rw [hfr, hfz])
      refine ⟨fun _ => ?_, fun _ => ?_⟩ <;> simp only <;> omega

/-- The growth step of the `append` / `insert` family: the list that goes on
to the copying loops, or an early return with code `-2`. -/
theorem bulk_growth {m : Allocator} {list l : list_int} {c1 : Nat} {state : Int}
    (hro : ¬ list.readonly = true) (hst : ¬ list.static_ = true)
    (hne : c1 ≠ list.capacity)
    (hres : list_resize_int m list c1 = some (state, l)) (hs : ¬ state = -2) :
    c1 ≠ list.capacity ∧ l.capacity = max c1 1 ∧ l.size = min list.size c1 ∧
        l.frozen = list.frozen := by
  rcases resize_cases hres with ⟨-, -, hx⟩ | ⟨hx, -⟩ | ⟨-, -, -, hc, hsz, -, hf, -⟩
  · rcases hx with hx | hx
    · exact absurd hx hro
    · exact absurd hx hst
  · exact absurd hx hs
  · exact ⟨hne, hc, hsz, hf⟩

theorem append_arr_safe {m : Allocator} {list list1 : list_int} {arr : Option (List Int)}
    {size : Nat} {r : Int} (hr : list.in_range) (hsize : size ≤ UINT_MAX)
    (h : list_append_arr_int m list arr size = some (r, list1)) : Safe list list1 r := by
  unfold list_append_arr_int at h
  cases arr with
  | none => simp only [bind, pure, Option.some_bind] at h; cases h; exact Safe.same _ _
  | some a =>
    simp only [bind, pure, Option.some_bind] at h
    by_cases h1 : usub UINT_MAX list.size < size
    · rw [if_pos h1] at h; cases h; exact Safe.same _ _
    rw [if_neg h1] at h
    by_cases h2 : list.readonly = true
    · rw [if_pos h2] at h; cases h; exact Safe.same _ _
    rw [if_neg h2] at h
    by_cases h3 : list.static_ = true
    · rw [if_pos h3] at h; cases h; exact Safe.same _ _
    rw [if_neg h3] at h
    by_cases h4 : size = 0
    · rw [if_pos h4] at h; cases h; exact Safe.same _ _
    rw [if_neg h4, Option.bind_eq_some] at h
    obtain ⟨c1, hg, h⟩ := h
    have hgrow := append_grow_spec _ _ _ _ _ hg
    by_cases h5 : c1 ≠ list.capacity
    · rw [if_pos h5, Option.bind_eq_some] at h
      obtain ⟨⟨state, l⟩, hres, h⟩ := h
      simp only at h
      by_cases h6 : state = -2
      · rw [if_pos h6] at h; cases h
        exact Safe.of_keeps (resize_keeps hres) (by decide)
      · rw [if_neg h6, Option.bind_eq_some] at h
        obtain ⟨d, -, h⟩ := h
        cases h
        exact Safe.of_keeps
          (bulk_keeps d hr hsize h1 hgrow (Or.inr (bulk_growth h2 h3 h5 hres h6))) (by decide)
    · rw [if_neg h5, Option.bind_eq_some] at h
      obtain ⟨d, -, h⟩ := h
      cases h
      exact Safe.of_keeps
        (bulk_keeps d hr hsize h1 hgrow (Or.inl ⟨not_not.mp h5, rfl⟩)) (by decide)

theorem append_list_safe {m : Allocator} {list list2 list1 : list_int}
    {r : Int} (hr : list.in_range) (hr2 : list2.in_range)
    (h : list_append_list_int m list list2 = some (r, list1)) : Safe list list1 r := by
  unfold list_append_list_int at h
  simp only [bind, pure, Option.some_bind] at h
  by_cases h1 : usub UINT_MAX list.size < list2.size
  · rw [if_pos h1] at h; cases h; exact Safe.same _ _
  rw [if_neg h1] at h
  by_cases h2 : list.readonly = true
  · rw [if_pos h2] at h; cases h; exact Safe.same _ _
  rw [if_neg h2] at h
  by_cases h3 : list.static_ = true
  · rw [if_pos h3] at h; cases h; exact Safe.same _ _
  rw [if_neg h3] at h
  by_cases h4 : list2.size = 0
  · rw [if_pos h4] at h; cases h; exact Safe.same _ _
  rw [if_neg h4, Option.bind_eq_some] at h
  obtain ⟨c1, hg, h⟩ := h
  have hgrow := append_grow_spec _ _ _ _ _ hg
  by_cases h5 : c1 ≠ list.capacity
  · rw [if_pos h5, Option.bind_eq_some] at h
    obtain ⟨⟨state, l⟩, hres, h⟩ := h
    simp only at h
    by_cases h6 : state = -2
    · rw [if_pos h6] at h; cases h
      exact Safe.of_keeps (resize_keeps hres) (by decide)
    · rw [if_neg h6, Option.bind_eq_some] at h
      obtain ⟨d, -, h⟩ := h
      cases h
      exact Safe.of_keeps
        (bulk_keeps d hr hr2.1 h1 hgrow (Or.inr (bulk_growth h2 h3 h5 hres h6))) (by decide)
  · rw [if_neg h5, Option.bind_eq_some] at h
    obtain ⟨d, -, h⟩ := h
    cases h
    exact Safe.of_keeps
      (bulk_keeps d hr hr2.1 h1 hgrow (Or.inl ⟨not_not.mp h5, rfl⟩)) (by decide)

theorem insert_arr_safe {m : Allocator} {list list1 : list_int} {arr : Option (List Int)}
    {size index : Nat} {r : Int} (hr : list.in_range) (hsize : size ≤ UINT_MAX)
    (h : list_insert_arr_int m list arr size index = some (r, list1)) :
    Safe list list1 r := by
  unfold list_insert_arr_int at h
  simp only [bind, pure, Option.some_bind] at h
  by_cases h0 : index > list.size
  · rw [if_pos h0] at h; cases h; exact Safe.same _ _
  rw [if_neg h0] at h
  cases arr with
  | none => simp only at h; cases h; exact Safe.same _ _
  | some a =>
    simp only at h
    by_cases h1 : usub UINT_MAX list.size ≤ size
    · rw [if_pos h1] at h; cases h; exact Safe.same _ _
    rw [if_neg h1] at h
    have h1' : ¬ usub UINT_MAX list.size < size := by omega
    by_cases h2 : list.readonly = true
    · rw [if_pos h2] at h; cases h; exact Safe.same _ _
    rw [if_neg h2] at h
    by_cases h3 : list.static_ = true
    · rw [if_pos h3] at h; cases h; exact Safe.same _ _
    rw [if_neg h3] at h
    by_cases h4 : size = 0
    · rw [if_pos h4] at h; cases h; exact Safe.same _ _
    rw [if_neg h4, Option.bind_eq_some] at h
    obtain ⟨c1, hg, h⟩ := h
    have hgrow := append_grow_spec _ _ _ _ _ hg
    by_cases h5 : c1 ≠ list.capacity
    · rw [if_pos h5, Option.bind_eq_some] at h
      obtain ⟨⟨state, l⟩, hres, h⟩ := h
      simp only at h
      by_cases h6 : state = -2
      · rw [if_pos h6] at h; cases h
        exact Safe.of_keeps (resize_keeps hres) (by decide)
      · rw [if_neg h6, Option.bind_eq_some] at h
        obtain ⟨d, -, h⟩ := h
        rw [Option.bind_eq_some] at h
        obtain ⟨d2, -, h⟩ := h
        cases h
        exact Safe.of_keeps
          (bulk_keeps d2 hr hsize h1' hgrow (Or.inr (bulk_growth h2 h3 h5 hres h6)))
          (by decide)
    · rw [if_neg h5, Option.bind_eq_some] at h
      obtain ⟨d, -, h⟩ := h
      rw [Option.bind_eq_some] at h
      obtain ⟨d2, -, h⟩ := h
      cases h
      exact Safe.of_keeps
        (bulk_keeps d2 hr hsize h1' hgrow (Or.inl ⟨not_not.mp h5, rfl⟩)) (by decide)

theorem insert_list_safe {m : Allocator} {list list2 list1 : list_int} {index : Nat}
    {r : Int} (hr : list.in_range) (hr2 : list2.in_range)
    (h : list_insert_list_int m list list2 index = some (r, list1)) :
    Safe list list1 r := by
  unfold list_insert_list_int at h
  simp only [bind, pure, Option.some_bind] at h
  by_cases h0 : index > list.size
  · rw [if_pos h0] at h; cases h; exact Safe.same _ _
  rw [if_neg h0] at h
  by_cases h1 : usub UINT_MAX list.size < list2.size
  · rw [if_pos h1] at h; cases h; exact Safe.same _ _
  rw [if_neg h1] at h
  by_cases h4 : list2.size = 0
  · rw [if_pos h4] at h; cases h; exact Safe.same _ _
  rw [if_neg h4] at h
  by_cases h2 : list.readonly = true
  · rw [if_pos h2] at h; cases h; exact Safe.same _ _
  rw [if_neg h2] at h
  by_cases h3 : list.static_ = true
  · rw [if_pos h3] at h; cases h; exact Safe.same _ _
  rw [if_neg h3, Option.bind_eq_some] at h
  obtain ⟨c1, hg, h⟩ := h
  have hgrow := append_grow_spec _ _ _ _ _ hg
  by_cases h5 : c1 ≠ list.capacity
  · rw [if_pos h5, Option.bind_eq_some] at h
    obtain ⟨⟨state, l⟩, hres, h⟩ := h
    simp only at h
    by_cases h6 : state = -2
    · rw [if_pos h6] at h; cases h
      exact Safe.of_keeps (resize_keeps hres) (by decide)
    · rw [if_neg h6, Option.bind_eq_some] at h
      obtain ⟨d, -, h⟩ := h
      rw [Option.bind_eq_some] at h
      obtain ⟨d2, -, h⟩ := h
      cases h
      exact Safe.of_keeps
        (bulk_keeps d2 hr hr2.1 h1 hgrow (Or.inr (bulk_growth h2 h3 h5 hres h6)))
        (by decide)
  · rw [if_neg h5, Option.bind_eq_some] at h
    obtain ⟨d, -, h⟩ := h
    rw [Option.bind_eq_some] at h
    obtain ⟨d2, -, h⟩ := h
    cases h
    exact Safe.of_keeps
      (bulk_keeps d2 hr hr2.1 h1 hgrow (Or.inl ⟨not_not.mp h5, rfl⟩)) (by decide)

theorem write_arr_safe {m : Allocator} {list list1 : list_int} {arr : Option (List Int)}
    {size index : Nat} {r : Int}
    (h : list_write_arr_int m list arr size index = some (r, list1)) :
    Safe list list1 r := by
  unfold list_write_arr_int at h
  cases arr with
  | none => simp only [bind, pure, Option.some_bind] at h; cases h; exact Safe.same _ _
  | some a =>
    simp only [bind, pure, Option.some_bind] at h
    by_cases h0 : index > list.size
    · rw [if_pos h0] at h; cases h; exact Safe.same _ _
    rw [if_neg h0] at h
    by_cases h1 : usub UINT_MAX (usub list.size index) ≤ size
    · rw [if_pos h1] at h; cases h; exact Safe.same _ _
    rw [if_neg h1] at h
    by_cases h2 : list.readonly = true
    · rw [if_pos h2] at h; cases h; exact Safe.same _ _
    rw [if_neg h2] at h
    by_cases h3 : list.static_ = true
    · rw [if_pos h3] at h; cases h; exact Safe.same _ _
    rw [if_neg h3] at h
    by_cases h4 : size = 0
    · rw [if_pos h4] at h; cases h; exact Safe.same _ _
    rw [if_neg h4] at h
    have hu : u32 (size + index) ≤ UINT_MAX := by unfold u32 UINT_MAX; omega
    by_cases h5 : u32 (size + index) > list.capacity ∧ ¬ list.frozen = true
    · rw [if_pos h5, Option.bind_eq_some] at h
      obtain ⟨c1, hg, h⟩ := h
      have hgrow := write_grow_spec _ _ _ _ hg
      rw [Option.bind_eq_some] at h
      obtain ⟨⟨state, l⟩, hres, h⟩ := h
      simp only at h
      by_cases h6 : state = -2
      · rw [if_pos h6] at h; cases h
        exact Safe.of_keeps (resize_keeps hres) (by decide)
      · rw [if_neg h6, Option.bind_eq_some] at h
        obtain ⟨d, -, h⟩ := h
        cases h
        refine Safe.of_keeps ?_ (by decide)
        rcases resize_cases hres with ⟨-, -, hx⟩ | ⟨hx, -⟩ | ⟨-, -, -, hc, hsz, -, hf, -⟩
        · rcases hx with hx | hx
          · exact absurd hx h2
          · exact absurd hx h3
        · exact absurd hx h6
        · have hfz : ¬ l.frozen = true := by rw [hf]; exact h5.2
          simp only [if_neg hfz]
          constructor
          · intro _
            simp only
            split_ifs <;> omega
          · intro _
            simp only
            unfold UINT_MAX at hgrow
            omega
    · rw [if_neg h5, Option.bind_eq_some] at h
      obtain ⟨d, -, h⟩ := h
      cases h
      refine Safe.of_keeps ?_ (by decide)
      constructor
      · intro hle
        simp only
        by_cases hfz : list.frozen = true
        · simp only [if_pos hfz]
          split_ifs <;> omega
        · simp only [if_neg hfz]
          have : ¬ u32 (size + index) > list.capacity := fun hx => h5 ⟨hx, hfz⟩
          split_ifs <;> omega
      · intro hc
        simp only
        split_ifs <;> exact hc

theorem loop_up_inv {σ : Type} {body : Nat → σ → Option σ} (P : σ → Prop)
    (hb : ∀ i s s1, body i s = some s1 → P s → P s1) :
    ∀ (n i : Nat) (s s1 : σ), loop_up body i n s = some s1 → P s → P s1 := by
  intro n
  induction n with
  | zero => intro i s s1 h hp; rw [loop_up] at h; cases h; exact hp
  | succ n ih =>
    intro i s s1 h hp
    rw [loop_up, Option.bind_eq_some] at h
    obtain ⟨s2, h1, h2⟩ := h
    exact ih _ _ _ h2 (hb _ _ _ h1 hp)

theorem init_cases {m : Allocator} {n : Nat} {p : Option list_int}
    (h : init_list_int m n = some p) :
    0 < n ∧ (∀ l, p = some l →
      l.size = 0 ∧ l.capacity = n ∧ l.data.length = n ∧ l.frozen = m.junk_frozen ∧
      l.readonly = m.junk_readonly ∧ l.static_ = m.junk_static) := by
  unfold init_list_int at h
  by_cases h1 : ¬ (n > 0)
  · rw [if_pos h1] at h; cases h
  rw [if_neg h1] at h
  refine ⟨by omega, ?_⟩
  by_cases h2 : ¬ m.grants_struct = true
  · rw [if_pos h2] at h; cases h; intro l hl; cases hl
  rw [if_neg h2] at h
  unfold malloc_ints at h
  by_cases h3 : m.grants n = true
  · rw [if_pos h3] at h
    simp only at h
    cases h
    intro l hl
    cases hl
    simp
  · rw [if_neg h3] at h
    simp only at h
    cases h; intro l hl; cases hl

theorem split_at_safe {m : Allocator} {list list1 : list_int} {midpoint : Nat}
    {p : Option list_int} (hmid : midpoint ≤ list.size)
    (h : split_at m list midpoint = some (p, list1)) :
    Keeps list list1 ∧ (p = none → list1 = list) ∧
      (∀ s, p = some s → s.size ≤ s.capacity ∧ 1 ≤ s.capacity) := by
  unfold split_at at h
  simp only [bind, pure] at h
  rw [Option.bind_eq_some] at h
  obtain ⟨q, hinit, h⟩ := h
  cases q with
  | none =>
    simp only at h
    cases h
    exact ⟨Keeps.refl _, fun _ => rfl, fun s hs => nomatch hs⟩
  | some s0 =>
    simp only at h
    rw [Option.bind_eq_some] at h
    obtain ⟨s1, hloop, h⟩ := h
    obtain ⟨hn, hi⟩ := init_cases hinit
    obtain ⟨hs0, hc0, hl0, -⟩ := hi s0 rfl
    have hinv : s1.data.length = s1.capacity ∧ s1.size ≤ s1.capacity ∧ 1 ≤ s1.capacity := by
      refine loop_up_inv
        (fun s : list_int => s.data.length = s.capacity ∧ s.size ≤ s.capacity ∧
          1 ≤ s.capacity) ?_ _ _ _ _ hloop ⟨by omega, by omega, by omega⟩
      intro i s s2 hb hp
      rw [Option.bind_eq_some] at hb
      obtain ⟨x, -, hb⟩ := hb
      rw [Option.bind_eq_some] at hb
      obtain ⟨d, hst, hb⟩ := hb
      cases hb
      have := (store_some hst).1
      have := store_length hst
      have := u32_le (s.size + 1)
      simp only
      omega
    by_cases hf : list.frozen = true
    · simp only [if_pos hf, Option.some_bind] at h
      cases h
      refine ⟨⟨fun _ => ?_, fun hc => hc⟩, ?_, ?_⟩
      · simp only; omega
      · intro hx; exact nomatch hx
      · intro s hs; cases hs; exact ⟨hinv.2.1, hinv.2.2⟩
    · simp only [if_neg hf, Option.some_bind] at h
      rw [Option.bind_eq_some] at h
      obtain ⟨⟨state, l⟩, hres, h⟩ := h
      cases h
      refine ⟨resize_keeps hres, ?_, ?_⟩
      · intro hx; exact nomatch hx
      · intro s hs; cases hs; exact ⟨hinv.2.1, hinv.2.2⟩

/-- `list_split_int` keeps the bounds of the list, and the list it returns
satisfies them too. -/
theorem split_safe {m : Allocator} {list list1 : list_int} {index : Int}
    {p : Option list_int}
    (h : list_split_int m list index = some (p, list1)) :
    Keeps list list1 ∧ (p = none → list1 = list) ∧
      (∀ s, p = some s → s.size ≤ s.capacity ∧ 1 ≤ s.capacity) := by
  unfold list_split_int at h
  simp only [bind, pure, Option.some_bind] at h
  have same : ∀ {q : Option list_int × list_int}, q = (none, list) →
      some q = some (p, list1) →
      Keeps list list1 ∧ (p = none → list1 = list) ∧
      (∀ s, p = some s → s.size ≤ s.capacity ∧ 1 ≤ s.capacity) := by
    intro q hq hx
    subst hq
    cases hx
    exact ⟨Keeps.refl _, fun _ => rfl, fun s hs => nomatch hs⟩
  by_cases h0 : list.size = 0
  · rw [if_pos h0] at h; exact same rfl h
  rw [if_neg h0] at h
  by_cases h1 : list.size = 1
  · rw [if_pos h1] at h; exact same rfl h
  rw [if_neg h1] at h
  by_cases h2 : index = 0
  · rw [if_pos h2] at h; exact same rfl h
  rw [if_neg h2] at h
  by_cases h3 : int_to_u32 index ≥ list.size
  · rw [if_pos h3] at h; exact same rfl h
  rw [if_neg h3] at h
  by_cases h4 : list.readonly = true
  · rw [if_pos h4] at h; exact same rfl h
  rw [if_neg h4] at h
  by_cases h5 : list.static_ = true
  · rw [if_pos h5] at h; exact same rfl h
  rw [if_neg h5] at h
  by_cases h6 : index = -1
  · simp only [if_pos h6] at h
    by_cases h7 : list.size % 2 ≠ 0
    · simp only [if_pos h7] at h
      exact split_at_safe (by have := u32_le (list.size / 2 + 1); omega) h
    · simp only [if_neg h7] at h
      exact split_at_safe (by omega) h
  · simp only [if_neg h6] at h
    exact split_at_safe (by omega) h

theorem run_safe {m : Allocator} {list list1 : list_int} {op : Mutator} {r : Returned}
    (hr : list.in_range) (ht : op.typed) (h : op.run m list = some (r, list1)) :
    Keeps list list1 ∧ (r = .code (-1) → list1 = list) ∧
      (∀ s, r = .pointer (some s) → s.size ≤ s.capacity ∧ 1 ≤ s.capacity) := by
  have code : ∀ {x : Option (Int × list_int)},
      x.map (fun r => (Returned.code r.1, r.2)) = some (r, list1) →
      (∀ c l, x = some (c, l) → Safe list l c) →
      Keeps list list1 ∧ (r = .code (-1) → list1 = list) ∧
      (∀ s, r = .pointer (some s) → s.size ≤ s.capacity ∧ 1 ≤ s.capacity) := by
    intro x hx hs
    rw [Option.map_eq_some'] at hx
    obtain ⟨⟨c, l⟩, hx, he⟩ := hx
    cases he
    have := hs c l hx
    exact ⟨this.1, fun hc => this.2 (by injection hc), fun s hs => nomatch hs⟩
  have code3 : ∀ {x : Option (Int × list_int × Option Int)},
      x.map (fun r => (Returned.code r.1, r.2.1)) = some (r, list1) →
      (∀ c l o, x = some (c, l, o) → Safe list l c) →
      Keeps list list1 ∧ (r = .code (-1) → list1 = list) ∧
      (∀ s, r = .pointer (some s) → s.size ≤ s.capacity ∧ 1 ≤ s.capacity) := by
    intro x hx hs
    rw [Option.map_eq_some'] at hx
    obtain ⟨⟨c, l, o⟩, hx, he⟩ := hx
    cases he
    have := hs c l o hx
    exact ⟨this.1, fun hc => this.2 (by injection hc), fun s hs => nomatch hs⟩
  cases op with
  | append value => exact code h fun _ _ hx => append_safe hx
  | insert index value => exact code h fun _ _ hx => insert_safe hx
  | set index value => exact code h fun _ _ hx => set_safe hx
  | pop_back => exact code3 h fun _ _ _ hx => pop_back_safe hx
  | remove_at index => exact code h fun _ _ hx => (remove_at_safe hx).1
  | remove value => exact code h fun _ _ hx => remove_safe hx
  | remove_all target => exact code h fun _ _ hx => remove_all_safe hx
  | remove_range s e => exact code h fun _ _ hx => remove_range_safe hx
  | take index => exact code3 h fun _ _ _ hx => take_safe hx
  | clear => exact code h fun _ _ hx => clear_safe hx
  | shrink => exact code h fun _ _ hx => shrink_safe hx
  | resize n => exact code h fun _ _ hx => resize_safe hx
  | reset arr size => exact code h fun _ _ hx => reset_safe hx
  | write_arr arr size index => exact code h fun _ _ hx => write_arr_safe hx
  | append_arr arr size => exact code h fun _ _ hx => append_arr_safe hr ht hx
  | insert_arr arr size index => exact code h fun _ _ hx => insert_arr_safe hr ht.1 hx
  | append_list list2 => exact code h fun _ _ hx => append_list_safe hr ht hx
  | insert_list list2 index => exact code h fun _ _ hx => insert_list_safe hr ht.1 hx
  | split index =>
    simp only [Mutator.run] at h
    rw [Option.map_eq_some'] at h
    obtain ⟨⟨p, l⟩, hx, he⟩ := h
    cases he
    obtain ⟨hk, -, hp⟩ := split_safe hx
    refine ⟨hk, ?_, ?_⟩
    · intro hc; exact nomatch hc
    · intro s hs
      exact hp s (Returned.pointer.inj hs)
  | reverse => exact code h fun _ _ hx => reverse_safe hx
  | sort => exact code h fun _ _ hx => sort_safe hx

/-! ## What the live sequence becomes -/

theorem realloc_ints_take {m : Allocator} {d d1 : List Int} {n k : Nat}
    (h : realloc_ints m d n = some d1) (hk : k ≤ n) (hd : k ≤ d.length) :
    d1.take k = d.take k := by
  unfold realloc_ints at h
  split_ifs at h
  cases h
  apply List.ext_getElem?
  intro i
  by_cases hi : i < k
  · rw [List.getElem?_take_of_lt hi, List.getElem?_take_of_lt hi]
    have h1 : i < n := by omega
    have h2 : i < d.length := by omega
    simp [List.getElem?_map, List.getElem?_range h1, List.getD_eq_getElem?_getD,
      List.getElem?_eq_getElem h2]
  · have hi : k ≤ i := by omega
    rw [List.getElem?_take_eq_none hi, List.getElem?_take_eq_none hi]

theorem take_succ_set {d : List Int} {i : Nat} (v : Int) (hi : i < d.length) :
    (d.set i v).take (i + 1) = d.take i ++ [v] := by
  rw [List.set_eq_take_append_cons_drop]
  rw [if_pos hi]
  have hl : (List.take i d).length = i := by simp; omega
  rw [List.take_append_eq_append_take, hl]
  simp

theorem live_after_store {list : list_int} {d : List Int} {value : Int}
    (hst : store list.data list.size value = some d) (n : Nat) (hn : n = list.size + 1) :
    ({ list with data := d, size := n } : list_int).live = list.live ++ [value] := by
  obtain ⟨hlt, rfl⟩ := store_some hst
  subst hn
  unfold list_int.live
  exact take_succ_set value hlt

/-- `list_append_int` on a writable list with room, or with a granted doubling
that fits in an `unsigned int`. -/
theorem append_adds {m : Allocator} {list : list_int} (value : Int)
    (hro : list.readonly = false) (hst : list.static_ = false)
    (hal : list.allocated) (hcap : 1 ≤ list.capacity) (hle : list.size ≤ list.capacity)
    (hnf : ¬ (list.frozen = true ∧ list.size = list.capacity))
    (hgrow : list.size = list.capacity →
      list.capacity * 2 ≤ UINT_MAX ∧ m.grants (list.capacity * 2) = true) :
    ∃ list1, list_append_int m list value = some (0, list1) ∧
      list1.live = list.live ++ [value] ∧ list1.size = list.size + 1 ∧
      list1.allocated ∧ list1.size ≤ list1.capacity ∧ 1 ≤ list1.capacity ∧
      list1.frozen = list.frozen ∧ list1.readonly = false ∧ list1.static_ = false ∧
      load list1.data list.size = some value ∧
      list1.capacity = (if list.size = list.capacity then list.capacity * 2
        else list.capacity) := by
  obtain ⟨⟨hr1, hr2⟩, hlen⟩ := hal
  unfold UINT_MAX at hr1 hr2
  unfold list_append_int
  simp only [bind, pure, Option.some_bind, hro, hst, Bool.false_eq_true, if_false]
  by_cases hfull : list.size ≥ list.capacity
  · have heq : list.size = list.capacity := by omega
    obtain ⟨hdbl, hgr⟩ := hgrow heq
    unfold UINT_MAX at hdbl
    have hfz : ¬ list.frozen = true := fun hf => hnf ⟨hf, heq⟩
    have hmax : ¬ list.size = UINT_MAX := by unfold UINT_MAX; omega
    have hu : u32 (list.capacity * 2) = list.capacity * 2 := by unfold u32; omega
    rw [if_pos hfull, if_neg hfz, if_neg hmax, hu]
    have hres : list_resize_int m list (list.capacity * 2) = some (0,
        { list with
          data := (List.range (list.capacity * 2)).map (fun i => list.data.getD i (m.junk i))
          capacity := list.capacity * 2 }) := by
      unfold list_resize_int realloc_ints
      have h0 : ¬ list.capacity * 2 = 0 := by omega
      have h1 : ¬ list.size ≥ list.capacity * 2 := by omega
      simp only [hro, hst, Bool.false_eq_true, if_false, h0, hgr, if_true, h1]
    rw [hres]
    simp only [Option.some_bind]
    rw [if_neg (by decide)]
    have hre : realloc_ints m list.data (list.capacity * 2) =
        some ((List.range (list.capacity * 2)).map (fun i => list.data.getD i (m.junk i))) := by
      unfold realloc_ints; rw [if_pos hgr]
    have hlt : list.size < ((List.range (list.capacity * 2)).map
        (fun i => list.data.getD i (m.junk i))).length := by
      simp; omega
    have hstore : store ((List.range (list.capacity * 2)).map
        (fun i => list.data.getD i (m.junk i))) list.size value =
        some (((List.range (list.capacity * 2)).map
          (fun i => list.data.getD i (m.junk i))).set list.size value) := by
      unfold store; rw [if_pos hlt]
    rw [hstore]
    simp only [Option.some_bind]
    have hu1 : u32 (list.size + 1) = list.size + 1 := by unfold u32; omega
    refine ⟨_, rfl, ?_, hu1, ?_, ?_, ?_, rfl, hro, hst, ?_, ?_⟩
    · unfold list_int.live
      simp only
      rw [hu1, take_succ_set value hlt, realloc_ints_take hre (by omega) (by omega)]
    · refine ⟨⟨?_, ?_⟩, ?_⟩ <;> simp only [List.length_set, List.length_map,
        List.length_range] <;> (try unfold UINT_MAX) <;> omega
    · simp only; omega
    · simp only; omega
    · unfold load
      simp only
      rw [List.getElem?_set_self hlt]
    · rw [if_pos heq]
  · rw [if_neg hfull]
    have hlt : list.size < list.data.length := by omega
    have hstore : store list.data list.size value = some (list.data.set list.size value) := by
      unfold store; rw [if_pos hlt]
    rw [hstore]
    simp only [Option.some_bind]
    have hu1 : u32 (list.size + 1) = list.size + 1 := by unfold u32; omega
    refine ⟨_, rfl, ?_, hu1, ?_, ?_, hcap, rfl, rfl, rfl, ?_, ?_⟩
    · unfold list_int.live
      simp only
      rw [hu1, take_succ_set value hlt]
    · refine ⟨⟨?_, ?_⟩, ?_⟩ <;> simp only [List.length_set] <;> (try unfold UINT_MAX) <;> omega
    · simp only; omega
    · unfold load
      simp only
      rw [List.getElem?_set_self hlt]
    · rw [if_neg (by omega)]

/-- `list_append_int` on a writable frozen list that is full: code 0, nothing
changes. -/
theorem append_frozen_full {m : Allocator} {list : list_int} (value : Int)
    (hro : list.readonly = false) (hst : list.static_ = false)
    (hfz : list.frozen = true) (hfull : list.size ≥ list.capacity) :
    list_append_int m list value = some (0, list) := by
  unfold list_append_int
  have hro' : ¬ list.readonly = true := by simp [hro]
  have hst' : ¬ list.static_ = true := by simp [hst]
  simp only [bind, pure, Option.some_bind]
  rw [if_neg hro', if_neg hst', if_pos hfull, if_pos hfz]

/-- `list_append_int` on a list that is readonly or static: code -3, nothing
changes. -/
theorem append_refused {m : Allocator} {list : list_int} (value : Int)
    (h : list.readonly = true ∨ list.static_ = true) :
    list_append_int m list value = some (-3, list) := by
  unfold list_append_int
  simp only [bind, pure, Option.some_bind]
  by_cases hro : list.readonly = true
  · rw [if_pos hro]
  · rw [if_neg hro, if_pos (h.resolve_left hro)]

/-- `list_pop_back_int` on a list that is readonly or static, or empty: nothing
changes. -/
theorem pop_back_refused (m : Allocator) (list : list_int)
    (h : list.size = 0 ∨ list.readonly = true ∨ list.static_ = true) :
    ∃ r, list_pop_back_int m list = some (r, list, none) := by
  unfold list_pop_back_int
  simp only [bind, pure, Option.some_bind]
  by_cases h0 : list.size = 0
  · rw [if_pos h0]; exact ⟨_, rfl⟩
  · rw [if_neg h0]
    by_cases hro : list.readonly = true
    · rw [if_pos hro]; exact ⟨_, rfl⟩
    · rw [if_neg hro, if_pos ((h.resolve_left h0).resolve_left hro)]; exact ⟨_, rfl⟩

/-- Removing at the last index: nothing is shifted, the size drops by one and
the buffer may be halved. -/
theorem remove_at_last {m : Allocator} {list : list_int}
    (hro : list.readonly = false) (hst : list.static_ = false)
    (hal : list.allocated) (hle : list.size ≤ list.capacity) (hpos : 1 ≤ list.size) :
    ∃ r list1, list_remove_at_int m list (list.size - 1) = some (r, list1) ∧
      (r = 0 ∨ r = -2) ∧ list1.size = list.size - 1 ∧
      list1.live = list.live.take (list.size - 1) := by
  obtain ⟨⟨hr1, hr2⟩, hlen⟩ := hal
  unfold UINT_MAX at hr1 hr2
  have hus : usub list.size 1 = list.size - 1 := by unfold usub; omega
  unfold list_remove_at_int
  have h0 : ¬ list.size - 1 ≥ list.size := by omega
  have hro' : ¬ list.readonly = true := by simp [hro]
  have hst' : ¬ list.static_ = true := by simp [hst]
  simp only [bind, pure, Option.some_bind]
  rw [if_neg h0, if_neg hro', if_neg hst']
  simp only [hus, Nat.sub_self, remove_shift, loop_up, Option.some_bind]
  have hlive : ∀ (l : list_int), l.data.take (list.size - 1) = list.data.take (list.size - 1) →
      l.size = list.size - 1 → l.live = list.live.take (list.size - 1) := by
    intro l hd hs
    show l.data.take l.size = (list.data.take list.size).take (list.size - 1)
    rw [hs, hd, List.take_take, Nat.min_eq_left (by omega)]
  by_cases hq : list.size - 1 < list.capacity / 4
  · rw [if_pos hq]
    by_cases hfz : list.frozen = true
    · rw [if_pos hfz]
      refine ⟨0, { list with size := list.size - 1 }, rfl, Or.inl rfl, rfl, ?_⟩
      exact hlive _ rfl rfl
    · rw [if_neg hfz]
      obtain ⟨state, l, hres⟩ := resize_returns m
        { list with size := list.size - 1 } (list.capacity / 2)
      rw [hres]
      simp only [Option.some_bind]
      rcases resize_cases hres with ⟨-, -, hx⟩ | ⟨hs, hl, -⟩ | ⟨hs, -, -, hc, hsz, hl, -, -, -, hre⟩
      · simp only at hx
        rw [hro, hst] at hx
        simp at hx
      · subst hl
        rw [if_pos hs]
        refine ⟨-2, { list with size := list.size - 1 }, rfl, Or.inr rfl, rfl, ?_⟩
        exact hlive _ rfl rfl
      · rw [if_neg (by omega)]
        simp only at hsz hre
        have hsz' : l.size = list.size - 1 := by omega
        refine ⟨0, l, rfl, Or.inl rfl, hsz', hlive _ ?_ hsz'⟩
        exact realloc_ints_take hre (by omega) (by omega)
  · rw [if_neg hq]
    refine ⟨0, { list with size := list.size - 1 }, rfl, Or.inl rfl, rfl, ?_⟩
    exact hlive _ rfl rfl

/-- `list_pop_back_int` on a writable list that has an element. -/
theorem pop_back_last {m : Allocator} {list : list_int}
    (hro : list.readonly = false) (hst : list.static_ = false)
    (hal : list.allocated) (hle : list.size ≤ list.capacity) (hpos : 1 ≤ list.size) :
    ∃ r list1 x, list_pop_back_int m list = some (r, list1, some x) ∧
      (r = 0 ∨ r = -2) ∧ load list.data (list.size - 1) = some x ∧
      list1.size = list.size - 1 ∧ list1.live = list.live.take (list.size - 1) := by
  obtain ⟨r, list1, hrm, hr, hsz, hlv⟩ := remove_at_last (m := m) hro hst hal hle hpos
  obtain ⟨⟨hr1, hr2⟩, hlen⟩ := hal
  unfold UINT_MAX at hr1 hr2
  have hus : usub list.size 1 = list.size - 1 := by unfold usub; omega
  have hlt : list.size - 1 < list.data.length := by omega
  have hload : load list.data (list.size - 1) = some (list.data[list.size - 1]) := by
    unfold load
    exact List.getElem?_eq_getElem hlt
  unfold list_pop_back_int list_take_int
  have h0 : ¬ list.size = 0 := by omega
  have h1 : ¬ list.size - 1 ≥ list.size := by omega
  have hro' : ¬ list.readonly = true := by simp [hro]
  have hst' : ¬ list.static_ = true := by simp [hst]
  simp only [bind, pure, Option.some_bind]
  rw [if_neg h0, if_neg hro', if_neg hst', hus, if_neg h1, if_neg hro', if_neg hst']
  simp only [hload, hrm, Option.some_bind]
  exact ⟨_, _, _, rfl, hr, rfl, hsz, hlv⟩

theorem live_length {list : list_int} (h : list.size ≤ list.data.length) :
    list.live.length = list.size := by
  unfold list_int.live
  simp [h]

theorem append_each_frozen (m : Allocator) :
    ∀ (vs : List Int) (list : list_int),
      list.readonly = false → list.static_ = false → list.frozen = true →
      list.allocated → list.size ≤ list.capacity →
      ∃ list1, append_each m list vs = some (List.replicate vs.length 0, list1) ∧
        list1.capacity = list.capacity ∧
        list1.size = min list.capacity (list.size + vs.length) ∧
        list1.live = list.live ++ vs.take (list.capacity - list.size) := by
  intro vs
  induction vs with
  | nil =>
    intro list _ _ _ _ hle
    exact ⟨list, rfl, rfl, by simp; omega, by simp⟩
  | cons v vs ih =>
    intro list hro hst hfz hal hle
    rw [append_each]
    simp only [bind, pure]
    by_cases hfull : list.size ≥ list.capacity
    · rw [append_frozen_full v hro hst hfz hfull]
      obtain ⟨l2, h2, hc2, hs2, hl2⟩ := ih list hro hst hfz hal hle
      simp only [Option.some_bind, h2]
      refine ⟨l2, rfl, hc2, ?_, ?_⟩
      · rw [hs2]; simp only [List.length_cons]; omega
      · rw [hl2]
        have h0 : list.capacity - list.size = 0 := by omega
        rw [h0]; simp
    · obtain ⟨l1, h1, hlv, hsz, hal1, hle1, -, hfz1, hro1, hst1, -, hcap1⟩ :=
        append_adds (m := m) v hro hst hal (by omega) hle (fun hx => hfull (by omega))
          (fun hx => absurd hx (by omega))
      rw [if_neg (by omega)] at hcap1
      rw [h1]
      obtain ⟨l2, h2, hc2, hs2, hl2⟩ := ih l1 hro1 hst1 (by rw [hfz1, hfz]) hal1 hle1
      simp only [Option.some_bind, h2]
      refine ⟨l2, rfl, by omega, ?_, ?_⟩
      · rw [hs2]; simp only [List.length_cons]; omega
      · rw [hl2, hlv, hcap1, hsz]
        have hk : list.capacity - list.size = (list.capacity - (list.size + 1)) + 1 := by omega
        rw [hk, List.take_succ_cons]
        simp

/-! ## The claims -/

/-- C1, amended: for every list that is not readonly and not static, whose
buffer has `capacity >= 1` slots with `size <= capacity`, and that is not
(frozen and full), `list_append_int` returns 0, the live sequence becomes the
old one followed by `value` and the size grows by exactly 1, provided that,
when the list is full, twice the capacity fits in an `unsigned int` and the
reallocation to it is granted. -/
theorem append_int_appends (m : Allocator) (list : list_int) (value : Int)
    (hro : list.readonly = false) (hst : list.static_ = false)
    (hal : list.allocated) (hcap : 1 ≤ list.capacity) (hle : list.size ≤ list.capacity)
    (hnf : ¬ (list.frozen = true ∧ list.size = list.capacity))
    (hgrow : list.size = list.capacity →
      list.capacity * 2 ≤ UINT_MAX ∧ m.grants (list.capacity * 2) = true) :
    ∃ list1, list_append_int m list value = some (0, list1) ∧
      list1.live = list.live ++ [value] ∧ list1.size = list.size + 1 := by
  obtain ⟨l1, h1, hlv, hsz, -⟩ := append_adds (m := m) value hro hst hal hcap hle hnf hgrow
  exact ⟨l1, h1, hlv, hsz⟩

/-- C1, amended, at the full list `[5, 6]` of capacity 2. -/
theorem append_int_appends_witness :
    ∃ list1, list_append_int generous ⟨false, false, false, 2, 2, [5, 6]⟩ 7 = some (0, list1) ∧
      list1.live = [5, 6] ++ [7] ∧ list1.size = 2 + 1 :=
  append_int_appends generous ⟨false, false, false, 2, 2, [5, 6]⟩ 7 rfl rfl (by decide)
    (by decide) (by decide) (by decide) (by decide)

/-- C1 as stated fails: a full writable list with `size < UINT_MAX` gets code
-2 when the reallocation is refused, and a full list of `2^31` elements gets
code 0 but is left with the single element `value`, because `capacity * 2`
wraps to 0. -/
theorem append_int_counterexample :
    list_append_int exhausted ⟨false, false, false, 1, 1, [5]⟩ 7
      = some (-2, ⟨false, false, false, 1, 1, [5]⟩) ∧
    (list_append_int generous
      ⟨false, false, false, 2147483648, 2147483648, List.replicate 2147483648 0⟩ 7).map
        (fun r => (r.1, r.2.size, r.2.capacity, r.2.live)) = some (0, 1, 1, [7]) := by
  constructor
  · decide
  · decide

/-- C4 fails on the code: `init_list_int` never assigns the three flags, so the
list it returns carries whatever `malloc` left there; with all bits set the
new list is frozen, readonly and static, and the first append is refused. -/
theorem init_list_int_flags_unset :
    init_list_int dirty 5
      = some (some ⟨true, true, true, 0, 5, [-1, -1, -1, -1, -1]⟩) ∧
    list_append_int dirty ⟨true, true, true, 0, 5, [-1, -1, -1, -1, -1]⟩ 1
      = some (-3, ⟨true, true, true, 0, 5, [-1, -1, -1, -1, -1]⟩) := by
  constructor
  · decide
  · decide

/-- C5, amended: for every list whose buffer has `capacity >= 1` slots with
`size <= capacity`, `list_append_int` followed by `list_pop_back_int` leaves
the size and the live sequence as they were before the append, provided
that, when the list is writable, it is not (frozen and full) and, when it is
full, twice the capacity fits in an `unsigned int` and the reallocation to it
is granted. -/
theorem append_then_pop_back (m : Allocator) (list : list_int) (value : Int)
    (hal : list.allocated) (hcap : 1 ≤ list.capacity) (hle : list.size ≤ list.capacity)
    (hw : list.readonly = false → list.static_ = false →
      ¬ (list.frozen = true ∧ list.size = list.capacity) ∧
      (list.size = list.capacity →
        list.capacity * 2 ≤ UINT_MAX ∧ m.grants (list.capacity * 2) = true)) :
    ∃ r1 list1 r2 list2 out,
      list_append_int m list value = some (r1, list1) ∧
      list_pop_back_int m list1 = some (r2, list2, out) ∧
      list2.size = list.size ∧ list2.live = list.live := by
  by_cases hro : list.readonly = true
  · obtain ⟨r, hp⟩ := pop_back_refused m list (Or.inr (Or.inl hro))
    exact ⟨_, _, _, _, _, append_refused value (Or.inl hro), hp, rfl, rfl⟩
  by_cases hst : list.static_ = true
  · obtain ⟨r, hp⟩ := pop_back_refused m list (Or.inr (Or.inr hst))
    exact ⟨_, _, _, _, _, append_refused value (Or.inr hst), hp, rfl, rfl⟩
  have hro' : list.readonly = false := by simpa using hro
  have hst' : list.static_ = false := by simpa using hst
  obtain ⟨hnf, hgrow⟩ := hw hro' hst'
  obtain ⟨l1, h1, hlv, hsz, hal1, hle1, -, -, hro1, hst1, -⟩ :=
    append_adds (m := m) value hro' hst' hal hcap hle hnf hgrow
  obtain ⟨r2, l2, x, h2, -, -, hsz2, hlv2⟩ :=
    pop_back_last (m := m) hro1 hst1 hal1 hle1 (by omega)
  refine ⟨_, _, _, _, _, h1, h2, by omega, ?_⟩
  rw [hlv2, hlv, hsz]
  have hl : list.live.length = list.size := live_length (by rw [hal.2]; exact hle)
  simp [List.take_append_eq_append_take, hl]

/-- C5, amended, at the full list `[5, 6]` of capacity 2. -/
theorem append_then_pop_back_witness :
    ∃ r1 list1 r2 list2 out,
      list_append_int generous ⟨false, false, false, 2, 2, [5, 6]⟩ 7 = some (r1, list1) ∧
      list_pop_back_int generous list1 = some (r2, list2, out) ∧
      list2.size = 2 ∧ list2.live = [5, 6] :=
  append_then_pop_back generous ⟨false, false, false, 2, 2, [5, 6]⟩ 7 (by decide)
    (by decide) (by decide) (fun _ _ => by decide)

/-- C5 as stated fails: on a frozen full list the append is dropped with code
0 and the pop then removes an element that was there before. -/
theorem append_then_pop_back_counterexample :
    list_append_int generous ⟨true, false, false, 2, 2, [5, 6]⟩ 7
      = some (0, ⟨true, false, false, 2, 2, [5, 6]⟩) ∧
    list_pop_back_int generous ⟨true, false, false, 2, 2, [5, 6]⟩
      = some (0, ⟨true, false, false, 1, 2, [5, 6]⟩, some 6) ∧
    (⟨true, false, false, 1, 2, [5, 6]⟩ : list_int).live ≠
      (⟨true, false, false, 2, 2, [5, 6]⟩ : list_int).live := by
  refine ⟨?_, ?_, ?_⟩ <;> decide

/-- C6: for every writable list with `capacity` slots and `size <= capacity`,
after `list_freeze_int` and `capacity + 5` successive `list_append_int` calls
every call returned 0, the capacity is unchanged, the size equals the
capacity, and the live sequence is the original one followed by the first
`capacity - size` appended values. -/
theorem freeze_then_append (m : Allocator) (list : list_int) (vs : List Int)
    (hro : list.readonly = false) (hst : list.static_ = false)
    (hal : list.allocated) (hle : list.size ≤ list.capacity)
    (hlen : vs.length = list.capacity + 5) :
    ∃ list1, append_each m (list_freeze_int list) vs
        = some (List.replicate (list.capacity + 5) 0, list1) ∧
      list1.capacity = list.capacity ∧ list1.size = list.capacity ∧
      list1.live = list.live ++ vs.take (list.capacity - list.size) := by
  obtain ⟨l1, h1, hc, hs, hl⟩ :=
    append_each_frozen m vs (list_freeze_int list) hro hst rfl hal hle
  rw [hlen] at h1
  refine ⟨l1, h1, hc, ?_, hl⟩
  rw [hs, hlen]
  show min list.capacity (list.size + (list.capacity + 5)) = list.capacity
  omega

/-- C6 at the list `[5]` of capacity 2 and seven appended values. -/
theorem freeze_then_append_witness :
    ∃ list1, append_each generous (list_freeze_int ⟨false, false, false, 1, 2, [5, 0]⟩)
        [1, 2, 3, 4, 5, 6, 7] = some (List.replicate (2 + 5) 0, list1) ∧
      list1.capacity = 2 ∧ list1.size = 2 ∧
      list1.live = [5] ++ [1, 2, 3, 4, 5, 6, 7].take (2 - 1) :=
  freeze_then_append generous ⟨false, false, false, 1, 2, [5, 0]⟩ [1, 2, 3, 4, 5, 6, 7]
    rfl rfl (by decide) (by decide) rfl

/-- C9: for every list that is not readonly and not static, whose live
elements lie in the buffer, and every `new_size`: `list_resize_int` succeeds
(returns 0) when the reallocation to `max new_size 1` slots is granted, and a
successful call sets the capacity to `max new_size 1`, the size to
`min size new_size`, and leaves the first `min size new_size` elements
unchanged. -/
theorem resize_int_resizes (m : Allocator) (list : list_int) (new_size : Nat)
    (hro : list.readonly = false) (hst : list.static_ = false)
    (hlen : list.size ≤ list.data.length) :
    (m.grants (max new_size 1) = true → ∃ list1, list_resize_int m list new_size = some (0, list1)) ∧
    ∀ list1, list_resize_int m list new_size = some (0, list1) →
      list1.capacity = max new_size 1 ∧ list1.size = min list.size new_size ∧
      list1.data.take (min list.size new_size) = list.data.take (min list.size new_size) ∧
      list1.live = list.live.take new_size := by
  constructor
  · intro hg
    obtain ⟨r, l, h⟩ := resize_returns m list new_size
    rcases resize_cases h with ⟨-, -, hx⟩ | ⟨-, -, -, -, hre⟩ | ⟨hr, -⟩
    · rw [hro, hst] at hx; simp at hx
    · unfold realloc_ints at hre
      rw [if_pos hg] at hre
      cases hre
    · subst hr; exact ⟨l, h⟩
  · intro list1 h
    rcases resize_cases h with ⟨hr, -⟩ | ⟨hr, -⟩ | ⟨-, -, -, hc, hs, -, -, -, -, hre⟩
    · omega
    · omega
    · have ht := realloc_ints_take hre (k := min list.size new_size) (by omega) (by omega)
      refine ⟨hc, hs, ht, ?_⟩
      unfold list_int.live
      rw [hs, ht, List.take_take, Nat.min_comm]

/-- C9 at the list `[1, 2, 3]` of capacity 4, resized to 2. -/
theorem resize_int_resizes_witness :
    ∃ list1, list_resize_int generous ⟨false, false, false, 3, 4, [1, 2, 3, 0]⟩ 2
        = some (0, list1) ∧
      list1.capacity = max 2 1 ∧ list1.size = min 3 2 ∧
      list1.data.take (min 3 2) = [1, 2, 3, 0].take (min 3 2) ∧
      list1.live = (⟨false, false, false, 3, 4, [1, 2, 3, 0]⟩ : list_int).live.take 2 :=
  have t := resize_int_resizes generous ⟨false, false, false, 3, 4, [1, 2, 3, 0]⟩ 2 rfl rfl
    (by decide)
  match t.1 rfl with
  | ⟨list1, h⟩ => ⟨list1, h, t.2 list1 h⟩

/-- C10 fails on the code: `list_resize_int` only prints its message for a
frozen list and goes on; here a frozen list of capacity 10 holding 7 elements
is cut to capacity 5 and size 5, with code 0. -/
theorem resize_int_ignores_frozen :
    list_resize_int generous ⟨true, false, false, 7, 10, [1, 2, 3, 4, 5, 6, 7, 0, 0, 0]⟩ 5
      = some (0, ⟨true, false, false, 5, 5, [1, 2, 3, 4, 5]⟩) := by
  decide

/-! ## Readonly lists -/

theorem run_readonly {m : Allocator} {list : list_int} (op : Mutator)
    (hro : list.readonly = true) (hr : list.in_range) (ht : op.typed) :
    (op.passes_checks list → op.run m list = some (op.mutability_error, list)) ∧
    ((op = .clear → list.frozen = false) → ∃ r, op.run m list = some (r, list)) := by
  obtain ⟨hr1, hr2⟩ := hr
  unfold UINT_MAX at hr1 hr2
  cases op with
  | append value =>
    simp [Mutator.run, Mutator.passes_checks, Mutator.mutability_error, list_append_int, hro]
  | insert index value =>
    simp only [Mutator.run, Mutator.passes_checks, Mutator.mutability_error, list_insert_int,
      bind, pure, Option.some_bind, hro, if_true]
    split_ifs with h1
    · exact ⟨fun h => absurd h (by omega), fun _ => ⟨_, rfl⟩⟩
    · exact ⟨fun _ => rfl, fun _ => ⟨_, rfl⟩⟩
  | set index value =>
    simp only [Mutator.run, Mutator.passes_checks, Mutator.mutability_error, list_set_int,
      bind, pure, Option.some_bind, hro, if_true]
    split_ifs with h1
    · exact ⟨fun h => absurd h (by omega), fun _ => ⟨_, rfl⟩⟩
    · exact ⟨fun _ => rfl, fun _ => ⟨_, rfl⟩⟩
  | pop_back =>
    simp only [Mutator.run, Mutator.passes_checks, Mutator.mutability_error, list_pop_back_int,
      bind, pure, Option.some_bind, hro, if_true]
    split_ifs with h1
    · exact ⟨fun h => absurd h1 h, fun _ => ⟨_, rfl⟩⟩
    · exact ⟨fun _ => rfl, fun _ => ⟨_, rfl⟩⟩
  | remove_at index =>
    simp only [Mutator.run, Mutator.passes_checks, Mutator.mutability_error, list_remove_at_int,
      bind, pure, Option.some_bind, hro, if_true]
    split_ifs with h1
    · exact ⟨fun h => absurd h (by omega), fun _ => ⟨_, rfl⟩⟩
    · exact ⟨fun _ => rfl, fun _ => ⟨_, rfl⟩⟩
  | remove value =>
    simp [Mutator.run, Mutator.passes_checks, Mutator.mutability_error, list_remove_int, hro]
  | remove_all target =>
    simp [Mutator.run, Mutator.passes_checks, Mutator.mutability_error, list_remove_all_int, hro]
  | remove_range s e =>
    simp only [Mutator.run, Mutator.passes_checks, Mutator.mutability_error,
      list_remove_range_int, bind, pure, Option.some_bind, hro, if_true]
    split_ifs with h1 h2
    · exact ⟨fun h => absurd h.1 (by omega), fun _ => ⟨_, rfl⟩⟩
    · exact ⟨fun h => absurd h.2 (by omega), fun _ => ⟨_, rfl⟩⟩
    · exact ⟨fun _ => rfl, fun _ => ⟨_, rfl⟩⟩
  | take index =>
    simp only [Mutator.run, Mutator.passes_checks, Mutator.mutability_error, list_take_int,
      bind, pure, Option.some_bind, hro, if_true]
    split_ifs with h1
    · exact ⟨fun h => absurd h (by omega), fun _ => ⟨_, rfl⟩⟩
    · exact ⟨fun _ => rfl, fun _ => ⟨_, rfl⟩⟩
  | clear =>
    simp only [Mutator.run, Mutator.passes_checks, Mutator.mutability_error, list_clear_int,
      bind, pure, Option.some_bind, hro, if_true]
    split_ifs with h1
    · exact ⟨fun h => by rw [h] at h1; exact absurd h1 (by decide),
        fun h => by rw [h trivial] at h1; exact absurd h1 (by decide)⟩
    · exact ⟨fun _ => rfl, fun _ => ⟨_, rfl⟩⟩
  | shrink =>
    simp only [Mutator.run, Mutator.passes_checks, Mutator.mutability_error, list_shrink_int,
      bind, pure, Option.some_bind, hro, if_true]
    split_ifs with h1
    · exact ⟨fun h => by rw [h] at h1; exact absurd h1 (by decide), fun _ => ⟨_, rfl⟩⟩
    · exact ⟨fun _ => rfl, fun _ => ⟨_, rfl⟩⟩
  | resize n =>
    simp [Mutator.run, Mutator.passes_checks, Mutator.mutability_error, list_resize_int, hro]
  | reset arr size =>
    cases arr with
    | none =>
      simp [Mutator.run, Mutator.passes_checks, Mutator.mutability_error, list_reset_int]
    | some a =>
      simp only [Mutator.run, Mutator.passes_checks, Mutator.mutability_error, list_reset_int,
        bind, pure, Option.some_bind, hro, if_true]
      split_ifs with h1
      · exact ⟨fun _ => rfl, fun _ => ⟨_, rfl⟩⟩
      · exact ⟨fun _ => rfl, fun _ => ⟨_, rfl⟩⟩
  | write_arr arr size index =>
    obtain ⟨ht1, ht2⟩ := ht
    unfold UINT_MAX at ht1 ht2
    cases arr with
    | none =>
      simp [Mutator.run, Mutator.passes_checks, Mutator.mutability_error, list_write_arr_int]
    | some a =>
      simp only [Mutator.run, Mutator.passes_checks, Mutator.mutability_error,
        list_write_arr_int, bind, pure, Option.some_bind, hro, if_true]
      split_ifs with h1 h2
      · exact ⟨fun h => absurd h.2.1 (by omega), fun _ => ⟨_, rfl⟩⟩
      · refine ⟨fun h => ?_, fun _ => ⟨_, rfl⟩⟩
        exfalso
        have := h.2.2
        unfold usub UINT_MAX at *
        omega
      · exact ⟨fun _ => rfl, fun _ => ⟨_, rfl⟩⟩
  | append_arr arr size =>
    unfold Mutator.typed UINT_MAX at ht
    cases arr with
    | none =>
      simp [Mutator.run, Mutator.passes_checks, Mutator.mutability_error, list_append_arr_int]
    | some a =>
      simp only [Mutator.run, Mutator.passes_checks, Mutator.mutability_error,
        list_append_arr_int, bind, pure, Option.some_bind, hro, if_true]
      split_ifs with h1
      · refine ⟨fun h => ?_, fun _ => ⟨_, rfl⟩⟩
        exfalso
        have := h.2
        unfold usub UINT_MAX at *
        omega
      · exact ⟨fun _ => rfl, fun _ => ⟨_, rfl⟩⟩
  | insert_arr arr size index =>
    obtain ⟨ht1, ht2⟩ := ht
    unfold UINT_MAX at ht1 ht2
    cases arr with
    | none =>
      simp only [Mutator.run, Mutator.passes_checks, Mutator.mutability_error,
        list_insert_arr_int, bind, pure, Option.some_bind]
      split_ifs with h1
      · exact ⟨fun h => absurd h.2.1 (by simp), fun _ => ⟨_, rfl⟩⟩
      · exact ⟨fun h => absurd h.2.1 (by simp), fun _ => ⟨_, rfl⟩⟩
    | some a =>
      simp only [Mutator.run, Mutator.passes_checks, Mutator.mutability_error,
        list_insert_arr_int, bind, pure, Option.some_bind, hro, if_true]
      split_ifs with h1 h2
      · exact ⟨fun h => absurd h.1 (by omega), fun _ => ⟨_, rfl⟩⟩
      · refine ⟨fun h => ?_, fun _ => ⟨_, rfl⟩⟩
        exfalso
        have := h.2.2
        unfold usub UINT_MAX at *
        omega
      · exact ⟨fun _ => rfl, fun _ => ⟨_, rfl⟩⟩
  | append_list list2 =>
    obtain ⟨ht1, ht2⟩ := ht
    unfold UINT_MAX at ht1 ht2
    simp only [Mutator.run, Mutator.passes_checks, Mutator.mutability_error,
      list_append_list_int, bind, pure, Option.some_bind, hro, if_true]
    split_ifs with h1
    · refine ⟨fun h => ?_, fun _ => ⟨_, rfl⟩⟩
      exfalso
      unfold usub UINT_MAX at *
      omega
    · exact ⟨fun _ => rfl, fun _ => ⟨_, rfl⟩⟩
  | insert_list list2 index =>
    obtain ⟨⟨ht1, ht2⟩, ht3⟩ := ht
    unfold UINT_MAX at ht1 ht2 ht3
    simp only [Mutator.run, Mutator.passes_checks, Mutator.mutability_error,
      list_insert_list_int, bind, pure, Option.some_bind, hro, if_true]
    split_ifs with h1 h2 h3
    · exact ⟨fun h => absurd h.1 (by omega), fun _ => ⟨_, rfl⟩⟩
    · refine ⟨fun h => ?_, fun _ => ⟨_, rfl⟩⟩
      exfalso
      have := h.2.1
      unfold usub UINT_MAX at *
      omega
    · exact ⟨fun h => absurd h3 h.2.2, fun _ => ⟨_, rfl⟩⟩
    · exact ⟨fun _ => rfl, fun _ => ⟨_, rfl⟩⟩
  | split index =>
    simp only [Mutator.run, Mutator.passes_checks, Mutator.mutability_error,
      list_split_int, bind, pure, Option.some_bind, hro, if_true]
    split_ifs <;> exact ⟨fun _ => rfl, fun _ => ⟨_, rfl⟩⟩
  | reverse =>
    simp [Mutator.run, Mutator.passes_checks, Mutator.mutability_error, list_reverse_int, hro]
  | sort =>
    simp [Mutator.run, Mutator.passes_checks, Mutator.mutability_error, list_sort_int, hro]

/-! ## Calls with output parameters -/

/-- The invariant `size <= capacity` over the calls that return: for every list
with `size <= capacity` and every public mutating call (append, insert, set,
pop_back, remove_at, remove, remove_all, remove_range, take, clear, shrink,
resize, reset, write_arr, append_arr, insert_arr, append_list, insert_list,
split, reverse, sort) with arguments of their C types, when the call has a
result the list after it has `size <= capacity`. A call that stores outside
the block has no result here. -/
theorem size_le_capacity_kept (m : Allocator) (list : list_int) (op : Mutator)
    (r : Returned) (list1 : list_int) (hr : list.in_range) (ht : op.typed)
    (hle : list.size ≤ list.capacity) (h : op.run m list = some (r, list1)) :
    list1.size ≤ list1.capacity :=
  (run_safe hr ht h).1.1 hle

/-- The invariant at an append that doubles the capacity of the full list
`[5, 6]`. -/
theorem size_le_capacity_kept_witness :
    (⟨false, false, false, 3, 4, [5, 6, 7, 0]⟩ : list_int).size
      ≤ (⟨false, false, false, 3, 4, [5, 6, 7, 0]⟩ : list_int).capacity :=
  size_le_capacity_kept generous ⟨false, false, false, 2, 2, [5, 6]⟩ (.append 7) (.code 0)
    ⟨false, false, false, 3, 4, [5, 6, 7, 0]⟩ (by decide) trivial (by decide) (by decide)

/-- C2 fails on the code: `list_append_int` on the full writable list of
`2^31 + 1` zeros (size = capacity = 2147483649, allocated, `size <= capacity`).
The product `list->capacity * 2` is 2 in `unsigned int`, `list_resize_int(list, 2)`
returns 0 and leaves capacity 2 with the size cut to 2, and
`list->data[list->size++] = value` then stores at `data[2]`, outside the block
of 2 ints, and makes the size 3: the call has no result in the checked model,
and the C code goes on to `return 0` with size 3 above capacity 2. -/
theorem append_int_size_past_capacity :
    (⟨false, false, false, 2147483649, 2147483649, List.replicate 2147483649 0⟩
      : list_int).allocated ∧
    (⟨false, false, false, 2147483649, 2147483649, List.replicate 2147483649 0⟩
      : list_int).size ≤
      (⟨false, false, false, 2147483649, 2147483649, List.replicate 2147483649 0⟩
        : list_int).capacity ∧
    u32 (2147483649 * 2) = 2 ∧
    list_resize_int generous
      ⟨false, false, false, 2147483649, 2147483649, List.replicate 2147483649 0⟩ 2
      = some (0, ⟨false, false, false, 2, 2, [0, 0]⟩) ∧
    store [0, 0] 2 7 = none ∧
    ¬ u32 (2 + 1) ≤ 2 ∧
    list_append_int generous
      ⟨false, false, false, 2147483649, 2147483649, List.replicate 2147483649 0⟩ 7
      = none ∧
    (Mutator.append 7).run generous
      ⟨false, false, false, 2147483649, 2147483649, List.replicate 2147483649 0⟩
      = none := by
  refine ⟨⟨by decide, List.length_replicate _ _⟩, by decide, by decide, by decide,
    by decide, by decide, by decide, by decide⟩

/-- C3: `capacity >= 1` holds for the list a successful `init_list_int`
returns, and every public mutating call (resize with any `new_size`, shrink,
clear, reset, the growth of append and insert, the shrinking of remove_at and
remove_range, write_arr, append_arr, insert_arr, split, and the others) on a
list with `capacity >= 1` leaves `capacity >= 1`; the list `list_split_int`
returns has `capacity >= 1` too. -/
theorem capacity_at_least_one (m : Allocator) :
    (∀ (init_size : Nat) (list : list_int),
      init_list_int m init_size = some (some list) → 1 ≤ list.capacity) ∧
    (∀ (list : list_int) (op : Mutator) (r : Returned) (list1 : list_int),
      list.in_range → op.typed → 1 ≤ list.capacity →
      op.run m list = some (r, list1) →
      1 ≤ list1.capacity ∧ ∀ s, r = .pointer (some s) → 1 ≤ s.capacity) := by
  constructor
  · intro n l h
    obtain ⟨hn, hi⟩ := init_cases h
    rw [(hi l rfl).2.1]
    exact hn
  · intro list op r list1 hr ht hcap h
    obtain ⟨hk, -, hp⟩ := run_safe hr ht h
    exact ⟨hk.2 hcap, fun s hs => (hp s hs).2⟩

/-- C3 at `list_resize_int(list, 0)`. -/
theorem capacity_at_least_one_witness :
    1 ≤ (⟨false, false, false, 0, 1, [5]⟩ : list_int).capacity ∧
      ∀ s, Returned.code 0 = .pointer (some s) → 1 ≤ s.capacity :=
  (capacity_at_least_one generous).2 ⟨false, false, false, 2, 2, [5, 6]⟩ (.resize 0) (.code 0)
    ⟨false, false, false, 0, 1, [5]⟩ (by decide) (by decide) (by decide) (by decide)

/-- Calls on a readonly list that change nothing: for every list with
`readonly` set (any `frozen` and `static_`) and every public mutating call with
arguments of their C types, when the checks the call makes before its
mutability checks pass, the call returns -3 (`NULL` for split) and leaves the
list unchanged; and every call other than `list_clear_int` on a frozen list
returns and leaves the list unchanged. -/
theorem readonly_refuses (m : Allocator) (list : list_int) (op : Mutator)
    (hro : list.readonly = true) (hr : list.in_range) (ht : op.typed) :
    (op.passes_checks list → op.run m list = some (op.mutability_error, list)) ∧
    ((op = .clear → list.frozen = false) → ∃ r, op.run m list = some (r, list)) :=
  run_readonly op hro hr ht

/-- An append to a readonly list is refused with -3. -/
theorem readonly_refuses_witness :
    (Mutator.append 7).run generous ⟨false, true, false, 2, 4, [5, 6, 0, 0]⟩
      = some (.code (-3), ⟨false, true, false, 2, 4, [5, 6, 0, 0]⟩) :=
  (readonly_refuses generous ⟨false, true, false, 2, 4, [5, 6, 0, 0]⟩ (.append 7) rfl
    (by decide) trivial).1 trivial

/-- The parameter checks come before the test of `readonly`: on a readonly list
`list_set_int` with an index out of bounds returns -1 and `list_pop_back_int`
on an empty list returns 0, both without a change. -/
theorem readonly_after_parameter_checks :
    (Mutator.set 5 9).run generous ⟨false, true, false, 2, 2, [5, 6]⟩
      = some (.code (-1), ⟨false, true, false, 2, 2, [5, 6]⟩) ∧
    Mutator.pop_back.run generous ⟨false, true, false, 0, 2, [5, 6]⟩
      = some (.code 0, ⟨false, true, false, 0, 2, [5, 6]⟩) := by
  refine ⟨?_, ?_⟩ <;> decide

/-- C7 fails on the code for `list_clear_int` on a frozen list. For every list
with `readonly` set: (1) every public mutating call with arguments of their C
types whose earlier checks pass (for `list_clear_int`: the list is not frozen)
returns the mutability error, -3 or `NULL` for split, and leaves the list
unchanged; (2) when the list is frozen as well, `list_clear_int` returns 0 and
sets the size to 0, because it tests `frozen` before `readonly`. -/
theorem clear_int_frozen_readonly (m : Allocator) (list : list_int)
    (hro : list.readonly = true) (hr : list.in_range) :
    (∀ op : Mutator, op.typed → op.passes_checks list →
      op.run m list = some (op.mutability_error, list)) ∧
    (list.frozen = true →
      list_clear_int m list = some (0, { list with size := 0 }) ∧
      Mutator.clear.run m list = some (.code 0, { list with size := 0 })) := by
  refine ⟨fun op ht hp => (run_readonly op hro hr ht).1 hp, fun hfz => ?_⟩
  have hc : list_clear_int m list = some (0, { list with size := 0 }) := by
    unfold list_clear_int
    simp only [bind, pure, Option.some_bind]
    rw [if_pos hfz]
  refine ⟨hc, ?_⟩
  unfold Mutator.run
  rw [hc]
  rfl

/-- C7 at the frozen readonly list `[5, 6]`: `list_append_int` is refused with
-3, and `list_clear_int` returns 0 and leaves the list empty. -/
theorem clear_int_frozen_readonly_witness :
    (Mutator.append 7).run generous ⟨true, true, false, 2, 2, [5, 6]⟩
      = some (.code (-3), ⟨true, true, false, 2, 2, [5, 6]⟩) ∧
    list_clear_int generous ⟨true, true, false, 2, 2, [5, 6]⟩
      = some (0, ⟨true, true, false, 0, 2, [5, 6]⟩) ∧
    Mutator.clear.run generous ⟨true, true, false, 2, 2, [5, 6]⟩
      = some (.code 0, ⟨true, true, false, 0, 2, [5, 6]⟩) :=
  have t := clear_int_frozen_readonly generous ⟨true, true, false, 2, 2, [5, 6]⟩ rfl
    (by decide)
  ⟨t.1 (.append 7) trivial trivial, t.2 rfl⟩

theorem load_eq {d : List Int} {i : Nat} (h : i < d.length) : load d i = some d[i] := by
  unfold load
  exact List.getElem?_eq_getElem h

theorem store_eq {d : List Int} {i : Nat} (v : Int) (h : i < d.length) :
    store d i v = some (d.set i v) := by
  unfold store
  rw [if_pos h]

/-- The left shift by `diff` of the `n` slots from `start` on: it runs to its
end when every slot read lies inside the block, and then slot `j` of the shifted
range holds what slot `j + diff` held. -/
theorem remove_shift_spec (diff : Nat) :
    ∀ (n start : Nat) (d : List Int),
      (n = 0 ∨ start + n + diff ≤ d.length) → start + n + diff ≤ 4294967296 →
      ∃ d1, remove_shift diff start n d = some d1 ∧ d1.length = d.length ∧
        ∀ j, d1[j]? = if start ≤ j ∧ j < start + n then d[j + diff]? else d[j]? := by
  intro n
  induction n with
  | zero =>
    intro start d _ _
    refine ⟨d, ?_, rfl, ?_⟩
    · unfold remove_shift; rw [loop_up]
    · intro j
      rw [if_neg (by omega)]
  | succ n ih =>
    intro start d hb hw
    have hb' : start + (n + 1) + diff ≤ d.length := by omega
    have h1 : start + diff < d.length := by omega
    have h2 : start < d.length := by omega
    have hu : u32 (start + diff) = start + diff := by unfold u32; omega
    obtain ⟨d1, hd1, hlen, hspec⟩ := ih (start + 1) (d.set start d[start + diff])
      (Or.inr (by rw [List.length_set]; omega)) (by omega)
    refine ⟨d1, ?_, ?_, ?_⟩
    · unfold remove_shift at hd1 ⊢
      rw [loop_up]
      simp only [bind, pure, Option.some_bind, hu, load_eq h1, store_eq _ h2]
      exact hd1
    · rw [hlen, List.length_set]
    · intro j
      rw [hspec j]
      by_cases hj : start + 1 ≤ j ∧ j < start + 1 + n
      · rw [if_pos hj, if_pos (by omega), List.getElem?_set_ne (by omega)]
      · rw [if_neg hj]
        by_cases hjs : j = start
        · subst hjs
          rw [if_pos (by omega), List.getElem?_set_self h2, List.getElem?_eq_getElem h1]
        · rw [if_neg (by omega), List.getElem?_set_ne (by omega)]

/-- The right shift by one of the `n` slots from `index` on: it runs to its end
exactly when the slot after the last one shifted lies inside the block, and then
slot `j` of the shifted range holds what slot `j - 1` held. -/
theorem insert_shift_spec (index : Nat) :
    ∀ (n : Nat) (d : List Int), (n = 0 ∨ index + n < d.length) →
      ∃ d1, insert_shift index n d = some d1 ∧ d1.length = d.length ∧
        ∀ j, d1[j]? = if index < j ∧ j ≤ index + n then d[j - 1]? else d[j]? := by
  intro n
  induction n with
  | zero =>
    intro d _
    refine ⟨d, ?_, rfl, ?_⟩
    · unfold insert_shift; rw [loop_down]
    · intro j
      rw [if_neg (by omega)]
  | succ n ih =>
    intro d hb
    have h1 : index + n + 1 < d.length := by omega
    have h2 : index + n < d.length := by omega
    obtain ⟨d1, hd1, hlen, hspec⟩ := ih (d.set (index + n + 1) d[index + n])
      (Or.inr (by rw [List.length_set]; omega))
    refine ⟨d1, ?_, ?_, ?_⟩
    · unfold insert_shift at hd1 ⊢
      rw [loop_down]
      simp only [bind, pure, Option.some_bind, load_eq h2, store_eq _ h1]
      exact hd1
    · rw [hlen, List.length_set]
    · intro j
      rw [hspec j]
      by_cases hj : index < j ∧ j ≤ index + n
      · rw [if_pos hj, if_pos (by omega), List.getElem?_set_ne (by omega)]
      · rw [if_neg hj]
        by_cases hjs : j = index + n + 1
        · subst hjs
          rw [if_pos (by omega), List.getElem?_set_self h1]
          show some d[index + n] = d[index + n + 1 - 1]?
          rw [Nat.add_sub_cancel, List.getElem?_eq_getElem h2]
        · rw [if_neg (by omega), List.getElem?_set_ne (by omega)]

/-- When the right shift of at least one slot runs to its end, the slot after
the last one shifted lies inside the block. -/
theorem insert_shift_bound {index n : Nat} {d d1 : List Int}
    (h : insert_shift index (n + 1) d = some d1) : index + n + 1 < d.length := by
  unfold insert_shift at h
  rw [loop_down, Option.bind_eq_some] at h
  obtain ⟨d2, h1, -⟩ := h
  simp only [bind, Option.bind_eq_some] at h1
  obtain ⟨x, -, hs⟩ := h1
  exact (store_some hs).1

/-! ## Removing one element or a range -/

/-- A block whose slots from `start` on hold what was `stop - start` slots
further right reads, up to the new size, as the old live sequence without the
range from `start` to `stop`. -/
theorem take_shift_eq {d d1 : List Int} {start stop size : Nat}
    (h1 : start ≤ stop) (h2 : stop ≤ size) (hsz : size ≤ d.length)
    (hspec : ∀ j, d1[j]? =
      if start ≤ j ∧ j < start + (size - (stop - start) - start)
      then d[j + (stop - start)]? else d[j]?) :
    d1.take (size - (stop - start)) = (d.take size).take start ++ (d.take size).drop stop := by
  apply List.ext_getElem?
  intro j
  have hl : (List.take start (List.take size d)).length = start := by
    simp only [List.length_take]; omega
  rw [List.getElem?_append, hl, List.getElem?_take, hspec j]
  by_cases hj1 : j < start
  · rw [if_pos (by omega), if_neg (by omega), if_pos hj1, List.getElem?_take,
      if_pos hj1, List.getElem?_take, if_pos (by omega)]
  · rw [if_neg hj1, List.getElem?_drop]
    by_cases hj2 : j < size - (stop - start)
    · rw [if_pos hj2, if_pos (by omega), List.getElem?_take, if_pos (by omega)]
      congr 1
      omega
    · rw [if_neg hj2, List.getElem?_take, if_neg (by omega)]

/-- `list_remove_at_int` on a writable list, for an index inside the list. -/
theorem remove_at_erases {m : Allocator} {list : list_int} {index : Nat}
    (hidx : index < list.size)
    (hro : list.readonly = false) (hst : list.static_ = false)
    (hal : list.allocated) (hle : list.size ≤ list.capacity) :
    ∃ r list1, list_remove_at_int m list index = some (r, list1) ∧
      (r = 0 ∨ (r = -2 ∧ m.grants (list.capacity / 2) = false)) ∧
      list1.size = list.size - 1 ∧
      list1.live = list.live.eraseIdx index ∧
      list1.frozen = list.frozen ∧ list1.readonly = false ∧ list1.static_ = false ∧
      list1.allocated ∧ list1.size ≤ list1.capacity ∧
      (r = 0 → list1.capacity =
        if list.size - 1 < list.capacity / 4 ∧ list.frozen = false
        then list.capacity / 2 else list.capacity) ∧
      (r = -2 → list1.capacity = list.capacity) := by
  obtain ⟨⟨hr1, hr2⟩, hlen⟩ := hal
  unfold UINT_MAX at hr1 hr2
  have hus : usub list.size 1 = list.size - 1 := by unfold usub; omega
  obtain ⟨d1, hd1, hlen1, hspec⟩ := remove_shift_spec 1 (list.size - 1 - index) index list.data
    (Or.inr (by omega)) (by omega)
  have hlive : ∀ (l : list_int), l.data.take (list.size - 1) = d1.take (list.size - 1) →
      l.size = list.size - 1 → l.live = list.live.eraseIdx index := by
    intro l hd hs
    show l.data.take l.size = (list.data.take list.size).eraseIdx index
    rw [hs, hd, List.eraseIdx_eq_take_drop_succ]
    have := @take_shift_eq list.data d1 index (index + 1) list.size (by omega) (by omega) (by omega)
      (by intro j; rw [hspec j]; simp only [Nat.add_sub_cancel_left])
    simpa only [Nat.add_sub_cancel_left] using this
  unfold list_remove_at_int
  have h0 : ¬ index ≥ list.size := by omega
  have hro' : ¬ list.readonly = true := by simp [hro]
  have hst' : ¬ list.static_ = true := by simp [hst]
  simp only [bind, pure, Option.some_bind]
  rw [if_neg h0, if_neg hro', if_neg hst']
  simp only [hus, hd1, Option.some_bind]
  by_cases hq : list.size - 1 < list.capacity / 4
  · rw [if_pos hq]
    by_cases hfz : list.frozen = true
    · rw [if_pos hfz]
      refine ⟨0, { list with data := d1, size := list.size - 1 }, rfl, Or.inl rfl, rfl,
        hlive _ rfl rfl, rfl, hro, hst, ⟨⟨?_, ?_⟩, ?_⟩, ?_, ?_, ?_⟩
      · show list.size - 1 ≤ UINT_MAX
        unfold UINT_MAX; omega
      · show list.capacity ≤ UINT_MAX
        unfold UINT_MAX; omega
      · show d1.length = list.capacity
        omega
      · show list.size - 1 ≤ list.capacity
        omega
      · intro _
        rw [if_neg (by rw [hfz]; simp)]
      · intro _; rfl
    · rw [if_neg hfz]
      obtain ⟨state, l, hres⟩ := resize_returns m
        { list with data := d1, size := list.size - 1 } (list.capacity / 2)
      rw [hres]
      simp only [Option.some_bind]
      have hmax : max (list.capacity / 2) 1 = list.capacity / 2 := by omega
      rcases resize_cases hres with ⟨-, -, hx⟩ | ⟨hs, hl, -, -, hre⟩ |
        ⟨hs, -, -, hc, hsz, hl, hf, hro1, hst1, hre⟩
      · simp only at hx
        rw [hro, hst] at hx
        simp at hx
      · subst hl
        rw [if_pos hs]
        have hg : m.grants (list.capacity / 2) = false := by
          simp only [hmax] at hre
          unfold realloc_ints at hre
          by_cases hgr : m.grants (list.capacity / 2) = true
          · rw [if_pos hgr] at hre; cases hre
          · simpa using hgr
        refine ⟨-2, { list with data := d1, size := list.size - 1 }, rfl,
          Or.inr ⟨rfl, hg⟩, rfl, hlive _ rfl rfl, rfl, hro, hst, ⟨⟨?_, ?_⟩, ?_⟩, ?_, ?_, ?_⟩
        · show list.size - 1 ≤ UINT_MAX
          unfold UINT_MAX; omega
        · show list.capacity ≤ UINT_MAX
          unfold UINT_MAX; omega
        · show d1.length = list.capacity
          omega
        · show list.size - 1 ≤ list.capacity
          omega
        · intro h; omega
        · intro _; rfl
      · rw [if_neg (by omega)]
        simp only at hsz hre hc hf
        rw [hmax] at hc hre
        have hsz' : l.size = list.size - 1 := by omega
        refine ⟨0, l, rfl, Or.inl rfl, hsz', hlive _ ?_ hsz', hf, hro1, hst1,
          ⟨⟨?_, ?_⟩, hl⟩, ?_, ?_, ?_⟩
        · exact realloc_ints_take hre (by omega) (by omega)
        · unfold UINT_MAX; omega
        · unfold UINT_MAX; omega
        · omega
        · intro _
          rw [if_pos ⟨hq, by simpa using hfz⟩, hc]
        · intro h; omega
  · rw [if_neg hq]
    refine ⟨0, { list with data := d1, size := list.size - 1 }, rfl, Or.inl rfl, rfl,
      hlive _ rfl rfl, rfl, hro, hst, ⟨⟨?_, ?_⟩, ?_⟩, ?_, ?_, ?_⟩
    · show list.size - 1 ≤ UINT_MAX
      unfold UINT_MAX; omega
    · show list.capacity ≤ UINT_MAX
      unfold UINT_MAX; omega
    · show d1.length = list.capacity
      omega
    · show list.size - 1 ≤ list.capacity
      omega
    · intro _
      rw [if_neg (fun h => hq h.1)]
    · intro _; rfl

/-- The shrinking loop of `list_remove_range_int` ends within `capacity` rounds
and keeps the size and the live sequence. -/
theorem remove_range_shrink_total (m : Allocator) :
    ∀ (fuel : Nat) (list : list_int), list.capacity ≤ fuel →
      list.readonly = false → list.static_ = false → list.allocated →
      list.size ≤ list.capacity →
      ∃ r list1, remove_range_shrink m fuel list 0 = some (r, list1) ∧ (r = 0 ∨ r = -2) ∧
        list1.size = list.size ∧ list1.live = list.live ∧
        list1.capacity ≤ list.capacity ∧
        (list.frozen = true → list1.capacity = list.capacity) := by
  intro fuel
  induction fuel with
  | zero =>
    intro list hf _ _ _ _
    rw [remove_range_shrink, if_neg (by omega)]
    exact ⟨0, list, rfl, Or.inl rfl, rfl, rfl, le_refl _, fun _ => rfl⟩
  | succ fuel ih =>
    intro list hf hro hst hal hle
    rw [remove_range_shrink]
    by_cases hc : list.size < list.capacity / 4 ∧ list.capacity / 2 > 1
    · rw [if_pos hc]
      by_cases hfz : list.frozen = true
      · rw [if_pos hfz]
        exact ⟨0, list, rfl, Or.inl rfl, rfl, rfl, le_refl _, fun _ => rfl⟩
      · rw [if_neg hfz]
        obtain ⟨⟨hr1, hr2⟩, hlen⟩ := hal
        unfold UINT_MAX at hr1 hr2
        obtain ⟨state, l, hres⟩ := resize_returns m list (list.capacity / 2)
        rw [hres]
        simp only [bind, Option.some_bind]
        have hmax : max (list.capacity / 2) 1 = list.capacity / 2 := by omega
        rcases resize_cases hres with ⟨-, -, hx⟩ | ⟨hs, hl, -⟩ |
          ⟨hs, -, -, hcap, hsz, hl, hf1, hro1, hst1, hre⟩
        · rw [hro, hst] at hx
          simp at hx
        · subst hl
          subst hs
          rw [if_pos (by decide)]
          exact ⟨-2, l, rfl, Or.inr rfl, rfl, rfl, le_refl _, fun _ => rfl⟩
        · subst hs
          rw [if_neg (by decide)]
          rw [hmax] at hcap hre
          have hsz' : l.size = list.size := by omega
          obtain ⟨r, list1, hrun, hr, hs1, hlv1, hc1, -⟩ := ih l (by omega) hro1 hst1
            ⟨⟨by unfold UINT_MAX; omega, by unfold UINT_MAX; omega⟩, hl⟩ (by omega)
          refine ⟨r, list1, hrun, hr, by omega, ?_, by omega, fun h => absurd h hfz⟩
          rw [hlv1]
          show l.data.take l.size = list.data.take list.size
          rw [hsz']
          exact realloc_ints_take hre (by omega) (by omega)
    · rw [if_neg hc]
      exact ⟨0, list, rfl, Or.inl rfl, rfl, rfl, le_refl _, fun _ => rfl⟩

/-- `list_remove_range_int` on a writable list, for a range inside the list. -/
theorem remove_range_erases {m : Allocator} {list : list_int} {start_index end_index : Nat}
    (hse : start_index < end_index) (hend : end_index < list.size)
    (hro : list.readonly = false) (hst : list.static_ = false)
    (hal : list.allocated) (hle : list.size ≤ list.capacity) :
    ∃ r list1, list_remove_range_int m list start_index end_index = some (r, list1) ∧
      (r = 0 ∨ r = -2) ∧
      list1.size = list.size - (end_index - start_index) ∧
      list1.live = list.live.take start_index ++ list.live.drop end_index ∧
      list1.capacity ≤ list.capacity := by
  obtain ⟨⟨hr1, hr2⟩, hlen⟩ := hal
  unfold UINT_MAX at hr1 hr2
  have hdiff : usub end_index start_index = end_index - start_index := by unfold usub; omega
  have hus : usub list.size (end_index - start_index) = list.size - (end_index - start_index) := by
    unfold usub; omega
  obtain ⟨d1, hd1, hlen1, hspec⟩ := remove_shift_spec (end_index - start_index)
    (list.size - (end_index - start_index) - start_index) start_index list.data
    (Or.inr (by omega)) (by omega)
  have hlive : d1.take (list.size - (end_index - start_index)) =
      list.live.take start_index ++ list.live.drop end_index :=
    take_shift_eq (by omega) (by omega) (by omega) hspec
  unfold list_remove_range_int
  have h0 : ¬ end_index ≥ list.size := by omega
  have h1 : ¬ start_index ≥ end_index := by omega
  have hro' : ¬ list.readonly = true := by simp [hro]
  have hst' : ¬ list.static_ = true := by simp [hst]
  simp only [bind, pure, Option.some_bind]
  rw [if_neg h0, if_neg h1, if_neg hro', if_neg hst']
  simp only [hdiff, hus, hd1, Option.some_bind]
  obtain ⟨r, list1, hrun, hr, hs1, hlv1, hc1, -⟩ := remove_range_shrink_total m list.capacity
    { list with data := d1, size := list.size - (end_index - start_index) }
    (le_refl _) hro hst
    ⟨⟨by show list.size - (end_index - start_index) ≤ UINT_MAX; unfold UINT_MAX; omega,
      by show list.capacity ≤ UINT_MAX; unfold UINT_MAX; omega⟩,
      by show d1.length = list.capacity; omega⟩
    (by show list.size - (end_index - start_index) ≤ list.capacity; omega)
  exact ⟨r, list1, hrun, hr, hs1, by rw [hlv1]; exact hlive, hc1⟩

/-! ## Removing every occurrence -/

/-- A block whose slots after `index` hold what was one slot further left, with
`v` stored at `index`, reads up to the new size as the old live sequence with
`v` put in at `index`. -/
theorem take_insert_eq {d d1 : List Int} {index size : Nat} (v : Int)
    (hidx : index ≤ size) (hsz : size < d.length) (hlen : d1.length = d.length)
    (hspec : ∀ j, d1[j]? =
      if index < j ∧ j ≤ index + (size + 1 - index) then d[j - 1]? else d[j]?) :
    (d1.set index v).take (size + 1) =
      (d.take size).take index ++ [v] ++ (d.take size).drop index := by
  apply List.ext_getElem?
  intro j
  have hl : (List.take index (List.take size d) ++ [v]).length = index + 1 := by
    simp only [List.length_append, List.length_take, List.length_singleton]; omega
  have hl0 : (List.take index (List.take size d)).length = index := by
    simp only [List.length_take]; omega
  rw [List.getElem?_append, hl, List.getElem?_take, List.getElem?_set]
  by_cases hj1 : j < index
  · rw [if_pos (show j < size + 1 by omega), if_neg (show ¬ index = j by omega), hspec j,
      if_neg (show ¬ (index < j ∧ j ≤ index + (size + 1 - index)) by omega),
      if_pos (show j < index + 1 by omega),
      List.getElem?_append, hl0, if_pos hj1, List.getElem?_take, if_pos hj1,
      List.getElem?_take, if_pos (show j < size by omega)]
  · by_cases hj2 : j = index
    · subst hj2
      rw [if_pos (show j < size + 1 by omega), if_pos rfl,
        if_pos (show j < d1.length by omega), if_pos (show j < j + 1 by omega),
        List.getElem?_append, hl0, if_neg (show ¬ j < j by omega), Nat.sub_self]
      rfl
    · rw [if_neg (show ¬ j < index + 1 by omega), List.getElem?_drop]
      by_cases hj3 : j < size + 1
      · rw [if_pos hj3, if_neg (show ¬ index = j by omega), hspec j,
          if_pos (show index < j ∧ j ≤ index + (size + 1 - index) by omega),
          List.getElem?_take, if_pos (show index + (j - (index + 1)) < size by omega)]
        congr 1
        omega
      · rw [if_neg hj3, List.getElem?_take,
          if_neg (show ¬ index + (j - (index + 1)) < size by omega)]

/-- The part of `list_insert_int` after the growth step, on a list with
`size < UINT_MAX`: the shift and the store succeed exactly when slot `size + 1`
lies inside the block, and then they put `value` in at `index`. -/
theorem insert_tail {l : list_int} {index : Nat} (value : Int)
    (hidx : index ≤ l.size) (hs : l.size < 4294967295) :
    (l.size + 1 < l.data.length →
      ∃ d1 d2, insert_shift index (usub (u32 (l.size + 1)) 1 + 1 - index) l.data = some d1 ∧
        store d1 index value = some d2 ∧ d2.length = l.data.length ∧
        d2.take (l.size + 1) =
          (l.data.take l.size).take index ++ [value] ++ (l.data.take l.size).drop index) ∧
    (∀ d1, insert_shift index (usub (u32 (l.size + 1)) 1 + 1 - index) l.data = some d1 →
      l.size + 1 < l.data.length) := by
  have hu : u32 (l.size + 1) = l.size + 1 := by unfold u32; omega
  have hus : usub (l.size + 1) 1 = l.size := by unfold usub; omega
  rw [hu, hus]
  constructor
  · intro hroom
    obtain ⟨d1, hd1, hlen, hspec⟩ := insert_shift_spec index (l.size + 1 - index) l.data
      (Or.inr (by omega))
    refine ⟨d1, d1.set index value, hd1, store_eq _ (by omega), ?_, ?_⟩
    · rw [List.length_set, hlen]
    · exact take_insert_eq value hidx (by omega) hlen hspec
  · intro d1 hd1
    have hn : l.size + 1 - index = (l.size - index) + 1 := by omega
    rw [hn] at hd1
    have := insert_shift_bound hd1
    omega

/-- The shift and store of `list_insert_int` as they follow the growth step:
when they run to their end `value` is put in at `index`, and they run to their
end when slot `size + 1` lies inside the block. -/
theorem insert_tail_run {l : list_int} {index : Nat} (value : Int)
    (hidx : index ≤ l.size) (hs : l.size < 4294967295) :
    (∀ list1 : list_int,
      ((insert_shift index (usub (u32 (l.size + 1)) 1 + 1 - index) l.data).bind fun a =>
        (store a index value).bind fun a =>
          some ((0 : Int), { l with size := u32 (l.size + 1), data := a })) = some (0, list1) →
      l.size + 1 < l.data.length ∧
      list1.live = l.live.take index ++ [value] ++ l.live.drop index ∧
      list1.size = l.size + 1 ∧ list1.capacity = l.capacity) ∧
    (l.size + 1 < l.data.length →
      ∃ list1 : list_int,
        ((insert_shift index (usub (u32 (l.size + 1)) 1 + 1 - index) l.data).bind fun a =>
          (store a index value).bind fun a =>
            some ((0 : Int), { l with size := u32 (l.size + 1), data := a })) =
          some (0, list1)) := by
  obtain ⟨htot, hbound⟩ := insert_tail (l := l) value hidx hs
  have hu : u32 (l.size + 1) = l.size + 1 := by unfold u32; omega
  constructor
  · intro list1 h
    rw [Option.bind_eq_some] at h
    obtain ⟨d1, hd1, h⟩ := h
    rw [Option.bind_eq_some] at h
    obtain ⟨d2, hd2, h⟩ := h
    have hroom := hbound d1 hd1
    obtain ⟨e1, e2, he1, he2, -, htake⟩ := htot hroom
    rw [hd1] at he1
    cases he1
    rw [hd2] at he2
    cases he2
    simp only [Option.some.injEq, Prod.mk.injEq, true_and] at h
    subst h
    refine ⟨hroom, ?_, hu, rfl⟩
    show d2.take (u32 (l.size + 1)) = _
    rw [hu, htake]
    rfl
  · intro hroom
    obtain ⟨d1, d2, hd1, hd2, -, -⟩ := htot hroom
    rw [hd1]
    simp only [Option.some_bind]
    rw [hd2]
    simp only [Option.some_bind]
    exact ⟨_, rfl⟩

/-- `list_insert_int` on a writable list that is not both frozen and full:
what a call that returns 0 leaves, and when the call returns 0. -/
theorem insert_adds {m : Allocator} {list : list_int} {index : Nat} (value : Int)
    (hidx : index ≤ list.size)
    (hro : list.readonly = false) (hst : list.static_ = false)
    (hal : list.allocated) (hle : list.size ≤ list.capacity)
    (hnf : ¬ (list.frozen = true ∧ list.size = list.capacity)) :
    (∀ list1, list_insert_int m list index value = some (0, list1) →
      list1.live = list.live.take index ++ [value] ++ list.live.drop index ∧
      list1.size = list.size + 1 ∧ list.size + 1 < list1.capacity) ∧
    ((list.size + 1 < list.capacity ∨
      (list.size = list.capacity ∧ 2 ≤ list.capacity ∧ list.capacity * 2 ≤ UINT_MAX ∧
        m.grants (list.capacity * 2) = true)) →
      ∃ list1, list_insert_int m list index value = some (0, list1)) := by
  obtain ⟨⟨hr1, hr2⟩, hlen⟩ := hal
  unfold UINT_MAX at hr1 hr2
  have h0 : ¬ index > list.size := by omega
  have hro' : ¬ list.readonly = true := by simp [hro]
  have hst' : ¬ list.static_ = true := by simp [hst]
  unfold list_insert_int
  simp only [bind, pure, Option.some_bind]
  rw [if_neg h0, if_neg hro', if_neg hst']
  by_cases hfull : list.size ≥ list.capacity
  · have heq : list.size = list.capacity := by omega
    have hfz : ¬ list.frozen = true := fun hf => hnf ⟨hf, heq⟩
    rw [if_pos hfull, if_neg hfz]
    by_cases hmax : list.size = UINT_MAX
    · rw [if_pos hmax]
      constructor
      · intro list1 h
        simp only [Option.some.injEq, Prod.mk.injEq] at h
        omega
      · rintro (h | ⟨-, -, h, -⟩)
        · omega
        · unfold UINT_MAX at hmax h; omega
    rw [if_neg hmax]
    unfold UINT_MAX at hmax
    obtain ⟨state, l, hres⟩ := resize_returns m list (u32 (list.capacity * 2))
    rw [hres]
    simp only [Option.some_bind]
    rcases resize_cases hres with ⟨-, -, hx⟩ | ⟨hs, hl, -, -, hre⟩ |
      ⟨hs, -, -, hcap, hsz, hl, -, -, -, hre⟩
    · rw [hro, hst] at hx
      simp at hx
    · subst hs
      rw [if_pos rfl]
      constructor
      · intro list1 h
        simp only [Option.some.injEq, Prod.mk.injEq] at h
        omega
      · rintro (h | ⟨-, h2, h3, hg⟩)
        · omega
        · unfold UINT_MAX at h3
          have hu : u32 (list.capacity * 2) = list.capacity * 2 := by unfold u32; omega
          rw [hu, Nat.max_eq_left (by omega)] at hre
          unfold realloc_ints at hre
          rw [if_pos hg] at hre
          cases hre
    · subst hs
      rw [if_neg (by decide)]
      by_cases hw : list.capacity * 2 ≤ 4294967295
      · have hu : u32 (list.capacity * 2) = list.capacity * 2 := by unfold u32; omega
        rw [hu] at hcap hsz hre
        have hsz' : l.size = list.size := by omega
        obtain ⟨hA, hB⟩ := @insert_tail_run l index value (by omega) (by omega)
        constructor
        · intro list1 h
          obtain ⟨hroom, hlv, hs1, hc1⟩ := hA list1 h
          refine ⟨?_, by omega, by omega⟩
          rw [hlv]
          have hlive : l.live = list.live := by
            show l.data.take l.size = list.data.take list.size
            rw [hsz']
            exact realloc_ints_take hre (by omega) (by omega)
          rw [hlive]
        · rintro (h | ⟨-, h2, -, -⟩)
          · omega
          · exact hB (by omega)
      · have hu : u32 (list.capacity * 2) = list.capacity * 2 - 4294967296 := by
          unfold u32; omega
        rw [hu] at hcap hsz
        constructor
        · intro list1 h
          exfalso
          by_cases hi : index ≤ l.size
          · obtain ⟨hroom, -⟩ := (insert_tail_run (l := l) value hi (by omega)).1 list1 h
            omega
          · rw [Option.bind_eq_some] at h
            obtain ⟨d1, hd1, h⟩ := h
            rw [Option.bind_eq_some] at h
            obtain ⟨d2, hd2, -⟩ := h
            have hi2 := (store_some hd2).1
            have hl1 := insert_shift_length hd1
            omega
        · rintro (h | ⟨-, -, h3, -⟩)
          · omega
          · unfold UINT_MAX at h3; omega
  · rw [if_neg hfull]
    obtain ⟨hA, hB⟩ := @insert_tail_run list index value hidx (by omega)
    constructor
    · intro list1 h
      obtain ⟨hroom, hlv, hs1, hc1⟩ := hA list1 h
      exact ⟨hlv, hs1, by omega⟩
    · rintro (h | ⟨h1, -⟩)
      · exact hB (by omega)
      · omega

/-! ## Splitting -/

/-- The copy loop of `list_split_int`: `n` values from position `i` of the
original are appended to the new list. -/
theorem split_copy_spec (list : list_int) :
    ∀ (n i : Nat) (s : list_int), i + n ≤ list.data.length → s.size + n ≤ s.data.length →
      s.size + n ≤ 4294967295 →
      ∃ s1, loop_up (fun i (split : list_int) =>
          (load list.data i).bind fun x =>
            (store split.data split.size x).bind fun d =>
              some { split with data := d, size := u32 (split.size + 1) }) i n s = some s1 ∧
        s1.size = s.size + n ∧ s1.capacity = s.capacity ∧ s1.data.length = s.data.length ∧
        s1.frozen = s.frozen ∧ s1.readonly = s.readonly ∧ s1.static_ = s.static_ ∧
        s1.data.take (s.size + n) = s.data.take s.size ++ (list.data.drop i).take n := by
  intro n
  induction n with
  | zero =>
    intro i s _ _ _
    refine ⟨s, ?_, rfl, rfl, rfl, rfl, rfl, rfl, ?_⟩
    · rw [loop_up]
    · simp
  | succ n ih =>
    intro i s h1 h2 h3
    have hi : i < list.data.length := by omega
    have hs : s.size < s.data.length := by omega
    have hu : u32 (s.size + 1) = s.size + 1 := by unfold u32; omega
    obtain ⟨s1, hrun, hsz, hcap, hlen, hf, hr, hst, htake⟩ :=
      ih (i + 1) { s with data := s.data.set s.size list.data[i], size := s.size + 1 }
        (by omega) (by simp only [List.length_set]; omega) (by simp only; omega)
    refine ⟨s1, ?_, ?_, hcap, ?_, hf, hr, hst, ?_⟩
    · rw [loop_up]
      simp only [load_eq hi, store_eq _ hs, Option.some_bind, hu]
      exact hrun
    · rw [hsz]; simp only; omega
    · rw [hlen]; simp only [List.length_set]
    · simp only at htake
      have e : s.size + (n + 1) = s.size + 1 + n := by omega
      rw [e, htake, take_succ_set _ hs, List.drop_eq_getElem_cons hi, List.take_succ_cons]
      simp

/-- `init_list_int` when both requests are granted. -/
theorem init_granted {m : Allocator} {n : Nat} (hn : 0 < n)
    (hs : m.grants_struct = true) (hg : m.grants n = true) :
    init_list_int m n = some (some
      { frozen := m.junk_frozen, readonly := m.junk_readonly, static_ := m.junk_static,
        size := 0, capacity := n, data := (List.range n).map m.junk }) := by
  unfold init_list_int malloc_ints
  rw [if_neg (by omega), if_neg (by simp [hs]), if_pos hg]

/-- `list_split_int` at an explicit index inside a writable list, when the new
list is granted: the new list receives the elements from `index` on; the
original is cut at `index` when it is frozen or when the reallocation to
`index` slots is granted, and is left as it was when that reallocation is
refused. -/
theorem split_at_index {m : Allocator} {list : list_int} {index : Nat}
    (hpos : 0 < index) (hidx : index < list.size)
    (hro : list.readonly = false) (hst : list.static_ = false)
    (hal : list.allocated) (hle : list.size ≤ list.capacity)
    (hgs : m.grants_struct = true) (hg : m.grants (list.size - index) = true) :
    ∃ split list1, list_split_int m list (index : Int) = some (some split, list1) ∧
      split.live = list.live.drop index ∧ split.size = list.size - index ∧
      split.capacity = list.size - index ∧
      (list.frozen = true →
        list1.live = list.live.take index ∧ list1.size = index ∧
        list1.capacity = list.capacity) ∧
      (list.frozen = false → m.grants index = true →
        list1.live = list.live.take index ∧ list1.size = index ∧ list1.capacity = index) ∧
      (list.frozen = false → m.grants index = false → list1 = list) := by
  obtain ⟨⟨hr1, hr2⟩, hlen⟩ := hal
  unfold UINT_MAX at hr1 hr2
  have hconv : int_to_u32 (index : Int) = index := by
    unfold int_to_u32
    omega
  have hro' : ¬ list.readonly = true := by simp [hro]
  have hst' : ¬ list.static_ = true := by simp [hst]
  unfold list_split_int
  simp only [bind, pure, Option.some_bind]
  rw [if_neg (by omega), if_neg (by omega), if_neg (by omega), hconv, if_neg (by omega),
    if_neg hro', if_neg hst', if_neg (by omega)]
  unfold split_at
  have hus : usub list.size index = list.size - index := by unfold usub; omega
  simp only [bind, pure, hus, init_granted (m := m) (n := list.size - index) (by omega) hgs hg,
    Option.some_bind]
  obtain ⟨s1, hrun, hsz, hcap, hlen1, -, -, -, htake⟩ := split_copy_spec list
    (list.size - index) index
    { frozen := m.junk_frozen, readonly := m.junk_readonly, static_ := m.junk_static,
      size := 0, capacity := list.size - index,
      data := (List.range (list.size - index)).map m.junk }
    (by omega) (by simp) (by simp only; omega)
  rw [hrun]
  simp only [Option.some_bind, Nat.zero_add, List.take_zero, List.nil_append] at hsz htake ⊢
  have hsplit : s1.live = list.live.drop index := by
    show s1.data.take s1.size = (list.data.take list.size).drop index
    rw [hsz, htake, List.drop_take]
  have hcut : ∀ l : list_int, l.size = index → l.data.take index = list.data.take index →
      l.live = list.live.take index := by
    intro l h1 h2
    show l.data.take l.size = (list.data.take list.size).take index
    rw [h1, h2, List.take_take, Nat.min_eq_left (by omega)]
  by_cases hfz : list.frozen = true
  · rw [if_pos hfz]
    refine ⟨s1, _, rfl, hsplit, hsz, hcap, fun _ => ⟨hcut _ rfl rfl, rfl, rfl⟩, ?_, ?_⟩
    · intro h; rw [hfz] at h; cases h
    · intro h; rw [hfz] at h; cases h
  · rw [if_neg hfz]
    obtain ⟨state, l, hres⟩ := resize_returns m list index
    rw [hres]
    simp only [Option.some_bind]
    refine ⟨s1, l, rfl, hsplit, hsz, hcap, fun h => absurd h hfz, ?_, ?_⟩
    · intro _ hgi
      rcases resize_cases hres with ⟨-, -, hx⟩ | ⟨-, -, -, -, hre⟩ |
        ⟨-, -, -, hc, hs, -, -, -, -, hre⟩
      · rw [hro, hst] at hx
        simp at hx
      · unfold realloc_ints at hre
        rw [Nat.max_eq_left (by omega), if_pos hgi] at hre
        cases hre
      · rw [Nat.max_eq_left (by omega)] at hc hre
        have hs' : l.size = index := by omega
        exact ⟨hcut l hs' (realloc_ints_take hre (by omega) (by omega)), hs', hc⟩
    · intro _ hgi
      rcases resize_cases hres with ⟨-, hl, -⟩ | ⟨-, hl, -⟩ | ⟨-, -, -, -, -, -, -, -, -, hre⟩
      · exact hl
      · exact hl
      · unfold realloc_ints at hre
        rw [Nat.max_eq_left (by omega), hgi] at hre
        simp at hre

/-- `list_split_int` with index `-1`: the index is compared with the size as
an `unsigned int`, where it is `UINT_MAX`, so the call answers `NULL`. -/
theorem split_auto_null (m : Allocator) {list : list_int} {index : Int} (hi : index = -1)
    (hr : list.in_range) :
    list_split_int m list index = some (none, list) := by
  obtain ⟨hr1, -⟩ := hr
  unfold UINT_MAX at hr1
  have hconv : int_to_u32 index = 4294967295 := by rw [hi]; decide
  unfold list_split_int
  simp only [bind, pure, Option.some_bind]
  rw [hconv]
  by_cases h0 : list.size = 0
  · rw [if_pos h0]
  rw [if_neg h0]
  by_cases h1 : list.size = 1
  · rw [if_pos h1]
  rw [if_neg h1, if_neg (by omega), if_pos (by omega)]

/-! ## Removal, insertion and splitting: the claims -/

/-- C12: for every writable list (allocated, `size ≤ capacity`) and every index
below the size, `list_remove_at_int` returns 0, or -2 when the halving
reallocation is refused. It leaves the old live sequence with the element at
`index` deleted and the size one smaller. A call that returns 0 leaves the
capacity `capacity / 2` exactly when the new size is below `capacity / 4` and
the list is not frozen, and the old capacity otherwise. -/
theorem remove_at_int_removes (m : Allocator) (list : list_int) (index : Nat)
    (hidx : index < list.size)
    (hro : list.readonly = false) (hst : list.static_ = false)
    (hal : list.allocated) (hle : list.size ≤ list.capacity) :
    ∃ r list1, list_remove_at_int m list index = some (r, list1) ∧
      (r = 0 ∨ (r = -2 ∧ m.grants (list.capacity / 2) = false)) ∧
      list1.live = list.live.eraseIdx index ∧ list1.size = list.size - 1 ∧
      (r = 0 → list1.capacity =
        if list.size - 1 < list.capacity / 4 ∧ list.frozen = false
        then list.capacity / 2 else list.capacity) := by
  obtain ⟨r, list1, hrun, hr, hsz, hlv, -, -, -, -, -, hc, -⟩ :=
    remove_at_erases (m := m) hidx hro hst hal hle
  exact ⟨r, list1, hrun, hr, hlv, hsz, hc⟩

/-- C12 at the list `[1, 2, 3, 4]` of capacity 16, index 1. -/
theorem remove_at_int_removes_witness :
    ∃ r list1, list_remove_at_int generous
        ⟨false, false, false, 4, 16, [1, 2, 3, 4, 0, 0, 0, 0, 0, 0, 0, 0, 0, 0, 0, 0]⟩ 1
          = some (r, list1) ∧
      (r = 0 ∨ (r = -2 ∧ generous.grants (16 / 2) = false)) ∧
      list1.live = [1, 2, 3, 4].eraseIdx 1 ∧ list1.size = 4 - 1 ∧
      (r = 0 → list1.capacity =
        if 4 - 1 < 16 / 4 ∧ false = false then 16 / 2 else 16) :=
  remove_at_int_removes generous
    ⟨false, false, false, 4, 16, [1, 2, 3, 4, 0, 0, 0, 0, 0, 0, 0, 0, 0, 0, 0, 0]⟩ 1
    (by decide) rfl rfl (by decide) (by decide)

/-- `list_insert_int` on a writable list with exactly one free slot
(`size + 1 = capacity`, as on the list `init_list_int(1)` returns): the size is
incremented first and the shift loop starts at `i = size - 1` of the new size,
so its first store is `data[i + 1] = data[capacity]`, outside the block, and
the call has no defined result. -/
theorem insert_one_free_slot {m : Allocator} {list : list_int} {index : Nat} (value : Int)
    (hidx : index ≤ list.size)
    (hro : list.readonly = false) (hst : list.static_ = false)
    (hal : list.allocated) (hone : list.size + 1 = list.capacity) :
    list_insert_int m list index value = none := by
  obtain ⟨⟨-, hr2⟩, hlen⟩ := hal
  unfold UINT_MAX at hr2
  have h0 : ¬ index > list.size := by omega
  have hro1 : ¬ list.readonly = true := by simp [hro]
  have hst1 : ¬ list.static_ = true := by simp [hst]
  have hshift : insert_shift index (usub (u32 (list.size + 1)) 1 + 1 - index) list.data
      = none := by
    cases h : insert_shift index (usub (u32 (list.size + 1)) 1 + 1 - index) list.data with
    | none => rfl
    | some d1 =>
      have := (insert_tail (l := list) value hidx (by omega)).2 d1 h
      omega
  unfold list_insert_int
  simp only [bind, pure, Option.some_bind]
  rw [if_neg h0, if_neg hro1, if_neg hst1, if_neg (show ¬ list.size ≥ list.capacity by omega)]
  simp only [hshift, Option.none_bind]

/-- C13 fails on the code when exactly one slot is free. For every list that is
not readonly, not static and not both frozen and full (allocated,
`size ≤ capacity`), and every index up to the size: (1) a call of
`list_insert_int` that returns 0 leaves the live sequence
`old[0..index) ++ [value] ++ old[index..size)` and the size one larger; (2) the
call does return 0 when two slots are free beyond the size, or when the list is
full with capacity at least 2 and the reallocation to twice the capacity fits
an `unsigned int` and is granted; (3) with `size + 1 = capacity`, where the
value fits and nothing has to grow, the call has no result at all: the shift
stores at `data[capacity]`. -/
theorem insert_int_inserts (m : Allocator) (list : list_int) (index : Nat) (value : Int)
    (hidx : index ≤ list.size)
    (hro : list.readonly = false) (hst : list.static_ = false)
    (hal : list.allocated) (hle : list.size ≤ list.capacity)
    (hnf : ¬ (list.frozen = true ∧ list.size = list.capacity)) :
    (∀ list1, list_insert_int m list index value = some (0, list1) →
      list1.live = list.live.take index ++ [value] ++ list.live.drop index ∧
      list1.size = list.size + 1) ∧
    ((list.size + 1 < list.capacity ∨
      (list.size = list.capacity ∧ 2 ≤ list.capacity ∧ list.capacity * 2 ≤ UINT_MAX ∧
        m.grants (list.capacity * 2) = true)) →
      ∃ list1, list_insert_int m list index value = some (0, list1)) ∧
    (list.size + 1 = list.capacity → list_insert_int m list index value = none) := by
  obtain ⟨hA, hB⟩ := insert_adds (m := m) value hidx hro hst hal hle hnf
  exact ⟨fun list1 h => ⟨(hA list1 h).1, (hA list1 h).2.1⟩, hB,
    fun hone => insert_one_free_slot value hidx hro hst hal hone⟩

/-- C13 at the example of the header, `list_insert_int(my_list, 2, 10)` on
`[1, 2, 3, 4, 5]`: with capacity 6 (one free slot) the call has no result, and
with capacity 8 it returns 0 and leaves `[1, 2, 10, 3, 4, 5]`. -/
theorem insert_int_inserts_witness :
    list_insert_int generous ⟨false, false, false, 5, 6, [1, 2, 3, 4, 5, 0]⟩ 2 10 = none ∧
    ∃ list1, list_insert_int generous
        ⟨false, false, false, 5, 8, [1, 2, 3, 4, 5, 0, 0, 0]⟩ 2 10 = some (0, list1) ∧
      list1.live = [1, 2, 10, 3, 4, 5] ∧ list1.size = 5 + 1 :=
  have t := insert_int_inserts generous ⟨false, false, false, 5, 8, [1, 2, 3, 4, 5, 0, 0, 0]⟩
    2 10 (by decide) rfl rfl (by decide) (by decide) (by decide)
  ⟨(insert_int_inserts generous ⟨false, false, false, 5, 6, [1, 2, 3, 4, 5, 0]⟩
      2 10 (by decide) rfl rfl (by decide) (by decide) (by decide)).2.2 rfl,
    match t.2.1 (Or.inl (by decide)) with
    | ⟨list1, h⟩ => ⟨list1, h, t.1 list1 h⟩⟩

/-- C14 fails on the code: on a frozen writable list with `size ≥ capacity`,
`list_insert_int` meets `if (list->frozen) return 0;` before it shifts or
stores anything, so it returns 0 and leaves the list exactly as it was. -/
theorem insert_int_frozen_full_unchanged (m : Allocator) (list : list_int) (index : Nat)
    (value : Int) (hidx : index ≤ list.size)
    (hro : list.readonly = false) (hst : list.static_ = false)
    (hfz : list.frozen = true) (hfull : list.size ≥ list.capacity) :
    list_insert_int m list index value = some (0, list) := by
  unfold list_insert_int
  have h0 : ¬ index > list.size := by omega
  have hro' : ¬ list.readonly = true := by simp [hro]
  have hst' : ¬ list.static_ = true := by simp [hst]
  simp only [bind, pure, Option.some_bind]
  rw [if_neg h0, if_neg hro', if_neg hst', if_pos hfull, if_pos hfz]

/-- C14 at the list of the header: `{1,2,3,4,5,1,2,3,4,5}`, frozen with capacity
10, stays as it is when 10 is inserted at index 4. -/
theorem insert_int_frozen_full_unchanged_witness :
    list_insert_int generous ⟨true, false, false, 10, 10, [1, 2, 3, 4, 5, 1, 2, 3, 4, 5]⟩ 4 10
      = some (0, ⟨true, false, false, 10, 10, [1, 2, 3, 4, 5, 1, 2, 3, 4, 5]⟩) :=
  insert_int_frozen_full_unchanged generous
    ⟨true, false, false, 10, 10, [1, 2, 3, 4, 5, 1, 2, 3, 4, 5]⟩ 4 10
    (by decide) rfl rfl rfl (by decide)

/-- C15: for every writable list (allocated, `size ≤ capacity`) and indices with
`start_index < end_index < size`, `list_remove_range_int` returns 0 or -2 and
leaves the live sequence `old[0..start_index) ++ old[end_index..size)`, with
the size smaller by `end_index - start_index`. -/
theorem remove_range_int_removes (m : Allocator) (list : list_int)
    (start_index end_index : Nat)
    (hse : start_index < end_index) (hend : end_index < list.size)
    (hro : list.readonly = false) (hst : list.static_ = false)
    (hal : list.allocated) (hle : list.size ≤ list.capacity) :
    ∃ r list1, list_remove_range_int m list start_index end_index = some (r, list1) ∧
      (r = 0 ∨ r = -2) ∧
      list1.live = list.live.take start_index ++ list.live.drop end_index ∧
      list1.size = list.size - (end_index - start_index) := by
  obtain ⟨r, list1, hrun, hr, hsz, hlv, -⟩ :=
    remove_range_erases (m := m) hse hend hro hst hal hle
  exact ⟨r, list1, hrun, hr, hlv, hsz⟩

/-- C15 at the list `[1, 2, 10, 8, 10, 7]` of capacity 6, range 2 to 4. -/
theorem remove_range_int_removes_witness :
    ∃ r list1, list_remove_range_int generous
        ⟨false, false, false, 6, 6, [1, 2, 10, 8, 10, 7]⟩ 2 4 = some (r, list1) ∧
      (r = 0 ∨ r = -2) ∧
      list1.live = [1, 2, 10, 8, 10, 7].take 2 ++ [1, 2, 10, 8, 10, 7].drop 4 ∧
      list1.size = 6 - (4 - 2) :=
  remove_range_int_removes generous ⟨false, false, false, 6, 6, [1, 2, 10, 8, 10, 7]⟩ 2 4
    (by decide) (by decide) rfl rfl (by decide) (by decide)

/-- C16 as stated fails: on `[1, 2, 10, 8, 10, 7]` with `start_index` 2 and
`end_index` 4 no run of `list_remove_range_int` leaves `[1, 2, 7]`. -/
theorem remove_range_int_counterexample :
    ¬ ∃ r list1, list_remove_range_int generous
        ⟨false, false, false, 6, 6, [1, 2, 10, 8, 10, 7]⟩ 2 4 = some (r, list1) ∧
      list1.live = [1, 2, 7] := by
  rintro ⟨r, list1, h, hl⟩
  have e : list_remove_range_int generous
      ⟨false, false, false, 6, 6, [1, 2, 10, 8, 10, 7]⟩ 2 4 =
      some (0, ⟨false, false, false, 4, 6, [1, 2, 10, 7, 10, 7]⟩) := by decide
  rw [e] at h
  cases h
  revert hl
  decide

/-- C16 amended: on the list `[1, 2, 10, 8, 10, 7]` of capacity 6, frozen or
not and with any allocator, `list_remove_range_int` with `start_index` 2 and
`end_index` 4 returns 0 and leaves the four elements `[1, 2, 10, 7]`: the
elements at the indices 2 and 3 are removed, the one at index 4 stays. -/
theorem remove_range_int_example (m : Allocator) (frozen : Bool) :
    list_remove_range_int m ⟨frozen, false, false, 6, 6, [1, 2, 10, 8, 10, 7]⟩ 2 4 =
        some (0, ⟨frozen, false, false, 4, 6, [1, 2, 10, 7, 10, 7]⟩) ∧
      (⟨frozen, false, false, 4, 6, [1, 2, 10, 7, 10, 7]⟩ : list_int).live = [1, 2, 10, 7] := by
  cases frozen <;> exact ⟨rfl, rfl⟩

/-- C18 fails on the code: `list_split_int` does not look at what
`list_resize_int` returns. For a writable list (allocated, `size ≤ capacity`),
an index with `0 < index < size` and a granted new list, the call returns the
new list with the live sequence `old[index..size)` and
`size = capacity = size - index`. The original keeps `old[0..index)` when it is
frozen (capacity unchanged) or when the reallocation to `index` slots is
granted (capacity `index`); when that reallocation is refused the original is
left whole, and the elements from `index` on are in both lists. -/
theorem split_int_at_index (m : Allocator) (list : list_int) (index : Nat)
    (hpos : 0 < index) (hidx : index < list.size)
    (hro : list.readonly = false) (hst : list.static_ = false)
    (hal : list.allocated) (hle : list.size ≤ list.capacity)
    (hgs : m.grants_struct = true) (hg : m.grants (list.size - index) = true) :
    ∃ split list1, list_split_int m list (index : Int) = some (some split, list1) ∧
      split.live = list.live.drop index ∧ split.size = list.size - index ∧
      split.capacity = list.size - index ∧
      (list.frozen = true →
        list1.live = list.live.take index ∧ list1.size = index ∧
        list1.capacity = list.capacity) ∧
      (list.frozen = false → m.grants index = true →
        list1.live = list.live.take index ∧ list1.size = index ∧ list1.capacity = index) ∧
      (list.frozen = false → m.grants index = false → list1 = list) :=
  split_at_index hpos hidx hro hst hal hle hgs hg

/-- C18 at the list `[1, 2, 3, 4, 5]` of capacity 5, split at index 2, when a
block of 3 ints is granted and a block of 2 ints is refused: the new list is
`[3, 4, 5]` and the original still holds all five elements. -/
theorem split_int_at_index_witness :
    ∃ split list1, list_split_int frugal ⟨false, false, false, 5, 5, [1, 2, 3, 4, 5]⟩ 2
        = some (some split, list1) ∧
      split.live = [3, 4, 5] ∧
      list1 = ⟨false, false, false, 5, 5, [1, 2, 3, 4, 5]⟩ :=
  match split_int_at_index frugal ⟨false, false, false, 5, 5, [1, 2, 3, 4, 5]⟩ 2
    (by decide) (by decide) rfl rfl (by decide) (by decide) rfl rfl with
  | ⟨split, list1, h, hl, _, _, _, _, hsame⟩ => ⟨split, list1, h, hl, hsame rfl rfl⟩

/-- C19 fails on the code: `list_split_int` compares the `int` index with the
`unsigned int` size, so the index -1 counts as `UINT_MAX` and is out of bounds
for every list; the call answers `NULL` and changes nothing, before the
midpoint is computed. -/
theorem split_int_auto_null (m : Allocator) (list : list_int) (hr : list.in_range) :
    list_split_int m list (-1) = some (none, list) :=
  split_auto_null m rfl hr

/-- C19 at the list `[1, 2, 3, 4, 5, 6, 7]` of capacity 7. -/
theorem split_int_auto_null_witness :
    list_split_int generous ⟨false, false, false, 7, 7, [1, 2, 3, 4, 5, 6, 7]⟩ (-1)
      = some (none, ⟨false, false, false, 7, 7, [1, 2, 3, 4, 5, 6, 7]⟩) :=
  split_int_auto_null generous ⟨false, false, false, 7, 7, [1, 2, 3, 4, 5, 6, 7]⟩ (by decide)

/-! ## The growth loops, exactly -/

/-- The growth loop of the `append` / `insert` family on a list that is not
frozen: from a capacity between 1 and `UINT_MAX` it ends within the fuel, and
gives the capacity doubled the least number of times that makes it greater
than `total`, or `UINT_MAX` when a capacity of at least `UINT_MAX / 2` was
still too small. -/
theorem append_grow_exact (total : Nat) :
    ∀ (fuel c : Nat), 1 ≤ c → c ≤ 4294967295 → 4294967296 ≤ c * 2 ^ fuel →
      ∃ c1, append_grow false total fuel c = some c1 ∧
        ((∃ k, c1 = c * 2 ^ k ∧ total < c1 ∧ (k = 0 ∨ c * 2 ^ (k - 1) ≤ total)) ∨
         (c1 = 4294967295 ∧ ∃ j, c * 2 ^ j ≤ total ∧ 2147483647 ≤ c * 2 ^ j)) := by
  intro fuel
  induction fuel with
  | zero =>
    intro c _ h2 h3
    simp only [pow_zero, mul_one] at h3
    omega
  | succ fuel ih =>
    intro c h1 h2 h3
    rw [append_grow]
    by_cases hc : total ≥ c ∧ ¬ false = true
    · rw [if_pos hc]
      by_cases hs : c ≥ UINT_MAX / 2
      · rw [if_pos hs]
        unfold UINT_MAX at hs ⊢
        refine ⟨_, rfl, Or.inr ⟨rfl, 0, ?_, ?_⟩⟩ <;> simp only [pow_zero, mul_one] <;> omega
      · rw [if_neg hs]
        unfold UINT_MAX at hs
        have hu : u32 (c * 2) = c * 2 := by unfold u32; omega
        have e : c * 2 ^ (fuel + 1) = c * 2 * 2 ^ fuel := by ring
        rw [hu]
        obtain ⟨c1, hrun, hform⟩ := ih (c * 2) (by omega) (by omega) (by rw [← e]; exact h3)
        refine ⟨c1, hrun, ?_⟩
        rcases hform with ⟨k, hk1, hk2, hk3⟩ | ⟨hk1, j, hj1, hj2⟩
        · refine Or.inl ⟨k + 1, ?_, hk2, Or.inr ?_⟩
          · rw [hk1]; ring
          · rw [Nat.add_sub_cancel]
            rcases hk3 with hk3 | hk3
            · subst hk3
              simp only [pow_zero, mul_one]
              exact hc.1
            · obtain ⟨k', rfl⟩ : ∃ k', k = k' + 1 := ⟨k - 1, by
                rcases k with _ | k
                · simp only [pow_zero, mul_one] at hk1
                  omega
                · omega⟩
              rw [Nat.add_sub_cancel] at hk3
              have e2 : c * 2 ^ (k' + 1) = c * 2 * 2 ^ k' := by ring
              rw [e2]
              exact hk3
        · refine Or.inr ⟨hk1, j + 1, ?_, ?_⟩
          · have e2 : c * 2 ^ (j + 1) = c * 2 * 2 ^ j := by ring
            rw [e2]; exact hj1
          · have e2 : c * 2 ^ (j + 1) = c * 2 * 2 ^ j := by ring
            rw [e2]; exact hj2
    · rw [if_neg hc]
      refine ⟨c, rfl, Or.inl ⟨0, ?_, ?_, Or.inl rfl⟩⟩
      · simp
      · by_contra hlt
        exact hc ⟨by omega, by decide⟩

/-- The growth loop of `list_write_arr_int`: from a capacity between 1 and
`UINT_MAX` it ends within the fuel, and gives the capacity doubled the least
number of times that makes it greater than `needed_mem`, or `UINT_MAX` when a
capacity above `UINT_MAX / 2` was still too small. -/
theorem write_grow_exact (needed_mem : Nat) :
    ∀ (fuel c : Nat), 1 ≤ c → c ≤ 4294967295 → 4294967296 ≤ c * 2 ^ fuel →
      ∃ c1, write_grow needed_mem fuel c = some c1 ∧
        ((∃ k, c1 = c * 2 ^ k ∧ needed_mem < c1 ∧ (k = 0 ∨ c * 2 ^ (k - 1) ≤ needed_mem)) ∨
         (c1 = 4294967295 ∧ ∃ j, c * 2 ^ j ≤ needed_mem ∧ 2147483647 ≤ c * 2 ^ j)) := by
  intro fuel
  induction fuel with
  | zero =>
    intro c _ h2 h3
    simp only [pow_zero, mul_one] at h3
    omega
  | succ fuel ih =>
    intro c h1 h2 h3
    rw [write_grow]
    by_cases hc : c ≤ needed_mem
    · rw [if_pos hc]
      by_cases hs : c > UINT_MAX / 2
      · rw [if_pos hs]
        unfold UINT_MAX at hs ⊢
        refine ⟨_, rfl, Or.inr ⟨rfl, 0, ?_, ?_⟩⟩ <;> simp only [pow_zero, mul_one] <;> omega
      · rw [if_neg hs]
        unfold UINT_MAX at hs
        have hu : u32 (c * 2) = c * 2 := by unfold u32; omega
        have e : c * 2 ^ (fuel + 1) = c * 2 * 2 ^ fuel := by ring
        rw [hu]
        obtain ⟨c1, hrun, hform⟩ := ih (c * 2) (by omega) (by omega) (by rw [← e]; exact h3)
        refine ⟨c1, hrun, ?_⟩
        rcases hform with ⟨k, hk1, hk2, hk3⟩ | ⟨hk1, j, hj1, hj2⟩
        · refine Or.inl ⟨k + 1, ?_, hk2, Or.inr ?_⟩
          · rw [hk1]; ring
          · rw [Nat.add_sub_cancel]
            rcases hk3 with hk3 | hk3
            · subst hk3
              simp only [pow_zero, mul_one]
              exact hc
            · obtain ⟨k', rfl⟩ : ∃ k', k = k' + 1 := ⟨k - 1, by
                rcases k with _ | k
                · simp only [pow_zero, mul_one] at hk1
                  omega
                · omega⟩
              rw [Nat.add_sub_cancel] at hk3
              have e2 : c * 2 ^ (k' + 1) = c * 2 * 2 ^ k' := by ring
              rw [e2]
              exact hk3
        · refine Or.inr ⟨hk1, j + 1, ?_, ?_⟩
          · have e2 : c * 2 ^ (j + 1) = c * 2 * 2 ^ j := by ring
            rw [e2]; exact hj1
          · have e2 : c * 2 ^ (j + 1) = c * 2 * 2 ^ j := by ring
            rw [e2]; exact hj2
    · rw [if_neg hc]
      refine ⟨c, rfl, Or.inl ⟨0, ?_, ?_, Or.inl rfl⟩⟩
      · simp
      · omega

/-! ## What the growing calls leave as capacity -/

/-- A resize on a writable list either is refused and changes nothing, or
leaves the requested capacity. -/
theorem resize_outcome {m : Allocator} {list l : list_int} {n : Nat} {state : Int}
    (hro : ¬ list.readonly = true) (hst : ¬ list.static_ = true)
    (hres : list_resize_int m list n = some (state, l)) :
    (state = -2 ∧ l = list) ∨ (state = 0 ∧ l.capacity = max n 1 ∧ l.frozen = list.frozen) := by
  rcases resize_cases hres with ⟨-, -, hx⟩ | ⟨hs, hl, -⟩ | ⟨hs, -, -, hc, -, -, hf, -⟩
  · rcases hx with hx | hx
    · exact absurd hx hro
    · exact absurd hx hst
  · exact Or.inl ⟨hs, hl⟩
  · exact Or.inr ⟨hs, hc, hf⟩

theorem append_grows {m : Allocator} {list list1 : list_int} {value : Int} {r : Int}
    (hro : ¬ list.readonly = true) (hst : ¬ list.static_ = true)
    (hfull : list.size ≥ list.capacity) (hfz : ¬ list.frozen = true)
    (hmax : ¬ list.size = UINT_MAX)
    (h : list_append_int m list value = some (r, list1)) :
    (r = -2 ∧ list1 = list) ∨
      (r = 0 ∧ list1.capacity = max (u32 (list.capacity * 2)) 1) := by
  unfold list_append_int at h
  simp only [bind, pure, Option.some_bind] at h
  rw [if_neg hro, if_neg hst, if_pos hfull, if_neg hfz, if_neg hmax, Option.bind_eq_some] at h
  obtain ⟨⟨state, l⟩, hres, h⟩ := h
  simp only at h
  rcases resize_outcome hro hst hres with ⟨hs, hl⟩ | ⟨hs, hc, -⟩
  · subst hs
    rw [if_pos rfl] at h
    cases h
    exact Or.inl ⟨rfl, hl⟩
  · subst hs
    rw [if_neg (by decide), Option.bind_eq_some] at h
    obtain ⟨d, -, h⟩ := h
    cases h
    exact Or.inr ⟨rfl, hc⟩

theorem insert_grows {m : Allocator} {list list1 : list_int} {index : Nat} {value : Int}
    {r : Int} (hidx : ¬ index > list.size)
    (hro : ¬ list.readonly = true) (hst : ¬ list.static_ = true)
    (hfull : list.size ≥ list.capacity) (hfz : ¬ list.frozen = true)
    (hmax : ¬ list.size = UINT_MAX)
    (h : list_insert_int m list index value = some (r, list1)) :
    (r = -2 ∧ list1 = list) ∨
      (r = 0 ∧ list1.capacity = max (u32 (list.capacity * 2)) 1) := by
  unfold list_insert_int at h
  simp only [bind, pure, Option.some_bind] at h
  rw [if_neg hidx, if_neg hro, if_neg hst, if_pos hfull, if_neg hfz, if_neg hmax,
    Option.bind_eq_some] at h
  obtain ⟨⟨state, l⟩, hres, h⟩ := h
  simp only at h
  rcases resize_outcome hro hst hres with ⟨hs, hl⟩ | ⟨hs, hc, -⟩
  · subst hs
    rw [if_pos rfl] at h
    cases h
    exact Or.inl ⟨rfl, hl⟩
  · subst hs
    rw [if_neg (by decide), Option.bind_eq_some] at h
    obtain ⟨d, -, h⟩ := h
    rw [Option.bind_eq_some] at h
    obtain ⟨d2, -, h⟩ := h
    cases h
    exact Or.inr ⟨rfl, hc⟩

theorem append_arr_grows {m : Allocator} {list list1 : list_int} {a : List Int}
    {size : Nat} {r : Int} (hg : ¬ usub UINT_MAX list.size < size)
    (hro : ¬ list.readonly = true) (hst : ¬ list.static_ = true) (hn : ¬ size = 0)
    (h : list_append_arr_int m list (some a) size = some (r, list1)) :
    ∃ c1, append_grow list.frozen (u32 (list.size + size)) 33 list.capacity = some c1 ∧
      (c1 ≠ list.capacity →
        (r = -2 ∧ list1 = list) ∨ (r = 0 ∧ list1.capacity = max c1 1)) := by
  unfold list_append_arr_int at h
  simp only [bind, pure, Option.some_bind] at h
  rw [if_neg hg, if_neg hro, if_neg hst, if_neg hn, Option.bind_eq_some] at h
  obtain ⟨c1, hgrow, h⟩ := h
  refine ⟨c1, hgrow, fun hne => ?_⟩
  rw [if_pos hne, Option.bind_eq_some] at h
  obtain ⟨⟨state, l⟩, hres, h⟩ := h
  simp only at h
  rcases resize_outcome hro hst hres with ⟨hs, hl⟩ | ⟨hs, hc, -⟩
  · subst hs
    rw [if_pos rfl] at h
    cases h
    exact Or.inl ⟨rfl, hl⟩
  · subst hs
    rw [if_neg (by decide), Option.bind_eq_some] at h
    obtain ⟨d, -, h⟩ := h
    cases h
    exact Or.inr ⟨rfl, hc⟩

theorem append_list_grows {m : Allocator} {list list2 list1 : list_int} {r : Int}
    (hg : ¬ usub UINT_MAX list.size < list2.size)
    (hro : ¬ list.readonly = true) (hst : ¬ list.static_ = true) (hn : ¬ list2.size = 0)
    (h : list_append_list_int m list list2 = some (r, list1)) :
    ∃ c1, append_grow list.frozen (u32 (list.size + list2.size)) 33 list.capacity = some c1 ∧
      (c1 ≠ list.capacity →
        (r = -2 ∧ list1 = list) ∨ (r = 0 ∧ list1.capacity = max c1 1)) := by
  unfold list_append_list_int at h
  simp only [bind, pure, Option.some_bind] at h
  rw [if_neg hg, if_neg hro, if_neg hst, if_neg hn, Option.bind_eq_some] at h
  obtain ⟨c1, hgrow, h⟩ := h
  refine ⟨c1, hgrow, fun hne => ?_⟩
  rw [if_pos hne, Option.bind_eq_some] at h
  obtain ⟨⟨state, l⟩, hres, h⟩ := h
  simp only at h
  rcases resize_outcome hro hst hres with ⟨hs, hl⟩ | ⟨hs, hc, -⟩
  · subst hs
    rw [if_pos rfl] at h
    cases h
    exact Or.inl ⟨rfl, hl⟩
  · subst hs
    rw [if_neg (by decide), Option.bind_eq_some] at h
    obtain ⟨d, -, h⟩ := h
    cases h
    exact Or.inr ⟨rfl, hc⟩

theorem insert_arr_grows {m : Allocator} {list list1 : list_int} {a : List Int}
    {size index : Nat} {r : Int} (hidx : ¬ index > list.size)
    (hg : ¬ usub UINT_MAX list.size ≤ size)
    (hro : ¬ list.readonly = true) (hst : ¬ list.static_ = true) (hn : ¬ size = 0)
    (h : list_insert_arr_int m list (some a) size index = some (r, list1)) :
    ∃ c1, append_grow list.frozen (u32 (list.size + size)) 33 list.capacity = some c1 ∧
      (c1 ≠ list.capacity →
        (r = -2 ∧ list1 = list) ∨ (r = 0 ∧ list1.capacity = max c1 1)) := by
  unfold list_insert_arr_int at h
  simp only [bind, pure, Option.some_bind] at h
  rw [if_neg hidx, if_neg hg, if_neg hro, if_neg hst, if_neg hn, Option.bind_eq_some] at h
  obtain ⟨c1, hgrow, h⟩ := h
  refine ⟨c1, hgrow, fun hne => ?_⟩
  rw [if_pos hne, Option.bind_eq_some] at h
  obtain ⟨⟨state, l⟩, hres, h⟩ := h
  simp only at h
  rcases resize_outcome hro hst hres with ⟨hs, hl⟩ | ⟨hs, hc, -⟩
  · subst hs
    rw [if_pos rfl] at h
    cases h
    exact Or.inl ⟨rfl, hl⟩
  · subst hs
    rw [if_neg (by decide), Option.bind_eq_some] at h
    obtain ⟨d, -, h⟩ := h
    rw [Option.bind_eq_some] at h
    obtain ⟨d2, -, h⟩ := h
    cases h
    exact Or.inr ⟨rfl, hc⟩

theorem insert_list_grows {m : Allocator} {list list2 list1 : list_int} {index : Nat}
    {r : Int} (hidx : ¬ index > list.size)
    (hg : ¬ usub UINT_MAX list.size < list2.size) (hn : ¬ list2.size = 0)
    (hro : ¬ list.readonly = true) (hst : ¬ list.static_ = true)
    (h : list_insert_list_int m list list2 index = some (r, list1)) :
    ∃ c1, append_grow list.frozen (u32 (list.size + list2.size)) 33 list.capacity = some c1 ∧
      (c1 ≠ list.capacity →
        (r = -2 ∧ list1 = list) ∨ (r = 0 ∧ list1.capacity = max c1 1)) := by
  unfold list_insert_list_int at h
  simp only [bind, pure, Option.some_bind] at h
  rw [if_neg hidx, if_neg hg, if_neg hn, if_neg hro, if_neg hst, Option.bind_eq_some] at h
  obtain ⟨c1, hgrow, h⟩ := h
  refine ⟨c1, hgrow, fun hne => ?_⟩
  rw [if_pos hne, Option.bind_eq_some] at h
  obtain ⟨⟨state, l⟩, hres, h⟩ := h
  simp only at h
  rcases resize_outcome hro hst hres with ⟨hs, hl⟩ | ⟨hs, hc, -⟩
  · subst hs
    rw [if_pos rfl] at h
    cases h
    exact Or.inl ⟨rfl, hl⟩
  · subst hs
    rw [if_neg (by decide), Option.bind_eq_some] at h
    obtain ⟨d, -, h⟩ := h
    rw [Option.bind_eq_some] at h
    obtain ⟨d2, -, h⟩ := h
    cases h
    exact Or.inr ⟨rfl, hc⟩

theorem write_arr_grows {m : Allocator} {list list1 : list_int} {a : List Int}
    {size index : Nat} {r : Int} (hidx : ¬ index > list.size)
    (hg : ¬ usub UINT_MAX (usub list.size index) ≤ size)
    (hro : ¬ list.readonly = true) (hst : ¬ list.static_ = true) (hn : ¬ size = 0)
    (hneed : u32 (size + index) > list.capacity ∧ ¬ list.frozen = true)
    (h : list_write_arr_int m list (some a) size index = some (r, list1)) :
    ∃ c1, write_grow (u32 (size + index)) 33 list.capacity = some c1 ∧
      ((r = -2 ∧ list1 = list) ∨ (r = 0 ∧ list1.capacity = c1)) := by
  unfold list_write_arr_int at h
  simp only [bind, pure, Option.some_bind] at h
  rw [if_neg hidx, if_neg hg, if_neg hro, if_neg hst, if_neg hn, if_pos hneed,
    Option.bind_eq_some] at h
  obtain ⟨c1, hgrow, h⟩ := h
  refine ⟨c1, hgrow, ?_⟩
  rw [Option.bind_eq_some] at h
  obtain ⟨⟨state, l⟩, hres, h⟩ := h
  simp only at h
  rcases resize_outcome hro hst hres with ⟨hs, hl⟩ | ⟨hs, hc, hf⟩
  · subst hs
    rw [if_pos rfl] at h
    cases h
    exact Or.inl ⟨rfl, hl⟩
  · subst hs
    rw [if_neg (by decide), Option.bind_eq_some] at h
    obtain ⟨d, -, h⟩ := h
    cases h
    have hfz : ¬ l.frozen = true := by rw [hf]; exact hneed.2
    refine Or.inr ⟨rfl, ?_⟩
    simp only [if_neg hfz]

/-! ## The growth rule -/

/-- What a call of the `append` / `insert` family for an array or a second
list leaves as capacity when it needs more slots than the list has. -/
theorem bulk_outcome {list list1 : list_int} {needed c1 : Nat} {r : Int}
    (hgt : list.capacity < needed) (hmax : needed ≤ UINT_MAX) (hcap : 1 ≤ list.capacity)
    (hgrow : append_grow false needed 33 list.capacity = some c1)
    (hout : c1 ≠ list.capacity →
      (r = -2 ∧ list1 = list) ∨ (r = 0 ∧ list1.capacity = max c1 1)) :
    (r = -2 ∧ list1 = list) ∨
    (r = 0 ∧ list.capacity ≤ list1.capacity ∧ needed ≤ list1.capacity ∧
      ((∃ k, 1 ≤ k ∧ list1.capacity = list.capacity * 2 ^ k ∧ needed < list1.capacity ∧
          list.capacity * 2 ^ (k - 1) ≤ needed) ∨
        (list1.capacity = UINT_MAX ∧
          ∃ j, list.capacity * 2 ^ j ≤ needed ∧ UINT_MAX / 2 ≤ list.capacity * 2 ^ j))) := by
  unfold UINT_MAX at hmax
  have hp : (2 : Nat) ^ 33 = 8589934592 := by norm_num
  obtain ⟨c2, hrun, hform⟩ := append_grow_exact needed 33 list.capacity hcap (by omega)
    (by rw [hp]; omega)
  rw [hgrow] at hrun
  cases hrun
  rcases hform with ⟨k, hk1, hk2, hk3⟩ | ⟨hk1, j, hj1, hj2⟩
  · rcases hout (by omega) with h | ⟨h1, h2⟩
    · exact Or.inl h
    · rw [Nat.max_eq_left (by omega)] at h2
      refine Or.inr ⟨h1, by omega, by omega, Or.inl ⟨k, ?_, by rw [h2, hk1], by omega, ?_⟩⟩
      · rcases k with _ | k
        · simp only [pow_zero, mul_one] at hk1
          omega
        · omega
      · rcases hk3 with hk3 | hk3
        · subst hk3
          simp only [pow_zero, mul_one] at hk1
          omega
        · exact hk3
  · rcases hout (by omega) with h | ⟨h1, h2⟩
    · exact Or.inl h
    · rw [Nat.max_eq_left (by omega)] at h2
      refine Or.inr ⟨h1, by omega, by omega, Or.inr ⟨by rw [h2, hk1]; rfl, j, hj1, ?_⟩⟩
      exact Nat.le_trans (by decide) hj2

/-- What `list_write_arr_int` leaves as capacity when the write ends beyond the
capacity. -/
theorem write_outcome {list list1 : list_int} {needed c1 : Nat} {r : Int}
    (hgt : list.capacity < needed) (hmax : needed ≤ UINT_MAX) (hcap : 1 ≤ list.capacity)
    (hgrow : write_grow needed 33 list.capacity = some c1)
    (hout : (r = -2 ∧ list1 = list) ∨ (r = 0 ∧ list1.capacity = c1)) :
    (r = -2 ∧ list1 = list) ∨
    (r = 0 ∧ list.capacity ≤ list1.capacity ∧ needed ≤ list1.capacity ∧
      ((∃ k, 1 ≤ k ∧ list1.capacity = list.capacity * 2 ^ k ∧ needed < list1.capacity ∧
          list.capacity * 2 ^ (k - 1) ≤ needed) ∨
        (list1.capacity = UINT_MAX ∧
          ∃ j, list.capacity * 2 ^ j ≤ needed ∧ UINT_MAX / 2 ≤ list.capacity * 2 ^ j))) := by
  unfold UINT_MAX at hmax
  have hp : (2 : Nat) ^ 33 = 8589934592 := by norm_num
  obtain ⟨c2, hrun, hform⟩ := write_grow_exact needed 33 list.capacity hcap (by omega)
    (by rw [hp]; omega)
  rw [hgrow] at hrun
  cases hrun
  rcases hout with h | ⟨h1, h2⟩
  · exact Or.inl h
  rcases hform with ⟨k, hk1, hk2, hk3⟩ | ⟨hk1, j, hj1, hj2⟩
  · refine Or.inr ⟨h1, by omega, by omega, Or.inl ⟨k, ?_, by rw [h2, hk1], by omega, ?_⟩⟩
    · rcases k with _ | k
      · simp only [pow_zero, mul_one] at hk1
        omega
      · omega
    · rcases hk3 with hk3 | hk3
      · subst hk3
        simp only [pow_zero, mul_one] at hk1
        omega
      · exact hk3
  · refine Or.inr ⟨h1, by omega, by omega, Or.inr ⟨by rw [h2, hk1]; rfl, j, hj1, ?_⟩⟩
    exact Nat.le_trans (by decide) hj2

/-- What `list_append_int` and `list_insert_int` leave as capacity when the
list is full and twice the capacity fits an `unsigned int`. -/
theorem single_outcome {list list1 : list_int} {r : Int}
    (hcap : 1 ≤ list.capacity) (hdbl : list.capacity * 2 ≤ UINT_MAX)
    (hout : (r = -2 ∧ list1 = list) ∨
      (r = 0 ∧ list1.capacity = max (u32 (list.capacity * 2)) 1)) :
    (r = -2 ∧ list1 = list) ∨
    (r = 0 ∧ list.capacity ≤ list1.capacity ∧ list.capacity + 1 ≤ list1.capacity ∧
      list1.capacity = list.capacity * 2) := by
  unfold UINT_MAX at hdbl
  have hu : u32 (list.capacity * 2) = list.capacity * 2 := by unfold u32; omega
  rcases hout with h | ⟨h1, h2⟩
  · exact Or.inl h
  · rw [hu, Nat.max_eq_left (by omega)] at h2
    exact Or.inr ⟨h1, by omega, by omega, h2⟩

/-- C11 amended: for every list that is not frozen, not readonly and not static,
with `1 ≤ capacity` and `size ≤ capacity`, and every appending or inserting
call whose checks pass and that needs `needed ≤ UINT_MAX` slots with
`needed > capacity`: a call that returns either returns -2 and changes nothing,
or returns 0 and leaves a capacity that is at least the old one and at least
`needed`. For `list_append_int` and `list_insert_int` (when twice the capacity
fits an `unsigned int`) it is the old capacity doubled once. For the array and
list calls it is the old capacity doubled the least number of times that makes
it greater than `needed`, or `UINT_MAX` when a doubled capacity of at least
`UINT_MAX / 2` was still not greater than `needed`. -/
theorem growth_rule (m : Allocator) (list list1 : list_int) (op : Mutator) (needed : Nat)
    (r : Returned)
    (hneed : op.needed list = some needed) (hgt : list.capacity < needed)
    (hmax : needed ≤ UINT_MAX)
    (hfz : list.frozen = false) (hro : list.readonly = false) (hst : list.static_ = false)
    (hr : list.in_range) (hcap : 1 ≤ list.capacity) (hle : list.size ≤ list.capacity)
    (hpc : op.passes_checks list)
    (hdbl : op.single = true → list.capacity * 2 ≤ UINT_MAX)
    (hrun : op.run m list = some (r, list1)) :
    (r = .code (-2) ∧ list1 = list) ∨
    (r = .code 0 ∧ list.capacity ≤ list1.capacity ∧ needed ≤ list1.capacity ∧
      (op.single = true → list1.capacity = list.capacity * 2) ∧
      (op.single = false →
        (∃ k, 1 ≤ k ∧ list1.capacity = list.capacity * 2 ^ k ∧ needed < list1.capacity ∧
          list.capacity * 2 ^ (k - 1) ≤ needed) ∨
        (list1.capacity = UINT_MAX ∧
          ∃ j, list.capacity * 2 ^ j ≤ needed ∧ UINT_MAX / 2 ≤ list.capacity * 2 ^ j))) := by
  obtain ⟨hr1, hr2⟩ := hr
  have hmax' := hmax
  unfold UINT_MAX at hr1 hr2 hmax'
  have hro' : ¬ list.readonly = true := by simp [hro]
  have hst' : ¬ list.static_ = true := by simp [hst]
  have hfz' : ¬ list.frozen = true := by simp [hfz]
  have single : ∀ {x : Option (Int × list_int)},
      x.map (fun r => (Returned.code r.1, r.2)) = some (r, list1) →
      needed = list.capacity + 1 →
      (∀ c l, x = some (c, l) → (c = -2 ∧ l = list) ∨
        (c = 0 ∧ list.capacity ≤ l.capacity ∧ list.capacity + 1 ≤ l.capacity ∧
          l.capacity = list.capacity * 2)) →
      (r = .code (-2) ∧ list1 = list) ∨
      (r = .code 0 ∧ list.capacity ≤ list1.capacity ∧ needed ≤ list1.capacity ∧
        (true = true → list1.capacity = list.capacity * 2) ∧
        (true = false →
          (∃ k, 1 ≤ k ∧ list1.capacity = list.capacity * 2 ^ k ∧ needed < list1.capacity ∧
            list.capacity * 2 ^ (k - 1) ≤ needed) ∨
          (list1.capacity = UINT_MAX ∧
            ∃ j, list.capacity * 2 ^ j ≤ needed ∧ UINT_MAX / 2 ≤ list.capacity * 2 ^ j))) := by
    intro x hx hn hs
    rw [Option.map_eq_some'] at hx
    obtain ⟨⟨c, l⟩, hx, he⟩ := hx
    cases he
    rcases hs c l hx with ⟨h1, h2⟩ | ⟨h1, h2, h3, h4⟩
    · exact Or.inl ⟨by rw [h1], h2⟩
    · exact Or.inr ⟨by rw [h1], h2, by rw [hn]; exact h3, fun _ => h4,
        fun h => (Bool.false_ne_true h.symm).elim⟩
  have bulk : ∀ {x : Option (Int × list_int)},
      x.map (fun r => (Returned.code r.1, r.2)) = some (r, list1) →
      (∀ c l, x = some (c, l) → (c = -2 ∧ l = list) ∨
        (c = 0 ∧ list.capacity ≤ l.capacity ∧ needed ≤ l.capacity ∧
          ((∃ k, 1 ≤ k ∧ l.capacity = list.capacity * 2 ^ k ∧ needed < l.capacity ∧
              list.capacity * 2 ^ (k - 1) ≤ needed) ∨
            (l.capacity = UINT_MAX ∧
              ∃ j, list.capacity * 2 ^ j ≤ needed ∧ UINT_MAX / 2 ≤ list.capacity * 2 ^ j)))) →
      (r = .code (-2) ∧ list1 = list) ∨
      (r = .code 0 ∧ list.capacity ≤ list1.capacity ∧ needed ≤ list1.capacity ∧
        (false = true → list1.capacity = list.capacity * 2) ∧
        (false = false →
          (∃ k, 1 ≤ k ∧ list1.capacity = list.capacity * 2 ^ k ∧ needed < list1.capacity ∧
            list.capacity * 2 ^ (k - 1) ≤ needed) ∨
          (list1.capacity = UINT_MAX ∧
            ∃ j, list.capacity * 2 ^ j ≤ needed ∧ UINT_MAX / 2 ≤ list.capacity * 2 ^ j))) := by
    intro x hx hs
    rw [Option.map_eq_some'] at hx
    obtain ⟨⟨c, l⟩, hx, he⟩ := hx
    cases he
    rcases hs c l hx with ⟨h1, h2⟩ | ⟨h1, h2, h3, h4⟩
    · exact Or.inl ⟨by rw [h1], h2⟩
    · exact Or.inr ⟨by rw [h1], h2, h3, fun h => (Bool.false_ne_true h).elim, fun _ => h4⟩
  cases op with
  | append value =>
    simp only [Mutator.needed, Option.some.injEq] at hneed
    have hd := hdbl rfl
    refine single hrun (by omega) fun c l hx => ?_
    exact single_outcome hcap hd
      (append_grows hro' hst' (by omega) hfz' (by unfold UINT_MAX; omega) hx)
  | insert index value =>
    simp only [Mutator.needed, Option.some.injEq] at hneed
    have hd := hdbl rfl
    have hi : index ≤ list.size := hpc
    refine single hrun (by omega) fun c l hx => ?_
    exact single_outcome hcap hd
      (insert_grows (by omega) hro' hst' (by omega) hfz' (by unfold UINT_MAX; omega) hx)
  | write_arr arr size index =>
    simp only [Mutator.needed, Option.some.injEq] at hneed
    obtain ⟨harr, hi, hg⟩ := hpc
    unfold UINT_MAX at hg
    obtain ⟨a, rfl⟩ : ∃ a, arr = some a := Option.ne_none_iff_exists'.mp harr
    have hu : u32 (size + index) = needed := by unfold u32; omega
    refine bulk hrun fun c l hx => ?_
    obtain ⟨c1, hgrow, hout⟩ := write_arr_grows (by omega)
      (by unfold usub UINT_MAX; omega) hro' hst' (by omega)
      ⟨by rw [hu]; exact hgt, hfz'⟩ hx
    rw [hu] at hgrow
    exact write_outcome hgt hmax hcap hgrow hout
  | append_arr arr size =>
    simp only [Mutator.needed, Option.some.injEq] at hneed
    obtain ⟨harr, hg⟩ := hpc
    unfold UINT_MAX at hg
    obtain ⟨a, rfl⟩ : ∃ a, arr = some a := Option.ne_none_iff_exists'.mp harr
    have hu : u32 (list.size + size) = needed := by unfold u32; omega
    refine bulk hrun fun c l hx => ?_
    obtain ⟨c1, hgrow, hout⟩ := append_arr_grows
      (by unfold usub UINT_MAX; omega) hro' hst' (by omega) hx
    rw [hu, hfz] at hgrow
    exact bulk_outcome hgt hmax hcap hgrow hout
  | insert_arr arr size index =>
    simp only [Mutator.needed, Option.some.injEq] at hneed
    obtain ⟨hi, harr, hg⟩ := hpc
    unfold UINT_MAX at hg
    obtain ⟨a, rfl⟩ : ∃ a, arr = some a := Option.ne_none_iff_exists'.mp harr
    have hu : u32 (list.size + size) = needed := by unfold u32; omega
    refine bulk hrun fun c l hx => ?_
    obtain ⟨c1, hgrow, hout⟩ := insert_arr_grows (by omega)
      (by unfold usub UINT_MAX; omega) hro' hst' (by omega) hx
    rw [hu, hfz] at hgrow
    exact bulk_outcome hgt hmax hcap hgrow hout
  | append_list list2 =>
    simp only [Mutator.needed, Option.some.injEq] at hneed
    have hg : list.size + list2.size ≤ UINT_MAX := hpc
    unfold UINT_MAX at hg
    have hu : u32 (list.size + list2.size) = needed := by unfold u32; omega
    refine bulk hrun fun c l hx => ?_
    obtain ⟨c1, hgrow, hout⟩ := append_list_grows
      (by unfold usub UINT_MAX; omega) hro' hst' (by omega) hx
    rw [hu, hfz] at hgrow
    exact bulk_outcome hgt hmax hcap hgrow hout
  | insert_list list2 index =>
    simp only [Mutator.needed, Option.some.injEq] at hneed
    obtain ⟨hi, hg, hn⟩ := hpc
    unfold UINT_MAX at hg
    have hu : u32 (list.size + list2.size) = needed := by unfold u32; omega
    refine bulk hrun fun c l hx => ?_
    obtain ⟨c1, hgrow, hout⟩ := insert_list_grows (by omega)
      (by unfold usub UINT_MAX; omega) hn hro' hst' hx
    rw [hu, hfz] at hgrow
    exact bulk_outcome hgt hmax hcap hgrow hout
  | set _ _ => exact nomatch hneed
  | pop_back => exact nomatch hneed
  | remove_at _ => exact nomatch hneed
  | remove _ => exact nomatch hneed
  | remove_all _ => exact nomatch hneed
  | remove_range _ _ => exact nomatch hneed
  | take _ => exact nomatch hneed
  | clear => exact nomatch hneed
  | shrink => exact nomatch hneed
  | resize _ => exact nomatch hneed
  | reset _ _ => exact nomatch hneed
  | split _ => exact nomatch hneed
  | reverse => exact nomatch hneed
  | sort => exact nomatch hneed

/-- C11 at the list `[1, 2, 3]` of capacity 4 and `list_append_arr_int` with
seven values: 10 slots are needed, and the capacity becomes 16, which is 4
doubled twice. -/
theorem growth_rule_witness :
    (Returned.code 0 = .code (-2) ∧
      (⟨false, false, false, 10, 16, [1, 2, 3, 4, 5, 6, 7, 8, 9, 10, 0, 0, 0, 0, 0, 0]⟩ :
        list_int) = ⟨false, false, false, 3, 4, [1, 2, 3, 0]⟩) ∨
    (Returned.code 0 = .code 0 ∧ 4 ≤ 16 ∧ 10 ≤ 16 ∧
      ((Mutator.append_arr (some [4, 5, 6, 7, 8, 9, 10]) 7).single = true → 16 = 4 * 2) ∧
      ((Mutator.append_arr (some [4, 5, 6, 7, 8, 9, 10]) 7).single = false →
        (∃ k, 1 ≤ k ∧ 16 = 4 * 2 ^ k ∧ 10 < 16 ∧ 4 * 2 ^ (k - 1) ≤ 10) ∨
        (16 = UINT_MAX ∧ ∃ j, 4 * 2 ^ j ≤ 10 ∧ UINT_MAX / 2 ≤ 4 * 2 ^ j))) :=
  growth_rule generous ⟨false, false, false, 3, 4, [1, 2, 3, 0]⟩
    ⟨false, false, false, 10, 16, [1, 2, 3, 4, 5, 6, 7, 8, 9, 10, 0, 0, 0, 0, 0, 0]⟩
    (.append_arr (some [4, 5, 6, 7, 8, 9, 10]) 7) 10 (.code 0)
    rfl (by decide) (by decide) rfl rfl rfl (by decide) (by decide) (by decide) (by decide)
    (fun h => nomatch h) (by decide)

/-- C11 as stated fails: `list_append_int` on the full list `[5]` of capacity 1
needs 2 slots and leaves capacity 2, which is not greater than 2; and on a full
list of `2^31` elements it leaves capacity 1, smaller than the old one, because
`capacity * 2` wraps to 0. -/
theorem growth_rule_counterexample :
    (Mutator.append 7).needed ⟨false, false, false, 1, 1, [5]⟩ = some 2 ∧
    (Mutator.append 7).run generous ⟨false, false, false, 1, 1, [5]⟩
      = some (.code 0, ⟨false, false, false, 2, 2, [5, 7]⟩) ∧
    ((Mutator.append 7).run generous
      ⟨false, false, false, 2147483648, 2147483648, List.replicate 2147483648 0⟩).map
        (fun r => (r.1, r.2.capacity)) = some (.code 0, 1) := by
  refine ⟨rfl, ?_, ?_⟩
  · decide
  · decide

/-! ## Merge sort -/

theorem load_at_nat (d : List Int) (n : Nat) : load_at d (n : Int) = load d n := by
  unfold load_at
  rw [if_neg (by omega), Int.toNat_ofNat]

theorem store_at_nat (d : List Int) (n : Nat) (v : Int) :
    store_at d (n : Int) v = store d n v := by
  unfold store_at
  rw [if_neg (by omega), Int.toNat_ofNat]

theorem store_mid (P : List Int) (q a : Int) (T : List Int) :
    store (P ++ q :: T) P.length a = some (P ++ a :: T) := by
  unfold store
  rw [if_pos (by simp)]
  simp

/-- The scratch copy of `merge_int` holds the `n` elements from `start` on. -/
theorem copy_out_spec (arr : List Int) (start : Nat) :
    ∀ n, start + n ≤ arr.length →
      copy_out arr (start : Int) n = some ((arr.drop start).take n) := by
  intro n
  induction n with
  | zero => intro _; rw [copy_out]; simp
  | succ n ih =>
    intro h
    have hlt : start + n < arr.length := by omega
    have e : ((start : Int) + (n : Int)) = ((start + n : Nat) : Int) := by push_cast; rfl
    rw [copy_out]
    simp only [bind, pure, ih (by omega), Option.some_bind, e, load_at_nat, load_eq hlt]
    rw [List.take_succ, List.getElem?_drop, List.getElem?_eq_getElem hlt]
    rfl

/-- The merging loops of `merge_int`, started with `i` elements of `L` and `j`
elements of `R` written: the rest of both, merged, is written over the slots
that follow the `k` slots before it. -/
theorem merge_loop_spec (L R : List Int) :
    ∀ (fuel : Nat) (P Q B : List Int) (i j : Nat), i ≤ L.length → j ≤ R.length →
      (L.length - i) + (R.length - j) ≤ fuel →
      Q.length = (L.length - i) + (R.length - j) →
      merge_loop L R fuel (P ++ Q ++ B) i j (P.length : Int) =
        some (P ++ List.merge (L.drop i) (R.drop j) (fun a b => decide (a ≤ b)) ++ B) := by
  intro fuel
  induction fuel with
  | zero =>
    intro P Q B i j hi hj hf hq
    have hQ : Q = [] := List.length_eq_zero.mp (by omega)
    rw [merge_loop, if_neg (by omega), List.drop_eq_nil_of_le (by omega),
      List.drop_eq_nil_of_le (by omega), List.nil_merge, hQ]
  | succ fuel ih =>
    intro P Q B i j hi hj hf hq
    rw [merge_loop]
    have step : ∀ (a : Int) (T : List Int) (i1 j1 : Nat), Q = List.head! Q :: T →
        i1 ≤ L.length → j1 ≤ R.length →
        (L.length - i1) + (R.length - j1) ≤ fuel →
        T.length = (L.length - i1) + (R.length - j1) →
        (store_at (P ++ Q ++ B) (P.length : Int) a).bind
            (fun arr => merge_loop L R fuel arr i1 j1 ((P.length : Int) + 1)) =
          some (P ++ a :: List.merge (L.drop i1) (R.drop j1) (fun a b => decide (a ≤ b))
            ++ B) := by
      intro a T i1 j1 hQ h1 h2 h3 h4
      have e1 : P ++ Q ++ B = P ++ List.head! Q :: (T ++ B) := by
        rw [hQ]; simp
      have e2 : P ++ a :: (T ++ B) = (P ++ [a]) ++ T ++ B := by simp
      have e3 : ((P.length : Int) + 1) = (((P ++ [a]).length : Nat) : Int) := by simp
      rw [store_at_nat, e1, store_mid, Option.some_bind, e2, e3,
        ih (P ++ [a]) T B i1 j1 h1 h2 h3 h4]
      simp
    have hcons : ∀ {n : Nat}, Q.length = n + 1 → Q = List.head! Q :: Q.tail := by
      intro n hn
      cases Q with
      | nil => simp at hn
      | cons q T => rfl
    by_cases hboth : i < L.length ∧ j < R.length
    · rw [if_pos hboth]
      have hLd : L.drop i = L[i] :: L.drop (i + 1) := List.drop_eq_getElem_cons hboth.1
      have hRd : R.drop j = R[j] :: R.drop (j + 1) := List.drop_eq_getElem_cons hboth.2
      simp only [bind, pure, Option.some_bind, load_eq hboth.1, load_eq hboth.2]
      have hQc := hcons (n := (L.length - i) + (R.length - j) - 1) (by omega)
      by_cases hab : L[i] ≤ R[j]
      · rw [if_pos hab]
        have := step L[i] Q.tail (i + 1) j hQc (by omega) hj (by omega)
          (by rw [List.length_tail]; omega)
        simp only [bind] at this
        rw [this, hLd, hRd, List.cons_merge_cons, if_pos (by simpa using hab), ← hRd]
      · rw [if_neg hab]
        have := step R[j] Q.tail i (j + 1) hQc hi (by omega) (by omega)
          (by rw [List.length_tail]; omega)
        simp only [bind] at this
        rw [this, hLd, hRd, List.cons_merge_cons, if_neg (by simpa using hab), ← hLd]
    · rw [if_neg hboth]
      by_cases h1 : i < L.length
      · rw [if_pos h1]
        have hj' : j = R.length := by omega
        have hLd : L.drop i = L[i] :: L.drop (i + 1) := List.drop_eq_getElem_cons h1
        have hR0 : R.drop j = [] := List.drop_eq_nil_of_le (by omega)
        simp only [bind, pure, Option.some_bind, load_eq h1]
        have hQc := hcons (n := (L.length - i) + (R.length - j) - 1) (by omega)
        have := step L[i] Q.tail (i + 1) j hQc (by omega) hj (by omega)
          (by rw [List.length_tail]; omega)
        simp only [bind] at this
        rw [this, hR0, List.merge_right, List.merge_right, hLd]
      · rw [if_neg h1]
        by_cases h2 : j < R.length
        · rw [if_pos h2]
          have hRd : R.drop j = R[j] :: R.drop (j + 1) := List.drop_eq_getElem_cons h2
          have hL0 : L.drop i = [] := List.drop_eq_nil_of_le (by omega)
          simp only [bind, pure, Option.some_bind, load_eq h2]
          have hQc := hcons (n := (L.length - i) + (R.length - j) - 1) (by omega)
          have := step R[j] Q.tail i (j + 1) hQc hi (by omega) (by omega)
            (by rw [List.length_tail]; omega)
          simp only [bind] at this
          rw [this, hL0, List.nil_merge, List.nil_merge, hRd]
        · rw [if_neg h2]
          have hQ : Q = [] := List.length_eq_zero.mp (by omega)
          rw [List.drop_eq_nil_of_le (by omega), List.drop_eq_nil_of_le (by omega),
            List.nil_merge, hQ]

/-- `merge_int` on two neighbouring non-empty runs `L` and `R`: the runs are
replaced by their merge, the rest of the array stays. -/
theorem merge_int_spec (A L R B : List Int) (hL : L ≠ []) (hR : R ≠ [])
    (left mid right : Int) (hl : left = (A.length : Int))
    (hm : mid = (A.length : Int) + (L.length : Int) - 1)
    (hr : right = (A.length : Int) + (L.length : Int) + (R.length : Int) - 1) :
    merge_int (A ++ L ++ R ++ B) left mid right =
      some (A ++ List.merge L R (fun a b => decide (a ≤ b)) ++ B) := by
  have hLp : 0 < L.length := List.length_pos.mpr hL
  have hRp : 0 < R.length := List.length_pos.mpr hR
  have hn1 : mid - left + 1 = (L.length : Int) := by omega
  have hn2 : right - mid = (R.length : Int) := by omega
  have hm1 : mid + 1 = ((A.length + L.length : Nat) : Int) := by push_cast; omega
  unfold merge_int
  simp only [bind, pure, hn1, hn2, Int.toNat_ofNat]
  rw [if_neg (by omega), hl, hm1,
    copy_out_spec _ _ _ (by simp only [List.length_append]; omega),
    copy_out_spec _ _ _ (by simp only [List.length_append]; omega)]
  simp only [Option.some_bind]
  have e1 : List.take L.length (List.drop A.length (A ++ L ++ R ++ B)) = L := by
    simp [List.append_assoc]
  have e2 : List.take R.length (List.drop (A.length + L.length) (A ++ L ++ R ++ B)) = R := by
    have : A ++ L ++ R ++ B = (A ++ L) ++ (R ++ B) := by simp
    rw [this, List.drop_left' (by simp)]
    simp
  rw [e1, e2]
  have e3 : A ++ L ++ R ++ B = A ++ (L ++ R) ++ B := by simp
  rw [e3, merge_loop_spec L R (L.length + R.length) A (L ++ R) B 0 0 (by omega) (by omega)
    (by omega) (by simp)]
  simp

/-- `merge_sort_int` on a non-empty range of the array, with a fuel of at least
the length of the range less one: the range is replaced by a sorted
rearrangement of itself, the rest of the array stays. -/
theorem merge_sort_spec :
    ∀ (fuel : Nat) (A X B : List Int) (left right : Int), X ≠ [] → X.length - 1 ≤ fuel →
      left = (A.length : Int) → right = (A.length : Int) + (X.length : Int) - 1 →
      ∃ S, merge_sort_int fuel (A ++ X ++ B) left right = some (A ++ S ++ B) ∧
        S.Sorted (· ≤ ·) ∧ S.Perm X := by
  intro fuel
  induction fuel with
  | zero =>
    intro A X B left right hX hf hl hr
    have hXp : 0 < X.length := List.length_pos.mpr hX
    rw [merge_sort_int, if_neg (by omega)]
    refine ⟨X, rfl, ?_, List.Perm.refl _⟩
    obtain ⟨x, rfl⟩ : ∃ x, X = [x] := List.length_eq_one.mp (by omega)
    exact List.sorted_singleton x
  | succ fuel ih =>
    intro A X B left right hX hf hl hr
    have hXp : 0 < X.length := List.length_pos.mpr hX
    rw [merge_sort_int]
    by_cases hlt : left < right
    · rw [if_pos hlt]
      have hn : 2 ≤ X.length := by omega
      have hdiv : Int.tdiv (right - left) 2 = (((X.length - 1) / 2 : Nat) : Int) := by
        rw [Int.tdiv_eq_ediv (by omega) (by omega)]
        omega
      have hlen1 : (X.take ((X.length - 1) / 2 + 1)).length = (X.length - 1) / 2 + 1 := by
        rw [List.length_take]; omega
      have hlen2 : (X.drop ((X.length - 1) / 2 + 1)).length =
          X.length - ((X.length - 1) / 2 + 1) := List.length_drop _ _
      have hX1 : X.take ((X.length - 1) / 2 + 1) ≠ [] := by
        intro h; rw [h] at hlen1; simp at hlen1
      have hX2 : X.drop ((X.length - 1) / 2 + 1) ≠ [] := by
        intro h; rw [h] at hlen2; simp at hlen2; omega
      have hsplit : A ++ X ++ B =
          A ++ X.take ((X.length - 1) / 2 + 1) ++ (X.drop ((X.length - 1) / 2 + 1) ++ B) := by
        rw [List.append_assoc A (List.take _ X), ← List.append_assoc (List.take _ X),
          List.take_append_drop, List.append_assoc]
      obtain ⟨S1, hrun1, hs1, hp1⟩ := ih A (X.take ((X.length - 1) / 2 + 1))
        (X.drop ((X.length - 1) / 2 + 1) ++ B) left
        (left + Int.tdiv (right - left) 2) hX1 (by rw [hlen1]; omega) hl
        (by rw [hlen1, hdiv, hl]; push_cast; omega)
      have hS1len : S1.length = (X.length - 1) / 2 + 1 := by rw [hp1.length_eq, hlen1]
      have hre : A ++ S1 ++ (X.drop ((X.length - 1) / 2 + 1) ++ B) =
          (A ++ S1) ++ X.drop ((X.length - 1) / 2 + 1) ++ B := by simp
      obtain ⟨S2, hrun2, hs2, hp2⟩ := ih (A ++ S1) (X.drop ((X.length - 1) / 2 + 1)) B
        (left + Int.tdiv (right - left) 2 + 1) right hX2 (by rw [hlen2]; omega)
        (by rw [List.length_append, hS1len, hdiv, hl]; push_cast; omega)
        (by rw [List.length_append, hS1len, hlen2, hr]; push_cast; omega)
      have hS2len : S2.length = X.length - ((X.length - 1) / 2 + 1) := by
        rw [hp2.length_eq, hlen2]
      have hS1 : S1 ≠ [] := by intro h; rw [h] at hS1len; simp at hS1len
      have hS2 : S2 ≠ [] := by intro h; rw [h] at hS2len; simp at hS2len; omega
      simp only [bind, pure]
      rw [hsplit, hrun1, Option.some_bind, hre, hrun2, Option.some_bind,
        merge_int_spec A S1 S2 B hS1 hS2 left _ right hl
          (by rw [hS1len, hdiv, hl]; push_cast; omega)
          (by rw [hS1len, hS2len, hr]; push_cast; omega)]
      refine ⟨_, rfl, hs1.merge hs2, ?_⟩
      refine (List.perm_merge _ S1 S2).trans ?_
      have := hp1.append hp2
      rwa [List.take_append_drop] at this
    · rw [if_neg hlt]
      refine ⟨X, rfl, ?_, List.Perm.refl _⟩
      obtain ⟨x, rfl⟩ : ∃ x, X = [x] := List.length_eq_one.mp (by omega)
      exact List.sorted_singleton x

/-- `list_sort_int` on a writable list of at most `INT_MAX` elements that lie
inside the buffer: it returns 0 and leaves the live elements rearranged into
non-decreasing order; size, capacity, flags and the slots beyond the size stay. -/
theorem sort_sorts {list : list_int}
    (hro : list.readonly = false) (hst : list.static_ = false)
    (hlen : list.size ≤ list.data.length) (hsz : list.size ≤ 2147483647) :
    ∃ list1, list_sort_int list = some (0, list1) ∧
      list1.live.Sorted (· ≤ ·) ∧ list1.live.Perm list.live ∧
      list1.size = list.size ∧ list1.capacity = list.capacity ∧
      list1.frozen = list.frozen ∧ list1.readonly = list.readonly ∧
      list1.static_ = list.static_ ∧ list1.data.length = list.data.length ∧
      list1.data.drop list.size = list.data.drop list.size := by
  have hro' : ¬ list.readonly = true := by simp [hro]
  have hst' : ¬ list.static_ = true := by simp [hst]
  have hconv : u32_to_int list.size = (list.size : Int) := by
    unfold u32_to_int
    rw [if_pos (by omega)]
    congr 1
    omega
  unfold list_sort_int
  simp only [bind, pure, Option.some_bind]
  rw [if_neg hro', if_neg hst', hconv, if_neg (by unfold INT_MIN; omega)]
  by_cases h0 : list.size = 0
  · have hm : merge_sort_int list.size list.data 0 ((list.size : Int) - 1) = some list.data := by
      rw [h0, merge_sort_int, if_neg (by simp)]
    rw [hm]
    simp only [Option.some_bind]
    refine ⟨_, rfl, ?_, List.Perm.refl _, rfl, rfl, rfl, rfl, rfl, rfl, rfl⟩
    show (list.data.take list.size).Sorted (· ≤ ·)
    rw [h0]
    simp
  · have hlive : list.live.length = list.size := live_length hlen
    have hX : list.live ≠ [] := by
      intro h; rw [h] at hlive; simp at hlive; omega
    have hdata : list.data = [] ++ list.live ++ list.data.drop list.size := by
      show list.data = [] ++ list.data.take list.size ++ list.data.drop list.size
      rw [List.nil_append, List.take_append_drop]
    obtain ⟨S, hrun, hs, hp⟩ := merge_sort_spec list.size [] list.live
      (list.data.drop list.size) 0 ((list.size : Int) - 1) hX (by omega) (by simp)
      (by rw [hlive]; simp)
    rw [← hdata] at hrun
    rw [hrun]
    simp only [Option.some_bind, List.nil_append]
    have hSlen : S.length = list.size := by rw [hp.length_eq, hlive]
    refine ⟨_, rfl, ?_, ?_, rfl, rfl, rfl, rfl, rfl, ?_, ?_⟩
    · show ((S ++ list.data.drop list.size).take list.size).Sorted (· ≤ ·)
      rw [List.take_left' hSlen]
      exact hs
    · show ((S ++ list.data.drop list.size).take list.size).Perm list.live
      rw [List.take_left' hSlen]
      exact hp
    · show (S ++ list.data.drop list.size).length = list.data.length
      rw [List.length_append, List.length_drop, hSlen]
      omega
    · show (S ++ list.data.drop list.size).drop list.size = list.data.drop list.size
      rw [List.drop_left' hSlen]

/-- `list_sort_int` on a list of more than `2^31` elements: the size converted
to `int` is negative, so `merge_sort_int` is called with `right < left` and
returns at once; the call answers 0 and the list is as it was. -/
theorem sort_skips {list : list_int}
    (hro : list.readonly = false) (hst : list.static_ = false)
    (hr : list.size ≤ UINT_MAX) (hbig : 2147483648 < list.size) :
    list_sort_int list = some (0, list) := by
  unfold UINT_MAX at hr
  have hro' : ¬ list.readonly = true := by simp [hro]
  have hst' : ¬ list.static_ = true := by simp [hst]
  have hconv : u32_to_int list.size = (list.size : Int) - 4294967296 := by
    unfold u32_to_int
    rw [if_neg (by omega)]
    congr 2
    omega
  unfold list_sort_int
  simp only [bind, pure, Option.some_bind]
  rw [if_neg hro', if_neg hst', hconv, if_neg (by unfold INT_MIN; omega)]
  obtain ⟨k, hk⟩ : ∃ k, list.size = k + 1 := ⟨list.size - 1, by omega⟩
  have hm : merge_sort_int list.size list.data 0 ((list.size : Int) - 4294967296 - 1)
      = some list.data := by
    rw [hk, merge_sort_int, if_neg (by omega)]
  rw [hm]
  rfl

/-! ## Sorting: the claim -/

/-- C20 fails on the code for lists of more than `INT_MAX` elements. For a
writable list (allocated, `size ≤ capacity`): when `size ≤ INT_MAX`,
`list_sort_int` returns 0 and the live sequence is non-decreasing afterwards
(every element is at most every later one) and is a rearrangement of the old
one; when `size > 2^31`, `(int)list->size - 1` is negative, `merge_sort_int`
returns at once, and the call returns 0 with the list exactly as it was,
sorted or not. -/
theorem sort_int_sorts (list : list_int)
    (hro : list.readonly = false) (hst : list.static_ = false)
    (hal : list.allocated) (hle : list.size ≤ list.capacity) :
    (list.size ≤ 2147483647 →
      ∃ list1, list_sort_int list = some (0, list1) ∧
        list1.live.Sorted (· ≤ ·) ∧ list1.live.Perm list.live ∧ list1.size = list.size) ∧
    (2147483648 < list.size → list_sort_int list = some (0, list)) := by
  obtain ⟨⟨hr1, hr2⟩, hlen⟩ := hal
  constructor
  · intro hsz
    obtain ⟨list1, hrun, hs, hp, hsize, -⟩ := sort_sorts hro hst (by omega) hsz
    exact ⟨list1, hrun, hs, hp, hsize⟩
  · intro hbig
    exact sort_skips hro hst hr1 hbig

/-- C20 at a list of `2^31 + 1` elements that starts with 2, 1: the call
returns 0 and the list still starts with 2, 1. -/
theorem sort_int_sorts_witness :
    list_sort_int ⟨false, false, false, 2147483649, 2147483649,
        2 :: 1 :: List.replicate 2147483647 0⟩
      = some (0, ⟨false, false, false, 2147483649, 2147483649,
        2 :: 1 :: List.replicate 2147483647 0⟩) ∧
    (⟨false, false, false, 2147483649, 2147483649,
        2 :: 1 :: List.replicate 2147483647 0⟩ : list_int).live.take 2 = [2, 1] :=
  ⟨(sort_int_sorts ⟨false, false, false, 2147483649, 2147483649,
      2 :: 1 :: List.replicate 2147483647 0⟩ rfl rfl
      ⟨⟨by decide, by decide⟩,
        by rw [List.length_cons, List.length_cons, List.length_replicate]⟩
      (by decide)).2 (by decide), by decide⟩

/-! ## Sorting: rearrangement and idempotence -/

/-- C24 fails on the code at the list `[5, 5]`: `list_mode_int` with
`sort = true` returns 0 with value 5 and amount 1, although 5 occurs twice (the
run counter starts at 0, so the first run of the sorted data is counted one
short); the quadratic fallback of the same function (`sort = false`, scratch
block refused) reports amount 2 on the same list. -/
theorem mode_int_first_run_short :
    (∀ m : Allocator, list_mode_int m ⟨false, false, false, 2, 2, [5, 5]⟩ true
      = some (0, ⟨false, false, false, 2, 2, [5, 5]⟩,
          { value := some 5, count := some 1 })) ∧
    List.count 5 (⟨false, false, false, 2, 2, [5, 5]⟩ : list_int).live = 2 ∧
    list_mode_int exhausted ⟨false, false, false, 2, 2, [5, 5]⟩ false
      = some (0, ⟨false, false, false, 2, 2, [5, 5]⟩,
          { value := some 5, count := some 2 }) :=
  ⟨fun _ => rfl, by decide, by decide⟩

/-- C25 fails on the code at the list `[3, 1, 5, 2, 4]`: `list_mode_int` with
`sort = true` returns 0, leaves the list sorted as `[1, 2, 3, 4, 5]` and
reports value 2 (the second value of the sorted sequence) with amount 1; the
quadratic fallback on the sorted list reports its first value 1. -/
theorem mode_int_distinct_second :
    (∀ m : Allocator, list_mode_int m ⟨false, false, false, 5, 5, [3, 1, 5, 2, 4]⟩ true
      = some (0, ⟨false, false, false, 5, 5, [1, 2, 3, 4, 5]⟩,
          { value := some 2, count := some 1 })) ∧
    list_mode_int exhausted ⟨false, false, false, 5, 5, [1, 2, 3, 4, 5]⟩ false
      = some (0, ⟨false, false, false, 5, 5, [1, 2, 3, 4, 5]⟩,
          { value := some 1, count := some 1 }) :=
  ⟨fun _ => rfl, by decide⟩

/-- C26 fails on the code at the list `[2, 1, 2]`: on a writable list
`list_mode_int` with `sort = true` reports value 2 with amount 2; with
`sort = true` on a readonly or on a static list, and with `sort = false`, a
granted scratch block receives a plain copy of the unsorted data, the list is
left as it was, and the report is value 1 with amount 1. -/
theorem mode_int_copy_unsorted :
    list_mode_int generous ⟨false, false, false, 3, 3, [2, 1, 2]⟩ true
      = some (0, ⟨false, false, false, 3, 3, [1, 2, 2]⟩,
          { value := some 2, count := some 2 }) ∧
    list_mode_int generous ⟨false, true, false, 3, 3, [2, 1, 2]⟩ true
      = some (0, ⟨false, true, false, 3, 3, [2, 1, 2]⟩,
          { value := some 1, count := some 1 }) ∧
    list_mode_int generous ⟨false, false, true, 3, 3, [2, 1, 2]⟩ true
      = some (0, ⟨false, false, true, 3, 3, [2, 1, 2]⟩,
          { value := some 1, count := some 1 }) ∧
    list_mode_int generous ⟨false, false, false, 3, 3, [2, 1, 2]⟩ false
      = some (0, ⟨false, false, false, 3, 3, [2, 1, 2]⟩,
          { value := some 1, count := some 1 }) := by
  decide

/-- C27 fails on the code at the one-element lists `[INT_MIN]` and
`[INT_MAX]`: `list_max_int` on `[INT_MIN]` (and `list_min_int` on `[INT_MAX]`)
returns 0 with the right value and never writes the index, because the scan
starts from that very value and tests strictly; on the header example
`[2, 6, 2, 4, 7, 7, 2]` the maximum 7 is reported with its first index 4, and
on an empty list both return -1 with index -1. -/
theorem extreme_int_index_unwritten :
    list_max_int ⟨false, false, false, 1, 1, [INT_MIN]⟩
      = some (0, ⟨false, false, false, 1, 1, [INT_MIN]⟩,
          { value := some INT_MIN, index := none }) ∧
    list_min_int ⟨false, false, false, 1, 1, [INT_MAX]⟩
      = some (0, ⟨false, false, false, 1, 1, [INT_MAX]⟩,
          { value := some INT_MAX, index := none }) ∧
    list_max_int ⟨false, false, false, 7, 7, [2, 6, 2, 4, 7, 7, 2]⟩
      = some (0, ⟨false, false, false, 7, 7, [2, 6, 2, 4, 7, 7, 2]⟩,
          { value := some 7, index := some 4 }) ∧
    list_max_int ⟨false, false, false, 0, 1, [0]⟩
      = some (-1, ⟨false, false, false, 0, 1, [0]⟩, { index := some (-1) }) ∧
    list_min_int ⟨false, false, false, 0, 1, [0]⟩
      = some (-1, ⟨false, false, false, 0, 1, [0]⟩, { index := some (-1) }) := by
  decide

/-- C30 fails on the code at the header example: searching `[1, 2, 3]` in
`[5, 6, 1, 7, 1, 2, 3, 8]` from index 0 reaches position 2, where `data[2]`
equals `pattern[0]`, and `check_seq_int` then reads `seq[i - seq_size]` with
`i = 2` and `seq_size = 3`, an index that wraps to `UINT_MAX` and lies outside
the pattern: the call has no result. At position 4, where the pattern really
occurs, `check_seq_int` compares `seq[1]` with `data[4]` and answers -1; so in
`[5, 6, 0, 7, 1, 2, 3, 8]`, where position 2 is no candidate, the call returns
0 with index -1 although the pattern stands at index 4. -/
theorem contains_seq_int_reads_outside :
    list_contains_seq_int ⟨false, false, false, 8, 8, [5, 6, 1, 7, 1, 2, 3, 8]⟩
      (some [1, 2, 3]) 3 0 = none ∧
    check_seq_int [5, 6, 1, 7, 1, 2, 3, 8] [1, 2, 3] 3 2 = none ∧
    usub 2 3 = UINT_MAX ∧
    check_seq_int [5, 6, 1, 7, 1, 2, 3, 8] [1, 2, 3] 3 4 = some (-1) ∧
    list_contains_seq_int ⟨false, false, false, 8, 8, [5, 6, 0, 7, 1, 2, 3, 8]⟩
      (some [1, 2, 3]) 3 0
      = some (0, ⟨false, false, false, 8, 8, [5, 6, 0, 7, 1, 2, 3, 8]⟩,
          { index := some (-1) }) := by
  decide

/-! ## Sums -/

/-- The live elements of a list of `int` values, by index. -/
theorem ints_at {list : list_int} (hi : list.ints) {k : Nat} {x : Int}
    (hk : k < list.size) (hx : list.data[k]? = some x) : INT_MIN ≤ x ∧ x ≤ INT_MAX := by
  apply hi
  show x ∈ list.data.take list.size
  rw [List.mem_iff_getElem?]
  exact ⟨k, by rw [List.getElem?_take, if_pos hk]; exact hx⟩

/-- The loop of `list_sum_int` from position `i` on, `n` rounds, over `int`
elements and at most `UINT_MAX` positions in all: no addition leaves the range
of `long`, and the elements passed are added to the accumulator. -/
theorem sum_loop_spec (d : List Int) (size : Nat) (hsz : size ≤ UINT_MAX)
    (hlen : size ≤ d.length)
    (hint : ∀ k x, k < size → d[k]? = some x → INT_MIN ≤ x ∧ x ≤ INT_MAX) :
    ∀ (n i : Nat) (acc : Int), i + n = size →
      -(2147483648 * (i : Int)) ≤ acc → acc ≤ 2147483648 * (i : Int) →
      sum_loop d i n acc = some (acc + ((d.drop i).take n).sum) := by
  unfold UINT_MAX at hsz
  intro n
  induction n with
  | zero =>
    intro i acc _ _ _
    unfold sum_loop
    rw [loop_up]
    simp
  | succ n ih =>
    intro i acc hin hlo hhi
    have hlt : i < d.length := by omega
    obtain ⟨h1, h2⟩ := hint i d[i] (by omega) (List.getElem?_eq_getElem hlt)
    unfold INT_MIN at h1
    unfold INT_MAX at h2
    have hstep := ih (i + 1) (acc + d[i]) (by omega) (by push_cast; omega)
      (by push_cast; omega)
    unfold sum_loop at hstep ⊢
    rw [loop_up]
    simp only [bind, pure, Option.some_bind] at hstep ⊢
    rw [load_eq hlt, Option.some_bind, if_neg (by unfold LONG_MAX LONG_MIN; omega),
      Option.some_bind, hstep, List.drop_eq_getElem_cons hlt, List.take_succ_cons,
      List.sum_cons, add_assoc]

/-- The sum of `int` values lies within `2^31` times their number. -/
theorem sum_bound : ∀ (l : List Int), (∀ x ∈ l, INT_MIN ≤ x ∧ x ≤ INT_MAX) →
    -(2147483648 * (l.length : Int)) ≤ l.sum ∧ l.sum ≤ 2147483647 * (l.length : Int) := by
  intro l
  induction l with
  | nil => intro _; simp
  | cons a l ih =>
    intro h
    obtain ⟨h1, h2⟩ := h a (List.mem_cons_self a l)
    unfold INT_MIN at h1
    unfold INT_MAX at h2
    obtain ⟨h3, h4⟩ := ih (fun x hx => h x (List.mem_cons_of_mem a hx))
    rw [List.sum_cons, List.length_cons]
    push_cast
    constructor <;> omega

/-- `list_sum_int` on a list of `int` values inside its buffer: it returns 0
and the exact sum of the live elements. -/
theorem sum_exact {list : list_int} (hr : list.size ≤ UINT_MAX)
    (hlen : list.size ≤ list.data.length) (hi : list.ints) :
    list_sum_int list = some (0, list.live.sum) := by
  have h := sum_loop_spec list.data list.size hr hlen (fun k x hk hx => ints_at hi hk hx)
    list.size 0 0 (by omega) (by simp) (by simp)
  unfold list_sum_int
  simp only [bind, pure]
  rw [h]
  simp only [Option.some_bind, List.drop_zero, zero_add]
  rfl

/-- `list_sum_list_int` on two lists of `int` values inside their buffers: it
returns 0 and the exact sum of both when that sum is a `long` value, and has no
result otherwise. -/
theorem sum_list_cases {list1 list2 : list_int}
    (hr1 : list1.size ≤ UINT_MAX) (hlen1 : list1.size ≤ list1.data.length) (hi1 : list1.ints)
    (hr2 : list2.size ≤ UINT_MAX) (hlen2 : list2.size ≤ list2.data.length) (hi2 : list2.ints) :
    list_sum_list_int list1 list2 =
      if list1.live.sum + list2.live.sum > LONG_MAX ∨ list1.live.sum + list2.live.sum < LONG_MIN
      then none else some (0, list1.live.sum + list2.live.sum) := by
  unfold list_sum_list_int
  simp only [bind, pure]
  rw [sum_exact hr1 hlen1 hi1, sum_exact hr2 hlen2 hi2]
  simp only [Option.some_bind]
  split_ifs <;> rfl

/-- C29, amended: for every pair of allocated lists of `int` values (sizes at
most `UINT_MAX` and at most the capacity), `list_sum_int` returns 0 and the
exact mathematical sum of the live elements of a list, no addition of its
64-bit accumulator overflowing; `list_sum_list_int` returns 0 and the exact sum
of the live elements of both lists whenever that sum is a 64-bit `long` value,
which is the case whenever the two sizes add up to at most `2^32`. -/
theorem sum_int_exact (list1 list2 : list_int)
    (hal1 : list1.allocated) (hle1 : list1.size ≤ list1.capacity) (hi1 : list1.ints)
    (hal2 : list2.allocated) (hle2 : list2.size ≤ list2.capacity) (hi2 : list2.ints) :
    list_sum_int list1 = some (0, list1.live.sum) ∧
    list_sum_int list2 = some (0, list2.live.sum) ∧
    (LONG_MIN ≤ list1.live.sum + list2.live.sum →
      list1.live.sum + list2.live.sum ≤ LONG_MAX →
      list_sum_list_int list1 list2 = some (0, list1.live.sum + list2.live.sum)) ∧
    (list1.size + list2.size ≤ 4294967296 →
      list_sum_list_int list1 list2 = some (0, list1.live.sum + list2.live.sum)) := by
  obtain ⟨⟨hr1, -⟩, hlen1⟩ := hal1
  obtain ⟨⟨hr2, -⟩, hlen2⟩ := hal2
  have hl1 : list1.size ≤ list1.data.length := by omega
  have hl2 : list2.size ≤ list2.data.length := by omega
  have hfit : LONG_MIN ≤ list1.live.sum + list2.live.sum →
      list1.live.sum + list2.live.sum ≤ LONG_MAX →
      list_sum_list_int list1 list2 = some (0, list1.live.sum + list2.live.sum) := by
    intro h1 h2
    rw [sum_list_cases hr1 hl1 hi1 hr2 hl2 hi2, if_neg (by omega)]
  refine ⟨sum_exact hr1 hl1 hi1, sum_exact hr2 hl2 hi2, hfit, ?_⟩
  intro hsz
  obtain ⟨a1, a2⟩ := sum_bound list1.live hi1
  obtain ⟨b1, b2⟩ := sum_bound list2.live hi2
  rw [live_length hl1] at a1 a2
  rw [live_length hl2] at b1 b2
  apply hfit
  · unfold LONG_MIN; omega
  · unfold LONG_MAX; omega

/-- C29 at the lists `[1, 2, 3]` and `[4, 5]`: the sums are 6, 9 and 15. -/
theorem sum_int_exact_witness :
    list_sum_int ⟨false, false, false, 3, 4, [1, 2, 3, 0]⟩ = some (0, 6) ∧
    list_sum_int ⟨false, false, false, 2, 2, [4, 5]⟩ = some (0, 9) ∧
    list_sum_list_int ⟨false, false, false, 3, 4, [1, 2, 3, 0]⟩
      ⟨false, false, false, 2, 2, [4, 5]⟩ = some (0, 15) :=
  have h := sum_int_exact ⟨false, false, false, 3, 4, [1, 2, 3, 0]⟩
    ⟨false, false, false, 2, 2, [4, 5]⟩ (by decide) (by decide) (by decide)
    (by decide) (by decide) (by decide)
  ⟨h.1, h.2.1, h.2.2.2 (by decide)⟩

/-- C29 as stated fails at a list of `2^31 + 1` elements and a list of `2^31`
elements that all hold `INT_MIN`: each sum is a `long` value, the exact sum of
both is `-2^63 - 2^31`, below `LONG_MIN`, and the addition
`value1 + value2` of `list_sum_list_int` overflows. -/
theorem sum_int_exact_counterexample :
    list_sum_list_int
      ⟨false, false, false, 2147483649, 2147483649, List.replicate 2147483649 INT_MIN⟩
      ⟨false, false, false, 2147483648, 2147483648, List.replicate 2147483648 INT_MIN⟩
      = none ∧
    (⟨false, false, false, 2147483649, 2147483649,
        List.replicate 2147483649 INT_MIN⟩ : list_int).live.sum +
      (⟨false, false, false, 2147483648, 2147483648,
        List.replicate 2147483648 INT_MIN⟩ : list_int).live.sum
      = -9223372039002259456 ∧
    (-9223372039002259456 : Int) < LONG_MIN := by
  have hints : ∀ n : Nat, (⟨false, false, false, n, n, List.replicate n INT_MIN⟩ : list_int).ints := by
    intro n x hx
    have hx1 : x ∈ List.replicate n INT_MIN := List.mem_of_mem_take hx
    rw [List.eq_of_mem_replicate hx1]
    decide
  have hsum : ∀ n : Nat,
      (⟨false, false, false, n, n, List.replicate n INT_MIN⟩ : list_int).live.sum
        = (n : Int) * INT_MIN := by
    intro n
    show ((List.replicate n INT_MIN).take n).sum = (n : Int) * INT_MIN
    rw [List.take_of_length_le (by rw [List.length_replicate]), List.sum_replicate,
      nsmul_eq_mul]
  have htotal : (⟨false, false, false, 2147483649, 2147483649,
        List.replicate 2147483649 INT_MIN⟩ : list_int).live.sum +
      (⟨false, false, false, 2147483648, 2147483648,
        List.replicate 2147483648 INT_MIN⟩ : list_int).live.sum
      = -9223372039002259456 := by
    rw [hsum, hsum]
    decide
  refine ⟨?_, htotal, by decide⟩
  rw [sum_list_cases (by decide) (by rw [List.length_replicate]) (hints _)
    (by decide) (by rw [List.length_replicate]) (hints _), htotal]
  decide

/-! ## Range -/

/-- One round of the scan of `list_range_int` on an element `x` that keeps the
difference of the new extremes inside the range of `int`. -/
theorem range_loop_step (d : List Int) (n i : Nat) (mn mx v x : Int) (hx : d[i]? = some x)
    (h1 : (if x > mx then x else mx) - (if x < mn then x else mn) ≤ 2147483647)
    (h2 : -2147483648 ≤ (if x > mx then x else mx) - (if x < mn then x else mn)) :
    range_loop d i (n + 1) (mn, mx, v) =
      range_loop d (i + 1) n ((if x < mn then x else mn), (if x > mx then x else mx),
        (if x > mx then x else mx) - (if x < mn then x else mn)) := by
  unfold range_loop
  rw [loop_up]
  simp only [bind, pure, Option.some_bind]
  unfold load
  rw [hx, Option.some_bind, if_neg (by unfold INT_MAX INT_MIN; omega), Option.some_bind]

/-- The scan of `list_range_int` from position `i` on, `n` rounds, started with
`mn ≤ mx`, when the elements passed and the two start values lie in a span
`[Mn, Mx]` no wider than `INT_MAX`: no subtraction overflows, the extremes
reached bound the elements passed and are among them or among the start values,
and the value written last is their difference. -/
theorem range_loop_spec (d : List Int) (Mn Mx : Int) (hspan : Mx - Mn ≤ 2147483647) :
    ∀ (n i : Nat) (mn mx v : Int), i + n ≤ d.length →
      (∀ k, i ≤ k → k < i + n → ∀ x, d[k]? = some x → Mn ≤ x ∧ x ≤ Mx) →
      Mn ≤ mn → mn ≤ mx → mx ≤ Mx →
      ∃ mn1 mx1 v1, range_loop d i n (mn, mx, v) = some (mn1, mx1, v1) ∧
        (n ≠ 0 → v1 = mx1 - mn1) ∧ (n = 0 → v1 = v) ∧
        mn1 ≤ mn ∧ mx ≤ mx1 ∧
        (∀ k, i ≤ k → k < i + n → ∀ x, d[k]? = some x → mn1 ≤ x ∧ x ≤ mx1) ∧
        (mn1 = mn ∨ ∃ k, i ≤ k ∧ k < i + n ∧ d[k]? = some mn1) ∧
        (mx1 = mx ∨ ∃ k, i ≤ k ∧ k < i + n ∧ d[k]? = some mx1) := by
  intro n
  induction n with
  | zero =>
    intro i mn mx v _ _ _ _ _
    refine ⟨mn, mx, v, ?_, fun h => absurd rfl h, fun _ => rfl, le_refl _, le_refl _,
      fun k h1 h2 => by omega, Or.inl rfl, Or.inl rfl⟩
    unfold range_loop
    rw [loop_up]
  | succ n ih =>
    intro i mn mx v hlen hel hmn hmm hmx
    have hlt : i < d.length := by omega
    have hx : d[i]? = some d[i] := List.getElem?_eq_getElem hlt
    obtain ⟨hx1, hx2⟩ := hel i (le_refl _) (by omega) d[i] hx
    have hmin : Mn ≤ (if d[i] < mn then d[i] else mn) ∧
        (if d[i] < mn then d[i] else mn) ≤ mn ∧ (if d[i] < mn then d[i] else mn) ≤ d[i] := by
      split_ifs <;> omega
    have hmax : (if d[i] > mx then d[i] else mx) ≤ Mx ∧
        mx ≤ (if d[i] > mx then d[i] else mx) ∧ d[i] ≤ (if d[i] > mx then d[i] else mx) := by
      split_ifs <;> omega
    have hminc : (if d[i] < mn then d[i] else mn) = mn ∨
        (if d[i] < mn then d[i] else mn) = d[i] := by
      split_ifs
      · exact Or.inr rfl
      · exact Or.inl rfl
    have hmaxc : (if d[i] > mx then d[i] else mx) = mx ∨
        (if d[i] > mx then d[i] else mx) = d[i] := by
      split_ifs
      · exact Or.inr rfl
      · exact Or.inl rfl
    rw [range_loop_step d n i mn mx v d[i] hx (by omega) (by omega)]
    obtain ⟨mn1, mx1, v1, hrun, hv, hv0, hle1, hle2, hall, hm1, hm2⟩ :=
      ih (i + 1) (if d[i] < mn then d[i] else mn) (if d[i] > mx then d[i] else mx)
        ((if d[i] > mx then d[i] else mx) - (if d[i] < mn then d[i] else mn))
        (by omega) (fun k h1 h2 => hel k (by omega) (by omega)) hmin.1 (by omega) hmax.1
    refine ⟨mn1, mx1, v1, hrun, ?_, fun h => by omega, by omega, by omega, ?_, ?_, ?_⟩
    · intro _
      by_cases hn : n = 0
      · subst hn
        have hrun0 := hrun
        unfold range_loop at hrun0
        rw [loop_up] at hrun0
        simp only [Option.some.injEq, Prod.mk.injEq] at hrun0
        obtain ⟨e1, e2, e3⟩ := hrun0
        rw [← e1, ← e2, ← e3]
      · exact hv hn
    · intro k h1 h2 x hk
      by_cases hki : k = i
      · subst hki
        rw [hx] at hk
        cases hk
        omega
      · exact hall k (by omega) (by omega) x hk
    · rcases hm1 with h | ⟨k, h1, h2, h3⟩
      · rcases hminc with h4 | h4
        · exact Or.inl (by rw [h, h4])
        · exact Or.inr ⟨i, le_refl _, by omega, by rw [h, h4]; exact hx⟩
      · exact Or.inr ⟨k, by omega, by omega, h3⟩
    · rcases hm2 with h | ⟨k, h1, h2, h3⟩
      · rcases hmaxc with h4 | h4
        · exact Or.inl (by rw [h, h4])
        · exact Or.inr ⟨i, le_refl _, by omega, by rw [h, h4]; exact hx⟩
      · exact Or.inr ⟨k, by omega, by omega, h3⟩

/-- A value is a live element exactly when it stands at an index below the size. -/
theorem mem_live_iff {list : list_int} {x : Int} :
    x ∈ list.live ↔ ∃ k, k < list.size ∧ list.data[k]? = some x := by
  show x ∈ list.data.take list.size ↔ _
  rw [List.mem_iff_getElem?]
  constructor
  · rintro ⟨k, hk⟩
    rw [List.getElem?_take] at hk
    by_cases h : k < list.size
    · rw [if_pos h] at hk; exact ⟨k, h, hk⟩
    · rw [if_neg h] at hk; cases hk
  · rintro ⟨k, h, hk⟩
    exact ⟨k, by rw [List.getElem?_take, if_pos h]; exact hk⟩

/-- `list_range_int` on a non-empty list of `int` values inside its buffer,
with least element `mn` and greatest element `mx` no more than `INT_MAX`
apart: it returns 0 and the value `mx - mn`. -/
theorem range_difference {list : list_int} (hlen : list.size ≤ list.data.length)
    (hi : list.ints) {mn mx : Int} (hmn : mn ∈ list.live) (hmx : mx ∈ list.live)
    (hb : ∀ x ∈ list.live, mn ≤ x ∧ x ≤ mx) (hd : mx - mn ≤ INT_MAX) :
    list_range_int list = some (0, list, { value := some (mx - mn) }) := by
  unfold INT_MAX at hd
  obtain ⟨kn, hkn, hdn⟩ := mem_live_iff.mp hmn
  obtain ⟨kx, hkx, hdx⟩ := mem_live_iff.mp hmx
  obtain ⟨n, hn⟩ : ∃ n, list.size = n + 1 := ⟨list.size - 1, by omega⟩
  have hlt : 0 < list.data.length := by omega
  have hx0 : list.data[0]? = some list.data[0] := List.getElem?_eq_getElem hlt
  have hm0 : list.data[0] ∈ list.live := mem_live_iff.mpr ⟨0, by omega, hx0⟩
  obtain ⟨hi1, hi2⟩ := hi _ hm0
  obtain ⟨hb1, hb2⟩ := hb _ hm0
  have e1 : (if list.data[0] < INT_MAX then list.data[0] else INT_MAX) = list.data[0] := by
    split_ifs <;> omega
  have e2 : (if list.data[0] > INT_MIN then list.data[0] else INT_MIN) = list.data[0] := by
    split_ifs <;> omega
  have hstep := range_loop_step list.data n 0 INT_MAX INT_MIN 0 list.data[0] hx0
    (by rw [e1, e2]; omega) (by rw [e1, e2]; omega)
  rw [e1, e2, sub_self] at hstep
  obtain ⟨mn1, mx1, v1, hrun, hv, hv0, hle1, hle2, hall, hm1, hm2⟩ :=
    range_loop_spec list.data mn mx hd n 1 list.data[0] list.data[0] 0 (by omega)
      (fun k _ h2 x hk => hb x (mem_live_iff.mpr ⟨k, by omega, hk⟩)) hb1 (le_refl _) hb2
  have hall1 : ∀ k, k < list.size → ∀ x, list.data[k]? = some x → mn1 ≤ x ∧ x ≤ mx1 := by
    intro k hk x hkx
    by_cases h0 : k = 0
    · subst h0
      rw [hx0] at hkx
      cases hkx
      omega
    · exact hall k (by omega) (by omega) x hkx
  have hmn1 : mn1 ∈ list.live := by
    rcases hm1 with h | ⟨k, _, h2, h3⟩
    · rw [h]; exact hm0
    · exact mem_live_iff.mpr ⟨k, by omega, h3⟩
  have hmx1 : mx1 ∈ list.live := by
    rcases hm2 with h | ⟨k, _, h2, h3⟩
    · rw [h]; exact hm0
    · exact mem_live_iff.mpr ⟨k, by omega, h3⟩
  have emn : mn1 = mn := le_antisymm (hall1 kn hkn mn hdn).1 (hb mn1 hmn1).1
  have emx : mx1 = mx := le_antisymm (hb mx1 hmx1).2 (hall1 kx hkx mx hdx).2
  have ev : v1 = mx - mn := by
    by_cases h0 : n = 0
    · rw [hv0 h0]
      rcases hm1 with h | ⟨k, h1, h2, _⟩
      · rcases hm2 with h3 | ⟨k, h1, h2, _⟩
        · omega
        · omega
      · omega
    · rw [hv h0, emn, emx]
  unfold list_range_int
  simp only [bind, pure]
  rw [hn, hstep, hrun]
  simp only [Option.some_bind, ev]

/-- `list_range_int` on an empty list: it returns 0 and the value 0. -/
theorem range_empty {list : list_int} (h0 : list.size = 0) :
    list_range_int list = some (0, list, { value := some 0 }) := by
  unfold list_range_int range_loop
  rw [h0, loop_up]
  rfl

/-- C28, amended: for every allocated list of `int` values (size at most the
capacity), `list_range_int` on an empty list returns 0 with the value 0, and on
a non-empty list whose greatest element `mx` and least element `mn` are no more
than `INT_MAX` apart it returns 0 with the value `mx - mn`, the exact
mathematical difference. -/
theorem range_int_difference (list : list_int) (hal : list.allocated)
    (hle : list.size ≤ list.capacity) (hi : list.ints) :
    (list.size = 0 → list_range_int list = some (0, list, { value := some 0 })) ∧
    (∀ mn mx : Int, mn ∈ list.live → mx ∈ list.live →
      (∀ x ∈ list.live, mn ≤ x ∧ x ≤ mx) → mx - mn ≤ INT_MAX →
      list_range_int list = some (0, list, { value := some (mx - mn) })) := by
  obtain ⟨-, hlen⟩ := hal
  exact ⟨range_empty, fun mn mx hmn hmx hb hd =>
    range_difference (by omega) hi hmn hmx hb hd⟩

/-- C28 at the header example `[1, 2, 3, 4, 5]`, where the value is 4, and at
an empty list. -/
theorem range_int_difference_witness :
    list_range_int ⟨false, false, false, 5, 5, [1, 2, 3, 4, 5]⟩
      = some (0, ⟨false, false, false, 5, 5, [1, 2, 3, 4, 5]⟩, { value := some 4 }) ∧
    list_range_int ⟨false, false, false, 0, 2, [7, 7]⟩
      = some (0, ⟨false, false, false, 0, 2, [7, 7]⟩, { value := some 0 }) :=
  ⟨(range_int_difference ⟨false, false, false, 5, 5, [1, 2, 3, 4, 5]⟩
      (by decide) (by decide) (by decide)).2 1 5 (by decide) (by decide) (by decide)
      (by decide),
    (range_int_difference ⟨false, false, false, 0, 2, [7, 7]⟩
      (by decide) (by decide) (by decide)).1 rfl⟩

/-- C28 as stated fails at the list `[-1, 2147483647]`: the difference of the
greatest and the least element is `2^31`, more than `INT_MAX`, and the `int`
subtraction `max - min` overflows, so that no value equal to the difference is
returned. -/
theorem range_int_difference_counterexample :
    list_range_int ⟨false, false, false, 2, 2, [-1, 2147483647]⟩ = none ∧
    (2147483647 : Int) - (-1) = 2147483648 ∧ (2147483648 : Int) > INT_MAX := by
  decide

/-! ## Median -/

/-- `list_median_int` after a call of `list_sort_int` that returned `list1`
with the size of `list`, on a non-empty writable list inside its buffer: the
middle slots of `list1` are read and combined. -/
theorem median_after_sort (fl : ℚ → ℚ) {list list1 : list_int} {c : Int}
    (hro : list.readonly = false) (hst : list.static_ = false)
    (h0 : list.size ≠ 0) (hr : list.size ≤ UINT_MAX)
    (hsort : list_sort_int list = some (c, list1))
    (hsize : list1.size = list.size) (hlen : list.size ≤ list1.data.length) :
    ∃ lo hi : Int, list1.live[(list.size - 1) / 2]? = some lo ∧
      list1.live[list.size / 2]? = some hi ∧
      list_median_int fl list = some (0, list1,
        some (if list.size % 2 = 0 then fl (fl (fl hi + fl lo) / 2) else fl hi)) := by
  unfold UINT_MAX at hr
  have hro1 : ¬ list.readonly = true := by simp [hro]
  have hst1 : ¬ list.static_ = true := by simp [hst]
  have hhi : list.size / 2 < list1.data.length := by omega
  have hlo : (list.size - 1) / 2 < list1.data.length := by omega
  have live_at : ∀ k, k < list.size → list1.live[k]? = list1.data[k]? := by
    intro k hk
    show (list1.data.take list1.size)[k]? = _
    rw [List.getElem?_take, if_pos (by omega)]
  refine ⟨list1.data[(list.size - 1) / 2], list1.data[list.size / 2], ?_, ?_, ?_⟩
  · rw [live_at _ (by omega)]; exact List.getElem?_eq_getElem hlo
  · rw [live_at _ (by omega)]; exact List.getElem?_eq_getElem hhi
  · unfold list_median_int
    simp only [bind, pure, Option.some_bind]
    rw [if_neg h0, if_neg hro1, if_neg hst1, hsort]
    simp only [Option.some_bind, hsize]
    rw [load_eq hhi]
    simp only [Option.some_bind]
    by_cases hev : list.size % 2 = 0
    · have hu : usub (list.size / 2) 1 = (list.size - 1) / 2 := by
        unfold usub; omega
      simp only [if_pos hev, hu, load_eq hlo, Option.some_bind]
    · simp only [if_neg hev]

/-- The two examples of the median: `[3, 1, 5, 2, 4]` gives 3 and
`[1, 2, 3, 4, 5, 10]` gives 3.5, for every `float` rounding that is exact on
3, 4, 7 and 3.5. -/
theorem median_examples (fl : ℚ → ℚ) (h3 : fl 3 = 3) (h4 : fl 4 = 4) (h7 : fl 7 = 7)
    (h72 : fl (7 / 2) = 7 / 2) :
    list_median_int fl ⟨false, false, false, 5, 5, [3, 1, 5, 2, 4]⟩
      = some (0, ⟨false, false, false, 5, 5, [1, 2, 3, 4, 5]⟩, some 3) ∧
    list_median_int fl ⟨false, false, false, 6, 6, [1, 2, 3, 4, 5, 10]⟩
      = some (0, ⟨false, false, false, 6, 6, [1, 2, 3, 4, 5, 10]⟩, some (7 / 2)) := by
  have s1 : list_sort_int ⟨false, false, false, 5, 5, [3, 1, 5, 2, 4]⟩
      = some (0, ⟨false, false, false, 5, 5, [1, 2, 3, 4, 5]⟩) := by decide
  have s2 : list_sort_int ⟨false, false, false, 6, 6, [1, 2, 3, 4, 5, 10]⟩
      = some (0, ⟨false, false, false, 6, 6, [1, 2, 3, 4, 5, 10]⟩) := by decide
  have u : usub 3 1 = 2 := by decide
  constructor
  · unfold list_median_int
    simp only [bind, pure, Option.some_bind, s1]
    simp [load, h3]
  · unfold list_median_int
    simp only [bind, pure, Option.some_bind, s2]
    simp only [load, u]
    norm_num [h3, h4, h7, h72]

/-- C23 fails on the code for lists of more than `INT_MAX` elements, through
the defect of `list_sort_int` behind C20. For every allocated list with
`size ≤ capacity` and every rounding `fl` of the `float` arithmetic: on an
empty list `list_median_int` returns 0 with the value 0 and the list as it was;
on a non-empty writable list of `n ≤ INT_MAX` elements it returns 0, leaves the
live sequence sorted non-decreasingly (a rearrangement of the old one), and
builds the value from the middle elements `lo = s[(n - 1) / 2]` and
`hi = s[n / 2]` of the sorted sequence, as `fl hi` when `n` is odd and as
`fl (fl (fl hi + fl lo) / 2)` when `n` is even, which is `hi`, respectively
`(lo + hi) / 2`, when `fl` is exact on the values involved; on a writable list
of more than `2^31` elements it returns 0 and leaves the list exactly as it
was, sorted or not. -/
theorem median_int_value (fl : ℚ → ℚ) (list : list_int) (hal : list.allocated)
    (hle : list.size ≤ list.capacity) :
    (list.size = 0 → list_median_int fl list = some (0, list, some 0)) ∧
    (list.size ≠ 0 → list.readonly = false → list.static_ = false →
      list.size ≤ 2147483647 →
      ∃ (list1 : list_int) (lo hi : Int) (v : ℚ),
        list_median_int fl list = some (0, list1, some v) ∧
        list1.live.Sorted (· ≤ ·) ∧ list1.live.Perm list.live ∧
        list1.live[(list.size - 1) / 2]? = some lo ∧
        list1.live[list.size / 2]? = some hi ∧
        v = (if list.size % 2 = 0 then fl (fl (fl hi + fl lo) / 2) else fl hi) ∧
        (fl hi = hi → fl lo = lo → fl (hi + lo) = hi + lo →
          fl ((hi + lo) / 2) = (hi + lo) / 2 →
          v = if list.size % 2 = 0 then ((lo : ℚ) + hi) / 2 else hi)) ∧
    (list.readonly = false → list.static_ = false → 2147483648 < list.size →
      ∃ v, list_median_int fl list = some (0, list, some v)) := by
  obtain ⟨⟨hr1, hr2⟩, hlen⟩ := hal
  refine ⟨?_, ?_, ?_⟩
  · intro h0
    unfold list_median_int
    simp only [bind, pure]
    rw [if_pos h0]
  · intro h0 hro hst hsz
    obtain ⟨list1, hrun, hs, hp, hsize, -, -, -, -, hl1, -⟩ :=
      sort_sorts hro hst (by omega) hsz
    obtain ⟨lo, hi, hlo, hhi, hmed⟩ :=
      median_after_sort fl hro hst h0 hr1 hrun hsize (by omega)
    refine ⟨list1, lo, hi, _, hmed, hs, hp, hlo, hhi, rfl, ?_⟩
    intro e1 e2 e3 e4
    by_cases hev : list.size % 2 = 0
    · rw [if_pos hev, if_pos hev, e1, e2, e3, e4, add_comm]
    · rw [if_neg hev, if_neg hev, e1]
  · intro hro hst hbig
    obtain ⟨lo, hi, -, -, hmed⟩ :=
      median_after_sort fl hro hst (by omega) hr1 (sort_skips hro hst hr1 hbig) rfl (by omega)
    exact ⟨_, hmed⟩

/-- C23 at a list of `2^31 + 1` elements that starts with 2, 1: the call
returns 0 and the list still starts with 2, 1. -/
theorem median_int_value_witness :
    (∃ v, list_median_int id ⟨false, false, false, 2147483649, 2147483649,
        2 :: 1 :: List.replicate 2147483647 0⟩
      = some (0, ⟨false, false, false, 2147483649, 2147483649,
        2 :: 1 :: List.replicate 2147483647 0⟩, some v)) ∧
    (⟨false, false, false, 2147483649, 2147483649,
        2 :: 1 :: List.replicate 2147483647 0⟩ : list_int).live.take 2 = [2, 1] :=
  ⟨(median_int_value id ⟨false, false, false, 2147483649, 2147483649,
      2 :: 1 :: List.replicate 2147483647 0⟩
      ⟨⟨by decide, by decide⟩,
        by rw [List.length_cons, List.length_cons, List.length_replicate]⟩
      (by decide)).2.2 rfl rfl (by decide), by decide⟩

/-! ## Extremes: where the index is written -/

/-- One round of the scan of `list_max_int`. -/
theorem max_loop_step (d : List Int) (n i : Nat) (v x : Int) (idx : Option Int)
    (hx : d[i]? = some x) :
    extreme_loop true d i (n + 1) (v, idx) =
      extreme_loop true d (i + 1) n (if v < x then (x, some (i : Int)) else (v, idx)) := by
  unfold extreme_loop
  rw [loop_up]
  simp only [bind, pure, Option.some_bind, if_true]
  unfold load
  rw [hx, Option.some_bind]
  split_ifs <;> rfl

/-- One round of the scan of `list_min_int`. -/
theorem min_loop_step (d : List Int) (n i : Nat) (v x : Int) (idx : Option Int)
    (hx : d[i]? = some x) :
    extreme_loop false d i (n + 1) (v, idx) =
      extreme_loop false d (i + 1) n (if v > x then (x, some (i : Int)) else (v, idx)) := by
  unfold extreme_loop
  rw [loop_up]
  simp only [bind, pure, Option.some_bind, Bool.false_eq_true, if_false]
  unfold load
  rw [hx, Option.some_bind]
  split_ifs <;> rfl

/-- The scan of `list_max_int` from position `i` on, `n` rounds: the value
reached bounds the start value and the elements passed; either nothing was
written, or the value is an element above the start value, found at the index
written, with every element passed before it below it. -/
theorem max_loop_spec (d : List Int) :
    ∀ (n i : Nat) (v : Int) (idx : Option Int), i + n ≤ d.length →
      ∃ v1 idx1, extreme_loop true d i n (v, idx) = some (v1, idx1) ∧ v ≤ v1 ∧
        (∀ k, i ≤ k → k < i + n → ∀ x, d[k]? = some x → x ≤ v1) ∧
        ((v1 = v ∧ idx1 = idx) ∨
          (v < v1 ∧ ∃ k : Nat, i ≤ k ∧ k < i + n ∧ idx1 = some (k : Int) ∧
            d[k]? = some v1 ∧ ∀ j, i ≤ j → j < k → ∀ x, d[j]? = some x → x < v1)) := by
  intro n
  induction n with
  | zero =>
    intro i v idx _
    refine ⟨v, idx, ?_, le_refl _, fun k h1 h2 => by omega, Or.inl ⟨rfl, rfl⟩⟩
    unfold extreme_loop
    rw [loop_up]
  | succ n ih =>
    intro i v idx hlen
    have hlt : i < d.length := by omega
    have hx : d[i]? = some d[i] := List.getElem?_eq_getElem hlt
    rw [max_loop_step d n i v d[i] idx hx]
    have hat : ∀ {k : Nat} {x : Int}, k = i → d[k]? = some x → x = d[i] := by
      intro k x hk hkx
      subst hk
      rw [hx] at hkx
      cases hkx
      rfl
    by_cases hv : v < d[i]
    · rw [if_pos hv]
      obtain ⟨v1, idx1, hrun, hle, hall, hc⟩ := ih (i + 1) d[i] (some (i : Int)) (by omega)
      refine ⟨v1, idx1, hrun, by omega, ?_, Or.inr ⟨by omega, ?_⟩⟩
      · intro k h1 h2 x hkx
        by_cases hki : k = i
        · rw [hat hki hkx]; exact hle
        · exact hall k (by omega) (by omega) x hkx
      · rcases hc with ⟨e1, e2⟩ | ⟨h3, k, h4, h5, h6, h7, h8⟩
        · exact ⟨i, le_refl _, by omega, e2, by rw [e1]; exact hx, fun j h1 h2 => by omega⟩
        · refine ⟨k, by omega, by omega, h6, h7, ?_⟩
          intro j h1 h2 x hjx
          by_cases hji : j = i
          · rw [hat hji hjx]; exact h3
          · exact h8 j (by omega) h2 x hjx
    · rw [if_neg hv]
      obtain ⟨v1, idx1, hrun, hle, hall, hc⟩ := ih (i + 1) v idx (by omega)
      refine ⟨v1, idx1, hrun, hle, ?_, ?_⟩
      · intro k h1 h2 x hkx
        by_cases hki : k = i
        · rw [hat hki hkx]; omega
        · exact hall k (by omega) (by omega) x hkx
      · rcases hc with hsame | ⟨h3, k, h4, h5, h6, h7, h8⟩
        · exact Or.inl hsame
        · refine Or.inr ⟨h3, k, by omega, by omega, h6, h7, ?_⟩
          intro j h1 h2 x hjx
          by_cases hji : j = i
          · rw [hat hji hjx]; omega
          · exact h8 j (by omega) h2 x hjx

/-- The scan of `list_min_int` from position `i` on, `n` rounds: the mirror
image of `max_loop_spec`. -/
theorem min_loop_spec (d : List Int) :
    ∀ (n i : Nat) (v : Int) (idx : Option Int), i + n ≤ d.length →
      ∃ v1 idx1, extreme_loop false d i n (v, idx) = some (v1, idx1) ∧ v1 ≤ v ∧
        (∀ k, i ≤ k → k < i + n → ∀ x, d[k]? = some x → v1 ≤ x) ∧
        ((v1 = v ∧ idx1 = idx) ∨
          (v1 < v ∧ ∃ k : Nat, i ≤ k ∧ k < i + n ∧ idx1 = some (k : Int) ∧
            d[k]? = some v1 ∧ ∀ j, i ≤ j → j < k → ∀ x, d[j]? = some x → v1 < x)) := by
  intro n
  induction n with
  | zero =>
    intro i v idx _
    refine ⟨v, idx, ?_, le_refl _, fun k h1 h2 => by omega, Or.inl ⟨rfl, rfl⟩⟩
    unfold extreme_loop
    rw [loop_up]
  | succ n ih =>
    intro i v idx hlen
    have hlt : i < d.length := by omega
    have hx : d[i]? = some d[i] := List.getElem?_eq_getElem hlt
    rw [min_loop_step d n i v d[i] idx hx]
    have hat : ∀ {k : Nat} {x : Int}, k = i → d[k]? = some x → x = d[i] := by
      intro k x hk hkx
      subst hk
      rw [hx] at hkx
      cases hkx
      rfl
    by_cases hv : v > d[i]
    · rw [if_pos hv]
      obtain ⟨v1, idx1, hrun, hle, hall, hc⟩ := ih (i + 1) d[i] (some (i : Int)) (by omega)
      refine ⟨v1, idx1, hrun, by omega, ?_, Or.inr ⟨by omega, ?_⟩⟩
      · intro k h1 h2 x hkx
        by_cases hki : k = i
        · rw [hat hki hkx]; exact hle
        · exact hall k (by omega) (by omega) x hkx
      · rcases hc with ⟨e1, e2⟩ | ⟨h3, k, h4, h5, h6, h7, h8⟩
        · exact ⟨i, le_refl _, by omega, e2, by rw [e1]; exact hx, fun j h1 h2 => by omega⟩
        · refine ⟨k, by omega, by omega, h6, h7, ?_⟩
          intro j h1 h2 x hjx
          by_cases hji : j = i
          · rw [hat hji hjx]; exact h3
          · exact h8 j (by omega) h2 x hjx
    · rw [if_neg hv]
      obtain ⟨v1, idx1, hrun, hle, hall, hc⟩ := ih (i + 1) v idx (by omega)
      refine ⟨v1, idx1, hrun, hle, ?_, ?_⟩
      · intro k h1 h2 x hkx
        by_cases hki : k = i
        · rw [hat hki hkx]; omega
        · exact hall k (by omega) (by omega) x hkx
      · rcases hc with hsame | ⟨h3, k, h4, h5, h6, h7, h8⟩
        · exact Or.inl hsame
        · refine Or.inr ⟨h3, k, by omega, by omega, h6, h7, ?_⟩
          intro j h1 h2 x hjx
          by_cases hji : j = i
          · rw [hat hji hjx]; omega
          · exact h8 j (by omega) h2 x hjx

/-- `list_max_int` on a non-empty list of `int` values inside its buffer: it
returns 0 and the greatest live element `mx`. When `mx` is above `INT_MIN` the
index written is the least index holding `mx`; when `mx` is `INT_MIN` the index
is not written. -/
theorem max_first_index {list : list_int} (hlen : list.size ≤ list.data.length)
    (hi : list.ints) (h0 : list.size ≠ 0) :
    ∃ mx, mx ∈ list.live ∧ (∀ x ∈ list.live, x ≤ mx) ∧
      (mx = INT_MIN →
        list_max_int list = some (0, list, { value := some mx, index := none })) ∧
      (mx ≠ INT_MIN → ∃ k : Nat, k < list.size ∧ list.data[k]? = some mx ∧
        (∀ j, j < k → ∀ x, list.data[j]? = some x → x < mx) ∧
        list_max_int list = some (0, list, { value := some mx, index := some (k : Int) })) := by
  have hlt : 0 < list.data.length := by omega
  have hx0 : list.data[0]? = some list.data[0] := List.getElem?_eq_getElem hlt
  have hm0 : list.data[0] ∈ list.live := mem_live_iff.mpr ⟨0, by omega, hx0⟩
  obtain ⟨v1, idx1, hrun, hle, hall, hc⟩ :=
    max_loop_spec list.data list.size 0 INT_MIN none (by omega)
  have hrun1 : list_max_int list = some (0, list, { value := some v1, index := idx1 }) := by
    unfold list_max_int
    simp only [bind, pure]
    rw [if_neg h0, hrun]
    rfl
  have hall1 : ∀ x ∈ list.live, x ≤ v1 := by
    intro x hx
    obtain ⟨k, hk, hkx⟩ := mem_live_iff.mp hx
    exact hall k (by omega) (by omega) x hkx
  rcases hc with ⟨e1, e2⟩ | ⟨h3, k, -, h5, h6, h7, h8⟩
  · have e0 : list.data[0] = INT_MIN := le_antisymm (by rw [← e1]; exact hall1 _ hm0) (hi _ hm0).1
    refine ⟨v1, by rw [e1, ← e0]; exact hm0, hall1, fun _ => by rw [hrun1, e2], ?_⟩
    intro hne
    exact absurd e1 hne
  · refine ⟨v1, mem_live_iff.mpr ⟨k, by omega, h7⟩, hall1, fun h => by omega, ?_⟩
    intro _
    exact ⟨k, by omega, h7, fun j hj x hjx => h8 j (by omega) hj x hjx, by rw [hrun1, h6]⟩

/-- `list_min_int` on a non-empty list of `int` values inside its buffer: it
returns 0 and the least live element `mn`. When `mn` is below `INT_MAX` the
index written is the least index holding `mn`; when `mn` is `INT_MAX` the index
is not written. -/
theorem min_first_index {list : list_int} (hlen : list.size ≤ list.data.length)
    (hi : list.ints) (h0 : list.size ≠ 0) :
    ∃ mn, mn ∈ list.live ∧ (∀ x ∈ list.live, mn ≤ x) ∧
      (mn = INT_MAX →
        list_min_int list = some (0, list, { value := some mn, index := none })) ∧
      (mn ≠ INT_MAX → ∃ k : Nat, k < list.size ∧ list.data[k]? = some mn ∧
        (∀ j, j < k → ∀ x, list.data[j]? = some x → mn < x) ∧
        list_min_int list = some (0, list, { value := some mn, index := some (k : Int) })) := by
  have hlt : 0 < list.data.length := by omega
  have hx0 : list.data[0]? = some list.data[0] := List.getElem?_eq_getElem hlt
  have hm0 : list.data[0] ∈ list.live := mem_live_iff.mpr ⟨0, by omega, hx0⟩
  obtain ⟨v1, idx1, hrun, hle, hall, hc⟩ :=
    min_loop_spec list.data list.size 0 INT_MAX none (by omega)
  have hrun1 : list_min_int list = some (0, list, { value := some v1, index := idx1 }) := by
    unfold list_min_int
    simp only [bind, pure]
    rw [if_neg h0, hrun]
    rfl
  have hall1 : ∀ x ∈ list.live, v1 ≤ x := by
    intro x hx
    obtain ⟨k, hk, hkx⟩ := mem_live_iff.mp hx
    exact hall k (by omega) (by omega) x hkx
  rcases hc with ⟨e1, e2⟩ | ⟨h3, k, -, h5, h6, h7, h8⟩
  · have e0 : list.data[0] = INT_MAX := le_antisymm (hi _ hm0).2 (by rw [← e1]; exact hall1 _ hm0)
    refine ⟨v1, by rw [e1, ← e0]; exact hm0, hall1, fun _ => by rw [hrun1, e2], ?_⟩
    intro hne
    exact absurd e1 hne
  · refine ⟨v1, mem_live_iff.mpr ⟨k, by omega, h7⟩, hall1, fun h => by omega, ?_⟩
    intro _
    exact ⟨k, by omega, h7, fun j hj x hjx => h8 j (by omega) hj x hjx, by rw [hrun1, h6]⟩

/-! ## Mode of pairwise distinct elements -/

/-- One round of the run-counting loop of `list_mode_int` at a position whose
element differs from the one before it. -/
theorem mode_runs_step (d : List Int) (n i : Nat) (mx c mc x y : Int) (hi : 1 ≤ i)
    (hiu : i ≤ UINT_MAX) (hx : d[i]? = some x) (hy : d[i - 1]? = some y) (hxy : x ≠ y) :
    mode_runs d i (n + 1) (mx, c, mc) =
      mode_runs d (i + 1) n (if 1 > mc then (x, 1, 1) else (mx, 1, mc)) := by
  have hu : usub i 1 = i - 1 := by
    unfold UINT_MAX at hiu
    unfold usub
    omega
  unfold mode_runs
  rw [loop_up]
  simp only [bind, pure, Option.some_bind]
  unfold load
  rw [hx, Option.some_bind, hu, hy, Option.some_bind, if_neg (fun h => hxy h.1)]
  simp only [if_neg hxy]
  split_ifs <;> rfl

/-- The run-counting loop over positions whose elements all differ from their
predecessors, once the best count is 1: nothing changes any more. -/
theorem mode_runs_distinct (d : List Int) (mx : Int) :
    ∀ (n i : Nat), 1 ≤ i → i + n ≤ d.length → i + n ≤ UINT_MAX + 1 →
      (∀ k, i ≤ k → k < i + n → d[k]? ≠ d[k - 1]?) →
      mode_runs d i n (mx, 1, 1) = some (mx, 1, 1) := by
  intro n
  induction n with
  | zero =>
    intro i _ _ _ _
    unfold mode_runs
    rw [loop_up]
  | succ n ih =>
    intro i hi hlen hu hne
    have hlt : i < d.length := by omega
    have hlt1 : i - 1 < d.length := by omega
    have hx : d[i]? = some d[i] := List.getElem?_eq_getElem hlt
    have hy : d[i - 1]? = some d[i - 1] := List.getElem?_eq_getElem hlt1
    have hxy : d[i] ≠ d[i - 1] := by
      intro h
      apply hne i (le_refl _) (by omega)
      rw [hx, hy, h]
    rw [mode_runs_step d n i mx 1 1 d[i] d[i - 1] hi (by omega) hx hy hxy,
      if_neg (by omega)]
    exact ih (i + 1) (by omega) (by omega) (by omega)
      (fun k h1 h2 => hne k (by omega) (by omega))

/-- `list_mode_int` with `sort = true` on a writable list of at least two and
at most `INT_MAX` pairwise distinct elements: it returns 0, leaves the list
sorted and reports the second value of the sorted sequence with amount 1. -/
theorem mode_distinct_second (m : Allocator) {list : list_int}
    (hro : list.readonly = false) (hst : list.static_ = false)
    (hlen : list.size ≤ list.data.length) (h2 : 2 ≤ list.size)
    (hsz : list.size ≤ 2147483647) (hnd : list.live.Nodup) :
    ∃ list1 s1, list_mode_int m list true
        = some (0, list1, { value := some s1, count := some 1 }) ∧
      list1.live.Sorted (· ≤ ·) ∧ list1.live.Perm list.live ∧
      list1.live[1]? = some s1 := by
  obtain ⟨list1, hrun, hs, hp, hsize, -, -, -, -, hl1, -⟩ := sort_sorts hro hst hlen hsz
  have hnd1 : list1.live.Nodup := hp.nodup_iff.mpr hnd
  have hlen1 : list1.size ≤ list1.data.length := by omega
  have hll : list1.live.length = list1.size := live_length hlen1
  have live_at : ∀ k, k < list1.size → list1.live[k]? = list1.data[k]? := by
    intro k hk
    show (list1.data.take list1.size)[k]? = _
    rw [List.getElem?_take, if_pos hk]
  have hadj : ∀ k, 1 ≤ k → k < list1.size → list1.data[k]? ≠ list1.data[k - 1]? := by
    intro k h1 hk h
    have := List.nodup_iff_getElem?_ne_getElem?.mp hnd1 (k - 1) k (by omega) (by omega)
    rw [live_at _ (by omega), live_at _ hk] at this
    exact this h.symm
  obtain ⟨n, hn⟩ : ∃ n, list1.size = n + 2 := ⟨list1.size - 2, by omega⟩
  have h0 : (0 : Nat) < list1.data.length := by omega
  have h1 : (1 : Nat) < list1.data.length := by omega
  have hx1 : list1.data[1]? = some list1.data[1] := List.getElem?_eq_getElem h1
  have hx0 : list1.data[1 - 1]? = some list1.data[0] := List.getElem?_eq_getElem h0
  have hne : list1.data[1] ≠ list1.data[0] := by
    intro h
    apply hadj 1 (le_refl _) (by omega)
    rw [hx1, hx0, h]
  have hruns : mode_runs list1.data 1 (list1.size - 1) (list1.data[0], 0, 0)
      = some (list1.data[1], 1, 1) := by
    have e : list1.size - 1 = n + 1 := by omega
    rw [e, mode_runs_step list1.data n 1 list1.data[0] 0 0 list1.data[1] list1.data[0]
      (le_refl _) (by decide) hx1 hx0 hne, if_pos (by omega)]
    exact mode_runs_distinct list1.data list1.data[1] n 2 (by omega) (by omega)
      (by unfold UINT_MAX; omega) (fun k h3 h4 => hadj k (by omega) (by omega))
  refine ⟨list1, list1.data[1], ?_, hs, hp, by rw [live_at 1 (by omega)]; exact hx1⟩
  unfold list_mode_int
  simp only [bind, pure, Option.some_bind]
  rw [if_neg (by omega), if_neg (by omega), if_pos trivial, hrun]
  simp only [Option.map_some', Option.some_bind]
  unfold mode_scan
  simp only [bind, pure]
  rw [load_eq h0]
  simp only [Option.some_bind]
  rw [if_pos (show decide ((0 : Int) ≠ -3) = true by decide), hruns]
  rfl

/-! ## Splitting into an array, popping from an empty list -/

/-- The copy loop of `list_split_arr_int` starts with a store at
`(*arr)[list->size - midpoint]`, one past the block of `list->size - midpoint`
ints: with `midpoint` below the size, `split_arr_at` returns -2 (block refused)
or does not return. -/
theorem split_arr_at_fails {m : Allocator} {list list1 : list_int} {midpoint : Nat}
    {r : Int} {o : Outputs} (hmid : midpoint < list.size)
    (h : split_arr_at m list midpoint = some (r, list1, o)) : r = -2 := by
  unfold split_arr_at at h
  simp only [bind, pure] at h
  cases hm : malloc_ints m (usub list.size midpoint) with
  | none => simp only [hm] at h; cases h; rfl
  | some block =>
    exfalso
    simp only [hm] at h
    rw [Option.bind_eq_some] at h
    obtain ⟨b, hb, -⟩ := h
    have hlen : block.length = usub list.size midpoint := by
      unfold malloc_ints at hm
      by_cases hg : m.grants (usub list.size midpoint) = true
      · rw [if_pos hg] at hm
        cases hm
        simp
      · rw [if_neg hg] at hm
        cases hm
    obtain ⟨k, hk⟩ : ∃ k, list.size - midpoint = k + 1 := ⟨list.size - midpoint - 1, by omega⟩
    rw [hk, loop_up, Option.bind_eq_some] at hb
    obtain ⟨b1, hb1, -⟩ := hb
    rw [Option.bind_eq_some] at hb1
    obtain ⟨x, -, hst⟩ := hb1
    have := (store_some hst).1
    omega

/-- No call of `list_split_arr_int` returns 0: whenever the checks pass and the
block is granted, the first store of the copy loop lies outside the block. -/
theorem split_arr_never_zero {m : Allocator} {list list1 : list_int} {index : Int}
    {arr : Option (Option (List Int))} {r : Int} {o : Outputs}
    (h : list_split_arr_int m list index arr = some (r, list1, o)) : r ≠ 0 := by
  unfold list_split_arr_int at h
  simp only [bind, pure, Option.some_bind] at h
  by_cases h0 : list.size = 0
  · rw [if_pos h0] at h; cases h; decide
  rw [if_neg h0] at h
  by_cases h1 : list.size = 1
  · rw [if_pos h1] at h; cases h; decide
  rw [if_neg h1] at h
  by_cases h2 : index = 0
  · rw [if_pos h2] at h; cases h; decide
  rw [if_neg h2] at h
  by_cases h3 : int_to_u32 index ≥ list.size
  · rw [if_pos h3] at h; cases h; decide
  rw [if_neg h3] at h
  cases arr with
  | none => simp only at h; cases h; decide
  | some p =>
    simp only at h
    by_cases h4 : p ≠ none
    · rw [if_pos h4] at h; cases h; decide
    rw [if_neg h4] at h
    by_cases h5 : list.readonly = true
    · rw [if_pos h5] at h; cases h; decide
    rw [if_neg h5] at h
    by_cases h6 : list.static_ = true
    · rw [if_pos h6] at h; cases h; decide
    rw [if_neg h6] at h
    have hm1 : int_to_u32 index % 65536 < list.size :=
      Nat.lt_of_le_of_lt (Nat.mod_le _ _) (by omega)
    have hm2 : list.size / 2 % 65536 < list.size :=
      Nat.lt_of_le_of_lt (Nat.mod_le _ _) (by omega)
    have hm3 : list.size % 2 ≠ 0 → (list.size / 2 % 65536 + 1) % 65536 < list.size := by
      intro hodd
      exact Nat.lt_of_le_of_lt (Nat.mod_le _ _)
        (Nat.lt_of_le_of_lt (Nat.add_le_add_right (Nat.mod_le _ _) 1) (by omega))
    split_ifs at h with ha hb
    · rw [split_arr_at_fails (hm3 hb) h]; decide
    · rw [split_arr_at_fails hm2 h]; decide
    · rw [split_arr_at_fails hm1 h]; decide

/-! ## Claims settled on concrete lists -/

/-- C31 fails on the code. On an empty `list1` with the pattern `[1]`,
`list_contains_list_int` returns -1 (its first test is `index >= list1->size`)
where `list_contains_seq_int` returns 0. On `list1 = [0, 0, 1]` with the
pattern `[1, 2]`, `list_contains_list_int` searches up to `i < list1->size`,
meets `data[2] == 1` and lets `check_seq_int` read `list1->data[3]`: outside
the block when the capacity is 3, and a slot beyond the size when the capacity
is 4, where it then reports index 2; `list_contains_seq_int` stops at
`i < size - 2 + 1` and reports -1. -/
theorem contains_list_int_differs :
    list_contains_list_int ⟨false, false, false, 0, 1, [0]⟩
        ⟨false, false, false, 1, 1, [1]⟩ 0
      = some (-1, ⟨false, false, false, 0, 1, [0]⟩, { index := some (-1) }) ∧
    list_contains_seq_int ⟨false, false, false, 0, 1, [0]⟩ (some [1]) 1 0
      = some (0, ⟨false, false, false, 0, 1, [0]⟩, { index := some (-1) }) ∧
    list_contains_list_int ⟨false, false, false, 3, 3, [0, 0, 1]⟩
        ⟨false, false, false, 2, 2, [1, 2]⟩ 0 = none ∧
    list_contains_list_int ⟨false, false, false, 3, 4, [0, 0, 1, 2]⟩
        ⟨false, false, false, 2, 2, [1, 2]⟩ 0
      = some (0, ⟨false, false, false, 3, 4, [0, 0, 1, 2]⟩, { index := some 2 }) ∧
    list_contains_seq_int ⟨false, false, false, 3, 4, [0, 0, 1, 2]⟩ (some [1, 2]) 2 0
      = some (0, ⟨false, false, false, 3, 4, [0, 0, 1, 2]⟩, { index := some (-1) }) := by
  decide

/-- C38 fails on the code: on every empty list, with any allocator,
`list_pop_back_int` returns 0, not -1; the list is left as it was and nothing
is written to `*return_val`. -/
theorem pop_back_int_empty (m : Allocator) (list : list_int) (h0 : list.size = 0) :
    list_pop_back_int m list = some (0, list, none) := by
  unfold list_pop_back_int
  simp only [bind, pure]
  rw [if_pos h0]

/-- C38 at an empty list of capacity 4. -/
theorem pop_back_int_empty_witness :
    list_pop_back_int generous ⟨false, false, false, 0, 4, [0, 0, 0, 0]⟩
      = some (0, ⟨false, false, false, 0, 4, [0, 0, 0, 0]⟩, none) :=
  pop_back_int_empty generous ⟨false, false, false, 0, 4, [0, 0, 0, 0]⟩ rfl

/-- C39 fails on the code: no call of `list_split_arr_int` returns 0. On
`[0, 1, 2, 3, 4, 5, 6]` with index 4 the block of 3 ints is granted and the
first round of the copy loop stores at `(*arr)[7 - 4]`, outside the block, so
the call has no result; when the block is refused the call returns -2. -/
theorem split_arr_int_writes_outside :
    (∀ (m : Allocator) (list list1 : list_int) (index : Int)
        (arr : Option (Option (List Int))) (o : Outputs),
      list_split_arr_int m list index arr ≠ some (0, list1, o)) ∧
    list_split_arr_int generous ⟨false, false, false, 7, 7, [0, 1, 2, 3, 4, 5, 6]⟩ 4
      (some none) = none ∧
    malloc_ints generous (usub 7 4) = some [0, 0, 0] ∧
    store [0, 0, 0] (usub 7 4) 4 = none ∧
    list_split_arr_int exhausted ⟨false, false, false, 7, 7, [0, 1, 2, 3, 4, 5, 6]⟩ 4
      (some none)
      = some (-2, ⟨false, false, false, 7, 7, [0, 1, 2, 3, 4, 5, 6]⟩,
          { arr := some none, count := some 3 }) := by
  refine ⟨fun m list list1 index arr o h => split_arr_never_zero h rfl, ?_, ?_, ?_, ?_⟩ <;>
    decide

/-- C40 fails on the code. `list_insert_int` on `[1, 2, 3]` with capacity 4
raises the size to 4 and starts its shift at `i = 3` with the store
`data[4] = data[3]`, at the capacity. On the frozen list `[1, 2, 3]` of
capacity 4 with two values to insert at index 0, `list_insert_arr_int` and
`list_insert_list_int` pass the test `i + size > capacity` at `i = 2` and store
at `data[4]` as well. In the checked model none of the three calls has a
result. -/
theorem insert_writes_at_capacity :
    (∀ m : Allocator, list_insert_int m ⟨false, false, false, 3, 4, [1, 2, 3, 0]⟩ 0 9 = none) ∧
    load [1, 2, 3, 0] 3 = some 0 ∧ store [1, 2, 3, 0] (3 + 1) 0 = none ∧
    (∀ m : Allocator, list_insert_arr_int m ⟨true, false, false, 3, 4, [1, 2, 3, 0]⟩
      (some [8, 9]) 2 0 = none) ∧
    (∀ m : Allocator, list_insert_list_int m ⟨true, false, false, 3, 4, [1, 2, 3, 0]⟩
      ⟨false, false, false, 2, 2, [8, 9]⟩ 0 = none) ∧
    load [1, 2, 3, 0] 2 = some 3 ∧ store [1, 2, 3, 0] (2 + 2) 3 = none := by
  refine ⟨fun _ => rfl, by decide, by decide, fun _ => rfl, fun _ => rfl, by decide,
    by decide⟩

/-! ## Reversal -/

/-- The swap loop of `list_reverse_int` from position `i` on, `n` rounds that
stay in the first half: the slots passed and their mirror images are
exchanged. -/
theorem reverse_loop_spec (size : Nat) (hsz : size ≤ 4294967295) :
    ∀ (n i : Nat) (d : List Int), i + n ≤ size / 2 → size ≤ d.length →
      ∃ d1, loop_up (fun i d =>
          (load d i).bind fun a =>
            (load d (usub (usub size i) 1)).bind fun b =>
              (store d i b).bind fun d => store d (usub (usub size i) 1) a) i n d = some d1 ∧
        d1.length = d.length ∧
        ∀ j, d1[j]? =
          if (i ≤ j ∧ j < i + n) ∨ (size - (i + n) ≤ j ∧ j < size - i)
          then d[size - 1 - j]? else d[j]? := by
  intro n
  induction n with
  | zero =>
    intro i d _ _
    refine ⟨d, by rw [loop_up], rfl, fun j => ?_⟩
    rw [if_neg (by omega)]
  | succ n ih =>
    intro i d hin hlen
    have hu : usub (usub size i) 1 = size - 1 - i := by unfold usub; omega
    have h1 : i < d.length := by omega
    have h2 : size - 1 - i < d.length := by omega
    have h3 : size - 1 - i < (d.set i d[size - 1 - i]).length := by
      rw [List.length_set]; exact h2
    obtain ⟨d1, hrun, hl1, hspec⟩ :=
      ih (i + 1) ((d.set i d[size - 1 - i]).set (size - 1 - i) d[i]) (by omega)
        (by rw [List.length_set, List.length_set]; exact hlen)
    refine ⟨d1, ?_, by rw [hl1, List.length_set, List.length_set], fun j => ?_⟩
    · rw [loop_up, hu, load_eq h1, Option.some_bind, load_eq h2, Option.some_bind,
        store_eq _ h1, Option.some_bind, store_eq _ h3, Option.some_bind]
      exact hrun
    · rw [hspec j]
      by_cases hin1 : (i + 1 ≤ j ∧ j < i + 1 + n) ∨ (size - (i + 1 + n) ≤ j ∧ j < size - (i + 1))
      · rw [if_pos hin1, if_pos (by omega), List.getElem?_set,
          if_neg (show ¬ size - 1 - i = size - 1 - j by omega), List.getElem?_set,
          if_neg (show ¬ i = size - 1 - j by omega)]
      · rw [if_neg hin1, List.getElem?_set]
        by_cases hj1 : size - 1 - i = j
        · have e : size - 1 - j = i := by omega
          rw [if_pos hj1, List.length_set, if_pos h2, if_pos (by omega), e,
            List.getElem?_eq_getElem h1]
        · rw [if_neg hj1, List.getElem?_set]
          by_cases hj2 : i = j
          · have e : size - 1 - j = size - 1 - i := by omega
            rw [if_pos hj2, if_pos h1, if_pos (by omega), e,
              List.getElem?_eq_getElem h2]
          · rw [if_neg hj2, if_neg (by omega)]

/-- `list_reverse_int` on a writable list inside its buffer: it returns 0 and
mirrors the slots below the size; everything else stays. -/
theorem reverse_mirrors {list : list_int}
    (hro : list.readonly = false) (hst : list.static_ = false)
    (hr : list.size ≤ UINT_MAX) (hlen : list.size ≤ list.data.length) :
    ∃ d1, list_reverse_int list = some (0, { list with data := d1 }) ∧
      d1.length = list.data.length ∧
      ∀ j, d1[j]? = if j < list.size then list.data[list.size - 1 - j]? else list.data[j]? := by
  unfold UINT_MAX at hr
  have hro1 : ¬ list.readonly = true := by simp [hro]
  have hst1 : ¬ list.static_ = true := by simp [hst]
  obtain ⟨d1, hrun, hl1, hspec⟩ :=
    reverse_loop_spec list.size hr (list.size / 2) 0 list.data (by omega) hlen
  refine ⟨d1, ?_, hl1, fun j => ?_⟩
  · unfold list_reverse_int reverse_loop
    simp only [bind, pure, Option.some_bind]
    rw [if_neg hro1, if_neg hst1, hrun]
    rfl
  · rw [hspec j]
    by_cases hj : j < list.size
    · rw [if_pos hj]
      by_cases hmid : (0 ≤ j ∧ j < 0 + list.size / 2) ∨
          (list.size - (0 + list.size / 2) ≤ j ∧ j < list.size - 0)
      · rw [if_pos hmid]
      · rw [if_neg hmid]
        have e : list.size - 1 - j = j := by omega
        rw [e]
    · rw [if_neg hj, if_neg (by omega)]

/-- A block whose slots below `size` mirror those of `d` reads, up to `size`,
as the reverse of the first `size` slots of `d`. -/
theorem take_mirror {d d1 : List Int} {size : Nat} (hlen : size ≤ d.length)
    (hl1 : d1.length = d.length)
    (hspec : ∀ j, d1[j]? = if j < size then d[size - 1 - j]? else d[j]?) :
    d1.take size = (d.take size).reverse := by
  apply List.ext_getElem?
  intro j
  rw [List.getElem?_take]
  by_cases hj : j < size
  · rw [if_pos hj, hspec j, if_pos hj, List.getElem?_reverse (by rw [List.length_take]; omega),
      List.getElem?_take, List.length_take, if_pos (by omega)]
    congr 1
    omega
  · rw [if_neg hj, List.getElem?_eq_none (by rw [List.length_reverse, List.length_take]; omega)]

/-- C32: for every writable list (allocated, `size ≤ capacity`) of size `n`,
`list_reverse_int` returns 0, and afterwards `data[i]` equals the old
`data[n - 1 - i]` for every `i < n`, so that the live sequence is the old one
reversed; size and capacity are unchanged, and a second `list_reverse_int`
returns 0 and gives back the list as it was at the start. -/
theorem reverse_int_reverses (list : list_int)
    (hro : list.readonly = false) (hst : list.static_ = false)
    (hal : list.allocated) (hle : list.size ≤ list.capacity) :
    ∃ list1, list_reverse_int list = some (0, list1) ∧
      list1.size = list.size ∧ list1.capacity = list.capacity ∧
      (∀ i, i < list.size → list1.data[i]? = list.data[list.size - 1 - i]?) ∧
      list1.live = list.live.reverse ∧
      list_reverse_int list1 = some (0, list) := by
  obtain ⟨⟨hr1, -⟩, hlen⟩ := hal
  have hl : list.size ≤ list.data.length := by omega
  obtain ⟨d1, hrun, hl1, hspec⟩ := reverse_mirrors hro hst hr1 hl
  obtain ⟨d2, hrun2, hl2, hspec2⟩ :=
    @reverse_mirrors { list with data := d1 } hro hst hr1 (by show list.size ≤ d1.length; omega)
  refine ⟨_, hrun, rfl, rfl, fun i hi => ?_, take_mirror hl hl1 hspec, ?_⟩
  · show d1[i]? = _
    rw [hspec i, if_pos hi]
  · rw [hrun2]
    have e : d2 = list.data := by
      apply List.ext_getElem?
      intro j
      have h2 := hspec2 j
      simp only at h2
      rw [h2]
      by_cases hj : j < list.size
      · rw [if_pos hj, hspec, if_pos (by omega)]
        congr 1
        omega
      · rw [if_neg hj, hspec, if_neg hj]
    rw [e]

/-- C32 at the header example `[1, 2, 3, 4, 5]` (capacity 6). -/
theorem reverse_int_reverses_witness :
    ∃ list1, list_reverse_int ⟨false, false, false, 5, 6, [1, 2, 3, 4, 5, 9]⟩
        = some (0, list1) ∧
      list1.size = 5 ∧ list1.capacity = 6 ∧
      (∀ i, i < 5 → list1.data[i]? = [1, 2, 3, 4, 5, 9][5 - 1 - i]?) ∧
      list1.live = [1, 2, 3, 4, 5].reverse ∧
      list_reverse_int list1 = some (0, ⟨false, false, false, 5, 6, [1, 2, 3, 4, 5, 9]⟩) :=
  reverse_int_reverses ⟨false, false, false, 5, 6, [1, 2, 3, 4, 5, 9]⟩ rfl rfl
    (by decide) (by decide)

/-! ## Copy loops -/

/-- A loop whose round `lo + k` stores `a[off + k]` at slot `base + k`, run for
`n` rounds inside both blocks: it ends, and it has copied `n` values of `a`
from `off` on to the slots from `base` on. -/
theorem copy_loop_spec (a : List Int) {body : Nat → List Int → Option (List Int)} :
    ∀ (n lo base off : Nat) (d : List Int), base + n ≤ d.length → off + n ≤ a.length →
      (∀ k d1, k < n → d1.length = d.length →
        body (lo + k) d1 = (load a (off + k)).bind (store d1 (base + k))) →
      ∃ d1, loop_up body lo n d = some d1 ∧ d1.length = d.length ∧
        ∀ j, d1[j]? = if base ≤ j ∧ j < base + n then a[off + (j - base)]? else d[j]? := by
  intro n
  induction n with
  | zero =>
    intro lo base off d _ _ _
    refine ⟨d, by rw [loop_up], rfl, fun j => ?_⟩
    rw [if_neg (by omega)]
  | succ n ih =>
    intro lo base off d hd ha hb
    have h1 : off < a.length := by omega
    have h2 : base < d.length := by omega
    have hstep := hb 0 d (by omega) rfl
    rw [Nat.add_zero, Nat.add_zero, Nat.add_zero, load_eq h1, Option.some_bind,
      store_eq _ h2] at hstep
    obtain ⟨d1, hrun, hl1, hspec⟩ := ih (lo + 1) (base + 1) (off + 1) (d.set base a[off])
      (by rw [List.length_set]; omega) (by omega)
      (fun k d1 hk hlen => by
        have := hb (k + 1) d1 (by omega) (by rw [hlen, List.length_set])
        rw [show lo + (k + 1) = lo + 1 + k by omega, show off + (k + 1) = off + 1 + k by omega,
          show base + (k + 1) = base + 1 + k by omega] at this
        exact this)
    refine ⟨d1, ?_, by rw [hl1, List.length_set], fun j => ?_⟩
    · rw [loop_up, hstep, Option.some_bind]
      exact hrun
    · rw [hspec j, List.getElem?_set]
      by_cases hj : base + 1 ≤ j ∧ j < base + 1 + n
      · rw [if_pos hj, if_pos (by omega)]
        congr 1
        omega
      · rw [if_neg hj]
        by_cases hjb : base = j
        · rw [if_pos hjb, if_pos h2, if_pos (by omega)]
          have e : off + (j - base) = off := by omega
          rw [e, List.getElem?_eq_getElem h1]
        · rw [if_neg hjb, if_neg (by omega)]

/-- A block of `n` slots that received the first `n` values of `src` is the
list of these values. -/
theorem copied_block {src d1 : List Int} {n : Nat}
    (hspec : ∀ j, d1[j]? = if j < n then src[j]? else none) : d1 = src.take n := by
  apply List.ext_getElem?
  intro j
  rw [hspec j, List.getElem?_take]

/-! ## Copying out and back in -/

/-- `list_to_arr_int` with a valid address on a non-empty list inside its
buffer: when the block is granted the call returns 0 with a block equal to the
live sequence and the size as count; when it is refused the call returns -2
with `NULL` and count 0. The list is never touched. -/
theorem to_arr_copies (m : Allocator) {list : list_int} (p : Option (List Int))
    (h0 : list.size ≠ 0) (hlen : list.size ≤ list.data.length) :
    (m.grants list.size = true →
      list_to_arr_int m list (some p)
        = some (0, list, { arr := some (some list.live), count := some list.size })) ∧
    (m.grants list.size = false →
      list_to_arr_int m list (some p)
        = some (-2, list, { arr := some none, count := some 0 })) := by
  constructor
  · intro hg
    have hblock : ((List.range list.size).map m.junk).length = list.size := by simp
    obtain ⟨d1, hrun, hl1, hspec⟩ := @copy_loop_spec list.data
      (fun i block => (load list.data i).bind fun x => store block i x)
      list.size 0 0 0 ((List.range list.size).map m.junk) (by omega) (by omega)
      (fun k d1 _ _ => by simp only [Nat.zero_add])
    have e : d1 = list.live := by
      apply copied_block
      intro j
      rw [hspec j]
      by_cases hj : j < list.size
      · rw [if_pos (by omega), if_pos hj]
        congr 1
        omega
      · rw [if_neg (by omega), if_neg hj]
        exact List.getElem?_eq_none (by omega)
    unfold list_to_arr_int malloc_ints
    simp only [bind, pure, Option.some_bind]
    rw [if_neg h0, if_pos hg]
    simp only [hrun, Option.some_bind, e]
  · intro hg
    unfold list_to_arr_int malloc_ints
    simp only [bind, pure, Option.some_bind]
    rw [if_neg h0, if_neg (by rw [hg]; decide)]

/-- `list_to_arr_int` with a valid address on an empty list: it returns 0 with
count 0, and writes `NULL` to the pointer when it was not `NULL`. -/
theorem to_arr_empty (m : Allocator) {list : list_int} (p : Option (List Int))
    (h0 : list.size = 0) :
    list_to_arr_int m list (some p)
      = some (0, list, { arr := if p ≠ none then some none else none, count := some 0 }) := by
  unfold list_to_arr_int
  simp only [bind, pure, Option.some_bind]
  rw [if_pos h0]

/-- `list_reset_int` with a block of exactly `n > 0` values: a call that
returns 0 leaves these values as the live sequence with size and capacity `n`;
every other call returns -2 or -3 and leaves the list as it was. -/
theorem reset_fills (m : Allocator) (list : list_int) {a : List Int} {n : Nat}
    (hn : n ≠ 0) (ha : a.length = n) :
    ∃ r list1, list_reset_int m list (some a) n = some (r, list1) ∧
      ((r = 0 ∧ list1.live = a ∧ list1.size = n ∧ list1.capacity = n) ∨
       ((r = -2 ∨ r = -3) ∧ list1 = list)) := by
  unfold list_reset_int
  simp only [bind, pure, Option.some_bind]
  by_cases h1 : list.frozen = true ∧ n ≠ list.capacity
  · rw [if_pos h1]; exact ⟨_, _, rfl, Or.inr ⟨Or.inr rfl, rfl⟩⟩
  rw [if_neg h1]
  by_cases h2 : list.readonly = true
  · rw [if_pos h2]; exact ⟨_, _, rfl, Or.inr ⟨Or.inr rfl, rfl⟩⟩
  rw [if_neg h2]
  by_cases h3 : list.static_ = true
  · rw [if_pos h3]; exact ⟨_, _, rfl, Or.inr ⟨Or.inr rfl, rfl⟩⟩
  rw [if_neg h3, if_neg hn]
  cases hre : realloc_ints m list.data n with
  | none => exact ⟨_, _, rfl, Or.inr ⟨Or.inl rfl, rfl⟩⟩
  | some new_data =>
    simp only
    rw [if_neg (by omega)]
    refine ⟨_, _, rfl, Or.inl ⟨rfl, ?_, rfl, rfl⟩⟩
    show (a.take n ++ new_data.drop n).take n = a
    rw [show a.take n = a from List.take_of_length_le (by omega), List.take_left' ha]

/-- C33: for every list (allocated, `size ≤ capacity`) and every pointer `p`
handed in through a valid address, `list_to_arr_int` leaves the list untouched
and returns 0 exactly when the list is empty or the block is granted (-2
otherwise); when it returns 0 the count written is the size and the array
written is the live sequence (`NULL` for an empty list). A following
`list_reset_int` with the pointer and the count left by that call, under any
allocator, leaves the live sequence equal to the original one, and when it
returns 0 with a count above 0 the size and the capacity are that count. -/
theorem to_arr_then_reset (m1 m2 : Allocator) (list : list_int) (p : Option (List Int))
    (hal : list.allocated) (hle : list.size ≤ list.capacity) :
    ∃ r out, list_to_arr_int m1 list (some p) = some (r, list, out) ∧
      (r = 0 ∨ r = -2) ∧
      (r = 0 ↔ list.size = 0 ∨ m1.grants list.size = true) ∧
      (r = 0 → out.count = some list.size ∧
        (list.size ≠ 0 → out.arr = some (some list.live)) ∧
        (list.size = 0 → out.arr.getD p = none)) ∧
      ∃ r2 list2,
        list_reset_int m2 list (out.arr.getD p) (out.count.getD 0) = some (r2, list2) ∧
        list2.live = list.live ∧
        (r2 = 0 → 0 < out.count.getD 0 →
          list2.size = out.count.getD 0 ∧ list2.capacity = out.count.getD 0) := by
  obtain ⟨-, hlen⟩ := hal
  have hnull : ∀ n, list_reset_int m2 list none n = some (-1, list) := by
    intro n
    unfold list_reset_int
    rfl
  by_cases h0 : list.size = 0
  · refine ⟨0, _, to_arr_empty m1 p h0, Or.inl rfl, ⟨fun _ => Or.inl h0, fun _ => rfl⟩,
      fun _ => ⟨by rw [h0], fun h => absurd h0 h, fun _ => ?_⟩, ?_⟩
    · cases p <;> rfl
    · cases p <;> exact ⟨-1, list, hnull _, rfl, (fun h => by cases h)⟩
  · obtain ⟨hyes, hno⟩ := to_arr_copies m1 p h0 (by omega)
    by_cases hg : m1.grants list.size = true
    · refine ⟨0, _, hyes hg, Or.inl rfl, ⟨fun _ => Or.inr hg, fun _ => rfl⟩,
        fun _ => ⟨rfl, fun _ => rfl, fun h => absurd h h0⟩, ?_⟩
      show ∃ r2 list2, list_reset_int m2 list (some list.live) list.size = some (r2, list2) ∧ _
      obtain ⟨r2, list2, hrun, hc⟩ :=
        reset_fills m2 list h0 (live_length (show list.size ≤ list.data.length by omega))
      refine ⟨r2, list2, hrun, ?_, ?_⟩
      · rcases hc with ⟨-, hl, -, -⟩ | ⟨-, hl⟩
        · exact hl
        · rw [hl]
      · intro hr _
        rcases hc with ⟨-, -, hs, hc⟩ | ⟨hr2, -⟩
        · exact ⟨hs, hc⟩
        · rw [hr] at hr2
          rcases hr2 with h | h <;> cases h
    · have hg1 : m1.grants list.size = false := by
        cases hx : m1.grants list.size
        · rfl
        · exact absurd hx hg
      have hiff : (-2 : Int) = 0 ↔ list.size = 0 ∨ m1.grants list.size = true := by
        constructor
        · intro h; cases h
        · rintro (h | h)
          · exact absurd h h0
          · exact absurd h hg
      exact ⟨-2, _, hno hg1, Or.inr rfl, hiff, (fun h => by cases h),
        -1, list, hnull _, rfl, (fun h => by cases h)⟩

/-- C33 at the list `[4, 5, 6]` of capacity 8 with a `NULL` pointer handed in:
the array is `[4, 5, 6]`, the count 3, and the reset list has size and
capacity 3 and the same live sequence. -/
theorem to_arr_then_reset_witness :
    ∃ r out, list_to_arr_int generous ⟨false, false, false, 3, 8, [4, 5, 6, 0, 0, 0, 0, 0]⟩
        (some none)
        = some (r, ⟨false, false, false, 3, 8, [4, 5, 6, 0, 0, 0, 0, 0]⟩, out) ∧
      (r = 0 ∨ r = -2) ∧
      (r = 0 ↔ 3 = 0 ∨ generous.grants 3 = true) ∧
      (r = 0 → out.count = some 3 ∧
        (3 ≠ 0 → out.arr = some (some [4, 5, 6])) ∧
        (3 = 0 → out.arr.getD none = none)) ∧
      ∃ r2 list2,
        list_reset_int generous ⟨false, false, false, 3, 8, [4, 5, 6, 0, 0, 0, 0, 0]⟩
          (out.arr.getD none) (out.count.getD 0) = some (r2, list2) ∧
        list2.live = [4, 5, 6] ∧
        (r2 = 0 → 0 < out.count.getD 0 →
          list2.size = out.count.getD 0 ∧ list2.capacity = out.count.getD 0) :=
  to_arr_then_reset generous generous ⟨false, false, false, 3, 8, [4, 5, 6, 0, 0, 0, 0, 0]⟩
    none (by decide) (by decide)

/-! ## Writing an array into a list -/

/-- The copy loop of `list_write_arr_int`, `cnt` rounds from `index` on, inside
both blocks: the slots from `index` on receive the first `cnt` values of `a`. -/
theorem write_copy_spec (a d : List Int) (index cnt : Nat) (hd : index + cnt ≤ d.length)
    (ha : cnt ≤ a.length) (hu : index + cnt ≤ 4294967296) :
    ∃ d1, loop_up (fun i d => (load a (usub i index)).bind fun x => store d i x)
        index cnt d = some d1 ∧ d1.length = d.length ∧
      ∀ j, d1[j]? = if index ≤ j ∧ j < index + cnt then a[j - index]? else d[j]? := by
  obtain ⟨d1, hrun, hl1, hspec⟩ := @copy_loop_spec a
    (fun i d => (load a (usub i index)).bind fun x => store d i x)
    cnt index index 0 d hd (by omega)
    (fun k d1 hk _ => by
      have e : usub (index + k) index = k := by unfold usub; omega
      simp only [e, Nat.zero_add])
  refine ⟨d1, hrun, hl1, fun j => ?_⟩
  rw [hspec j, Nat.zero_add]

/-- The slots below `k` of a reallocated block are those of the old block. -/
theorem realloc_ints_at {m : Allocator} {d d1 : List Int} {n k j : Nat}
    (h : realloc_ints m d n = some d1) (hk : k ≤ n) (hd : k ≤ d.length) (hj : j < k) :
    d1[j]? = d[j]? := by
  have := realloc_ints_take h hk hd
  have e1 : (d1.take k)[j]? = d1[j]? := by rw [List.getElem?_take, if_pos hj]
  have e2 : (d.take k)[j]? = d[j]? := by rw [List.getElem?_take, if_pos hj]
  rw [← e1, ← e2, this]

/-- `list_write_arr_int` when its guard `UINT_MAX - (size - index) <= n`
triggers: -2 and no change. -/
theorem write_arr_guard (m : Allocator) {list : list_int} (a : List Int) {n index : Nat}
    (hidx : index ≤ list.size) (hg : usub UINT_MAX (usub list.size index) ≤ n) :
    list_write_arr_int m list (some a) n index = some (-2, list) := by
  unfold list_write_arr_int
  simp only [bind, pure, Option.some_bind]
  rw [if_neg (by omega), if_pos hg]

/-- `list_write_arr_int` on a writable list (allocated, `1 ≤ capacity`,
`size ≤ capacity`) with `index ≤ size`, `n > 0` values and `index + n` within
`unsigned int`, once its guard has let the call pass: the call returns -2 with
the list unchanged (growth of a list that is not frozen refused) or 0; after 0 the block has `capacity`
slots, the slots from `index` to the end of the write (or of the block) hold
the values, the other old live slots are unchanged, a list that is not frozen
has room for the whole write and the size `max size (index + n)`, and a frozen
list keeps its capacity and has the size `capacity` when the write passes the
old size. -/
theorem write_arr_result (m : Allocator) {list : list_int} {a : List Int} {n index : Nat}
    (hro : list.readonly = false) (hst : list.static_ = false)
    (hal : list.allocated) (hcap : 1 ≤ list.capacity) (hle : list.size ≤ list.capacity)
    (hidx : index ≤ list.size) (hn : n ≠ 0) (ha : n ≤ a.length)
    (hfit : index + n ≤ UINT_MAX)
    (hg : ¬ usub UINT_MAX (usub list.size index) ≤ n) :
    ∃ r list1, list_write_arr_int m list (some a) n index = some (r, list1) ∧
      ((r = -2 ∧ list1 = list ∧ list.frozen = false ∧ list.capacity < index + n) ∨
       (r = 0 ∧ list1.frozen = list.frozen ∧ list1.data.length = list1.capacity ∧
        list.capacity ≤ list1.capacity ∧
        (list.frozen = false → index + n ≤ list1.capacity) ∧
        (list.frozen = true → list1.capacity = list.capacity) ∧
        list1.size = (if index + n > list.size
          then (if list.frozen = true then list.capacity else index + n) else list.size) ∧
        (∀ j, index ≤ j → j < index + n → j < list1.capacity →
          list1.data[j]? = a[j - index]?) ∧
        (∀ j, j < list.size → ¬ (index ≤ j ∧ j < index + n) →
          list1.data[j]? = list.data[j]?))) := by
  obtain ⟨⟨hr1, hr2⟩, hlen⟩ := hal
  unfold UINT_MAX at hr1 hr2 hfit
  have hro1 : ¬ list.readonly = true := by simp [hro]
  have hst1 : ¬ list.static_ = true := by simp [hst]
  have hu : u32 (n + index) = index + n := by unfold u32; omega
  unfold list_write_arr_int
  simp only [bind, pure, Option.some_bind]
  rw [if_neg (by omega), if_neg hg, if_neg hro1, if_neg hst1, if_neg hn, hu]
  by_cases hneed : index + n > list.capacity ∧ ¬ list.frozen = true
  · rw [if_pos hneed]
    have hp : (2 : Nat) ^ 33 = 8589934592 := by norm_num
    obtain ⟨c1, hgrow, -⟩ := write_grow_exact (index + n) 33 list.capacity hcap (by omega)
      (by rw [hp]; omega)
    have hc1 := write_grow_spec (index + n) 33 list.capacity c1 hgrow
    unfold UINT_MAX at hc1
    rw [hgrow]
    simp only [Option.some_bind]
    obtain ⟨state, l, hres⟩ := resize_returns m list c1
    rw [hres]
    simp only [Option.some_bind]
    rcases resize_cases hres with ⟨-, -, hx⟩ | ⟨hs, hl, -, -, -⟩ |
      ⟨hs, -, -, hc, hsz, hdl, hfz, -, -, hre⟩
    · rw [hro, hst] at hx
      simp at hx
    · subst hs
      rw [if_pos rfl]
      have hfl : list.frozen = false := by
        cases hx : list.frozen
        · rfl
        · exact absurd hx hneed.2
      exact ⟨_, _, rfl, Or.inl ⟨rfl, hl, hfl, hneed.1⟩⟩
    · subst hs
      rw [if_neg (by decide)]
      have hc' : l.capacity = c1 := by omega
      have hsz' : l.size = list.size := by omega
      have hfz' : ¬ l.frozen = true := by rw [hfz]; exact hneed.2
      have hcnt : min (index + n) l.capacity - index = n := by omega
      obtain ⟨d1, hrun, hl1, hspec⟩ := write_copy_spec a l.data index n (by omega) ha (by omega)
      rw [hcnt, hrun]
      simp only [Option.some_bind, if_neg hfz']
      have hfl : list.frozen = false := by
        cases hx : list.frozen
        · rfl
        · exact absurd hx hneed.2
      refine ⟨_, _, rfl, Or.inr ⟨rfl, hfz, ?_, ?_, ?_, ?_, ?_, ?_, ?_⟩⟩
      · show d1.length = c1
        omega
      · show list.capacity ≤ c1
        omega
      · intro _
        show index + n ≤ c1
        omega
      · intro h
        rw [hfl] at h
        cases h
      · show (if index + n > l.size then index + n else l.size) = _
        rw [hsz', hfl]
        simp only [Bool.false_eq_true, if_false]
      · intro j h1 h2 _
        show d1[j]? = _
        rw [hspec j, if_pos ⟨h1, h2⟩]
      · intro j h1 h2
        show d1[j]? = _
        rw [hspec j, if_neg h2]
        exact realloc_ints_at hre (show list.size ≤ max c1 1 by omega) (by omega) h1
  · rw [if_neg hneed]
    have hcnt : index + (min (index + n) list.capacity - index) ≤ list.data.length := by omega
    obtain ⟨d1, hrun, hl1, hspec⟩ := write_copy_spec a list.data index
      (min (index + n) list.capacity - index) hcnt (by omega) (by omega)
    rw [hrun]
    simp only [Option.some_bind]
    refine ⟨_, _, rfl, Or.inr ⟨rfl, rfl, ?_, ?_, ?_, ?_, ?_, ?_, ?_⟩⟩
    · show d1.length = if list.frozen = true then list.capacity else list.capacity
      rw [ite_self]
      omega
    · show list.capacity ≤ if list.frozen = true then list.capacity else list.capacity
      rw [ite_self]
    · intro hf
      show index + n ≤ if list.frozen = true then list.capacity else list.capacity
      rw [ite_self]
      by_contra hc
      exact hneed ⟨by omega, by rw [hf]; decide⟩
    · intro _
      show (if list.frozen = true then list.capacity else list.capacity) = list.capacity
      rw [ite_self]
    · show (if index + n > list.size
          then (if list.frozen = true
            then (if list.frozen = true then list.capacity else list.capacity)
            else index + n) else list.size) = _
      rw [ite_self]
    · intro j h1 h2 h3
      have h3' : j < list.capacity := by
        have : (if list.frozen = true then list.capacity else list.capacity) = list.capacity :=
          ite_self _
        rw [← this]
        exact h3
      show d1[j]? = _
      rw [hspec j, if_pos ⟨h1, by omega⟩]
    · intro j h1 h2
      show d1[j]? = _
      rw [hspec j, if_neg (by omega)]

/-- A block that holds the values `a` from `index` on and the old live slots
elsewhere reads, up to the larger of the old size and the end of the write, as
the old live sequence overwritten by `a` from `index` on. -/
theorem take_write_eq {d d1 a : List Int} {index size n : Nat}
    (hidx : index ≤ size) (hsz : size ≤ d.length) (ha : a.length = n)
    (hw : ∀ j, index ≤ j → j < index + n → d1[j]? = a[j - index]?)
    (hk : ∀ j, j < size → ¬ (index ≤ j ∧ j < index + n) → d1[j]? = d[j]?) :
    d1.take (max size (index + n)) =
      (d.take size).take index ++ a ++ (d.take size).drop (index + n) := by
  apply List.ext_getElem?
  intro j
  have hl0 : ((d.take size).take index).length = index := by
    simp only [List.length_take]; omega
  have hl : ((d.take size).take index ++ a).length = index + n := by
    rw [List.length_append, hl0, ha]
  rw [List.getElem?_append, hl, List.getElem?_take]
  by_cases hj1 : j < index
  · rw [if_pos (by omega), if_pos (by omega), List.getElem?_append, hl0, if_pos hj1,
      List.getElem?_take, if_pos hj1, List.getElem?_take, if_pos (by omega),
      hk j (by omega) (by omega)]
  · by_cases hj2 : j < index + n
    · rw [if_pos (by omega), if_pos hj2, List.getElem?_append, hl0, if_neg hj1,
        hw j (by omega) hj2]
    · rw [if_neg hj2, List.getElem?_drop, List.getElem?_take]
      by_cases hj3 : j < size
      · rw [if_pos (by omega), if_pos (by omega), hk j hj3 (by omega)]
        congr 1
        omega
      · rw [if_neg (by omega), if_neg (by omega)]

/-- `list_write_arr_int` when `size + index` wraps to 0 and the guard lets the
call pass: nothing is written and the call returns 0. -/
theorem write_arr_wraps (m : Allocator) {list : list_int} (a : List Int) {n index : Nat}
    (hro : list.readonly = false) (hst : list.static_ = false)
    (hidx : index ≤ list.size) (hr : list.size ≤ UINT_MAX)
    (hw : index + n = 4294967296) (hg : ¬ usub UINT_MAX (usub list.size index) ≤ n) :
    list_write_arr_int m list (some a) n index = some (0, list) := by
  unfold UINT_MAX at hr
  have hro1 : ¬ list.readonly = true := by simp [hro]
  have hst1 : ¬ list.static_ = true := by simp [hst]
  have hu : u32 (n + index) = 0 := by unfold u32; omega
  unfold list_write_arr_int
  simp only [bind, pure, Option.some_bind]
  rw [if_neg (by omega), if_neg hg, if_neg hro1, if_neg hst1, if_neg (by omega), hu,
    if_neg (by omega)]
  have hc : min 0 list.capacity - index = 0 := by omega
  rw [hc, loop_up]
  simp only [Option.some_bind, ite_self]
  rw [if_neg (by omega)]

/-- C34 fails on the code when `index + n` leaves the range of `unsigned int`.
For every writable list that is not frozen (allocated, `1 ≤ capacity`,
`size ≤ capacity`), every `index ≤ size` and every array of `n` values: when
`index + n ≤ UINT_MAX` the call returns 0 or -2, and a call that returns 0
leaves the size `max size (index + n)`, the live sequence
`old[0..index) ++ arr ++ old[index + n..size)` and a capacity of at least
`index + n`; when `index + n` is `2^32` and the guard
`UINT_MAX - (size - index) <= n` lets the call pass, `size + index` wraps to 0
and the call returns 0 with the list exactly as it was. -/
theorem write_arr_int_writes (m : Allocator) (list : list_int) (a : List Int)
    (n index : Nat)
    (hro : list.readonly = false) (hst : list.static_ = false)
    (hfz : list.frozen = false)
    (hal : list.allocated) (hcap : 1 ≤ list.capacity) (hle : list.size ≤ list.capacity)
    (hidx : index ≤ list.size) (ha : a.length = n) :
    (index + n ≤ UINT_MAX →
      (∃ r list1, list_write_arr_int m list (some a) n index = some (r, list1) ∧
        (r = 0 ∨ r = -2)) ∧
      ∀ list1, list_write_arr_int m list (some a) n index = some (0, list1) →
        list1.size = max list.size (index + n) ∧
        list1.live = list.live.take index ++ a ++ list.live.drop (index + n) ∧
        index + n ≤ list1.capacity) ∧
    (index + n = 4294967296 → ¬ usub UINT_MAX (usub list.size index) ≤ n →
      list_write_arr_int m list (some a) n index = some (0, list)) := by
  refine ⟨fun hfit => ?_, fun hw hg => write_arr_wraps m a hro hst hidx hal.1.1 hw hg⟩
  have hlen : list.size ≤ list.data.length := by rw [hal.2]; exact hle
  by_cases hg : usub UINT_MAX (usub list.size index) ≤ n
  · have e := write_arr_guard m a hidx hg
    rw [e]
    exact ⟨⟨_, _, rfl, Or.inr rfl⟩, fun list1 h => by cases h⟩
  by_cases hn : n = 0
  · have hro1 : ¬ list.readonly = true := by simp [hro]
    have hst1 : ¬ list.static_ = true := by simp [hst]
    have e : list_write_arr_int m list (some a) n index = some (0, list) := by
      unfold list_write_arr_int
      simp only [bind, pure, Option.some_bind]
      rw [if_neg (by omega), if_neg hg, if_neg hro1, if_neg hst1, if_pos hn]
    rw [e]
    refine ⟨⟨_, _, rfl, Or.inl rfl⟩, fun list1 h => ?_⟩
    simp only [Option.some.injEq, Prod.mk.injEq, true_and] at h
    subst h
    have ha0 : a = [] := List.length_eq_zero.mp (by omega)
    refine ⟨by omega, ?_, by omega⟩
    rw [ha0, hn, List.append_nil, Nat.add_zero, List.take_append_drop]
  obtain ⟨r, list1, hrun, hc⟩ := write_arr_result m hro hst hal hcap hle hidx hn
    (le_of_eq ha.symm) hfit hg
  rw [hrun]
  rcases hc with ⟨hr, -⟩ | ⟨hr, -, hdl, -, hroom, -, hsize, hwr, hkeep⟩
  · exact ⟨⟨_, _, rfl, Or.inr hr⟩, fun l h => by
      simp only [Option.some.injEq, Prod.mk.injEq] at h
      rw [hr] at h
      exact absurd h.1 (by decide)⟩
  · refine ⟨⟨_, _, rfl, Or.inl hr⟩, fun l h => ?_⟩
    simp only [Option.some.injEq, Prod.mk.injEq] at h
    obtain ⟨-, rfl⟩ := h
    have hroom' := hroom hfz
    have hsz : list1.size = max list.size (index + n) := by
      rw [hsize, hfz]
      simp only [Bool.false_eq_true, if_false]
      split_ifs <;> omega
    refine ⟨hsz, ?_, hroom'⟩
    show list1.data.take list1.size = _
    rw [hsz]
    exact take_write_eq hidx hlen ha (fun j h1 h2 => hwr j h1 h2 (by omega)) hkeep

/-- C34 at the list `[1, 2]` with an array of `2^32 - 2` values written at
index 2: the call returns 0 and the list is as it was. -/
theorem write_arr_int_writes_witness :
    list_write_arr_int generous ⟨false, false, false, 2, 2, [1, 2]⟩
      (some (List.replicate 4294967294 7)) 4294967294 2
      = some (0, ⟨false, false, false, 2, 2, [1, 2]⟩) :=
  (write_arr_int_writes generous ⟨false, false, false, 2, 2, [1, 2]⟩
    (List.replicate 4294967294 7) 4294967294 2 rfl rfl rfl (by decide) (by decide)
    (by decide) (by decide) (by rw [List.length_replicate])).2 (by decide) (by decide)

/-- The header example of `list_write_arr_int`: `{3, 8, 2, 4, 1, 9}` with
`{1, 2, 3}` written at index 2 becomes `{3, 8, 1, 2, 3, 9}`. -/
theorem write_arr_example (m : Allocator) :
    list_write_arr_int m ⟨false, false, false, 6, 6, [3, 8, 2, 4, 1, 9]⟩ (some [1, 2, 3]) 3 2
      = some (0, ⟨false, false, false, 6, 6, [3, 8, 1, 2, 3, 9]⟩) := by
  rfl

/-- C35 fails on the code: for every frozen writable list (allocated,
`1 ≤ capacity`, `size ≤ capacity`), every `index ≤ size` and every array of
`n > 0` values with `index + n ≤ UINT_MAX` that the guard lets pass,
`list_write_arr_int` returns 0, keeps the capacity, writes the values that fit
below the capacity and keeps the other old live slots, but sets the size to the
capacity as soon as `index + n` exceeds the old size, not to
`min (index + n) capacity`. -/
theorem write_arr_int_frozen (m : Allocator) (list : list_int) (a : List Int)
    (n index : Nat)
    (hro : list.readonly = false) (hst : list.static_ = false)
    (hfz : list.frozen = true)
    (hal : list.allocated) (hcap : 1 ≤ list.capacity) (hle : list.size ≤ list.capacity)
    (hidx : index ≤ list.size) (hn : n ≠ 0) (ha : a.length = n)
    (hfit : index + n ≤ UINT_MAX)
    (hg : ¬ usub UINT_MAX (usub list.size index) ≤ n) :
    ∃ list1, list_write_arr_int m list (some a) n index = some (0, list1) ∧
      list1.capacity = list.capacity ∧
      list1.size = (if index + n > list.size then list.capacity else list.size) ∧
      (∀ j, index ≤ j → j < index + n → j < list.capacity →
        list1.data[j]? = a[j - index]?) ∧
      (∀ j, j < list.size → ¬ (index ≤ j ∧ j < index + n) →
        list1.data[j]? = list.data[j]?) := by
  obtain ⟨r, list1, hrun, hc⟩ := write_arr_result m hro hst hal hcap hle hidx hn
    (le_of_eq ha.symm) hfit hg
  rcases hc with ⟨-, -, hf, -⟩ | ⟨hr, -, -, -, -, hsame, hsize, hwr, hkeep⟩
  · rw [hfz] at hf
    cases hf
  · subst hr
    have hc1 := hsame hfz
    refine ⟨list1, hrun, hc1, ?_, fun j h1 h2 h3 => hwr j h1 h2 (by omega), hkeep⟩
    rw [hsize, if_pos hfz]

/-- C35 at the frozen list `[1, 2]` of capacity 8 with `[9]` written at index
2: the size becomes 8, not 3, and the live sequence takes in the five slots
after the written one. -/
theorem write_arr_int_frozen_witness :
    (∃ list1, list_write_arr_int generous
        ⟨true, false, false, 2, 8, [1, 2, 0, 0, 0, 0, 0, 0]⟩ (some [9]) 1 2 = some (0, list1) ∧
      list1.capacity = 8 ∧
      list1.size = (if 2 + 1 > 2 then 8 else 2) ∧
      (∀ j, 2 ≤ j → j < 2 + 1 → j < 8 → list1.data[j]? = [9][j - 2]?) ∧
      (∀ j, j < 2 → ¬ (2 ≤ j ∧ j < 2 + 1) →
        list1.data[j]? = [1, 2, 0, 0, 0, 0, 0, 0][j]?)) ∧
    list_write_arr_int generous
        ⟨true, false, false, 2, 8, [1, 2, 0, 0, 0, 0, 0, 0]⟩ (some [9]) 1 2
      = some (0, ⟨true, false, false, 8, 8, [1, 2, 9, 0, 0, 0, 0, 0]⟩) ∧
    list_append_arr_int generous
        ⟨true, false, false, 2, 8, [1, 2, 0, 0, 0, 0, 0, 0]⟩ (some [9]) 1
      = some (0, ⟨true, false, false, 3, 8, [1, 2, 9, 0, 0, 0, 0, 0]⟩) :=
  ⟨write_arr_int_frozen generous ⟨true, false, false, 2, 8, [1, 2, 0, 0, 0, 0, 0, 0]⟩ [9] 1 2
    rfl rfl rfl (by decide) (by decide) (by decide) (by decide) (by decide) rfl (by decide)
    (by decide), by decide, by decide⟩

/-! ## Appending an array and appending its values one by one -/

/-- `list_append_int` on a full writable list that is not frozen, when the
reallocation to twice the capacity is refused: -2 and no change. -/
theorem append_refusal {m : Allocator} {list : list_int} (value : Int)
    (hro : list.readonly = false) (hst : list.static_ = false)
    (hfz : list.frozen = false) (hcap : 1 ≤ list.capacity)
    (hfull : list.size = list.capacity) (hdbl : list.capacity * 2 ≤ UINT_MAX)
    (hgr : m.grants (list.capacity * 2) = false) :
    list_append_int m list value = some (-2, list) := by
  unfold UINT_MAX at hdbl
  have hro1 : ¬ list.readonly = true := by simp [hro]
  have hst1 : ¬ list.static_ = true := by simp [hst]
  have hfz1 : ¬ list.frozen = true := by simp [hfz]
  have hu : u32 (list.capacity * 2) = list.capacity * 2 := by unfold u32; omega
  have hres : list_resize_int m list (list.capacity * 2) = some (-2, list) := by
    unfold list_resize_int realloc_ints
    rw [if_neg hro1, if_neg hst1]
    simp only [if_neg (show ¬ list.capacity * 2 = 0 by omega), hgr, Bool.false_eq_true,
      if_false]
  unfold list_append_int
  simp only [bind, pure, Option.some_bind]
  rw [if_neg hro1, if_neg hst1, if_pos (by omega), if_neg hfz1,
    if_neg (by unfold UINT_MAX; omega), hu, hres]
  rfl

/-- A call of `list_append_int` that returns 0 on a writable list that is not
frozen and, when it is full, has a capacity below `2^31` (the doubling
`capacity * 2` fits in an `unsigned int`): the value is appended, the list
stays well-formed, and the capacity is doubled exactly when the list was full. -/
theorem append_zero_adds {m : Allocator} {list list1 : list_int} {value : Int}
    (hro : list.readonly = false) (hst : list.static_ = false)
    (hfz : list.frozen = false)
    (hal : list.allocated) (hcap : 1 ≤ list.capacity) (hle : list.size ≤ list.capacity)
    (hdbl : list.size = list.capacity → list.capacity < 2147483648)
    (h : list_append_int m list value = some (0, list1)) :
    list1.live = list.live ++ [value] ∧ list1.size = list.size + 1 ∧
      list1.allocated ∧ list1.size ≤ list1.capacity ∧ 1 ≤ list1.capacity ∧
      list1.frozen = false ∧ list1.readonly = false ∧ list1.static_ = false ∧
      list1.capacity = (if list.size = list.capacity then list.capacity * 2
        else list.capacity) := by
  by_cases hbad : list.size = list.capacity ∧ m.grants (list.capacity * 2) = false
  · have hc := hdbl hbad.1
    rw [append_refusal value hro hst hfz hcap hbad.1 (by unfold UINT_MAX; omega) hbad.2] at h
    cases h
  · obtain ⟨l, hrun, hlv, hsz, hal1, hle1, hc1, hf1, hr1, hs1, -, hcp⟩ :=
      append_adds (m := m) value hro hst hal hcap hle (fun hx => by rw [hfz] at hx; cases hx.1)
        (fun hx => ⟨by have hc := hdbl hx; unfold UINT_MAX; omega, by
          cases hg : m.grants (list.capacity * 2)
          · exact absurd ⟨hx, hg⟩ hbad
          · rfl⟩)
    rw [hrun] at h
    simp only [Option.some.injEq, Prod.mk.injEq, true_and] at h
    subst h
    exact ⟨hlv, hsz, hal1, hle1, hc1, by rw [hf1, hfz], hr1, hs1, hcp⟩

/-- Successive `list_append_int` calls that all return 0, on a writable list
that is not frozen, when no call has to double a capacity of `2^31` or more
(the capacities a call can find full are `capacity * 2^j`, and the calls run at
the sizes below `size + vs.length`): every value is appended. -/
theorem append_each_thawed (m : Allocator) :
    ∀ (vs : List Int) (list list2 : list_int) (codes : List Int),
      list.readonly = false → list.static_ = false → list.frozen = false →
      list.allocated → 1 ≤ list.capacity → list.size ≤ list.capacity →
      (∀ j : Nat, list.capacity * 2 ^ j < list.size + vs.length →
        list.capacity * 2 ^ j < 2147483648) →
      append_each m list vs = some (codes, list2) → (∀ c ∈ codes, c = 0) →
      list2.live = list.live ++ vs := by
  intro vs
  induction vs with
  | nil =>
    intro list list2 codes _ _ _ _ _ _ _ h _
    rw [append_each] at h
    cases h
    simp
  | cons v vs ih =>
    intro list list2 codes hro hst hfz hal hcap hle hdbl h hall
    rw [append_each] at h
    simp only [bind, pure] at h
    rw [Option.bind_eq_some] at h
    obtain ⟨⟨r, l1⟩, h1, h⟩ := h
    simp only at h
    rw [Option.bind_eq_some] at h
    obtain ⟨⟨rs, l2⟩, h2, h⟩ := h
    simp only [Option.some.injEq, Prod.mk.injEq] at h
    obtain ⟨hc, hl⟩ := h
    subst hc hl
    have hr : r = 0 := hall r (List.mem_cons_self r rs)
    subst hr
    simp only [List.length_cons] at hdbl
    have hfull : list.size = list.capacity → list.capacity < 2147483648 := by
      intro hx
      have h0 := hdbl 0
      rw [pow_zero, Nat.mul_one] at h0
      exact h0 (by omega)
    obtain ⟨hlv, hsz, hal1, hle1, hc1, hf1, hr1, hs1, hcp⟩ :=
      append_zero_adds hro hst hfz hal hcap hle hfull h1
    have hnext : ∀ j : Nat, l1.capacity * 2 ^ j < l1.size + vs.length →
        l1.capacity * 2 ^ j < 2147483648 := by
      intro j hj
      rw [hsz] at hj
      by_cases hx : list.size = list.capacity
      · rw [hcp, if_pos hx] at hj ⊢
        have e : list.capacity * 2 * 2 ^ j = list.capacity * 2 ^ (j + 1) := by
          rw [pow_succ]
          ring
        rw [e] at hj ⊢
        exact hdbl (j + 1) (by omega)
      · rw [hcp, if_neg hx] at hj ⊢
        exact hdbl j (by omega)
    have := ih l1 l2 rs hr1 hs1 hf1 hal1 hc1 hle1 hnext h2
      (fun c hc => hall c (List.mem_cons_of_mem _ hc))
    rw [this, hlv, List.append_assoc]
    rfl

/-- The growth loop of the `append` / `insert` family ends: a frozen list keeps
its capacity, any other list gets a capacity above the total or `UINT_MAX`. -/
theorem grow_exists (frozen : Bool) (total c : Nat) (hc : 1 ≤ c) (hmax : c ≤ UINT_MAX) :
    ∃ c1, append_grow frozen total 33 c = some c1 ∧
      (frozen = true → c1 = c) ∧ (frozen = false → total < c1 ∨ c1 = UINT_MAX) := by
  unfold UINT_MAX at hmax
  cases frozen with
  | true =>
    refine ⟨c, ?_, fun _ => rfl, (fun h => by cases h)⟩
    rw [append_grow, if_neg (by simp)]
  | false =>
    have hp : (2 : Nat) ^ 33 = 8589934592 := by norm_num
    obtain ⟨c1, hrun, -⟩ := append_grow_exact total 33 c hc hmax (by rw [hp]; omega)
    exact ⟨c1, hrun, (fun h => by cases h),
      fun _ => (append_grow_spec false total 33 c c1 hrun).2 rfl⟩

/-- A block that holds `cnt` values of `a` from slot `base` on and the old
slots before reads, up to `base + cnt`, as the old first `base` slots followed
by these values. -/
theorem take_append_eq {d d1 a : List Int} {base cnt : Nat}
    (hb : base ≤ d.length)
    (hspec : ∀ j, d1[j]? = if base ≤ j ∧ j < base + cnt then a[0 + (j - base)]? else d[j]?) :
    d1.take (base + cnt) = d.take base ++ a.take cnt := by
  apply List.ext_getElem?
  intro j
  have hl0 : (d.take base).length = base := by rw [List.length_take]; omega
  rw [List.getElem?_take, List.getElem?_append, hl0]
  by_cases hj1 : j < base
  · rw [if_pos (by omega), if_pos hj1, hspec j, if_neg (by omega), List.getElem?_take,
      if_pos hj1]
  · rw [if_neg hj1, List.getElem?_take]
    by_cases hj2 : j < base + cnt
    · rw [if_pos hj2, if_pos (by omega), hspec j, if_pos ⟨by omega, hj2⟩, Nat.zero_add]
    · rw [if_neg hj2, if_neg (by omega)]

/-- The copy loop of `list_append_arr_int` on a list inside its block: the
values that fit below the capacity follow the live elements. -/
theorem append_copy_spec (l : list_int) (a : List Int) (n : Nat)
    (hlen : l.data.length = l.capacity) (hle : l.size ≤ l.capacity)
    (hr : l.size + n ≤ UINT_MAX) (ha : n ≤ a.length) :
    ∃ d1, append_copy l a n = some d1 ∧ d1.length = l.data.length ∧
      d1.take (l.size + min n (l.capacity - l.size)) =
        l.live ++ a.take (min n (l.capacity - l.size)) := by
  unfold UINT_MAX at hr
  obtain ⟨d1, hrun, hl1, hspec⟩ := @copy_loop_spec a
    (fun i d => (load a i).bind fun x => store d (u32 (i + l.size)) x)
    (min n (l.capacity - l.size)) 0 l.size 0 l.data (by omega) (by omega)
    (fun k d1 hk _ => by
      have e : u32 (0 + k + l.size) = l.size + k := by unfold u32; omega
      simp only [e])
  refine ⟨d1, ?_, hl1, take_append_eq (by omega) hspec⟩
  unfold append_copy
  simp only [bind]
  exact hrun

/-- `list_append_arr_int` on a writable list (allocated, `1 ≤ capacity`,
`size ≤ capacity`) with `n > 0` values and `size + n ≤ UINT_MAX`: the call
returns -2 with the list unchanged (growth refused) or 0; after 0 the live
sequence is the old one followed by the values, all of them for a list that is
not frozen and those that fit below the capacity for a frozen one. -/
theorem append_arr_result (m : Allocator) {list : list_int} {a : List Int} {n : Nat}
    (hro : list.readonly = false) (hst : list.static_ = false)
    (hal : list.allocated) (hcap : 1 ≤ list.capacity) (hle : list.size ≤ list.capacity)
    (hn : n ≠ 0) (ha : n ≤ a.length) (hfit : list.size + n ≤ UINT_MAX) :
    ∃ r list1, list_append_arr_int m list (some a) n = some (r, list1) ∧
      ((r = -2 ∧ list1 = list ∧ list.frozen = false) ∨
       (r = 0 ∧
        list1.size = list.size +
          (if list.frozen = true then min n (list.capacity - list.size) else n) ∧
        list1.live = list.live ++
          a.take (if list.frozen = true then min n (list.capacity - list.size) else n))) := by
  obtain ⟨⟨hr1, hr2⟩, hlen⟩ := hal
  have hro1 : ¬ list.readonly = true := by simp [hro]
  have hst1 : ¬ list.static_ = true := by simp [hst]
  obtain ⟨c1, hgrow, hfzc, hthc⟩ :=
    grow_exists list.frozen (u32 (list.size + n)) list.capacity hcap hr2
  unfold UINT_MAX at hr1 hr2 hfit hthc
  have hu : u32 (list.size + n) = list.size + n := by unfold u32; omega
  rw [hu] at hthc hgrow
  have hguard : ¬ usub UINT_MAX list.size < n := by unfold usub UINT_MAX; omega
  -- what the copy and the size update give on the list `l` left by the growth step
  have tail : ∀ l : list_int, l.size = list.size → l.frozen = list.frozen →
      l.data.length = l.capacity →
      (list.frozen = true → l.capacity = list.capacity) →
      (list.frozen = false → list.size + n ≤ l.capacity) →
      l.data.take list.size = list.data.take list.size →
      ∃ list1, (append_copy l a n).bind
          (fun d => some ((0 : Int), { l with data := d, size := bulk_size l n })) =
          some (0, list1) ∧
        list1.size = list.size +
          (if list.frozen = true then min n (list.capacity - list.size) else n) ∧
        list1.live = list.live ++
          a.take (if list.frozen = true then min n (list.capacity - list.size) else n) := by
    intro l hls hlf hll hlc hlroom hlt
    obtain ⟨d1, hrun, hl1, htake⟩ := append_copy_spec l a n hll (by
      cases hf : list.frozen
      · have := hlroom hf; omega
      · have := hlc hf; omega) (by unfold UINT_MAX; omega) ha
    have hcnt : min n (l.capacity - l.size) =
        (if list.frozen = true then min n (list.capacity - list.size) else n) := by
      cases hf : list.frozen
      · have := hlroom hf
        simp only [Bool.false_eq_true, if_false]
        omega
      · have := hlc hf
        simp only [if_true]
        rw [this, hls]
    have hbs : bulk_size l n = l.size + min n (l.capacity - l.size) := by
      unfold bulk_size
      have hu2 : u32 (l.size + n) = l.size + n := by unfold u32; omega
      rw [hu2]
      cases hf : list.frozen
      · have := hlroom hf
        have hlf' : ¬ (l.frozen = true ∧ l.size + n > l.capacity) := by
          rw [hlf, hf]; simp
        rw [if_neg hlf']
        unfold u32; omega
      · have := hlc hf
        by_cases hover : l.size + n > l.capacity
        · rw [if_pos ⟨by rw [hlf, hf], hover⟩]
          unfold u32 usub; omega
        · rw [if_neg (fun h => hover h.2)]
          unfold u32; omega
    rw [hrun]
    refine ⟨_, rfl, ?_, ?_⟩
    · show bulk_size l n = _
      rw [hbs, hls, ← hcnt, hls]
    · show d1.take (bulk_size l n) = _
      rw [hbs, htake, ← hcnt]
      show l.data.take l.size ++ _ = list.data.take list.size ++ _
      rw [hls, hlt]
  unfold list_append_arr_int
  simp only [bind, pure, Option.some_bind]
  rw [if_neg hguard, if_neg hro1, if_neg hst1, if_neg hn, hu, hgrow]
  simp only [Option.some_bind]
  by_cases hne : c1 ≠ list.capacity
  · rw [if_pos hne]
    have hfl : list.frozen = false := by
      cases hf : list.frozen
      · rfl
      · exact absurd (hfzc hf) hne
    have hroom := hthc hfl
    obtain ⟨state, l, hres⟩ := resize_returns m list c1
    rw [hres]
    simp only [Option.some_bind]
    rcases resize_cases hres with ⟨-, -, hx⟩ | ⟨hs, hl, -, -, -⟩ |
      ⟨hs, -, -, hc, hsz, hdl, hfz, -, -, hre⟩
    · rw [hro, hst] at hx
      simp at hx
    · subst hs
      rw [if_pos rfl]
      exact ⟨_, _, rfl, Or.inl ⟨rfl, hl, hfl⟩⟩
    · subst hs
      rw [if_neg (by decide)]
      obtain ⟨list1, hrun, h1, h2⟩ := tail l (by omega) hfz hdl
        (fun h => by rw [hfl] at h; cases h) (fun _ => by omega)
        (realloc_ints_take hre (by omega) (by omega))
      exact ⟨_, _, hrun, Or.inr ⟨rfl, h1, h2⟩⟩
  · rw [if_neg hne]
    have hceq : c1 = list.capacity := by
      by_contra hx
      exact hne hx
    obtain ⟨list1, hrun, h1, h2⟩ := tail list rfl rfl hlen (fun _ => rfl)
      (fun h => by have := hthc h; omega) rfl
    exact ⟨_, _, hrun, Or.inr ⟨rfl, h1, h2⟩⟩

/-- C37, amended: for every writable list, frozen or not (allocated,
`1 ≤ capacity`, `size ≤ capacity`), and every array of `n` values with
`size + n ≤ UINT_MAX`: when one `list_append_arr_int` returns 0, and the `n`
successive `list_append_int` calls with the values of the array all return 0
(and, for a list that is not frozen, none of these calls has to double a
capacity of `2^31` or more: every `capacity * 2^j` below `size + n` is below
`2^31`), both leave the same live sequence: `old ++ arr` when the list is not
frozen, and `old` followed by the first `min n (capacity - size)` values when
it is frozen. The two runs may use different allocators. -/
theorem append_arr_as_appends (m1 m2 : Allocator) (list : list_int) (a : List Int) (n : Nat)
    (hro : list.readonly = false) (hst : list.static_ = false)
    (hal : list.allocated) (hcap : 1 ≤ list.capacity) (hle : list.size ≤ list.capacity)
    (ha : a.length = n) (hfit : list.size + n ≤ UINT_MAX)
    (hdbl : list.frozen = false → ∀ j : Nat, list.capacity * 2 ^ j < list.size + n →
      list.capacity * 2 ^ j < 2147483648)
    (list1 : list_int) (h1 : list_append_arr_int m1 list (some a) n = some (0, list1))
    (codes : List Int) (list2 : list_int)
    (h2 : append_each m2 list a = some (codes, list2)) (hall : ∀ c ∈ codes, c = 0) :
    list1.live = list2.live ∧
    (list.frozen = false → list1.live = list.live ++ a) ∧
    (list.frozen = true →
      list1.live = list.live ++ a.take (min n (list.capacity - list.size))) := by
  have hone : list1.live = list.live ++
      a.take (if list.frozen = true then min n (list.capacity - list.size) else n) := by
    by_cases hn : n = 0
    · have hro1 : ¬ list.readonly = true := by simp [hro]
      have hst1 : ¬ list.static_ = true := by simp [hst]
      have e : list_append_arr_int m1 list (some a) n = some (0, list) := by
        unfold list_append_arr_int
        simp only [bind, pure, Option.some_bind]
        rw [if_neg (by rw [hn]; omega), if_neg hro1, if_neg hst1, if_pos hn]
      rw [e] at h1
      simp only [Option.some.injEq, Prod.mk.injEq, true_and] at h1
      subst h1
      have ha0 : a = [] := List.length_eq_zero.mp (by omega)
      rw [ha0]
      simp
    · obtain ⟨r, l, hrun, hc⟩ := append_arr_result m1 hro hst hal hcap hle hn
        (le_of_eq ha.symm) hfit
      rw [hrun] at h1
      simp only [Option.some.injEq, Prod.mk.injEq] at h1
      obtain ⟨hr, hl⟩ := h1
      subst hr hl
      rcases hc with ⟨hx, -⟩ | ⟨-, -, hlv⟩
      · cases hx
      · exact hlv
  have htwo : list2.live = list.live ++
      a.take (if list.frozen = true then min n (list.capacity - list.size) else n) := by
    cases hf : list.frozen
    · simp only [Bool.false_eq_true, if_false]
      rw [append_each_thawed m2 a list list2 codes hro hst hf hal hcap hle
        (by rw [ha]; exact hdbl hf) h2 hall, List.take_of_length_le (by omega)]
    · simp only [if_true]
      obtain ⟨l, hrun, -, -, hlv⟩ := append_each_frozen m2 a list hro hst hf hal hle
      rw [hrun] at h2
      simp only [Option.some.injEq, Prod.mk.injEq] at h2
      obtain ⟨-, hl⟩ := h2
      subst hl
      rw [hlv]
      congr 1
      by_cases hk : n ≤ list.capacity - list.size
      · rw [Nat.min_eq_left hk, List.take_of_length_le (by omega),
          List.take_of_length_le (by omega)]
      · rw [Nat.min_eq_right (by omega)]
  refine ⟨by rw [hone, htwo], fun hf => ?_, fun hf => ?_⟩
  · rw [hone, hf]
    simp only [Bool.false_eq_true, if_false]
    rw [List.take_of_length_le (by omega)]
  · rw [hone, hf]
    simp only [if_true]

/-- C37 at the header example: `[1, 2, 3, 4, 5]` of capacity 5 with the array
`[1, 2, 3]`, appended at once and value by value. -/
theorem append_arr_as_appends_witness :
    (⟨false, false, false, 8, 10, [1, 2, 3, 4, 5, 1, 2, 3, 0, 0]⟩ : list_int).live =
      (⟨false, false, false, 8, 10, [1, 2, 3, 4, 5, 1, 2, 3, 0, 0]⟩ : list_int).live ∧
    (false = false →
      (⟨false, false, false, 8, 10, [1, 2, 3, 4, 5, 1, 2, 3, 0, 0]⟩ : list_int).live =
        (⟨false, false, false, 5, 5, [1, 2, 3, 4, 5]⟩ : list_int).live ++ [1, 2, 3]) ∧
    (false = true →
      (⟨false, false, false, 8, 10, [1, 2, 3, 4, 5, 1, 2, 3, 0, 0]⟩ : list_int).live =
        (⟨false, false, false, 5, 5, [1, 2, 3, 4, 5]⟩ : list_int).live ++
          [1, 2, 3].take (min 3 (5 - 5))) :=
  append_arr_as_appends generous generous ⟨false, false, false, 5, 5, [1, 2, 3, 4, 5]⟩
    [1, 2, 3] 3 rfl rfl (by decide) (by decide) (by decide) rfl (by decide)
    (fun _ _ h => Nat.lt_trans h (by decide))
    ⟨false, false, false, 8, 10, [1, 2, 3, 4, 5, 1, 2, 3, 0, 0]⟩ (by decide)
    [0, 0, 0] ⟨false, false, false, 8, 10, [1, 2, 3, 4, 5, 1, 2, 3, 0, 0]⟩ (by decide)
    (by decide)

/-- C37 as stated fails at the list `[1]` of capacity 1 with the array `[2, 3]`
under an allocator that grants a block of 4 ints and refuses a block of 2:
`list_append_arr_int` returns 0 and leaves `[1, 2, 3]`, while both
`list_append_int` calls return -2 and leave `[1]`. -/
theorem append_arr_as_appends_counterexample :
    list_append_arr_int frugal ⟨false, false, false, 1, 1, [1]⟩ (some [2, 3]) 2
      = some (0, ⟨false, false, false, 3, 4, [1, 2, 3, 0]⟩) ∧
    append_each frugal ⟨false, false, false, 1, 1, [1]⟩ [2, 3]
      = some ([-2, -2], ⟨false, false, false, 1, 1, [1]⟩) ∧
    (⟨false, false, false, 3, 4, [1, 2, 3, 0]⟩ : list_int).live ≠
      (⟨false, false, false, 1, 1, [1]⟩ : list_int).live := by
  decide

/-! ## Inserting an array -/

/-- A downward loop whose round `lo + k` moves slot `lo + k` to slot
`lo + k + s`, run for `cnt` rounds inside the block: it ends, and the slots
from `lo` to `lo + cnt` stand `s` slots further right. -/
theorem shift_loop_spec {body : Nat → List Int → Option (List Int)} (s lo : Nat)
    (hs : 1 ≤ s) :
    ∀ (cnt : Nat) (d : List Int), lo + cnt + s ≤ d.length →
      (∀ k d1, k < cnt → d1.length = d.length →
        body (lo + k) d1 = (load d1 (lo + k)).bind (store d1 (lo + k + s))) →
      ∃ d1, loop_down body lo cnt d = some d1 ∧ d1.length = d.length ∧
        ∀ j, d1[j]? = if lo + s ≤ j ∧ j < lo + cnt + s then d[j - s]? else d[j]? := by
  intro cnt
  induction cnt with
  | zero =>
    intro d _ _
    refine ⟨d, by rw [loop_down], rfl, fun j => ?_⟩
    rw [if_neg (by omega)]
  | succ cnt ih =>
    intro d hd hb
    have h1 : lo + cnt < d.length := by omega
    have h2 : lo + cnt + s < d.length := by omega
    have hstep := hb cnt d (by omega) rfl
    rw [load_eq h1, Option.some_bind, store_eq _ h2] at hstep
    obtain ⟨d1, hrun, hl1, hspec⟩ := ih (d.set (lo + cnt + s) d[lo + cnt])
      (by rw [List.length_set]; omega)
      (fun k d1 hk hlen => hb k d1 (by omega) (by rw [hlen, List.length_set]))
    refine ⟨d1, ?_, by rw [hl1, List.length_set], fun j => ?_⟩
    · rw [loop_down, hstep, Option.some_bind]
      exact hrun
    · rw [hspec j]
      by_cases hj : lo + s ≤ j ∧ j < lo + cnt + s
      · rw [if_pos hj, if_pos (by omega), List.getElem?_set_ne (by omega)]
      · rw [if_neg hj]
        by_cases hjs : j = lo + cnt + s
        · subst hjs
          rw [if_pos (by omega), List.getElem?_set_self h2, Nat.add_sub_cancel,
            List.getElem?_eq_getElem h1]
        · rw [if_neg (by omega), List.getElem?_set_ne (by omega)]

/-- A downward loop whose rounds above `lo + k` change nothing and whose round
`lo + k` faults has no result. -/
theorem loop_down_fault {body : Nat → List Int → Option (List Int)} (lo k : Nat)
    (d : List Int) (hk : body (lo + k) d = none) :
    ∀ cnt, k < cnt → (∀ j, k < j → j < cnt → body (lo + j) d = some d) →
      loop_down body lo cnt d = none := by
  intro cnt
  induction cnt with
  | zero => intro h; omega
  | succ cnt ih =>
    intro hlt hskip
    rw [loop_down]
    by_cases hc : cnt = k
    · subst hc
      rw [hk]
      rfl
    · rw [hskip cnt (by omega) (by omega), Option.some_bind]
      exact ih (by omega) (fun j h1 h2 => hskip j h1 (by omega))

/-- A block whose slots from `index` to `size` were moved `n` slots to the
right and that then received `n` values at `index` reads, up to `size + n`, as
the old live sequence with the values put in at `index`. -/
theorem take_insert_arr_eq {d d1 d2 a : List Int} {index size n : Nat}
    (hidx : index ≤ size) (hsz : size ≤ d.length) (ha : a.length = n)
    (h1 : ∀ j, d1[j]? = if index + n ≤ j ∧ j < index + (size - index) + n
      then d[j - n]? else d[j]?)
    (h2 : ∀ j, d2[j]? = if index ≤ j ∧ j < index + n then a[0 + (j - index)]? else d1[j]?) :
    d2.take (size + n) = (d.take size).take index ++ a ++ (d.take size).drop index := by
  apply List.ext_getElem?
  intro j
  have hl0 : ((d.take size).take index).length = index := by
    simp only [List.length_take]; omega
  have hl : ((d.take size).take index ++ a).length = index + n := by
    rw [List.length_append, hl0, ha]
  rw [List.getElem?_append, hl, List.getElem?_take, h2 j]
  by_cases hj1 : j < index
  · rw [if_pos (by omega), if_neg (by omega), h1 j, if_neg (by omega), if_pos (by omega),
      List.getElem?_append, hl0, if_pos hj1, List.getElem?_take, if_pos hj1,
      List.getElem?_take, if_pos (by omega)]
  · by_cases hj2 : j < index + n
    · rw [if_pos (by omega), if_pos ⟨by omega, hj2⟩, if_pos hj2, List.getElem?_append, hl0,
        if_neg hj1, Nat.zero_add]
    · rw [if_neg hj2, List.getElem?_drop, List.getElem?_take]
      by_cases hj3 : j < size + n
      · rw [if_pos hj3, if_neg (by omega), h1 j, if_pos (by omega),
          if_pos (show index + (j - (index + n)) < size by omega)]
        congr 1
        omega
      · rw [if_neg hj3, if_neg (by omega)]

/-- The shifting loop of `list_insert_arr_int` on a non-empty list with room for
`n ≥ 1` more values: the slots from `index` to the size move `n` slots to the
right. -/
theorem bulk_shift_spec (l : list_int) (n index : Nat) (hn : 1 ≤ n)
    (hsz : 1 ≤ l.size) (hr : l.size ≤ UINT_MAX) (hidx : index ≤ l.size)
    (hlen : l.data.length = l.capacity) (hroom : l.size + n ≤ l.capacity) :
    ∃ d1, bulk_shift l n index = some d1 ∧ d1.length = l.data.length ∧
      ∀ j, d1[j]? = if index + n ≤ j ∧ j < index + (l.size - index) + n
        then l.data[j - n]? else l.data[j]? := by
  unfold UINT_MAX at hr
  have hu : usub l.size 1 + 1 - index = l.size - index := by unfold usub; omega
  obtain ⟨d1, hrun, hl1, hspec⟩ := @shift_loop_spec
    (fun i d => if i + n > l.capacity then some d
      else (load d i).bind fun x => store d (i + n) x)
    n index hn (l.size - index) l.data (by omega)
    (fun k d1 hk _ => by
      simp only
      rw [if_neg (by omega)])
  refine ⟨d1, ?_, hl1, hspec⟩
  unfold bulk_shift
  simp only [bind, pure]
  rw [hu]
  exact hrun

/-- The copy loop of `list_insert_arr_int` with room for the `n` values: they
are stored from `index` on. -/
theorem insert_copy_spec (l : list_int) (a d : List Int) (n index : Nat)
    (hd : index + n ≤ d.length) (hcap : index + n ≤ l.capacity)
    (hr : index + n ≤ UINT_MAX) (ha : n ≤ a.length) :
    ∃ d1, loop_up (fun i d => if u32 (i + index) > l.capacity then some d
        else (load a i).bind fun x => store d (u32 (index + i)) x) 0 n d = some d1 ∧
      d1.length = d.length ∧
      ∀ j, d1[j]? = if index ≤ j ∧ j < index + n then a[0 + (j - index)]? else d[j]? := by
  unfold UINT_MAX at hr
  exact copy_loop_spec a n 0 index 0 d hd (by omega)
    (fun k d1 hk _ => by
      have e1 : u32 (0 + k + index) = k + index := by unfold u32; omega
      have e2 : u32 (index + (0 + k)) = index + k := by unfold u32; omega
      simp only [e1, e2]
      rw [if_neg (by omega)])

/-- The shifting loop of `list_insert_arr_int` on an empty list whose block has
room for the `n` values: `list->size - 1` wraps to `UINT_MAX`, the rounds with
`i + n > capacity` are skipped, and the round `i = capacity - n` stores at
`data[capacity]`, outside the block. -/
theorem bulk_shift_empty (l : list_int) (n : Nat) (h0 : l.size = 0)
    (hlen : l.data.length = l.capacity) (hcap : l.capacity ≤ UINT_MAX)
    (hroom : n ≤ l.capacity) (hn : 1 ≤ n) :
    bulk_shift l n 0 = none := by
  unfold UINT_MAX at hcap
  have hu : usub l.size 1 + 1 - 0 = 4294967296 := by rw [h0]; decide
  unfold bulk_shift
  simp only [bind, pure]
  rw [hu]
  apply loop_down_fault 0 (l.capacity - n) l.data
  · rw [if_neg (by omega), load_eq (by omega), Option.some_bind]
    unfold store
    rw [if_neg (by omega)]
  · omega
  · intro j h1 h2
    rw [if_pos (by omega)]

/-- The capacity chosen by the growth loop of the `append` / `insert` family is
an `unsigned int`. -/
theorem append_grow_le (frozen : Bool) (total : Nat) :
    ∀ (fuel c c1 : Nat), c ≤ UINT_MAX → append_grow frozen total fuel c = some c1 →
      c1 ≤ UINT_MAX := by
  intro fuel
  induction fuel with
  | zero =>
    intro c c1 hc h
    rw [append_grow] at h
    split_ifs at h
    cases h
    exact hc
  | succ fuel ih =>
    intro c c1 hc h
    rw [append_grow] at h
    split_ifs at h
    · cases h
      exact le_refl _
    · exact ih _ _ (by unfold u32 UINT_MAX; omega) h
    · cases h
      exact hc

/-- `list_insert_arr_int` on a writable list that is not frozen (allocated,
`1 ≤ capacity`, `size ≤ capacity`) with `index ≤ size`, `n > 0` values and
`size + n < UINT_MAX`: the call returns -2 with the list unchanged when a
needed growth is refused; otherwise a non-empty list gets the values put in at
`index` with code 0, and on an empty list the shifting loop stores outside the
block and the call has no result. -/
theorem insert_arr_result (m : Allocator) {list : list_int} {a : List Int} {n index : Nat}
    (hro : list.readonly = false) (hst : list.static_ = false)
    (hfz : list.frozen = false)
    (hal : list.allocated) (hcap : 1 ≤ list.capacity) (hle : list.size ≤ list.capacity)
    (hidx : index ≤ list.size) (hn : n ≠ 0) (ha : a.length = n)
    (hfit : list.size + n < UINT_MAX) :
    (list.capacity ≤ list.size + n ∧
      list_insert_arr_int m list (some a) n index = some (-2, list)) ∨
    (list.size ≠ 0 ∧ ∃ list1, list_insert_arr_int m list (some a) n index = some (0, list1) ∧
      list1.size = list.size + n ∧
      list1.live = list.live.take index ++ a ++ list.live.drop index) ∨
    (list.size = 0 ∧ list_insert_arr_int m list (some a) n index = none) := by
  obtain ⟨⟨hr1, hr2⟩, hlen⟩ := hal
  have hro1 : ¬ list.readonly = true := by simp [hro]
  have hst1 : ¬ list.static_ = true := by simp [hst]
  obtain ⟨c1, hgrow, -, hthc⟩ :=
    grow_exists list.frozen (u32 (list.size + n)) list.capacity hcap hr2
  unfold UINT_MAX at hr1 hr2 hfit hthc
  have hu : u32 (list.size + n) = list.size + n := by unfold u32; omega
  rw [hu] at hthc hgrow
  have hroom := hthc hfz
  have hc1le := append_grow_le list.frozen (list.size + n) 33 list.capacity c1
    (by unfold UINT_MAX; omega) hgrow
  unfold UINT_MAX at hc1le
  have hguard : ¬ usub UINT_MAX list.size ≤ n := by unfold usub UINT_MAX; omega
  -- the shift, the copy and the size update on the list `l` left by the growth step
  have tail : ∀ l : list_int, l.size = list.size → l.frozen = false →
      l.data.length = l.capacity → list.size + n < l.capacity → l.capacity ≤ 4294967295 →
      l.data.take list.size = list.data.take list.size →
      (list.size ≠ 0 ∧ ∃ list1, ((bulk_shift l n index).bind fun d =>
          (loop_up (fun i d => if u32 (i + index) > l.capacity then some d
            else (load a i).bind fun x => store d (u32 (index + i)) x) 0 n d).bind fun d =>
            some ((0 : Int), { l with data := d, size := bulk_size l n })) = some (0, list1) ∧
        list1.size = list.size + n ∧
        list1.live = list.live.take index ++ a ++ list.live.drop index) ∨
      (list.size = 0 ∧ ((bulk_shift l n index).bind fun d =>
          (loop_up (fun i d => if u32 (i + index) > l.capacity then some d
            else (load a i).bind fun x => store d (u32 (index + i)) x) 0 n d).bind fun d =>
            some ((0 : Int), { l with data := d, size := bulk_size l n })) = none) := by
    intro l hls hlf hll hlroom hlcap hlt
    by_cases h0 : list.size = 0
    · right
      have hi0 : index = 0 := by omega
      rw [hi0, bulk_shift_empty l n (by omega) hll (by unfold UINT_MAX; omega) (by omega)
        (by omega)]
      exact ⟨h0, rfl⟩
    · left
      obtain ⟨d1, hrun1, hl1, hspec1⟩ := bulk_shift_spec l n index (by omega) (by omega)
        (by unfold UINT_MAX; omega) (by omega) hll (by omega)
      obtain ⟨d2, hrun2, hl2, hspec2⟩ := insert_copy_spec l a d1 n index (by omega) (by omega)
        (by unfold UINT_MAX; omega) (le_of_eq ha.symm)
      have hbs : bulk_size l n = list.size + n := by
        unfold bulk_size
        rw [if_neg (by rw [hlf]; simp), hls]
        unfold u32; omega
      rw [hrun1, Option.some_bind, hrun2, Option.some_bind]
      refine ⟨h0, _, rfl, hbs, ?_⟩
      show d2.take (bulk_size l n) = _
      rw [hbs]
      have hspec1' : ∀ j, d1[j]? = if index + n ≤ j ∧ j < index + (list.size - index) + n
          then l.data[j - n]? else l.data[j]? := by
        intro j
        rw [hspec1 j, hls]
      have key := take_insert_arr_eq (d := l.data) hidx (by omega) ha hspec1' hspec2
      rw [key, hlt]
      rfl
  unfold list_insert_arr_int
  simp only [bind, pure, Option.some_bind]
  rw [if_neg (by omega), if_neg hguard, if_neg hro1, if_neg hst1, if_neg hn, hu, hgrow]
  simp only [Option.some_bind]
  by_cases hne : c1 ≠ list.capacity
  · rw [if_pos hne]
    obtain ⟨state, l, hres⟩ := resize_returns m list c1
    rw [hres]
    simp only [Option.some_bind]
    rcases resize_cases hres with ⟨-, -, hx⟩ | ⟨hs, hl, -, -, -⟩ |
      ⟨hs, -, -, hc, hsz, hdl, hfz1, -, -, hre⟩
    · rw [hro, hst] at hx
      simp at hx
    · subst hs
      rw [if_pos rfl, hl]
      refine Or.inl ⟨?_, rfl⟩
      by_contra hlt
      have e : append_grow list.frozen (list.size + n) 33 list.capacity = some list.capacity := by
        rw [append_grow, if_neg (fun h => hlt (by omega))]
      rw [e] at hgrow
      cases hgrow
      exact hne rfl
    · subst hs
      rw [if_neg (by decide)]
      exact Or.inr (tail l (by omega) (by rw [hfz1, hfz]) hdl (by omega) (by omega)
        (realloc_ints_take hre (by omega) (by omega)))
  · rw [if_neg hne]
    have hceq : c1 = list.capacity := by
      by_contra hx
      exact hne hx
    exact Or.inr (tail list rfl hfz hlen (by omega) hr2 rfl)

/-- `list_insert_arr_int` when its guard `UINT_MAX - size <= n` triggers: -2 and
no change. -/
theorem insert_arr_guard (m : Allocator) {list : list_int} (a : List Int) {n index : Nat}
    (hidx : index ≤ list.size) (hg : usub UINT_MAX list.size ≤ n) :
    list_insert_arr_int m list (some a) n index = some (-2, list) := by
  unfold list_insert_arr_int
  simp only [bind, pure, Option.some_bind]
  rw [if_neg (by omega), if_pos hg]

/-- C36 fails on the code for the empty list. For every writable list that is
not frozen (allocated, `1 ≤ capacity`, `size ≤ capacity`), every `index ≤ size`
and every array of `n > 0` values: a call of `list_insert_arr_int` that returns
0 leaves the live sequence `old[0..index) ++ arr ++ old[index..size)` and the
size `size + n`; on a non-empty list the call returns 0 or -2; on an empty list
no call returns 0: `list->size - 1` wraps to `UINT_MAX`, the shifting loop runs
over `2^32` values of `i` and stores at `data[capacity]`, so the call has no
result (always so when the `n` values fit without growth), unless it returned
-2 before. -/
theorem insert_arr_int_inserts (m : Allocator) (list : list_int) (a : List Int)
    (n index : Nat)
    (hro : list.readonly = false) (hst : list.static_ = false)
    (hfz : list.frozen = false)
    (hal : list.allocated) (hcap : 1 ≤ list.capacity) (hle : list.size ≤ list.capacity)
    (hidx : index ≤ list.size) (hn : n ≠ 0) (ha : a.length = n) :
    (∀ list1, list_insert_arr_int m list (some a) n index = some (0, list1) →
      list1.live = list.live.take index ++ a ++ list.live.drop index ∧
      list1.size = list.size + n) ∧
    (list.size ≠ 0 →
      ∃ r list1, list_insert_arr_int m list (some a) n index = some (r, list1) ∧
        (r = 0 ∨ r = -2)) ∧
    (list.size = 0 →
      list_insert_arr_int m list (some a) n index = none ∨
      list_insert_arr_int m list (some a) n index = some (-2, list)) ∧
    (list.size = 0 → n < list.capacity →
      list_insert_arr_int m list (some a) n index = none) := by
  have hnone : ∀ list1 : list_int, (some ((-2 : Int), list) = some (0, list1)) →
      list1.live = list.live.take index ++ a ++ list.live.drop index ∧
      list1.size = list.size + n := by
    intro list1 h
    cases h
  have hr2 := hal.1.2
  have hr1 := hal.1.1
  by_cases hg : usub UINT_MAX list.size ≤ n
  · have e := insert_arr_guard m a hidx hg
    rw [e]
    refine ⟨hnone, fun _ => ⟨_, _, rfl, Or.inr rfl⟩, fun _ => Or.inr rfl, fun h0 hlt => ?_⟩
    exfalso
    unfold usub UINT_MAX at hg
    unfold UINT_MAX at hr2
    omega
  · have hfit : list.size + n < UINT_MAX := by
      unfold usub at hg
      unfold UINT_MAX at hg hr1 ⊢
      omega
    rcases insert_arr_result m hro hst hfz hal hcap hle hidx hn ha hfit with
      ⟨hc, h⟩ | ⟨h0, list1, h, hs, hl⟩ | ⟨h0, h⟩
    · rw [h]
      refine ⟨hnone, fun _ => ⟨_, _, rfl, Or.inr rfl⟩, fun _ => Or.inr rfl, fun _ hlt => ?_⟩
      omega
    · rw [h]
      refine ⟨fun l hl1 => ?_, fun _ => ⟨_, _, rfl, Or.inl rfl⟩, fun h => absurd h h0,
        fun h => absurd h h0⟩
      simp only [Option.some.injEq, Prod.mk.injEq, true_and] at hl1
      subst hl1
      exact ⟨hl, hs⟩
    · rw [h]
      refine ⟨fun list1 h => ?_, fun h => absurd h0 h, fun _ => Or.inl rfl, fun _ _ => rfl⟩
      cases h

/-- C36 at an empty list of capacity 4 with the array `[1, 2, 3]` inserted at
index 0: the call has no result. -/
theorem insert_arr_int_inserts_witness :
    list_insert_arr_int generous ⟨false, false, false, 0, 4, [0, 0, 0, 0]⟩ (some [1, 2, 3]) 3 0
      = none :=
  (insert_arr_int_inserts generous ⟨false, false, false, 0, 4, [0, 0, 0, 0]⟩ [1, 2, 3] 3 0
    rfl rfl rfl (by decide) (by decide) (by decide) (by decide) (by decide) rfl).2.2.2
    rfl (by decide)

/-- The header example of `list_insert_arr_int`: `{1, 2, 3, 4, 5}` with
`{1, 2, 3}` inserted at index 2 becomes `{1, 2, 1, 2, 3, 3, 4, 5}`. -/
theorem insert_arr_example :
    list_insert_arr_int generous ⟨false, false, false, 5, 5, [1, 2, 3, 4, 5]⟩
      (some [1, 2, 3]) 3 2
      = some (0, ⟨false, false, false, 8, 10, [1, 2, 1, 2, 3, 3, 4, 5, 0, 0]⟩) := by
  decide

end CLists
